import Mathlib

/-!
# razor: string interning, importer and finalizer

A shallow embedding of `razor.c`.  C strings are lists of non-zero bytes
(`List Nat`, without the terminating NUL); a `struct array` of bytes or of
`unsigned long` words is a `List Nat`; pointers into an array are indices.
`unsigned long` is 8 bytes wide (LP64) and `unsigned int` is 32 bits wide.
-/

namespace Razor

/-! ## Constants -/

/-- The value of `sizeof(unsigned long)`. -/
def sizeof_ulong : Nat := 8

/-- The value of `~0` converted to `unsigned long`. -/
def ULONG_ALL_ONES : Nat := 2 ^ 64 - 1

/-- Modulus of `unsigned int` arithmetic. -/
def UINT_MOD : Nat := 2 ^ 32

def RAZOR_ENTRY_LAST : Nat := 0x80000000
def RAZOR_IMMEDIATE : Nat := 0x80000000
def RAZOR_ENTRY_MASK : Nat := 0x00ffffff

/-! ## Growable buffer -/

/-- The loop `while (alloc < array->size + size) alloc *= 2;` of `array_add`
over the natural numbers; `need` is `array->size + size`.  It gives the value
of the `int` loop `array_add_loop` whenever `need` is at most 2^30, where no
product leaves the range of `int`. -/
def array_add_grow : Nat → Nat → Nat → Nat
  | 0, alloc, _ => alloc
  | fuel + 1, alloc, need =>
    if alloc < need then array_add_grow fuel (alloc * 2) need else alloc

/-- The capacity `array->alloc` after `array_add(array, n)` on an array with
capacity `alloc` and size `size`, for `size + n` at most 2^30. -/
def array_add_alloc (alloc size n : Nat) : Nat :=
  let a := if alloc > 0 then alloc else 16
  let a := array_add_grow (size + n) a (size + n)
  if alloc < a then a else alloc

/-! ## C strings -/

/-- The C string that starts at byte offset `off` of `pool`: the bytes up to
(excluding) the next NUL. -/
def cstr_at (pool : List Nat) (off : Nat) : List Nat :=
  (pool.drop off).takeWhile (fun c => c != 0)

/-- A `char` converted to `unsigned int` (`char` is signed). -/
def char_to_uint (c : Nat) : Nat :=
  if c < 128 then c else c + 0xffffff00

/-- Model of `hash_string`: `hash = (hash * 617) ^ *p` over `unsigned int`. -/
def hash_string (key : List Nat) : Nat :=
  key.foldl (fun hash c => ((hash * 617) % UINT_MOD) ^^^ char_to_uint c) 0

/-! ## Hash table -/

/-- Model of `struct hashtable`.  `buckets` is `buckets.data` read as
`unsigned long[buckets.alloc / sizeof(unsigned long)]`, `size` and `alloc`
are `buckets.size` and `buckets.alloc` in bytes, and `pool` holds the bytes
of the string pool that `table->pool` points to. -/
structure hashtable where
  buckets : List Nat
  size : Nat
  alloc : Nat
  pool : List Nat
deriving DecidableEq, Repr

/-- Model of `hashtable_init` over the pool `pool`. -/
def hashtable_init (pool : List Nat) : hashtable :=
  { buckets := [], size := 0, alloc := 0, pool := pool }

/-- The index of the bucket that the probe at byte step `i` reads:
`table->buckets.data + ((start + i) & mask)`. -/
def bucket_index (alloc start i : Nat) : Nat :=
  (((start + i) % UINT_MOD) &&& ((alloc + UINT_MOD - 1) % UINT_MOD)) / sizeof_ulong

/-- The probe loop of `hashtable_lookup`, from byte step `i`. -/
def hashtable_lookup_loop (table : hashtable) (key : List Nat) (start : Nat) :
    Nat → Nat → Nat
  | 0, _ => 0
  | fuel + 1, i =>
    if i < table.alloc then
      let b := table.buckets.getD (bucket_index table.alloc start i) 0
      if b = 0 then 0
      else if key = cstr_at table.pool b then b
      else hashtable_lookup_loop table key start fuel (i + sizeof_ulong)
    else 0

/-- Model of `hashtable_lookup`. -/
def hashtable_lookup (table : hashtable) (key : List Nat) : Nat :=
  let start := (hash_string key * sizeof_ulong) % UINT_MOD
  hashtable_lookup_loop table key start table.alloc 0

/-- Model of `add_to_string_pool`: appends `key` and its NUL, returns the
offset of the copy. -/
def add_to_string_pool (table : hashtable) (key : List Nat) : hashtable × Nat :=
  ({ table with pool := table.pool ++ key ++ [0] }, table.pool.length)

/-- The probe loop of `do_insert`, from byte step `i`. -/
def do_insert_loop (table : hashtable) (value start : Nat) : Nat → Nat → hashtable
  | 0, _ => table
  | fuel + 1, i =>
    if i < table.alloc then
      let k := bucket_index table.alloc start i
      if table.buckets.getD k 0 = 0 then
        { table with buckets := table.buckets.set k value }
      else do_insert_loop table value start fuel (i + sizeof_ulong)
    else table

/-- Model of `do_insert`. -/
def do_insert (table : hashtable) (value : Nat) : hashtable :=
  let key := cstr_at table.pool value
  let start := (hash_string key * sizeof_ulong) % UINT_MOD
  do_insert_loop table value start table.alloc 0

/-- The rehash loop of `hashtable_insert`: `for (b = data; b < end; b++)`,
from bucket index `b`, where `end_` is the bucket index of `end`. -/
def hashtable_rehash_loop (end_ : Nat) : Nat → hashtable → Nat → hashtable
  | 0, table, _ => table
  | fuel + 1, table, b =>
    if b < end_ then
      let value := table.buckets.getD b 0
      let table :=
        if value != 0 then
          do_insert { table with buckets := table.buckets.set b 0 } value
        else table
      hashtable_rehash_loop end_ fuel table (b + 1)
    else table

/-- Model of `hashtable_insert`. -/
def hashtable_insert (table : hashtable) (key : List Nat) : hashtable × Nat :=
  let alloc := table.alloc
  let size := table.size + 4 * sizeof_ulong
  let alloc' := array_add_alloc table.alloc table.size (4 * sizeof_ulong)
  let table := { table with size := size, alloc := alloc' }
  let table :=
    if alloc != table.alloc then
      let table := { table with
        buckets := table.buckets ++ List.replicate ((table.alloc - alloc) / sizeof_ulong) 0 }
      hashtable_rehash_loop (alloc / sizeof_ulong) (alloc / sizeof_ulong) table 0
    else table
  let (table, value) := add_to_string_pool table key
  (do_insert table value, value)

/-- Model of `hashtable_tokenize`; `none` is the `NULL` string. -/
def hashtable_tokenize (table : hashtable) (string : Option (List Nat)) : hashtable × Nat :=
  let string := match string with
    | none => []
    | some s => s
  let token := hashtable_lookup table string
  if token != 0 then (table, token)
  else hashtable_insert table string

/-- The offsets returned by a sequence of `hashtable_tokenize` calls, with
the final table. -/
def tokenize_all : hashtable → List (List Nat) → hashtable × List Nat
  | table, [] => (table, [])
  | table, s :: rest =>
    let (table, token) := hashtable_tokenize table (some s)
    let (table, tokens) := tokenize_all table rest
    (table, token :: tokens)

/-! ## String comparison -/

/-- Conversion of a `long` (or of a wrapped `unsigned long` difference) to
`int`: the low 32 bits, read as a signed number. -/
def to_int (n : Int) : Int :=
  (n + 2 ^ 31) % 2 ^ 32 - 2 ^ 31

/-- A `char` promoted to `int` (`char` is signed). -/
def char_to_int (c : Nat) : Int :=
  if c < 128 then (c : Int) else (c : Int) - 256

/-- The byte `*p` at the head of a C string; the empty list is at its NUL. -/
def deref (p : List Nat) : Nat :=
  p.headD 0

/-- Model of `strcmp`: the difference of the first bytes that differ, as
`unsigned char`; callers use the sign only. -/
def strcmp : List Nat → List Nat → Int
  | [], [] => 0
  | [], c :: _ => -(c : Int)
  | c :: _, [] => (c : Int)
  | a :: s1, b :: s2 => if a = b then strcmp s1 s2 else (a : Int) - (b : Int)

def isspace (c : Nat) : Bool :=
  c == 32 || (9 ≤ c && c ≤ 13)

def isdigit (c : Nat) : Bool :=
  48 ≤ c && c ≤ 57

/-- The value of `c` as a digit of `strtol` (letters count from ten), or 255
when `c` is not alphanumeric. -/
def digit_value (c : Nat) : Nat :=
  if 48 ≤ c ∧ c ≤ 57 then c - 48
  else if 97 ≤ c ∧ c ≤ 122 then c - 97 + 10
  else if 65 ≤ c ∧ c ≤ 90 then c - 65 + 10
  else 255

/-- The digits of `strtol` in base `base`: the accumulated magnitude, the
number of digits read and the rest of the string. -/
def strtol_digits (base : Nat) : List Nat → Nat → Nat → Nat × Nat × List Nat
  | [], acc, k => (acc, k, [])
  | c :: s, acc, k =>
    if digit_value c < base then strtol_digits base s (acc * base + digit_value c) (k + 1)
    else (acc, k, c :: s)

def LONG_MAX : Int := 2 ^ 63 - 1
def LONG_MIN : Int := -(2 ^ 63)

/-- Model of `strtol(s, &p, 0)`: the value and the end pointer `p`.  Base 0
reads a `0x` prefix as hexadecimal and a leading `0` as octal; without any
digit the value is 0 and `p` is `s`; out-of-range values are clamped. -/
def strtol (s : List Nat) : Int × List Nat :=
  let t := s.dropWhile isspace
  let (neg, t) := match t with
    | 45 :: r => (true, r)
    | 43 :: r => (false, r)
    | _ => (false, t)
  let (base, t) := match t with
    | 48 :: x :: h :: r =>
      if (x = 120 ∨ x = 88) ∧ digit_value h < 16 then (16, h :: r) else (8, t)
    | 48 :: _ => (8, t)
    | _ => (10, t)
  let (mag, k, rest) := strtol_digits base t 0 0
  if k = 0 then (0, s)
  else if neg then (if (mag : Int) > 2 ^ 63 then LONG_MIN else -(mag : Int), rest)
  else (if (mag : Int) > LONG_MAX then LONG_MAX else (mag : Int), rest)

/-- The loop `while (*p1 && *p2)` of `versioncmp` and the final
`return *p1 - *p2`; `again` is the recursive call `versioncmp(p1, p2)`. -/
def versioncmp_loop (again : List Nat → List Nat → Int) : List Nat → List Nat → Int
  | c1 :: p1, c2 :: p2 =>
    if c1 ≠ c2 then char_to_int c1 - char_to_int c2
    else if isdigit (deref p1) && isdigit (deref p2) then again p1 p2
    else versioncmp_loop again p1 p2
  | p1, p2 => char_to_int (deref p1) - char_to_int (deref p2)

/-- Model of `versioncmp`, with `fuel` bounding the depth of the recursion. -/
def versioncmp_fuel : Nat → List Nat → List Nat → Int
  | 0, _, _ => 0
  | fuel + 1, s1, s2 =>
    let (n1, p1) := strtol s1
    let (n2, p2) := strtol s2
    let res : Int := (if deref p1 = 58 then 1 else 0) - (if deref p2 = 58 then 1 else 0)
    let (n1, p1, n2, p2) :=
      if res < 0 then ((0 : Int), s1, n2, p2.tail)
      else if res > 0 then (n1, p1.tail, (0 : Int), s2)
      else (n1, p1, n2, p2)
    if n1 ≠ n2 then to_int (n1 - n2)
    else versioncmp_loop (versioncmp_fuel fuel) p1 p2

/-- Model of `versioncmp`: every recursive call is on a proper suffix of
`s1`, so `s1.length + 1` levels suffice. -/
def versioncmp (s1 s2 : List Nat) : Int :=
  versioncmp_fuel (s1.length + 1) s1 s2

/-! ## Records and the set -/

/-- Model of `struct razor_package`. -/
structure razor_package where
  name : Nat
  version : Nat
  properties : Nat
  files : Nat
deriving DecidableEq, Repr

/-- Model of `struct razor_property`. -/
structure razor_property where
  name : Nat
  version : Nat
  packages : Nat
deriving DecidableEq, Repr

/-- Model of `struct razor_entry`. -/
structure razor_entry where
  name : Nat
  start : Nat
  packages : Nat
deriving DecidableEq, Repr

/-- Model of `struct razor_set`: each section holds its bytes, words or
records, its `size` being the length of the list. -/
structure razor_set where
  string_pool : List Nat
  packages : List razor_package
  properties : List razor_property
  files : List razor_entry
  package_pool : List Nat
  property_pool : List Nat
  file_pool : List Nat
deriving DecidableEq, Repr

/-- Model of `struct import_entry`. -/
structure import_entry where
  package : Nat
  name : List Nat
deriving DecidableEq, Repr

/-- Model of `struct razor_importer`.  `table.pool` is the array that
`set->string_pool` is, kept equal to `set.string_pool`; `package` is the
index in `set.packages` of the record `importer->package` points to, `none`
for `NULL`. -/
structure razor_importer where
  set : razor_set
  table : hashtable
  package : Option Nat
  properties : List Nat
  files : List import_entry
deriving DecidableEq, Repr

/-- Model of `razor_set_create`: every section empty. -/
def razor_set_create : razor_set :=
  { string_pool := [], packages := [], properties := [], files := [],
    package_pool := [], property_pool := [], file_pool := [] }

/-- Model of `razor_importer_new`. -/
def razor_importer_new : razor_importer :=
  { set := razor_set_create, table := hashtable_init razor_set_create.string_pool,
    package := none, properties := [], files := [] }

/-- Model of `add_to_property_pool(pool, properties)`: the pool afterwards
and the returned reference. -/
def add_to_property_pool (pool : List Nat) (properties : List Nat) : List Nat × Nat :=
  if properties.length = 0 then (pool, ULONG_ALL_ONES)
  else if properties.length = 1 then (pool, properties.headD 0 ||| RAZOR_IMMEDIATE)
  else
    (pool ++ properties.dropLast ++ [properties.getLastD 0 ||| RAZOR_IMMEDIATE], pool.length)

/-- Model of `razor_importer_tokenize`. -/
def razor_importer_tokenize (importer : razor_importer) (string : Option (List Nat)) :
    razor_importer × Nat :=
  let (table, token) := hashtable_tokenize importer.table string
  ({ importer with table := table, set := { importer.set with string_pool := table.pool } },
    token)

/-- Model of `razor_importer_begin_package`.  The fields `properties` and
`files` of the new record are not written by the C code; they are 0 here. -/
def razor_importer_begin_package (importer : razor_importer) (name version : List Nat) :
    razor_importer :=
  let p := importer.set.packages.length
  let (importer, n) := razor_importer_tokenize importer (some name)
  let (importer, v) := razor_importer_tokenize importer (some version)
  { importer with
    set := { importer.set with
      packages := importer.set.packages ++ [{ name := n, version := v, properties := 0, files := 0 }] },
    package := some p,
    properties := [] }

/-- Model of `razor_importer_finish_package`; `none` when `importer->package`
is `NULL`.  `array_release` frees the scratch list without resetting its
size, so `properties` is left as it is until the next `begin_package`. -/
def razor_importer_finish_package (importer : razor_importer) : Option razor_importer :=
  match importer.package with
  | none => none
  | some p =>
    match importer.set.packages[p]? with
    | none => none
    | some pkg =>
      let (pool, r) := add_to_property_pool importer.set.property_pool importer.properties
      some { importer with
        set := { importer.set with
          property_pool := pool,
          packages := importer.set.packages.set p { pkg with properties := r } } }

/-- Model of `razor_importer_add_property`; `type` is the value of the
`enum razor_property_type` (0 requires, 1 provides, 2 conflicts, 3
obsoletes).  Without a current package the pointer difference
`importer->package - packages.data` is `NULL - NULL`, which is 0. -/
def razor_importer_add_property (importer : razor_importer) (name version : List Nat)
    (type : Nat) : razor_importer :=
  let p := importer.set.properties.length
  let (importer, n) := razor_importer_tokenize importer (some name)
  let (importer, v) := razor_importer_tokenize importer (some version)
  let prop : razor_property :=
    { name := n ||| (type <<< 30), version := v, packages := importer.package.getD 0 }
  { importer with
    set := { importer.set with properties := importer.set.properties ++ [prop] },
    properties := importer.properties ++ [p] }

/-- Model of `razor_importer_add_file`. -/
def razor_importer_add_file (importer : razor_importer) (name : List Nat) : razor_importer :=
  { importer with
    files := importer.files ++ [{ package := importer.package.getD 0, name := name }] }

/-! ## Sorting with a permutation map -/

/-- Exchange of the elements at `i` and `j` (`qsort_swap`, and the exchange
of two map words). -/
def qsort_swap {α : Type} (l : List α) (i j : Nat) : List α :=
  match l[i]?, l[j]? with
  | some a, some b => (l.set i b).set j a
  | _, _ => l

/-- State of a sort: the array being sorted, the map, and the number of
calls of `random()` made so far. -/
structure qsort_state (α : Type) where
  base : List α
  map : List Nat
  calls : Nat

/-- The partition loop `while (p < end)` of `__qsort_with_data`.  Positions
are indices into the whole array; the map pointers `mp`, `mstart`, `mend`
move with `p`, `start`, `end` and are the same indices.  Returns the state
and the final `start` and `end`. -/
def qsort_partition {α : Type} (compare : α → α → Int) :
    Nat → qsort_state α → Nat → Nat → Nat → Nat → qsort_state α × Nat × Nat
  | 0, st, _, start, end_, _ => (st, start, end_)
  | fuel + 1, st, p, start, end_, pivot =>
    if p < end_ then
      match st.base[p]?, st.base[pivot]? with
      | some x, some y =>
        let result := compare x y
        if result < 0 then
          let st := { st with base := qsort_swap st.base p start, map := qsort_swap st.map p start }
          let pivot := if start = pivot then p else pivot
          qsort_partition compare fuel st (p + 1) (start + 1) end_ pivot
        else if result = 0 then
          qsort_partition compare fuel st (p + 1) start end_ pivot
        else
          let end_ := end_ - 1
          let st := { st with base := qsort_swap st.base p end_, map := qsort_swap st.map p end_ }
          let pivot := if end_ = pivot then p else pivot
          qsort_partition compare fuel st p start end_ pivot
      | _, _ => (st, start, end_)
    else (st, start, end_)

/-- Model of `__qsort_with_data(base, nelem, map, ctx)` on the `nelem`
elements from index `base`; `rnd k` is the value returned by the `k`-th
call of `random()`. -/
def __qsort_with_data {α : Type} (compare : α → α → Int) (rnd : Nat → Nat) :
    Nat → qsort_state α → Nat → Nat → qsort_state α
  | 0, st, _, _ => st
  | fuel + 1, st, base, nelem =>
    let pivot := base + rnd st.calls % nelem
    let st := { st with calls := st.calls + 1 }
    let (st, start, end_) := qsort_partition compare nelem st base base (base + nelem) pivot
    let left := start - base
    let right := base + nelem - end_
    let st := if left > 1 then __qsort_with_data compare rnd fuel st base left else st
    if right > 1 then __qsort_with_data compare rnd fuel st end_ right else st

/-- Model of `qsort_with_data`: the sorted array, the returned map (`none`
for `NULL`, when there is nothing to sort) and the number of `random()`
calls made so far. -/
def qsort_with_data {α : Type} (compare : α → α → Int) (rnd : Nat → Nat) (calls : Nat)
    (base : List α) : List α × Option (List Nat) × Nat :=
  if base.length = 0 then (base, none, calls)
  else
    let st := __qsort_with_data compare rnd base.length
      { base := base, map := List.range base.length, calls := calls } 0 base.length
    (st.base, some st.map, st.calls)

/-- Model of `compare_packages` over the string pool `pool`. -/
def compare_packages (pool : List Nat) (pkg1 pkg2 : razor_package) : Int :=
  if pkg1.name = pkg2.name then
    versioncmp (cstr_at pool pkg1.version) (cstr_at pool pkg2.version)
  else
    strcmp (cstr_at pool pkg1.name) (cstr_at pool pkg2.name)

/-- Model of `compare_properties` over the string pool `pool`. -/
def compare_properties (pool : List Nat) (prop1 prop2 : razor_property) : Int :=
  if prop1.name = prop2.name then
    versioncmp (cstr_at pool prop1.version) (cstr_at pool prop2.version)
  else if prop1.name &&& RAZOR_ENTRY_MASK = prop2.name &&& RAZOR_ENTRY_MASK then
    to_int ((prop1.name >>> 30 : Nat) - (prop2.name >>> 30 : Nat))
  else
    strcmp (cstr_at pool (prop1.name &&& RAZOR_ENTRY_MASK))
      (cstr_at pool (prop2.name &&& RAZOR_ENTRY_MASK))

/-- Model of `compare_filenames`. -/
def compare_filenames (e1 e2 : import_entry) : Int :=
  strcmp e1.name e2.name

/-! ## Finalizer: properties -/

/-- State of the first loop of `uniqueify_properties`: the property array
(compacted in place), `up` as an index, `rmap`, and the lists `pkgs`. -/
structure uniqueify_state where
  properties : List razor_property
  up : Nat
  rmap : List Nat
  pkgs : List (List Nat)

/-- The first loop of `uniqueify_properties`, `for (rp = data, up = rp, i = 0;
rp < rp_end; rp++, i++)`, from `rp = i`; `none` on an access outside the
arrays. -/
def uniqueify_scan (map : List Nat) (rp_end : Nat) :
    Nat → uniqueify_state → Nat → Option uniqueify_state
  | 0, st, _ => some st
  | fuel + 1, st, i =>
    if i < rp_end then
      match st.properties[i]?, st.properties[st.up]? with
      | some rp, some up =>
        let st :=
          if rp.name ≠ up.name ∨ rp.version ≠ up.version then
            let u := st.up + 1
            { st with
              up := u,
              properties := match st.properties[u]? with
                | some r => st.properties.set u { r with name := rp.name, version := rp.version }
                | none => st.properties }
          else st
        let unique := st.up
        match map[i]?, st.pkgs[unique]? with
        | some m, some l =>
          uniqueify_scan map rp_end fuel
            { st with rmap := st.rmap.set m unique, pkgs := st.pkgs.set unique (l ++ [rp.packages]) }
            (i + 1)
        | _, _ => none
      | _, _ => none
    else some st

/-- The second loop of `uniqueify_properties`, which stores the packages
reference of each of the first `rp_end` records, from record `k`; `none`
on an access outside the arrays. -/
def uniqueify_emit (pkgs : List (List Nat)) (rp_end : Nat) :
    Nat → List razor_property → List Nat → Nat → Option (List razor_property × List Nat)
  | 0, properties, package_pool, _ => some (properties, package_pool)
  | fuel + 1, properties, package_pool, k =>
    if k < rp_end then
      match properties[k]?, pkgs[k]? with
      | some rp, some p =>
        if p.length = 1 then
          uniqueify_emit pkgs rp_end fuel
            (properties.set k { rp with packages := p.headD 0 ||| RAZOR_IMMEDIATE })
            package_pool (k + 1)
        else
          let (package_pool, r) := add_to_property_pool package_pool p
          uniqueify_emit pkgs rp_end fuel (properties.set k { rp with packages := r })
            package_pool (k + 1)
      | _, _ => none
    else some (properties, package_pool)

/-- Model of `uniqueify_properties`: the set afterwards, the returned `rmap`
and the number of `random()` calls made so far; `none` when the code reads
or writes outside an array (with no property at all, `up++` still counts one
record and the second loop writes through the `NULL` data pointer). -/
def uniqueify_properties (rnd : Nat → Nat) (calls : Nat) (set : razor_set) :
    Option (razor_set × List Nat × Nat) :=
  let count := set.properties.length
  let (properties, map, calls) :=
    qsort_with_data (compare_properties set.string_pool) rnd calls set.properties
  let st : uniqueify_state :=
    { properties := properties, up := 0, rmap := List.replicate count 0,
      pkgs := List.replicate count [] }
  match uniqueify_scan (map.getD []) count count st 0 with
  | none => none
  | some st =>
    let up := st.up + 1
    match uniqueify_emit st.pkgs up up st.properties set.package_pool 0 with
    | none => none
    | some (properties, package_pool) =>
      some ({ set with properties := properties.take up, package_pool := package_pool },
        st.rmap, calls)

/-- Model of `remap_links`: `*p = map[*p & RAZOR_ENTRY_MASK] | (*p &
~RAZOR_ENTRY_MASK)` for every word of `links`. -/
def remap_links (links : List Nat) (map : List Nat) : List Nat :=
  links.map (fun p =>
    map.getD (p &&& RAZOR_ENTRY_MASK) 0 ||| (p &&& (ULONG_ALL_ONES - RAZOR_ENTRY_MASK)))

/-- Model of `remap_property_package_links`. -/
def remap_property_package_links (properties : List razor_property) (rmap : List Nat) :
    List razor_property :=
  properties.map (fun p =>
    if p.packages &&& RAZOR_IMMEDIATE ≠ 0 then
      { p with packages := rmap.getD (p.packages &&& RAZOR_ENTRY_MASK) 0 ||| RAZOR_IMMEDIATE }
    else p)

/-! ## Finalizer: file tree -/

/-- Model of `struct import_directory`.  The pointer `last` is not stored:
it is `NULL` while `files` is empty and points to the last element of
`files` otherwise, since it is only ever set to the element just added. -/
inductive import_directory where
  | mk (name count : Nat) (files : List import_directory) (packages : List Nat)

namespace import_directory

def name : import_directory → Nat
  | mk n _ _ _ => n

def count : import_directory → Nat
  | mk _ c _ _ => c

def files : import_directory → List import_directory
  | mk _ _ f _ => f

def packages : import_directory → List Nat
  | mk _ _ _ p => p

end import_directory

/-- The body of the loop `while (*f)` of `build_file_tree`, run from the
directory `d` on the rest `f` of a path, followed by the append of `package`
to the packages of the directory reached; returns `d` with the changes
made below it.  `none` when a component does not fit `dirname[256]`. -/
def build_file_tree_walk (package : Nat) :
    Nat → razor_importer → import_directory → List Nat →
      Option (razor_importer × import_directory)
  | 0, importer, d, _ => some (importer, d)
  | fuel + 1, importer, d, f =>
    if deref f ≠ 0 then
      let dirname := f.takeWhile (fun c => c != 47)
      let end_ := f.dropWhile (fun c => c != 47)
      if dirname.length ≥ 256 then none
      else
        let (importer, name) := razor_importer_tokenize importer (some dirname)
        let files :=
          match d.files.getLast? with
          | none => d.files ++ [import_directory.mk name 0 [] []]
          | some last =>
            if last.name ≠ name then d.files ++ [import_directory.mk name 0 [] []]
            else d.files
        match files.getLast? with
        | none => none
        | some last =>
          let below :=
            if deref end_ = 0 then
              some (importer, import_directory.mk last.name last.count last.files
                (last.packages ++ [package]))
            else build_file_tree_walk package fuel importer last end_.tail
          match below with
          | none => none
          | some (importer, last) =>
            some (importer, import_directory.mk d.name d.count (files.dropLast ++ [last]) d.packages)
    else
      some (importer, import_directory.mk d.name d.count d.files (d.packages ++ [package]))

/-- The loop `for (i = 0; i < count; i++)` of `build_file_tree` over the
sorted file names. -/
def build_file_tree_loop :
    List import_entry → razor_importer → import_directory →
      Option (razor_importer × import_directory)
  | [], importer, root => some (importer, root)
  | e :: rest, importer, root =>
    if deref e.name ≠ 47 then build_file_tree_loop rest importer root
    else
      match build_file_tree_walk e.package (e.name.length + 1) importer root e.name.tail with
      | none => none
      | some (importer, root) => build_file_tree_loop rest importer root

/-- Model of `count_entries`, with `fuel` bounding the depth of the tree. -/
def count_entries : Nat → import_directory → import_directory
  | 0, d => d
  | fuel + 1, d =>
    let files := d.files.map (count_entries fuel)
    let count := files.foldl (fun c p => c + (p.count + 1)) 0
    import_directory.mk d.name count files d.packages

/-- The first loop of `serialize_files`: one entry per child, `s` being the
index at which the children of the next child will start. -/
def serialize_entries :
    List import_directory → Nat → List razor_entry → List Nat → List razor_entry × List Nat
  | [], _, array, package_pool => (array, package_pool)
  | p :: rest, s, array, package_pool =>
    let (package_pool, packages) :=
      if p.packages.length = 0 then (package_pool, ULONG_ALL_ONES)
      else if p.packages.length = 1 then (package_pool, p.packages.headD 0 ||| RAZOR_IMMEDIATE)
      else add_to_property_pool package_pool p.packages
    let e : razor_entry :=
      { name := p.name, start := if p.count > 0 then s else 0, packages := packages }
    serialize_entries rest (s + p.count) (array ++ [e]) package_pool

/-- Model of `serialize_files(set, d, array)`: the `files` array and the
package pool afterwards; `fuel` bounds the depth of the tree. -/
def serialize_files : Nat → import_directory → List razor_entry → List Nat →
    List razor_entry × List Nat
  | 0, _, array, package_pool => (array, package_pool)
  | fuel + 1, d, array, package_pool =>
    let s := array.length + d.files.length
    let (array, package_pool) := serialize_entries d.files s array package_pool
    let array :=
      if d.files.length = 0 then array
      else
        match array.getLast? with
        | some e => array.dropLast ++ [{ e with name := e.name ||| RAZOR_ENTRY_LAST }]
        | none => array
    d.files.foldl (fun acc p => serialize_files fuel p acc.1 acc.2) (array, package_pool)

/-- Model of `build_file_tree`; `calls` counts the calls of `random()`. -/
def build_file_tree (rnd : Nat → Nat) (calls : Nat) (importer : razor_importer) :
    Option (razor_importer × Nat) :=
  let (filenames, _, calls) := qsort_with_data compare_filenames rnd calls importer.files
  let (importer, name) := razor_importer_tokenize importer (some [])
  let root := import_directory.mk name 0 [] []
  match build_file_tree_loop filenames importer root with
  | none => none
  | some (importer, root) =>
    let depth := (filenames.map (fun e => e.name.length)).foldl max 0 + 1
    let root := count_entries depth root
    let e : razor_entry :=
      { name := root.name ||| RAZOR_ENTRY_LAST, start := 1, packages := ULONG_ALL_ONES }
    let (files, package_pool) := serialize_files depth root [e] importer.set.package_pool
    some ({ importer with
      set := { importer.set with files := files, package_pool := package_pool },
      files := [] }, calls)

/-! ## Finalizer: package file lists and `razor_importer_finish` -/

/-- The loop `while (1)` of `build_package_file_lists` for the entry `e`,
reading the reference list `r`: pushes `e` on the list of every package of
`r`; `none` when a word lies outside `pkgs` or `r` ends without an
`IMMEDIATE` word. -/
def build_package_file_lists_push (e : Nat) :
    List Nat → List (List Nat) → Option (List (List Nat))
  | [], _ => none
  | r :: rest, pkgs =>
    match pkgs[r &&& RAZOR_ENTRY_MASK]? with
    | none => none
    | some l =>
      let pkgs := pkgs.set (r &&& RAZOR_ENTRY_MASK) (l ++ [e])
      if r &&& RAZOR_IMMEDIATE ≠ 0 then some pkgs
      else build_package_file_lists_push e rest pkgs

/-- The loop over the `files` entries of `build_package_file_lists`, from
entry `e`: the entries afterwards and the lists `pkgs`. -/
def build_package_file_lists_scan (package_pool rmap : List Nat) :
    List razor_entry → Nat → List razor_entry → List (List Nat) →
      Option (List razor_entry × List (List Nat))
  | [], _, done, pkgs => some (done, pkgs)
  | entry :: rest, e, done, pkgs =>
    if entry.packages = ULONG_ALL_ONES then
      build_package_file_lists_scan package_pool rmap rest (e + 1) (done ++ [entry]) pkgs
    else if entry.packages &&& RAZOR_IMMEDIATE ≠ 0 then
      let entry := { entry with
        packages := rmap.getD (entry.packages &&& RAZOR_ENTRY_MASK) 0 ||| RAZOR_IMMEDIATE }
      match build_package_file_lists_push e [entry.packages] pkgs with
      | none => none
      | some pkgs =>
        build_package_file_lists_scan package_pool rmap rest (e + 1) (done ++ [entry]) pkgs
    else
      match build_package_file_lists_push e (package_pool.drop entry.packages) pkgs with
      | none => none
      | some pkgs =>
        build_package_file_lists_scan package_pool rmap rest (e + 1) (done ++ [entry]) pkgs

/-- The last loop of `build_package_file_lists`: stores the files reference
of every package. -/
def build_package_file_lists_emit :
    List razor_package → List (List Nat) → List Nat → List razor_package × List Nat
  | [], _, file_pool => ([], file_pool)
  | p :: packages, pkgs, file_pool =>
    let (file_pool, r) := add_to_property_pool file_pool (pkgs.headD [])
    let (packages, file_pool) := build_package_file_lists_emit packages pkgs.tail file_pool
    ({ p with files := r } :: packages, file_pool)

/-- Model of `build_package_file_lists`. -/
def build_package_file_lists (set : razor_set) (rmap : List Nat) : Option razor_set :=
  let count := set.packages.length
  match build_package_file_lists_scan set.package_pool rmap set.files 0 []
      (List.replicate count []) with
  | none => none
  | some (files, pkgs) =>
    let (packages, file_pool) := build_package_file_lists_emit set.packages pkgs set.file_pool
    some { set with files := files, packages := packages, file_pool := file_pool }

/-- The loop `for (i = 0; i < count; i++) rmap[map[i]] = i;` of
`razor_importer_finish`, from `i`. -/
def invert_map : List Nat → Nat → List Nat → List Nat
  | [], _, rmap => rmap
  | m :: map, i, rmap => invert_map map (i + 1) (rmap.set m i)

/-- Model of `razor_importer_finish`; `rnd k` is the value returned by the
`k`-th call of `random()`.  `none` when the code reads or writes outside an
array. -/
def razor_importer_finish (rnd : Nat → Nat) (importer : razor_importer) : Option razor_set :=
  match uniqueify_properties rnd 0 importer.set with
  | none => none
  | some (set, map, calls) =>
    let set := { set with property_pool := remap_links set.property_pool map }
    let count := set.packages.length
    let (packages, map, calls) :=
      qsort_with_data (compare_packages set.string_pool) rnd calls set.packages
    let set := { set with packages := packages }
    let rmap := invert_map (map.getD []) 0 (List.replicate count 0)
    match build_file_tree rnd calls { importer with set := set } with
    | none => none
    | some (importer, _) =>
      let set := importer.set
      let set := { set with package_pool := remap_links set.package_pool rmap }
      match build_package_file_lists set rmap with
      | none => none
      | some set =>
        some { set with properties := remap_property_package_links set.properties rmap }

/-! ## Sequences of importer calls -/

/-- One call of the importer interface. -/
inductive importer_call where
  | begin_package (name version : List Nat)
  | add_property (name version : List Nat) (type : Nat)
  | add_file (name : List Nat)
  | finish_package
deriving DecidableEq, Repr

/-- The importer after the calls `calls`, in order. -/
def run_calls : razor_importer → List importer_call → Option razor_importer
  | importer, [] => some importer
  | importer, importer_call.begin_package n v :: rest =>
    run_calls (razor_importer_begin_package importer n v) rest
  | importer, importer_call.add_property n v t :: rest =>
    run_calls (razor_importer_add_property importer n v t) rest
  | importer, importer_call.add_file n :: rest =>
    run_calls (razor_importer_add_file importer n) rest
  | importer, importer_call.finish_package :: rest =>
    match razor_importer_finish_package importer with
    | none => none
    | some importer => run_calls importer rest

/-- Whether a call is `add_property` or `add_file`. -/
def importer_call.is_add : importer_call → Bool
  | importer_call.add_property _ _ _ => true
  | importer_call.add_file _ => true
  | _ => false

/-- The number of `add_property` calls in a list of calls. -/
def count_add_property : List importer_call → Nat
  | [] => 0
  | importer_call.add_property _ _ _ :: rest => count_add_property rest + 1
  | _ :: rest => count_add_property rest

/-- The set that `razor_importer_finish` returns after the calls `calls` on
a new importer. -/
def import_set (rnd : Nat → Nat) (calls : List importer_call) : Option razor_set :=
  match run_calls razor_importer_new calls with
  | none => none
  | some importer => razor_importer_finish rnd importer

/-! ## The set file -/

/-- The constants `RAZOR_MAGIC` and `RAZOR_VERSION`. -/
def RAZOR_MAGIC : Nat := 0x7a7a7a7a
def RAZOR_VERSION : Nat := 1

/-- Model of `struct razor_set_section`, three `unsigned int`. -/
structure razor_set_section where
  type : Nat
  offset : Nat
  size : Nat
deriving DecidableEq, Repr

/-- Model of `struct razor_set_header`. -/
structure razor_set_header where
  magic : Nat
  version : Nat
  sections : List razor_set_section
deriving DecidableEq, Repr

/-- The `type` fields of the table `razor_sections`, in order. -/
def razor_sections : List Nat := [0, 1, 2, 3, 4, 5, 6]

/-- Modelled from the spec: the macro `ALIGN(value, base)` of
`razor-internal.h`, `value` rounded up to a multiple of `base`. -/
def ALIGN (value base : Nat) : Nat :=
  (value + (base - 1)) / base * base

/-- The first loop of `razor_set_write`, from section `i` with the running
`offset`, followed by the terminating record; `sizes` holds `a->size` of the
sections from `i` on.  The fields are `unsigned int`, `offset` is an
`unsigned long`. -/
def razor_set_write_sections : List Nat → Nat → Nat → List razor_set_section
  | [], _, _ => [{ type := 0xFFFFFFFF, offset := 0, size := 0 }]
  | size :: sizes, i, offset =>
    { type := i % UINT_MOD, offset := offset % UINT_MOD, size := size % UINT_MOD } ::
      razor_set_write_sections sizes (i + 1) ((offset + ALIGN size 4096) % 2 ^ 64)

/-- The header that `razor_set_write` builds for sections of the sizes
`sizes`, in the order of `razor_sections`. -/
def razor_set_write_header (sizes : List Nat) : razor_set_header :=
  { magic := RAZOR_MAGIC, version := RAZOR_VERSION,
    sections := razor_set_write_sections sizes 0 4096 }

/-- The four bytes of an `unsigned int`, least significant first. -/
def u32_bytes (v : Nat) : List Nat :=
  [v % 256, v / 256 % 256, v / 65536 % 256, v / 16777216 % 256]

/-- The eight bytes of an `unsigned long`, least significant first. -/
def u64_bytes (v : Nat) : List Nat :=
  u32_bytes (v % UINT_MOD) ++ u32_bytes (v / UINT_MOD)

/-- The `unsigned int` at byte `off` of a file; `none` outside the file. -/
def u32_at (file : List Nat) (off : Nat) : Option Nat :=
  match (file.drop off).take 4 with
  | [a, b, c, d] => some (a + 256 * b + 65536 * c + 16777216 * d)
  | _ => none

/-- The bytes of one section record of the header. -/
def section_bytes (s : razor_set_section) : List Nat :=
  u32_bytes s.type ++ u32_bytes s.offset ++ u32_bytes s.size

/-- The array `char data[4096]` of `razor_set_write` holding the header:
zeroes after the records. -/
def header_bytes (h : razor_set_header) : List Nat :=
  let used := u32_bytes h.magic ++ u32_bytes h.version ++ (h.sections.map section_bytes).flatten
  used ++ List.replicate (4096 - used.length) 0

/-- Modelled from the spec: `razor_write(fd, data, size)` of
`razor-internal.h` appends the `size` bytes at `data` to the file; `data`
holds the bytes readable from the pointer, and `none` stands for a read past
them. -/
def razor_write (file data : List Nat) (size : Nat) : Option (List Nat) :=
  if size ≤ data.length then some (file ++ data.take size) else none

/-- The second loop of `razor_set_write`: each section is written with
`ALIGN(a->size, 4096)` bytes read from `a->data`.  `arrays` holds the `size`
bytes of each section, `tails` the bytes that follow each of them in
memory. -/
def razor_set_write_data : List (List Nat) → List (List Nat) → List Nat → Option (List Nat)
  | [], _, file => some file
  | a :: arrays, tails, file =>
    match razor_write file (a ++ tails.headD []) (ALIGN a.length 4096) with
    | none => none
    | some file => razor_set_write_data arrays tails.tail file

/-- Model of `razor_set_write`: the bytes of the file written. -/
def razor_set_write (arrays tails : List (List Nat)) : Option (List Nat) :=
  let header := razor_set_write_header (arrays.map List.length)
  match razor_write [] (header_bytes header) 4096 with
  | none => none
  | some file => razor_set_write_data arrays tails file

/-- Model of `struct array` in an opened set: `data` is the offset of the
section from the start of the mapped file, `none` for `NULL`. -/
structure array where
  data : Option Nat
  size : Int
  alloc : Int
deriving DecidableEq, Repr

/-- The loop `for (s = set->header->sections; ~s->type; s++)` of
`razor_set_open`, from record `k`; `none` on a read outside the file. -/
def razor_set_open_walk (file : List Nat) : Nat → Nat → List array → Option (List array)
  | 0, _, _ => none
  | fuel + 1, k, set =>
    match u32_at file (8 + 12 * k) with
    | none => none
    | some type =>
      if type = 0xFFFFFFFF then some set
      else if type ≥ razor_sections.length then razor_set_open_walk file fuel (k + 1) set
      else if razor_sections[type]? ≠ some type then razor_set_open_walk file fuel (k + 1) set
      else
        match u32_at file (8 + 12 * k + 4), u32_at file (8 + 12 * k + 8) with
        | some offset, some size =>
          razor_set_open_walk file fuel (k + 1)
            (set.set type { data := some offset, size := to_int size, alloc := to_int size })
        | _, _ => none

/-- Model of `razor_set_open` on the bytes of a file: the seven arrays of
the set returned. -/
def razor_set_open (file : List Nat) : Option (List array) :=
  razor_set_open_walk file (file.length + 1) 0
    (List.replicate razor_sections.length { data := none, size := 0, alloc := 0 })

/-- The `size` bytes of an array of a set opened on `file`. -/
def array_bytes (file : List Nat) (a : array) : List Nat :=
  match a.data with
  | none => []
  | some off => (file.drop off).take a.size.toNat

/-- The bytes of a package record, four `unsigned long`. -/
def package_bytes (p : razor_package) : List Nat :=
  u64_bytes p.name ++ u64_bytes p.version ++ u64_bytes p.properties ++ u64_bytes p.files

/-- The bytes of a property record, three `unsigned long`. -/
def property_bytes (p : razor_property) : List Nat :=
  u64_bytes p.name ++ u64_bytes p.version ++ u64_bytes p.packages

/-- The bytes of a file entry, three `unsigned long`. -/
def entry_bytes (e : razor_entry) : List Nat :=
  u64_bytes e.name ++ u64_bytes e.start ++ u64_bytes e.packages

/-- The bytes of the seven sections of a set, in the order of
`struct razor_set`. -/
def set_arrays (set : razor_set) : List (List Nat) :=
  [set.string_pool,
   (set.packages.map package_bytes).flatten,
   (set.properties.map property_bytes).flatten,
   (set.files.map entry_bytes).flatten,
   (set.package_pool.map u64_bytes).flatten,
   (set.property_pool.map u64_bytes).flatten,
   (set.file_pool.map u64_bytes).flatten]

/-! ## Queries -/

/-- The loop `do ... while (((e++)->name & RAZOR_ENTRY_LAST) == 0)` of
`find_entry`, from entry `e`; `again e pattern` is the recursive call
`find_entry(set, e, pattern)`.  The outer `none` is a read outside the
`files` array, `some none` is `NULL`. -/
def find_entry_loop (set : razor_set) (again : Nat → List Nat → Option (Option Nat))
    (pattern : List Nat) : Nat → Nat → Option (Option Nat)
  | 0, _ => none
  | fuel + 1, e =>
    match set.files[e]? with
    | none => none
    | some entry =>
      let n := cstr_at set.string_pool (entry.name &&& RAZOR_ENTRY_MASK)
      if strcmp pattern.tail n = 0 then some (some e)
      else if entry.start ≠ 0 ∧ pattern.tail.take n.length = n ∧
          deref (pattern.tail.drop n.length) = 47 then
        again e (pattern.tail.drop n.length)
      else if entry.name &&& RAZOR_ENTRY_LAST = 0 then
        find_entry_loop set again pattern fuel (e + 1)
      else some none

/-- Model of `find_entry(set, dir, pattern)`, `dir` being the index of the
directory entry; `fuel` bounds the depth of the recursion, each level of
which consumes at least one byte of the pattern. -/
def find_entry (set : razor_set) : Nat → Nat → List Nat → Option (Option Nat)
  | 0, _, _ => none
  | fuel + 1, dir, pattern =>
    match set.files[dir]? with
    | none => none
    | some d =>
      find_entry_loop set (fun e pat => find_entry set fuel e pat) pattern
        (set.files.length + 1) d.start

/-- The call `find_entry(set, set->files.data, pattern)` from the root. -/
def find_entry_root (set : razor_set) (pattern : List Nat) : Option (Option Nat) :=
  find_entry set (pattern.length + 1) 0 pattern

/-- The words of the reference list that a `packages`, `properties` or
`files` field `r` denotes, read the way `razor_set_list_file_packages` and
`razor_set_list_property_packages` do: the field itself when it has
`RAZOR_IMMEDIATE`, else the words of `pool` from offset `r` up to the first
one with `RAZOR_IMMEDIATE`; `none` when the list runs off the pool. -/
def reference_list (pool : List Nat) (r : Nat) : Option (List Nat) :=
  if r &&& RAZOR_IMMEDIATE ≠ 0 then some [r &&& RAZOR_ENTRY_MASK]
  else
    let rest := pool.drop r
    match rest.findIdx? (fun w => w &&& RAZOR_IMMEDIATE != 0) with
    | none => none
    | some k => some ((rest.take (k + 1)).map (fun w => w &&& RAZOR_ENTRY_MASK))

/-- The binary search of the C library function `bsearch`, between the
indices `l` and `u`; `compar p` is the comparison of the key with the
element `p`. -/
def bsearch_loop {α : Type} (compar : α → Int) (base : List α) :
    Nat → Nat → Nat → Option Nat
  | 0, _, _ => none
  | fuel + 1, l, u =>
    if l < u then
      let idx := (l + u) / 2
      match base[idx]? with
      | none => none
      | some p =>
        let comparison := compar p
        if comparison < 0 then bsearch_loop compar base fuel l idx
        else if comparison > 0 then bsearch_loop compar base fuel (idx + 1) u
        else some idx
    else none

/-- Model of the C library function `bsearch` (it is not part of the
repository; this is the usual binary search, as in glibc): the index of
the element found, `none` for `NULL`. -/
def bsearch {α : Type} (compar : α → Int) (base : List α) : Option Nat :=
  bsearch_loop compar base (base.length + 1) 0 base.length

/-- Model of `compare_package_name`. -/
def compare_package_name (pool : List Nat) (key : List Nat) (p : razor_package) : Int :=
  strcmp key (cstr_at pool p.name)

/-- Model of `razor_set_get_package`: the index of the record returned. -/
def razor_set_get_package (set : razor_set) (package : List Nat) : Option Nat :=
  bsearch (compare_package_name set.string_pool package) set.packages

/-- Model of `compare_property_name`. -/
def compare_property_name (pool : List Nat) (key : List Nat) (p : razor_property) : Int :=
  strcmp key (cstr_at pool (p.name &&& RAZOR_ENTRY_MASK))

/-- The loop `while (p > start && ((p - 1)->name & RAZOR_ENTRY_MASK) ==
(p->name & RAZOR_ENTRY_MASK)) p--;` of `razor_set_get_property`. -/
def get_property_walk (properties : List razor_property) : Nat → Nat
  | 0 => 0
  | p + 1 =>
    match properties[p]?, properties[p + 1]? with
    | some a, some b =>
      if a.name &&& RAZOR_ENTRY_MASK = b.name &&& RAZOR_ENTRY_MASK then
        get_property_walk properties p
      else p + 1
    | _, _ => p + 1

/-- Model of `razor_set_get_property`: the index of the record returned;
when `bsearch` returns `NULL` the loop does not run and `NULL` is
returned. -/
def razor_set_get_property (set : razor_set) (property : List Nat) : Option Nat :=
  match bsearch (compare_property_name set.string_pool property) set.properties with
  | none => none
  | some p => some (get_property_walk set.properties p)

/-! ## Property iterator -/

/-- Model of `struct razor_property_iterator`: `property` is the index of
the record `pi->property` points to, `index` the word index in the property
pool that `pi->index` points to (`none` for `NULL`), `last` the flag. -/
structure razor_property_iterator where
  property : Nat
  index : Option Nat
  last : Bool
deriving DecidableEq, Repr

/-- Model of `razor_property_iterator_create(set, package)`; `package` is
`none` for `NULL`.  `pi->index` is `property_pool.data + package->properties`,
which is `NULL` only when the pool was never allocated and the offset is 0. -/
def razor_property_iterator_create (set : razor_set) (package : Option razor_package) :
    razor_property_iterator :=
  match package with
  | some p =>
    { property := 0,
      index := if set.property_pool = [] ∧ p.properties = 0 then none else some p.properties,
      last := false }
  | none => { property := 0, index := none, last := false }

/-- Model of `razor_property_iterator_next`: the iterator afterwards and the
index of the property record yielded, `none` when the call returns 0.  The
outer `none` is a read outside the property pool or, for a record that is
yielded, outside the property array. -/
def razor_property_iterator_next (set : razor_set) (pi : razor_property_iterator) :
    Option (razor_property_iterator × Option Nat) :=
  match pi.index with
  | some i =>
    match set.property_pool[i]? with
    | none => none
    | some w =>
      let p := w &&& RAZOR_ENTRY_MASK
      let valid := !pi.last
      let pi := { pi with last := decide (w &&& RAZOR_IMMEDIATE ≠ 0), index := some (i + 1) }
      if !valid then some (pi, none)
      else if p < set.properties.length then some (pi, some p) else none
  | none =>
    let p := pi.property
    let pi := { pi with property := pi.property + 1 }
    if p < set.properties.length then some (pi, some p) else some (pi, none)

/-- The property indices yielded by repeated calls of
`razor_property_iterator_next` until it returns 0, at most `fuel` of them;
`none` when a call reads outside an array. -/
def property_iterator_run (set : razor_set) :
    Nat → razor_property_iterator → Option (List Nat)
  | 0, _ => some []
  | fuel + 1, pi =>
    match razor_property_iterator_next set pi with
    | none => none
    | some (_, none) => some []
    | some (pi, some p) =>
      match property_iterator_run set fuel pi with
      | none => none
      | some rest => some (p :: rest)

/-! ## Validator -/

/-- The loop `while (p < end && p->name == r->name) p++;` of
`razor_set_validate`, `name` being `r->name`. -/
def validate_seek (properties : List razor_property) (name : Nat) : Nat → Nat → Nat
  | 0, p => p
  | fuel + 1, p =>
    match properties[p]? with
    | some q => if q.name = name then validate_seek properties name fuel (p + 1) else p
    | none => p

/-- The loop `while (p + 1 < end && p->name == (p + 1)->name) p++;` of
`razor_set_validate`. -/
def validate_last (properties : List razor_property) : Nat → Nat → Nat
  | 0, p => p
  | fuel + 1, p =>
    match properties[p]?, properties[p + 1]? with
    | some a, some b => if a.name = b.name then validate_last properties fuel (p + 1) else p
    | _, _ => p

/-- The loop `for (r = set->properties.data, p = r; r < end; r++)` of
`razor_set_validate`, from `r`, with the list `unsatisfied` so far.  When
`p` is `end`, the read of `p->name` in the first test is past the array;
it is taken as a different name here, and the other outcome gives the same
result, `p` ending at `end` again. -/
def validate_loop (set : razor_set) : Nat → Nat → Nat → List Nat → List Nat
  | 0, _, _, unsatisfied => unsatisfied
  | fuel + 1, r, p, unsatisfied =>
    match set.properties[r]? with
    | none => unsatisfied
    | some rr =>
      if rr.name >>> 30 ≠ 0 then validate_loop set fuel (r + 1) p unsatisfied
      else
        let count := set.properties.length
        let same := match set.properties[p]? with
          | some pp => decide (rr.name &&& RAZOR_ENTRY_MASK = pp.name &&& RAZOR_ENTRY_MASK)
          | none => false
        let p := if same then p else validate_seek set.properties rr.name count r
        let p := validate_last set.properties count p
        let failed := match set.properties[p]? with
          | none => true
          | some pp =>
            decide (pp.name >>> 30 ≠ 1) ||
              decide (rr.name &&& RAZOR_ENTRY_MASK ≠ pp.name &&& RAZOR_ENTRY_MASK) ||
              decide (versioncmp (cstr_at set.string_pool rr.version)
                (cstr_at set.string_pool pp.version) > 0)
        if failed then
          if deref (cstr_at set.string_pool (rr.name &&& RAZOR_ENTRY_MASK)) = 47 then
            validate_loop set fuel (r + 1) p unsatisfied
          else validate_loop set fuel (r + 1) p (unsatisfied ++ [r])
        else validate_loop set fuel (r + 1) p unsatisfied

/-- Model of `razor_set_validate`: the indices pushed on `unsatisfied`. -/
def razor_set_validate (set : razor_set) : List Nat :=
  validate_loop set set.properties.length 0 0 []

/-! ## Differences between two sets -/

/-- One invocation `callback(name, old_version, new_version, data)`; `none`
is `NULL`. -/
structure diff_call where
  name : List Nat
  old_version : Option (List Nat)
  new_version : Option (List Nat)
deriving DecidableEq, Repr

/-- Outcome of `razor_set_diff`: the calls made, and whether the loop then
read a package record past the end of the first set's array. -/
structure diff_result where
  calls : List diff_call
  past_end : Bool
deriving DecidableEq, Repr

/-- The test `res = strcmp(...); if (res == 0) res = versioncmp(...)` of
`razor_set_diff`. -/
def diff_compare (ppool upool : List Nat) (p u : razor_package) : Int :=
  let res := strcmp (cstr_at ppool p.name) (cstr_at upool u.name)
  if res = 0 then versioncmp (cstr_at ppool p.version) (cstr_at upool u.version) else res

/-- The loop `while (p < pend || u < uend)` of `razor_set_diff`; `ps` and
`us` are the records from `p` to `pend` and from `u` to `uend`, `res` the
current value of the variable `res`.  With `p` at `pend` and a negative
`res` left from an earlier comparison, the code passes `p->name` of a
record past the end to the callback: the model stops there. -/
def razor_set_diff_loop (ppool upool : List Nat) :
    Nat → List razor_package → List razor_package → Int → List diff_call → diff_result
  | 0, _, _, _, calls => { calls := calls, past_end := false }
  | fuel + 1, ps, us, res, calls =>
    match ps, us with
    | [], [] => { calls := calls, past_end := false }
    | p :: ps', [] =>
      razor_set_diff_loop ppool upool fuel ps' [] res
        (calls ++ [{ name := cstr_at ppool p.name,
                     old_version := some (cstr_at ppool p.version), new_version := none }])
    | [], u :: us' =>
      if res < 0 then { calls := calls, past_end := true }
      else
        razor_set_diff_loop ppool upool fuel [] us' res
          (calls ++ [{ name := cstr_at upool u.name,
                       old_version := none, new_version := some (cstr_at upool u.version) }])
    | p :: ps', u :: us' =>
      let res := diff_compare ppool upool p u
      if res < 0 then
        razor_set_diff_loop ppool upool fuel ps' (u :: us') res
          (calls ++ [{ name := cstr_at ppool p.name,
                       old_version := some (cstr_at ppool p.version), new_version := none }])
      else if res > 0 then
        razor_set_diff_loop ppool upool fuel (p :: ps') us' res
          (calls ++ [{ name := cstr_at upool u.name,
                       old_version := none, new_version := some (cstr_at upool u.version) }])
      else razor_set_diff_loop ppool upool fuel ps' us' res calls

/-- Model of `razor_set_diff(set, upstream, callback, data)`. -/
def razor_set_diff (set upstream : razor_set) : diff_result :=
  razor_set_diff_loop set.string_pool upstream.string_pool
    (set.packages.length + upstream.packages.length) set.packages upstream.packages 0 []

/-! ## Merger -/

def UPSTREAM_SOURCE : Nat := 0x80000000
def INDEX_MASK : Nat := 0x00ffffff

/-- Model of `struct razor_merger`; `map1` and `map2` are
`source1.property_map` and `source2.property_map`, and `table.pool` is the
array that `set->string_pool` is. -/
structure razor_merger where
  set : razor_set
  table : hashtable
  source1 : razor_set
  map1 : List Nat
  source2 : razor_set
  map2 : List Nat
deriving DecidableEq, Repr

/-- Model of `razor_merger_create`. -/
def razor_merger_create (set1 set2 : razor_set) : razor_merger :=
  { set := razor_set_create, table := hashtable_init razor_set_create.string_pool,
    source1 := set1, map1 := List.replicate set1.properties.length 0,
    source2 := set2, map2 := List.replicate set2.properties.length 0 }

/-- Tokenization in the merger's table, keeping `set.string_pool` equal to
`table.pool`. -/
def razor_merger_tokenize (merger : razor_merger) (string : List Nat) : razor_merger × Nat :=
  let (table, token) := hashtable_tokenize merger.table (some string)
  ({ merger with table := table, set := { merger.set with string_pool := table.pool } }, token)

/-- The loop `while (1)` of `add_package`: `source->property_map[*r &
RAZOR_ENTRY_MASK] = 1` for the words of the list `r`, up to the first with
`RAZOR_IMMEDIATE`; `none` on a write outside the map or when the list runs
off the pool. -/
def add_package_mark : List Nat → List Nat → Option (List Nat)
  | [], _ => none
  | r :: rest, map =>
    if r &&& RAZOR_ENTRY_MASK < map.length then
      let map := map.set (r &&& RAZOR_ENTRY_MASK) 1
      if r &&& RAZOR_IMMEDIATE ≠ 0 then some map else add_package_mark rest map
    else none

/-- Model of `add_package(merger, package, source, flags)`; `upstream` says
whether `source` is `source2`.  The field `files` of the new record is not
written by the C code; it is 0 here. -/
def add_package (merger : razor_merger) (package : razor_package) (upstream : Bool)
    (flags : Nat) : Option razor_merger :=
  let source := if upstream then merger.source2 else merger.source1
  let map := if upstream then merger.map2 else merger.map1
  let (merger, name) := razor_merger_tokenize merger (cstr_at source.string_pool package.name)
  let (merger, version) :=
    razor_merger_tokenize merger (cstr_at source.string_pool package.version)
  let p : razor_package :=
    { name := name ||| flags, version := version, properties := package.properties, files := 0 }
  let merger := { merger with set := { merger.set with packages := merger.set.packages ++ [p] } }
  let r :=
    if package.properties &&& RAZOR_IMMEDIATE ≠ 0 then [package.properties]
    else source.property_pool.drop package.properties
  match add_package_mark r map with
  | none => none
  | some map => some (if upstream then { merger with map2 := map } else { merger with map1 := map })

/-- The loop `while (s < send)` of `merge_packages`; `ss` holds the records
from `s` to `send`, `u` is the index in the selection `packages`.  The
statement `p = upstream_packages + *u` reads `*u` before `u < uend` is
tested: with an empty selection that is a read through the `NULL` data
pointer (`none`); at `u = uend` of a non-empty selection it reads one word
past the selection, which is not used. -/
def merge_packages_loop (packages : List Nat) :
    Nat → List razor_package → Nat → razor_merger → Option razor_merger
  | 0, _, _, merger => some merger
  | _ + 1, [], _, merger => some merger
  | fuel + 1, s :: ss, u, merger =>
    if packages.length = 0 then none
    else
      match packages[u]? with
      | none =>
        match add_package merger s false 0 with
        | none => none
        | some merger => merge_packages_loop packages fuel ss u merger
      | some i =>
        match merger.source2.packages[i]? with
        | none => none
        | some p =>
          let cmp := strcmp (cstr_at merger.source1.string_pool s.name)
            (cstr_at merger.source2.string_pool p.name)
          if cmp < 0 then
            match add_package merger s false 0 with
            | none => none
            | some merger => merge_packages_loop packages fuel ss u merger
          else if cmp = 0 then
            match add_package merger p true UPSTREAM_SOURCE with
            | none => none
            | some merger => merge_packages_loop packages fuel ss (u + 1) merger
          else
            match add_package merger p true UPSTREAM_SOURCE with
            | none => none
            | some merger => merge_packages_loop packages fuel (s :: ss) (u + 1) merger

/-- Model of `merge_packages(merger, packages)`. -/
def merge_packages (merger : razor_merger) (packages : List Nat) : Option razor_merger :=
  merge_packages_loop packages (merger.source1.packages.length + packages.length)
    merger.source1.packages 0 merger

/-- An `int` converted to `unsigned long`: the value modulo 2^64, which
extends the sign of a negative number. -/
def int_to_ulong (n : Int) : Nat :=
  (n % 2 ^ 64).toNat

/-- Model of the merger's `add_property`: the merger afterwards and the
index of the new record, whose `packages` field is not written by the C
code and is 0 here.  The parameter `type` is an `int`: the argument
`p->name >> 30` is converted to `int`, `type << 30` is computed in `int`,
where it wraps to a negative number for the kinds 2 and 3, and the result is
converted to `unsigned long` for the `|`. -/
def add_property (merger : razor_merger) (name version : List Nat) (type : Nat) :
    razor_merger × Nat :=
  let p := merger.set.properties.length
  let (merger, n) := razor_merger_tokenize merger name
  let (merger, v) := razor_merger_tokenize merger version
  ({ merger with
      set := { merger.set with
        properties := merger.set.properties
          ++ [{ name := n ||| int_to_ulong (to_int (to_int (type : Int) * 2 ^ 30)),
                version := v, packages := 0 }] } }, p)

/-- The loop `while (i < count1 || j < count2)` of `merge_properties`. -/
def merge_properties_loop : Nat → Nat → Nat → razor_merger → razor_merger
  | 0, _, _, merger => merger
  | fuel + 1, i, j, merger =>
    let count1 := merger.source1.properties.length
    let count2 := merger.source2.properties.length
    if i < count1 ∨ j < count2 then
      if i < count1 ∧ merger.map1.getD i 0 = 0 then merge_properties_loop fuel (i + 1) j merger
      else if j < count2 ∧ merger.map2.getD j 0 = 0 then
        merge_properties_loop fuel i (j + 1) merger
      else
        let pool1 := merger.source1.string_pool
        let pool2 := merger.source2.string_pool
        let p1 := merger.source1.properties.getD i { name := 0, version := 0, packages := 0 }
        let p2 := merger.source2.properties.getD j { name := 0, version := 0, packages := 0 }
        let cmp : Int :=
          if i < count1 ∧ j < count2 then
            strcmp (cstr_at pool1 (p1.name &&& RAZOR_ENTRY_MASK))
              (cstr_at pool2 (p2.name &&& RAZOR_ENTRY_MASK))
          else if i < count1 then -1
          else 1
        let cmp :=
          if cmp = 0 then versioncmp (cstr_at pool1 p1.version) (cstr_at pool2 p2.version)
          else cmp
        if cmp < 0 then
          let (merger, k) := add_property merger (cstr_at pool1 (p1.name &&& RAZOR_ENTRY_MASK))
            (cstr_at pool1 p1.version) (p1.name >>> 30)
          merge_properties_loop fuel (i + 1) j { merger with map1 := merger.map1.set i k }
        else if cmp > 0 then
          let (merger, k) := add_property merger (cstr_at pool2 (p2.name &&& RAZOR_ENTRY_MASK))
            (cstr_at pool2 p2.version) (p2.name >>> 30)
          merge_properties_loop fuel i (j + 1) { merger with map2 := merger.map2.set j k }
        else
          let (merger, k) := add_property merger (cstr_at pool1 (p1.name &&& RAZOR_ENTRY_MASK))
            (cstr_at pool1 p1.version) (p1.name >>> 30)
          merge_properties_loop fuel (i + 1) (j + 1)
            { merger with map1 := merger.map1.set i k, map2 := merger.map2.set j k }
    else merger

/-- Model of `merge_properties`. -/
def merge_properties (merger : razor_merger) : razor_merger :=
  merge_properties_loop
    (merger.source1.properties.length + merger.source2.properties.length) 0 0 merger

/-- The loop `while (1)` of `emit_properties` over the words `p` of the
source pool: the output pool afterwards; `none` on a read outside the map
or when the list runs off the source pool. -/
def emit_properties_loop (map : List Nat) : List Nat → List Nat → Option (List Nat)
  | [], _ => none
  | p :: rest, pool =>
    match map[p &&& RAZOR_ENTRY_MASK]? with
    | none => none
    | some m =>
      let pool := pool ++ [m ||| (p &&& (ULONG_ALL_ONES - RAZOR_ENTRY_MASK))]
      if p &&& RAZOR_ENTRY_LAST ≠ 0 then some pool else emit_properties_loop map rest pool

/-- Model of `emit_properties(source_pool, index, map, pool)`: the pool
afterwards and the returned offset. -/
def emit_properties (source_pool : List Nat) (index : Nat) (map : List Nat) (pool : List Nat) :
    Option (List Nat × Nat) :=
  match emit_properties_loop map (source_pool.drop index) pool with
  | none => none
  | some pool' => some (pool', pool.length)

/-- The loop of `razor_set_add` over the output packages, which emits the
property list of each and clears the flag in its name. -/
def razor_set_add_emit (merger : razor_merger) :
    List razor_package → List razor_package → List Nat →
      Option (List razor_package × List Nat)
  | [], done, pool => some (done, pool)
  | p :: rest, done, pool =>
    let upstream := p.name &&& UPSTREAM_SOURCE ≠ 0
    let source_pool :=
      if upstream then merger.source2.property_pool else merger.source1.property_pool
    let map := if upstream then merger.map2 else merger.map1
    match emit_properties source_pool p.properties map pool with
    | none => none
    | some (pool, r) =>
      razor_set_add_emit merger rest
        (done ++ [{ p with properties := r, name := p.name &&& INDEX_MASK }]) pool

/-- The inner loop `for (r = &pool[pkg->properties]; ; r++)` of
`rebuild_package_lists` for the package `pkg`, over the words `r` of the
property pool; `none` on a write outside `pkgs` or when the list runs off
the pool. -/
def rebuild_package_lists_push (pkg : Nat) :
    List Nat → List (List Nat) → Option (List (List Nat))
  | [], _ => none
  | r :: rest, pkgs =>
    match pkgs[r &&& RAZOR_ENTRY_MASK]? with
    | none => none
    | some l =>
      let pkgs := pkgs.set (r &&& RAZOR_ENTRY_MASK) (l ++ [pkg])
      if r &&& RAZOR_IMMEDIATE ≠ 0 then some pkgs else rebuild_package_lists_push pkg rest pkgs

/-- The loop over the packages of `rebuild_package_lists`, from package
`pkg`. -/
def rebuild_package_lists_scan (pool : List Nat) :
    List razor_package → Nat → List (List Nat) → Option (List (List Nat))
  | [], _, pkgs => some pkgs
  | p :: rest, pkg, pkgs =>
    match rebuild_package_lists_push pkg (pool.drop p.properties) pkgs with
    | none => none
    | some pkgs => rebuild_package_lists_scan pool rest (pkg + 1) pkgs

/-- The loop over the properties of `rebuild_package_lists`, which stores
the packages reference of each; the lists go to the property pool. -/
def rebuild_package_lists_emit :
    List razor_property → List (List Nat) → List Nat → List razor_property × List Nat
  | [], _, property_pool => ([], property_pool)
  | prop :: properties, pkgs, property_pool =>
    let a := pkgs.headD []
    let (property_pool, r) :=
      if a.length = 1 then (property_pool, a.headD 0 ||| RAZOR_IMMEDIATE)
      else add_to_property_pool property_pool a
    let (properties, property_pool) :=
      rebuild_package_lists_emit properties pkgs.tail property_pool
    ({ prop with packages := r } :: properties, property_pool)

/-- Model of `rebuild_package_lists`. -/
def rebuild_package_lists (set : razor_set) : Option razor_set :=
  match rebuild_package_lists_scan set.property_pool set.packages 0
      (List.replicate set.properties.length []) with
  | none => none
  | some pkgs =>
    let (properties, property_pool) :=
      rebuild_package_lists_emit set.properties pkgs set.property_pool
    some { set with properties := properties, property_pool := property_pool }

/-- Model of `razor_set_add(set, upstream, packages)`; `none` when the code
reads or writes outside an array. -/
def razor_set_add (set upstream : razor_set) (packages : List Nat) : Option razor_set :=
  match merge_packages (razor_merger_create set upstream) packages with
  | none => none
  | some merger =>
    let merger := merge_properties merger
    match razor_set_add_emit merger merger.set.packages [] merger.set.property_pool with
    | none => none
    | some (pkgs, pool) =>
      rebuild_package_lists { merger.set with packages := pkgs, property_pool := pool }

/-! ## Decoding a finished set, and the inputs of the examples -/

/-- The bytes of an ASCII string literal. -/
def bytes (s : String) : List Nat :=
  s.toList.map Char.toNat

/-- The values of `random()` given by a list, 0 after its end. -/
def rnd_of (values : List Nat) : Nat → Nat :=
  fun k => values.getD k 0

/-- Name and version strings of the packages of a set, in array order. -/
def package_keys (set : razor_set) : List (List Nat × List Nat) :=
  set.packages.map (fun p => (cstr_at set.string_pool p.name, cstr_at set.string_pool p.version))

/-- Name string, kind and version string of a property record. -/
def property_key (set : razor_set) (p : razor_property) : List Nat × Nat × List Nat :=
  (cstr_at set.string_pool (p.name &&& RAZOR_ENTRY_MASK), p.name >>> 30,
    cstr_at set.string_pool p.version)

/-- Keys of the properties of a set, in array order. -/
def property_keys (set : razor_set) : List (List Nat × Nat × List Nat) :=
  set.properties.map (property_key set)

/-- The order of the specification on property keys: by name string, then
by kind, then by `versioncmp` of the version strings. -/
def property_key_le (k1 k2 : List Nat × Nat × List Nat) : Bool :=
  decide (strcmp k1.1 k2.1 < 0) ||
    (decide (strcmp k1.1 k2.1 = 0) &&
      (decide (k1.2.1 < k2.2.1) ||
        (decide (k1.2.1 = k2.2.1) && decide (versioncmp k1.2.2 k2.2.2 ≤ 0))))

/-- The packages reference of each property of a set, in array order. -/
def property_packages (set : razor_set) : List Nat :=
  set.properties.map (fun p => p.packages)

/-- The properties reference of each package of a set, in array order. -/
def package_properties (set : razor_set) : List Nat :=
  set.packages.map (fun p => p.properties)

/-- Three packages named foo, added as 1.10, 1.2, 1.9; the first one
provides itself. -/
def calls_foo_versions : List importer_call :=
  [importer_call.begin_package (bytes "foo") (bytes "1.10"),
   importer_call.add_property (bytes "foo") (bytes "1.10") 1,
   importer_call.finish_package,
   importer_call.begin_package (bytes "foo") (bytes "1.2"),
   importer_call.finish_package,
   importer_call.begin_package (bytes "foo") (bytes "1.9"),
   importer_call.finish_package]

/-- Package foo 1.0 provides rpm = 4.0 and package bar 1.0 requires
rpm = 4.0. -/
def calls_rpm_kinds : List importer_call :=
  [importer_call.begin_package (bytes "foo") (bytes "1.0"),
   importer_call.add_property (bytes "rpm") (bytes "4.0") 1,
   importer_call.finish_package,
   importer_call.begin_package (bytes "bar") (bytes "1.0"),
   importer_call.add_property (bytes "rpm") (bytes "4.0") 0,
   importer_call.finish_package]

/-- Packages a, b, c requiring glibc = 2.0, glibc = 2.00 and glibc = 2.0. -/
def calls_glibc_versions : List importer_call :=
  [importer_call.begin_package (bytes "a") (bytes "1"),
   importer_call.add_property (bytes "glibc") (bytes "2.0") 0,
   importer_call.finish_package,
   importer_call.begin_package (bytes "b") (bytes "1"),
   importer_call.add_property (bytes "glibc") (bytes "2.00") 0,
   importer_call.finish_package,
   importer_call.begin_package (bytes "c") (bytes "1"),
   importer_call.add_property (bytes "glibc") (bytes "2.0") 0,
   importer_call.finish_package]

/-- Packages foo 1.0 and bar 1.0 both requiring rpm = 4.0. -/
def calls_rpm_shared : List importer_call :=
  [importer_call.begin_package (bytes "foo") (bytes "1.0"),
   importer_call.add_property (bytes "rpm") (bytes "4.0") 0,
   importer_call.finish_package,
   importer_call.begin_package (bytes "bar") (bytes "1.0"),
   importer_call.add_property (bytes "rpm") (bytes "4.0") 0,
   importer_call.finish_package]

/-- Two `add_property` calls, bar = 2.0 and baz = 3.0, around an
`add_file` call. -/
def calls_two_properties : List importer_call :=
  [importer_call.add_property (bytes "bar") (bytes "2.0") 0,
   importer_call.add_file (bytes "/usr/bin/foo"),
   importer_call.add_property (bytes "baz") (bytes "3.0") 0]

/-- Package foo 1.1 requiring zlib = 1.2 and package bar 2.0 requiring
glibc = 2.5. -/
def calls_single_properties : List importer_call :=
  [importer_call.begin_package (bytes "foo") (bytes "1.1"),
   importer_call.add_property (bytes "zlib") (bytes "1.2") 0,
   importer_call.finish_package,
   importer_call.begin_package (bytes "bar") (bytes "2.0"),
   importer_call.add_property (bytes "glibc") (bytes "2.5") 0,
   importer_call.finish_package]

/-- Names of the `files` entries of a set, in array order. -/
def file_names (set : razor_set) : List (List Nat) :=
  set.files.map (fun e => cstr_at set.string_pool (e.name &&& RAZOR_ENTRY_MASK))

/-- The calls for a package that provides itself. -/
def package_one (name version : List Nat) : List importer_call :=
  [importer_call.begin_package name version,
   importer_call.add_property name version 1,
   importer_call.finish_package]

/-- The calls for a package that provides itself and requires
`requires` = 2.0. -/
def package_two (name version requires : List Nat) : List importer_call :=
  [importer_call.begin_package name version,
   importer_call.add_property name version 1,
   importer_call.add_property requires (bytes "2.0") 0,
   importer_call.finish_package]

/-- The result of `razor_set_add` on the sets imported from `calls1` and
`calls2`. -/
def set_add_of (rnd1 rnd2 : Nat → Nat) (calls1 calls2 : List importer_call)
    (packages : List Nat) : Option razor_set :=
  match import_set rnd1 calls1, import_set rnd2 calls2 with
  | some set, some upstream => razor_set_add set upstream packages
  | _, _ => none

/-- The result of `razor_set_diff` on the sets imported from `calls1` and
`calls2`. -/
def set_diff_of (rnd1 rnd2 : Nat → Nat) (calls1 calls2 : List importer_call) :
    Option diff_result :=
  match import_set rnd1 calls1, import_set rnd2 calls2 with
  | some set, some upstream => some (razor_set_diff set upstream)
  | _, _ => none

/-- Package foo 1.0, which provides itself, with two manual pages. -/
def calls_man5_files : List importer_call :=
  [importer_call.begin_package (bytes "foo") (bytes "1.0"),
   importer_call.add_property (bytes "foo") (bytes "1.0") 1,
   importer_call.add_file (bytes "/usr/share/man/man5/foo.5"),
   importer_call.add_file (bytes "/usr/share/man/man5/foo.conf.5"),
   importer_call.finish_package]

/-- Package foo 1.0 providing itself and requiring bar = 2.0, and package
bar 2.0 providing itself. -/
def calls_bar_provided : List importer_call :=
  [importer_call.begin_package (bytes "foo") (bytes "1.0"),
   importer_call.add_property (bytes "foo") (bytes "1.0") 1,
   importer_call.add_property (bytes "bar") (bytes "2.0") 0,
   importer_call.finish_package,
   importer_call.begin_package (bytes "bar") (bytes "2.0"),
   importer_call.add_property (bytes "bar") (bytes "2.0") 1,
   importer_call.finish_package]

/-! ## Removals and insertions of a difference -/

/-- The call `callback(name, version, NULL, data)` that `razor_set_diff`
makes for the record `p` of the first set. -/
def removal_call (pool : List Nat) (p : razor_package) : diff_call :=
  { name := cstr_at pool p.name, old_version := some (cstr_at pool p.version),
    new_version := none }

/-- The call `callback(name, NULL, version, data)` that `razor_set_diff`
makes for the record `u` of the second set. -/
def insertion_call (pool : List Nat) (u : razor_package) : diff_call :=
  { name := cstr_at pool u.name, old_version := none,
    new_version := some (cstr_at pool u.version) }

/-- The removals the specification asks for: one for each record of `ps`
that no record of `us` equals in name and (under `versioncmp`) version. -/
def diff_removals (ppool upool : List Nat) (ps us : List razor_package) : List diff_call :=
  (ps.filter (fun p => us.all (fun u => decide (diff_compare ppool upool p u ≠ 0)))).map
    (removal_call ppool)

/-- The insertions the specification asks for: one for each record of `us`
that no record of `ps` equals in name and (under `versioncmp`) version. -/
def diff_insertions (ppool upool : List Nat) (ps us : List razor_package) : List diff_call :=
  (us.filter (fun u => ps.all (fun p => decide (diff_compare ppool upool p u ≠ 0)))).map
    (insertion_call upool)

/-- Strictly ascending package names, as `strcmp` orders them. -/
def names_ascending (pool : List Nat) (ps : List razor_package) : Prop :=
  ps.Pairwise (fun a b => strcmp (cstr_at pool a.name) (cstr_at pool b.name) < 0)

/-- What the calls made by `razor_set_diff` from the records `ps` and `us`
must be: the removals and the insertions of the specification, each in
array order, nothing else, in ascending order of name. -/
def diff_calls_ok (ppool upool : List Nat) (ps us : List razor_package)
    (calls : List diff_call) : Prop :=
  calls.filter (fun c => c.new_version.isNone) = diff_removals ppool upool ps us ∧
  calls.filter (fun c => c.old_version.isNone) = diff_insertions ppool upool ps us ∧
  (∀ c ∈ calls, (∃ p ∈ ps, c = removal_call ppool p) ∨ (∃ u ∈ us, c = insertion_call upool u)) ∧
  calls.Pairwise (fun c d => strcmp c.name d.name ≤ 0)

/-- The set A = {foo 1.1, bar 3.0}, each package providing itself. -/
def diff_set_a : razor_set :=
  (import_set (rnd_of [])
    (package_one (bytes "foo") (bytes "1.1") ++ package_one (bytes "bar") (bytes "3.0"))).getD
    razor_set_create

/-! ## Invariants of the importer and of a sort -/

/-- The array `l2` holds the elements of `l1` with those at the indices from
`b` to `e` rearranged among themselves. -/
def same_range {α : Type} (l1 l2 : List α) (b e : Nat) : Prop :=
  l2.length = l1.length ∧
  (∀ i, i < b ∨ e ≤ i → l2[i]? = l1[i]?) ∧
  (∀ i, b ≤ i → i < e → ∃ j, b ≤ j ∧ j < e ∧ l2[i]? = l1[j]?) ∧
  (∀ j, b ≤ j → j < e → ∃ i, b ≤ i ∧ i < e ∧ l2[i]? = l1[j]?)

/-- The elements of `l` at the indices from `b` to `e` are in the order
`le`. -/
def sorted_range {α : Type} (le : α → α → Prop) (l : List α) (b e : Nat) : Prop :=
  ∀ i j x y, b ≤ i → i < j → j < e → l[i]? = some x → l[j]? = some y → le x y

/-- The pool is empty or ends with a NUL. -/
def pool_terminated (pool : List Nat) : Prop :=
  pool = [] ∨ ∃ init, pool = init ++ [0]

/-- Every bucket of the table is empty or holds an offset inside the pool,
and the pool is empty or ends with a NUL. -/
def table_ok (table : hashtable) : Prop :=
  (∀ v ∈ table.buckets, v = 0 ∨ v < table.pool.length) ∧ pool_terminated table.pool

/-- The invariant of an importer: the table interns into the string pool of
the set, in which every bucket and every package name is an offset. -/
def importer_ok (importer : razor_importer) : Prop :=
  importer.table.pool = importer.set.string_pool ∧ table_ok importer.table ∧
  ∀ p ∈ importer.set.packages, p.name < importer.set.string_pool.length

/-- The names of the packages of a set, in array order. -/
def package_names (set : razor_set) : List (List Nat) :=
  set.packages.map (fun p => cstr_at set.string_pool p.name)

/-- The names given to `razor_importer_begin_package` in a list of calls,
in order. -/
def begin_names : List importer_call → List (List Nat)
  | [] => []
  | importer_call.begin_package n _ :: rest => n :: begin_names rest
  | _ :: rest => begin_names rest

/-- The order of two package records by name, as `strcmp` orders the names
in `pool`. -/
def package_name_le (pool : List Nat) (x y : razor_package) : Prop :=
  strcmp (cstr_at pool x.name) (cstr_at pool y.name) ≤ 0

/-- Two packages, foo 1.0 and bar 2.0, each providing itself. -/
def calls_foo_bar : List importer_call :=
  package_one (bytes "foo") (bytes "1.0") ++ package_one (bytes "bar") (bytes "2.0")

/-- The set imported from `calls_foo_bar`. -/
def set_foo_bar : razor_set :=
  (import_set (rnd_of []) calls_foo_bar).getD razor_set_create

/-! ## The directory tree and its layout in the files section -/

/-- The directory reached from `d` by the child indices `path`. -/
def node_at : import_directory → List Nat → Option import_directory
  | d, [] => some d
  | d, k :: path =>
    match d.files[k]? with
    | none => none
    | some c => node_at c path

/-- The index in `files` of the entry reached from the entry at index `i`
by the child indices `path`: child `k` of an entry is `k` entries after its
`start`. -/
def entry_at (files : List razor_entry) : Nat → List Nat → Option Nat
  | i, [] => some i
  | i, k :: path =>
    match files[i]? with
    | none => none
    | some e => entry_at files (e.start + k) path

/-- The sum of the `count` fields of the first `k` directories of a list:
the number of entries that their subtrees take. -/
def counts_before (files : List import_directory) (k : Nat) : Nat :=
  ((files.take k).map (fun p => p.count)).sum

/-- The index at which the children of the directory reached from `d` by
`path` are stored, when those of `d` are stored from index `b`: after the
children of the parent come the subtrees of the elder siblings. -/
def children_base : import_directory → Nat → List Nat → Option Nat
  | _, b, [] => some b
  | d, b, k :: path =>
    match d.files[k]? with
    | none => none
    | some c => children_base c (b + d.files.length + counts_before d.files k) path

/-- Every directory of the tree `d` satisfies `q`. -/
def all_nodes (q : import_directory → Prop) (d : import_directory) : Prop :=
  ∀ path D, node_at d path = some D → q D

/-- No directory of the tree `d` lies more than `n` levels below `d`. -/
def depth_le (d : import_directory) (n : Nat) : Prop :=
  ∀ path D, node_at d path = some D → path.length ≤ n

/-- The `count` field of a directory is the number of directories below
it. -/
def counted (D : import_directory) : Prop :=
  D.count = (D.files.map (fun p => p.count + 1)).sum

/-- The entries of the children of every directory of the tree `d` are in
`A` where `serialize_files` puts them when the children of `d` go to index
`b`: consecutive, `RAZOR_ENTRY_LAST` on the last one only, and `start` at
the index of the first grandchild, or 0 without one. -/
def laid_out (d : import_directory) (b : Nat) (A : List razor_entry) : Prop :=
  ∀ path D cb, node_at d path = some D → children_base d b path = some cb →
    ∀ k c, D.files[k]? = some c →
      ∃ ec, A[cb + k]? = some ec ∧
        ec.name = (if k + 1 = D.files.length then c.name ||| RAZOR_ENTRY_LAST else c.name) ∧
        ec.start = (if c.count > 0 then cb + D.files.length + counts_before D.files k else 0)

/-- The statement `if (e != NULL) e->name |= RAZOR_ENTRY_LAST;` of
`serialize_files`, on the array after the entries of the children of `d`
have been added. -/
def mark_last (d : import_directory) (array : List razor_entry) : List razor_entry :=
  if d.files.length = 0 then array
  else
    match array.getLast? with
    | some e => array.dropLast ++ [{ e with name := e.name ||| RAZOR_ENTRY_LAST }]
    | none => array

/-- The children of `d` after the step `if (d->last == NULL || d->last->name
!= name) d->last = array_add(&d->files, ...)` of `build_file_tree` for the
component `name`. -/
def walk_files (d : import_directory) (name : Nat) : List import_directory :=
  match d.files.getLast? with
  | none => d.files ++ [import_directory.mk name 0 [] []]
  | some last =>
    if last.name ≠ name then d.files ++ [import_directory.mk name 0 [] []] else d.files

/-- The directory tree of `build_file_tree` as it is when `serialize_files`
is called: built by the loop over the sorted file names and counted by
`count_entries`. -/
def build_file_tree_root (rnd : Nat → Nat) (calls : Nat) (importer : razor_importer) :
    Option import_directory :=
  let (filenames, _, _) := qsort_with_data compare_filenames rnd calls importer.files
  let (importer, name) := razor_importer_tokenize importer (some [])
  match build_file_tree_loop filenames importer (import_directory.mk name 0 [] []) with
  | none => none
  | some (_, root) =>
    some (count_entries ((filenames.map (fun e => e.name.length)).foldl max 0 + 1) root)

/-- The directory tree that `razor_importer_finish` serializes after the
calls `calls` on a new importer. -/
def import_file_tree (rnd : Nat → Nat) (calls : List importer_call) : Option import_directory :=
  match run_calls razor_importer_new calls with
  | none => none
  | some importer =>
    match uniqueify_properties rnd 0 importer.set with
    | none => none
    | some (set, map, calls) =>
      let set := { set with property_pool := remap_links set.property_pool map }
      let (packages, _, calls) :=
        qsort_with_data (compare_packages set.string_pool) rnd calls set.packages
      build_file_tree_root rnd calls { importer with set := { set with packages := packages } }

/-- Package foo 1.0, which provides itself, with three files in two
directories, one of them nested. -/
def calls_tree_files : List importer_call :=
  [importer_call.begin_package (bytes "foo") (bytes "1.0"),
   importer_call.add_property (bytes "foo") (bytes "1.0") 1,
   importer_call.add_file (bytes "/etc/foo.d/a"),
   importer_call.add_file (bytes "/bin/foo"),
   importer_call.add_file (bytes "/etc/foo.conf"),
   importer_call.finish_package]

/-- The set imported from `calls_tree_files`. -/
def set_tree_files : razor_set :=
  (import_set (rnd_of []) calls_tree_files).getD razor_set_create

/-! ## Inputs and decoders of the later examples -/

/-- The set imported from bar 3.0 and foo 1.1, the packages of `diff_set_a`
added in the other order. -/
def diff_set_a_reordered : razor_set :=
  (import_set (rnd_of [])
    (package_one (bytes "bar") (bytes "3.0") ++ package_one (bytes "foo") (bytes "1.1"))).getD
    razor_set_create

/-- The indices that iterating over the properties of package `k` of a set
yields. -/
def package_property_iteration (set : razor_set) (k : Nat) : Option (List Nat) :=
  match set.packages[k]? with
  | none => none
  | some p =>
    property_iterator_run set (set.property_pool.length + 1)
      (razor_property_iterator_create set (some p))

/-- Package foo 1.0 requiring a = 1 and b = 1, and package bar 1.0 requiring
c = 1 and d = 1. -/
def calls_two_lists : List importer_call :=
  [importer_call.begin_package (bytes "foo") (bytes "1.0"),
   importer_call.add_property (bytes "a") (bytes "1") 0,
   importer_call.add_property (bytes "b") (bytes "1") 0,
   importer_call.finish_package,
   importer_call.begin_package (bytes "bar") (bytes "1.0"),
   importer_call.add_property (bytes "c") (bytes "1") 0,
   importer_call.add_property (bytes "d") (bytes "1") 0,
   importer_call.finish_package]

/-! ## Reference lists of a finished set -/

/-- The words of the list that a reference field `r` denotes, read the way
`build_package_file_lists` reads `e->packages`: no word for `~0`, the field
itself when it has `RAZOR_IMMEDIATE`, else the words of `pool` from offset
`r` up to the first one with `RAZOR_IMMEDIATE`; each word is masked with
`RAZOR_ENTRY_MASK`.  This is the encoding that `add_to_property_pool`
writes. -/
def reference_words (pool : List Nat) (r : Nat) : Option (List Nat) :=
  if r = ULONG_ALL_ONES then some [] else reference_list pool r

/-- The lists `pkgs` that `build_package_file_lists` has collected after
the entries `done`: the list of package `P` is ascending and holds exactly
the indices of the entries of `done` whose packages list contains `P`. -/
def file_lists_ok (pool : List Nat) (done : List razor_entry) (pkgs : List (List Nat)) : Prop :=
  ∀ (P : Nat) (l : List Nat), pkgs[P]? = some l →
    l.Pairwise (fun a b => a ≤ b) ∧
    ∀ x : Nat, x ∈ l ↔ ∃ entry ws, done[x]? = some entry ∧
      reference_words pool entry.packages = some ws ∧ P ∈ ws

/-! ## Invariant of the property scan, and an example with two kinds -/

/-- The invariant of the first loop of `uniqueify_properties` before step
`i`, over the sorted array `sorted` and the map `map` of the sort: the
records from `i` on are untouched; every record handled so far is
represented, at the index that `rmap` gives its old index, by a record at or
below `up` with its name word and its version; the list `pkgs[u]` holds
exactly the packages of the records represented by `u`; and every index up
to `up` represents some record. -/
def uniqueify_scan_ok (sorted : List razor_property) (map : List Nat) (i : Nat)
    (st : uniqueify_state) : Prop :=
  st.properties.length = sorted.length ∧ st.rmap.length = sorted.length ∧
  st.pkgs.length = sorted.length ∧
  ((i = 0 ∧ st.up = 0) ∨ st.up < i) ∧
  (∀ k : Nat, i ≤ k → st.properties[k]? = sorted[k]?) ∧
  (∀ (k m : Nat) (p : razor_property), k < i → map[k]? = some m → sorted[k]? = some p →
    ∃ u q, st.rmap[m]? = some u ∧ u ≤ st.up ∧ st.properties[u]? = some q ∧
      q.name = p.name ∧ q.version = p.version) ∧
  (∀ (u : Nat) (l : List Nat), st.pkgs[u]? = some l →
    ∀ x : Nat, x ∈ l ↔ ∃ k m p, k < i ∧ map[k]? = some m ∧ st.rmap[m]? = some u ∧
      sorted[k]? = some p ∧ p.packages = x) ∧
  (0 < i → ∀ u : Nat, u ≤ st.up → ∃ k m, k < i ∧ map[k]? = some m ∧ st.rmap[m]? = some u)

/-- Package foo 1.0, which requires x = 1 and provides x = 1. -/
def calls_requires_provides : List importer_call :=
  [importer_call.begin_package (bytes "foo") (bytes "1.0"),
   importer_call.add_property (bytes "x") (bytes "1") 0,
   importer_call.add_property (bytes "x") (bytes "1") 1,
   importer_call.finish_package]

/-- The importer after the calls `calls_requires_provides`. -/
def importer_requires_provides : razor_importer :=
  (run_calls razor_importer_new calls_requires_provides).getD razor_importer_new

/-! ## Names and versions of the packages begun -/

/-- Every version offset of a package record lies inside the string pool. -/
def versions_ok (importer : razor_importer) : Prop :=
  ∀ p ∈ importer.set.packages, p.version < importer.set.string_pool.length

/-- The names and versions given to `razor_importer_begin_package` in a list
of calls, in order. -/
def begin_keys : List importer_call → List (List Nat × List Nat)
  | [] => []
  | importer_call.begin_package n v :: rest => (n, v) :: begin_keys rest
  | _ :: rest => begin_keys rest

/-- The order of two (name, version) keys by name, as `strcmp` orders the
names. -/
def key_name_lt (k1 k2 : List Nat × List Nat) : Prop :=
  strcmp k1.1 k2.1 < 0

/-- The calls for a package without properties and files. -/
def package_bare (name version : List Nat) : List importer_call :=
  [importer_call.begin_package name version, importer_call.finish_package]

/-- Package a 1, which provides itself, then foo 2.0 and foo 2.00. -/
def calls_foo_tie : List importer_call :=
  package_one (bytes "a") (bytes "1") ++ package_bare (bytes "foo") (bytes "2.0") ++
    package_bare (bytes "foo") (bytes "2.00")

/-- The packages of `calls_foo_tie` with the last two exchanged. -/
def calls_foo_tie_reordered : List importer_call :=
  package_one (bytes "a") (bytes "1") ++ package_bare (bytes "foo") (bytes "2.00") ++
    package_bare (bytes "foo") (bytes "2.0")

/-- The packages of `calls_foo_bar` in the other order: bar 2.0, then
foo 1.0. -/
def calls_bar_foo : List importer_call :=
  package_one (bytes "bar") (bytes "2.0") ++ package_one (bytes "foo") (bytes "1.0")

/-- The set imported from `calls_bar_foo`. -/
def set_bar_foo : razor_set :=
  (import_set (rnd_of []) calls_bar_foo).getD razor_set_create

/-! ## Owners of the file entries -/

/-- The package index of every file added, and the current package, lie
inside the package array (index 0 stands for a file added before any
package). -/
def files_ok (importer : razor_importer) : Prop :=
  (∀ e ∈ importer.files, e.package < max 1 importer.set.packages.length) ∧
  ∀ p : Nat, importer.package = some p → p < importer.set.packages.length

/-- The entry of every directory below `d` is in `A` where `serialize_files`
puts it when the children of `d` go to index `b`, and its `packages` field
denotes, in `pool`, the packages of the directory in the order in which
`build_file_tree` added them. -/
def owners_laid_out (d : import_directory) (b : Nat) (A : List razor_entry)
    (pool : List Nat) : Prop :=
  ∀ path D cb, node_at d path = some D → children_base d b path = some cb →
    ∀ k c, D.files[k]? = some c →
      ∃ ec, A[cb + k]? = some ec ∧ reference_words pool ec.packages = some c.packages

/-- What `build_package_file_lists` stores in the `packages` field of an
entry: an inline index is renumbered through `rmap`. -/
def remap_entry (rmap : List Nat) (entry : razor_entry) : razor_entry :=
  if entry.packages = ULONG_ALL_ONES then entry
  else if entry.packages &&& RAZOR_IMMEDIATE ≠ 0 then
    { entry with
      packages := rmap.getD (entry.packages &&& RAZOR_ENTRY_MASK) 0 ||| RAZOR_IMMEDIATE }
  else entry

/-- Package foo 1.0 and then package bar 2.0, each providing itself and
each with the file /a. -/
def calls_shared_file : List importer_call :=
  [importer_call.begin_package (bytes "foo") (bytes "1.0"),
   importer_call.add_property (bytes "foo") (bytes "1.0") 1,
   importer_call.add_file (bytes "/a"),
   importer_call.finish_package,
   importer_call.begin_package (bytes "bar") (bytes "2.0"),
   importer_call.add_property (bytes "bar") (bytes "2.0") 1,
   importer_call.add_file (bytes "/a"),
   importer_call.finish_package]

/-- The set imported from `calls_shared_file`. -/
def set_shared_file : razor_set :=
  (import_set (rnd_of []) calls_shared_file).getD razor_set_create

/-! ## Satisfying requirements, buffers with their bytes, and the inputs of the last examples -/

/-- The kind `RAZOR_PROPERTY_PROVIDES` of `enum razor_property_type`. -/
def RAZOR_PROPERTY_PROVIDES : Nat := 1

/-- The loop `while (p < pend && strcmp(&pool[r->name & RAZOR_ENTRY_MASK],
&upool[p->name & RAZOR_ENTRY_MASK]) > 0 && (p->name >> 30) !=
RAZOR_PROPERTY_PROVIDES) p++;` of `razor_set_satisfy`, `name` being the name
string of `r`. -/
def satisfy_seek (upool : List Nat) (properties : List razor_property) (name : List Nat) :
    Nat → Nat → Nat
  | 0, p => p
  | fuel + 1, p =>
    match properties[p]? with
    | some q =>
      if strcmp name (cstr_at upool (q.name &&& RAZOR_ENTRY_MASK)) > 0
          ∧ q.name >>> 30 ≠ RAZOR_PROPERTY_PROVIDES then
        satisfy_seek upool properties name fuel (p + 1)
      else p
    | none => p

/-- The loop `for (u = unsatisfied->data; u < end; u++)` of
`razor_set_satisfy` over the indices `u` left, with `p` as the previous
round left it and the `list` so far; `none` when `*u` is not the index of a
property of `set` or the package pool of `upstream` is read outside its
words.  The second seek is the loop `while (p + 1 < pend && p->name ==
(p + 1)->name) p++;`, the same as in `razor_set_validate`. -/
def satisfy_loop (set upstream : razor_set) : List Nat → Nat → List Nat → Option (List Nat)
  | [], _, list => some list
  | u :: rest, p, list =>
    match set.properties[u]? with
    | none => none
    | some r =>
      let name := cstr_at set.string_pool (r.name &&& RAZOR_ENTRY_MASK)
      let count := upstream.properties.length
      let p := satisfy_seek upstream.string_pool upstream.properties name count p
      let p := validate_last upstream.properties count p
      match upstream.properties[p]? with
      | none => satisfy_loop set upstream rest p list
      | some pp =>
        if strcmp name (cstr_at upstream.string_pool (pp.name &&& RAZOR_ENTRY_MASK)) ≠ 0
            ∨ versioncmp (cstr_at set.string_pool r.version)
                (cstr_at upstream.string_pool pp.version) > 0 then
          satisfy_loop set upstream rest p list
        else if pp.packages &&& RAZOR_IMMEDIATE ≠ 0 then
          satisfy_loop set upstream rest p (list ++ [pp.packages &&& RAZOR_ENTRY_MASK])
        else
          match upstream.package_pool[pp.packages]? with
          | none => none
          | some pkg => satisfy_loop set upstream rest p (list ++ [pkg])

/-- Model of `razor_set_satisfy(set, unsatisfied, upstream, list)` on an
empty `list`: the words appended to `list`. -/
def razor_set_satisfy (set upstream : razor_set) (unsatisfied : List Nat) :
    Option (List Nat) :=
  satisfy_loop set upstream unsatisfied 0 []

/-- The words that `razor_set_satisfy` appends for the sets imported from
`calls1` and `calls2`, the requirements being those that
`razor_set_validate` reports for the first set. -/
def satisfy_of (calls1 calls2 : List importer_call) : Option (List Nat) :=
  match import_set (rnd_of []) calls1, import_set (rnd_of []) calls2 with
  | some set, some upstream => razor_set_satisfy set upstream (razor_set_validate set)
  | _, _ => none

/-- Packages aaa 1.0 and bar 2.0, each providing itself. -/
def calls_aaa_bar : List importer_call :=
  package_one (bytes "aaa") (bytes "1.0") ++ package_one (bytes "bar") (bytes "2.0")

/-- Package foo 1.0, which provides itself, with the files /a, /a-b and
/a/b. -/
def calls_dash_files : List importer_call :=
  [importer_call.begin_package (bytes "foo") (bytes "1.0"),
   importer_call.add_property (bytes "foo") (bytes "1.0") 1,
   importer_call.add_file (bytes "/a"),
   importer_call.add_file (bytes "/a-b"),
   importer_call.add_file (bytes "/a/b"),
   importer_call.finish_package]

/-- Package foo 1.0 providing itself and requiring x = 1. -/
def calls_foo_requires_x : List importer_call :=
  [importer_call.begin_package (bytes "foo") (bytes "1.0"),
   importer_call.add_property (bytes "foo") (bytes "1.0") 1,
   importer_call.add_property (bytes "x") (bytes "1") 0,
   importer_call.finish_package]

/-- Package bar 1.0 providing itself and providing x = 1. -/
def calls_bar_provides_x : List importer_call :=
  [importer_call.begin_package (bytes "bar") (bytes "1.0"),
   importer_call.add_property (bytes "bar") (bytes "1.0") 1,
   importer_call.add_property (bytes "x") (bytes "1") 1,
   importer_call.finish_package]

/-- The table after `hashtable_tokenize` of foo, 1.0, rpm and 4.0 on a new
table over an empty pool. -/
def table_four_keys : hashtable :=
  (tokenize_all (hashtable_init []) [bytes "foo", bytes "1.0", bytes "rpm", bytes "4.0"]).1

/-- Model of `struct array` with the bytes of its buffer: `data` holds the
bytes that `array->data` points to, `size` and `alloc` are the two `int`
fields. -/
structure byte_array where
  data : List Nat
  size : Int
  alloc : Int
deriving DecidableEq, Repr

/-- Model of `array_init`: all fields zero, `data` being `NULL`. -/
def array_init : byte_array :=
  { data := [], size := 0, alloc := 0 }

/-- The loop `while (alloc < array->size + size) alloc *= 2;` of `array_add`
in `int` arithmetic, `need` being `array->size + size`; a product outside the
range of `int` wraps, as it does on the machines the code runs on.  After 32
doublings `alloc` is 0 and stays 0, so a loop that has not ended within the
33 rounds that `array_add` gives it never ends: `none`. -/
def array_add_loop : Nat → Int → Int → Option Int
  | 0, _, _ => none
  | fuel + 1, alloc, need =>
    if alloc < need then array_add_loop fuel (to_int (alloc * 2)) need else some alloc

/-- Model of `array_add(array, size)`: the array afterwards and the returned
pointer as its offset from `array->data`, `none` for the returned 0.  The
argument `realloc` is `none` when the call of `realloc` returns `NULL`, and
otherwise gives the bytes that the larger block holds past the old ones,
which the library leaves indeterminate.  The result is `none` when the loop
does not end. -/
def array_add (array : byte_array) (size : Int) (realloc : Option (Nat → Nat)) :
    Option (byte_array × Option Int) :=
  let alloc := if array.alloc > 0 then array.alloc else 16
  match array_add_loop 33 alloc (to_int (array.size + size)) with
  | none => none
  | some alloc =>
    if array.alloc < alloc then
      match realloc with
      | none => some (array, none)
      | some fresh =>
        some ({ data := array.data
                  ++ (List.range (alloc.toNat - array.data.length)).map fresh,
                size := to_int (array.size + size), alloc := alloc }, some array.size)
    else some ({ array with size := to_int (array.size + size) }, some array.size)

/-- The states of an array that `array_init` and `array_add` produce: the
capacity is 0 or 16 times a power of two within `int`, the size is between 0
and the capacity, and the buffer holds as many bytes as the capacity. -/
def array_ok (array : byte_array) : Prop :=
  (array.alloc = 0 ∨ ∃ j : Nat, j ≤ 26 ∧ array.alloc = 16 * 2 ^ j) ∧
  0 ≤ array.size ∧ array.size ≤ array.alloc ∧ (array.data.length : Int) = array.alloc

/-- Packages foo 1.2, foo 1.9 and foo 1.10, added in this order; the last
one provides itself. -/
def calls_foo_versions_ascending : List importer_call :=
  [importer_call.begin_package (bytes "foo") (bytes "1.2"),
   importer_call.finish_package,
   importer_call.begin_package (bytes "foo") (bytes "1.9"),
   importer_call.finish_package,
   importer_call.begin_package (bytes "foo") (bytes "1.10"),
   importer_call.add_property (bytes "foo") (bytes "1.10") 1,
   importer_call.finish_package]

/-! ## The string table -/

/-- C1: on a new table over an empty pool, tokenizing "foo" three times
returns the offsets 0, 4 and 4: the first two calls on the same string
return different offsets. -/
theorem tokenize_same_string_twice :
    (tokenize_all (hashtable_init []) [bytes "foo", bytes "foo", bytes "foo"]).2 = [0, 4, 4] := by
  decide!

/-- C2: the first call of `hashtable_tokenize` on a new table over an empty
pool returns the offset 0, whatever the string (also for `NULL`); for foo
the pool then holds foo at offset 0. -/
theorem tokenize_first_offset_zero :
    (∀ string : Option (List Nat), (hashtable_tokenize (hashtable_init []) string).2 = 0) ∧
    cstr_at (hashtable_tokenize (hashtable_init []) (some (bytes "foo"))).1.pool 0
      = bytes "foo" := by
  constructor
  · intro string
    rfl
  · decide!

/-- C3: after tokenizing foo, 1.0, rpm, 4.0, bar on a new table, which
returned the offset 8 for rpm, the pool holds rpm at offset 8 and
`hashtable_lookup` of rpm returns 0. -/
theorem lookup_lost_after_rehash :
    (tokenize_all (hashtable_init [])
        [bytes "foo", bytes "1.0", bytes "rpm", bytes "4.0", bytes "bar"]).2
      = [0, 4, 8, 12, 16] ∧
    cstr_at (tokenize_all (hashtable_init [])
        [bytes "foo", bytes "1.0", bytes "rpm", bytes "4.0", bytes "bar"]).1.pool 8
      = bytes "rpm" ∧
    hashtable_lookup (tokenize_all (hashtable_init [])
        [bytes "foo", bytes "1.0", bytes "rpm", bytes "4.0", bytes "bar"]).1 (bytes "rpm")
      = 0 := by
  decide!

/-! ## The finished set -/

/-- C4: for packages foo 1.10, foo 1.2, foo 1.9 added in this order,
`razor_importer_finish` does not return the packages in the order 1.2,
1.9, 1.10, whichever of 0, 1, 2 each of the first three calls of `random()`
returns (the sorts of this run make at most three calls, on at most three
elements, so this covers every choice of pivots); with `random()`
returning 0 the order is 1.10, 1.2, 1.9. -/
theorem finish_packages_foo_not_sorted :
    (∀ a b c : Fin 3,
      (import_set (rnd_of [a.val, b.val, c.val]) calls_foo_versions).map package_keys
        ≠ some [(bytes "foo", bytes "1.2"), (bytes "foo", bytes "1.9"),
            (bytes "foo", bytes "1.10")]) ∧
    (import_set (rnd_of []) calls_foo_versions).map package_keys
      = some [(bytes "foo", bytes "1.10"), (bytes "foo", bytes "1.2"),
          (bytes "foo", bytes "1.9")] := by
  decide!

/-- C5: when foo 1.0 provides rpm = 4.0 and bar 1.0 requires rpm = 4.0,
the finished property array is rpm PROVIDES 4.0 followed by rpm REQUIRES
4.0, whichever of 0, 1 each of the two calls of `random()` returns; this is
not ascending in the order of the specification (equal names, kind 1
before kind 0). -/
theorem finish_properties_not_sorted :
    (∀ a b : Fin 2,
      (import_set (rnd_of [a.val, b.val]) calls_rpm_kinds).map property_keys
        = some [(bytes "rpm", 1, bytes "4.0"), (bytes "rpm", 0, bytes "4.0")]) ∧
    property_key_le (bytes "rpm", 1, bytes "4.0") (bytes "rpm", 0, bytes "4.0") = false := by
  decide!

/-- C6: when a, b, c require glibc = 2.0, glibc = 2.00 and glibc = 2.0,
the finished set has three property records, the first and the third with
the same name, kind and version, whichever of 0, 1, 2 each of the first
three calls of `random()` returns. -/
theorem finish_properties_duplicate_key :
    ∀ a b c : Fin 3,
      (import_set (rnd_of [a.val, b.val, c.val]) calls_glibc_versions).map property_keys
        = some [(bytes "glibc", 0, bytes "2.0"), (bytes "glibc", 0, bytes "2.00"),
            (bytes "glibc", 0, bytes "2.0")] := by
  decide!

/-- C7: when foo 1.0 and bar 1.0 both require rpm = 4.0, the finished set
has two property records rpm REQUIRES 4.0, whose packages references are
the single packages 1 (foo) and 0 (bar), whichever of 0, 1 each of the two
calls of `random()` returns. -/
theorem finish_shared_property_two_records :
    ∀ a b : Fin 2,
      (import_set (rnd_of [a.val, b.val]) calls_rpm_shared).map package_keys
        = some [(bytes "bar", bytes "1.0"), (bytes "foo", bytes "1.0")] ∧
      (import_set (rnd_of [a.val, b.val]) calls_rpm_shared).map property_keys
        = some [(bytes "rpm", 0, bytes "4.0"), (bytes "rpm", 0, bytes "4.0")] ∧
      (import_set (rnd_of [a.val, b.val]) calls_rpm_shared).map property_packages
        = some [1 ||| RAZOR_IMMEDIATE, 0 ||| RAZOR_IMMEDIATE] := by
  decide!

/-- C8: when foo 1.1 requires zlib = 1.2 and bar 2.0 requires glibc = 2.5,
the finished set has the packages bar, foo and the properties glibc, zlib,
while bar keeps the inline reference to property 1 (zlib, whose packages
reference is package 1, foo) and foo the one to property 0 (glibc, whose
packages reference is package 0, bar), whichever of 0, 1 each of the two
calls of `random()` returns. -/
theorem finish_inline_property_not_remapped :
    ∀ a b : Fin 2,
      (import_set (rnd_of [a.val, b.val]) calls_single_properties).map package_keys
        = some [(bytes "bar", bytes "2.0"), (bytes "foo", bytes "1.1")] ∧
      (import_set (rnd_of [a.val, b.val]) calls_single_properties).map package_properties
        = some [1 ||| RAZOR_IMMEDIATE, 0 ||| RAZOR_IMMEDIATE] ∧
      (import_set (rnd_of [a.val, b.val]) calls_single_properties).map property_keys
        = some [(bytes "glibc", 0, bytes "2.5"), (bytes "zlib", 0, bytes "1.2")] ∧
      (import_set (rnd_of [a.val, b.val]) calls_single_properties).map property_packages
        = some [0 ||| RAZOR_IMMEDIATE, 1 ||| RAZOR_IMMEDIATE] := by
  decide!

/-! ## Property lists of a package -/

theorem add_property_fields (importer : razor_importer) (name version : List Nat) (type : Nat) :
    (razor_importer_add_property importer name version type).set.packages
      = importer.set.packages ∧
    (razor_importer_add_property importer name version type).set.properties.length
      = importer.set.properties.length + 1 ∧
    (razor_importer_add_property importer name version type).set.property_pool
      = importer.set.property_pool ∧
    (razor_importer_add_property importer name version type).package = importer.package ∧
    (razor_importer_add_property importer name version type).properties
      = importer.properties ++ [importer.set.properties.length] := by
  refine ⟨rfl, ?_, rfl, rfl, rfl⟩
  have h : ∃ prop, (razor_importer_add_property importer name version type).set.properties
      = importer.set.properties ++ [prop] := ⟨_, rfl⟩
  obtain ⟨prop, hp⟩ := h
  rw [hp, List.length_append, List.length_singleton]

theorem begin_package_fields (importer : razor_importer) (name version : List Nat) :
    ∃ pkg : razor_package,
      (razor_importer_begin_package importer name version).set.packages
        = importer.set.packages ++ [pkg] ∧
      (razor_importer_begin_package importer name version).set.properties
        = importer.set.properties ∧
      (razor_importer_begin_package importer name version).set.property_pool
        = importer.set.property_pool ∧
      (razor_importer_begin_package importer name version).package
        = some importer.set.packages.length ∧
      (razor_importer_begin_package importer name version).properties = [] :=
  ⟨_, rfl, rfl, rfl, rfl, rfl⟩

/-- Calls of `add_property` and `add_file` leave the packages, the property
pool and the current package as they are, and push the indices of the new
property records on the scratch list. -/
theorem run_calls_adds (calls : List importer_call) :
    ∀ importer : razor_importer, (∀ c ∈ calls, c.is_add = true) →
      ∃ importer', run_calls importer calls = some importer' ∧
        importer'.set.packages = importer.set.packages ∧
        importer'.set.property_pool = importer.set.property_pool ∧
        importer'.package = importer.package ∧
        importer'.set.properties.length
          = importer.set.properties.length + count_add_property calls ∧
        importer'.properties
          = importer.properties
            ++ List.range' importer.set.properties.length (count_add_property calls) := by
  induction calls with
  | nil => intro importer _; exact ⟨importer, rfl, rfl, rfl, rfl, rfl, by simp [count_add_property]⟩
  | cons c rest ih =>
    intro importer h
    have hc := h c (List.mem_cons_self _ _)
    have hrest : ∀ c ∈ rest, c.is_add = true := fun c hm => h c (List.mem_cons_of_mem _ hm)
    cases c with
    | begin_package n v => simp [importer_call.is_add] at hc
    | finish_package => simp [importer_call.is_add] at hc
    | add_file n =>
      obtain ⟨i', h1, h2, h3, h4, h5, h6⟩ := ih (razor_importer_add_file importer n) hrest
      refine ⟨i', ?_, ?_, ?_, ?_, ?_, ?_⟩
      · simpa [run_calls] using h1
      · simpa [razor_importer_add_file] using h2
      · simpa [razor_importer_add_file] using h3
      · simpa [razor_importer_add_file] using h4
      · simpa [razor_importer_add_file, count_add_property] using h5
      · simpa [razor_importer_add_file, count_add_property] using h6
    | add_property n v t =>
      obtain ⟨i', h1, h2, h3, h4, h5, h6⟩ := ih (razor_importer_add_property importer n v t) hrest
      obtain ⟨f1, f2, f3, f4, f5⟩ := add_property_fields importer n v t
      refine ⟨i', ?_, ?_, ?_, ?_, ?_, ?_⟩
      · simpa [run_calls] using h1
      · rw [h2, f1]
      · rw [h3, f3]
      · rw [h4, f4]
      · rw [h5, f2]; simp [count_add_property]; omega
      · rw [h6, f5, f2]
        simp [count_add_property, List.range'_succ]

theorem and_immediate_of_lt (w : Nat) (h : w < 2 ^ 31) : w &&& RAZOR_IMMEDIATE = 0 := by
  apply Nat.eq_of_testBit_eq
  intro i
  have h2 : RAZOR_IMMEDIATE = 2 ^ 31 := by decide
  rw [h2, Nat.testBit_and, Nat.testBit_two_pow, Nat.zero_testBit]
  by_cases hi : 31 = i
  · subst hi
    simp [Nat.testBit_lt_two_pow h]
  · simp [hi]

theorem or_immediate_and (w : Nat) : (w ||| RAZOR_IMMEDIATE) &&& RAZOR_IMMEDIATE = RAZOR_IMMEDIATE := by
  apply Nat.eq_of_testBit_eq
  intro i
  simp only [Nat.testBit_and, Nat.testBit_or]
  cases Nat.testBit w i <;> simp

theorem run_calls_append (calls1 calls2 : List importer_call) :
    ∀ importer : razor_importer,
      run_calls importer (calls1 ++ calls2)
        = (run_calls importer calls1).bind (fun importer' => run_calls importer' calls2) := by
  induction calls1 with
  | nil => intro importer; rfl
  | cons c rest ih =>
    intro importer
    cases c with
    | begin_package n v => simpa [run_calls] using ih _
    | add_property n v t => simpa [run_calls] using ih _
    | add_file n => simpa [run_calls] using ih _
    | finish_package =>
      simp only [List.cons_append, run_calls]
      cases razor_importer_finish_package importer with
      | none => rfl
      | some importer' => simpa using ih importer'

theorem add_to_property_pool_range (pool : List Nat) (n0 k : Nat) :
    add_to_property_pool pool (List.range' n0 (k + 2))
      = (pool ++ List.range' n0 (k + 1) ++ [(n0 + (k + 1)) ||| RAZOR_IMMEDIATE], pool.length) := by
  have h : List.range' n0 (k + 2) = List.range' n0 (k + 1) ++ [n0 + (k + 1)] := by
    rw [List.range'_1_concat]
  have hl : (List.range' n0 (k + 2)).length = k + 2 := List.length_range' _ _ _
  unfold add_to_property_pool
  rw [if_neg (by omega), if_neg (by omega), h]
  simp [List.getLastD_concat]

/-- C9: after `begin_package`, any calls of `add_property` and `add_file`
(`k` of them `add_property`, whose records get the `k` indices that follow
those of the properties present before) and `finish_package`, the
`properties` field of the package just begun is `~0` when `k = 0`, the
index of its one property with `RAZOR_IMMEDIATE` set when `k = 1`, and for
`k ≥ 2` the word offset at which the property pool now holds the `k`
indices in order, with `RAZOR_IMMEDIATE` set on the last word and on no
other.  Property indices are below `2 ^ 31`, the size of an array being an
`int`. -/
theorem finish_package_properties_field (importer : razor_importer) (name version : List Nat)
    (calls : List importer_call) (hadd : ∀ c ∈ calls, c.is_add = true)
    (hsize : importer.set.properties.length + count_add_property calls ≤ 2 ^ 31) :
    ∃ importer' pkg,
      run_calls importer
          (importer_call.begin_package name version ::
            (calls ++ [importer_call.finish_package])) = some importer' ∧
      importer'.set.packages[importer.set.packages.length]? = some pkg ∧
      importer'.set.properties.length
        = importer.set.properties.length + count_add_property calls ∧
      (count_add_property calls = 0 →
        pkg.properties = ULONG_ALL_ONES ∧
        importer'.set.property_pool = importer.set.property_pool) ∧
      (count_add_property calls = 1 →
        pkg.properties = importer.set.properties.length ||| RAZOR_IMMEDIATE ∧
        importer'.set.property_pool = importer.set.property_pool) ∧
      (2 ≤ count_add_property calls →
        pkg.properties = importer.set.property_pool.length ∧
        importer'.set.property_pool
          = importer.set.property_pool
            ++ List.range' importer.set.properties.length (count_add_property calls - 1)
            ++ [(importer.set.properties.length + (count_add_property calls - 1))
                  ||| RAZOR_IMMEDIATE] ∧
        (∀ w ∈ List.range' importer.set.properties.length (count_add_property calls - 1),
          w &&& RAZOR_IMMEDIATE = 0) ∧
        ((importer.set.properties.length + (count_add_property calls - 1))
            ||| RAZOR_IMMEDIATE) &&& RAZOR_IMMEDIATE = RAZOR_IMMEDIATE) := by
  obtain ⟨pkg0, b1, b2, b3, b4, b5⟩ := begin_package_fields importer name version
  obtain ⟨imp1, r1, r2, r3, r4, r5, r6⟩ :=
    run_calls_adds calls (razor_importer_begin_package importer name version) hadd
  rw [b1] at r2
  rw [b3] at r3
  rw [b4] at r4
  rw [b2] at r5 r6
  rw [b5, List.nil_append] at r6
  have hget : imp1.set.packages[importer.set.packages.length]? = some pkg0 := by
    rw [r2]; simp
  have hrun : run_calls importer
      (importer_call.begin_package name version :: (calls ++ [importer_call.finish_package]))
      = razor_importer_finish_package imp1 := by
    show run_calls (razor_importer_begin_package importer name version)
      (calls ++ [importer_call.finish_package]) = _
    rw [run_calls_append, r1]
    show (match razor_importer_finish_package imp1 with
      | none => none
      | some importer => run_calls importer []) = _
    cases razor_importer_finish_package imp1 <;> rfl
  have hfin : razor_importer_finish_package imp1
      = some { imp1 with
          set := { imp1.set with
            property_pool := (add_to_property_pool imp1.set.property_pool imp1.properties).1,
            packages := imp1.set.packages.set importer.set.packages.length
              { pkg0 with
                properties :=
                  (add_to_property_pool imp1.set.property_pool imp1.properties).2 } } } := by
    unfold razor_importer_finish_package
    rw [r4]
    simp only [hget]
  refine ⟨_, { pkg0 with
      properties := (add_to_property_pool imp1.set.property_pool imp1.properties).2 },
    hrun.trans hfin, ?_, r5, ?_, ?_, ?_⟩
  · show (imp1.set.packages.set importer.set.packages.length _)[importer.set.packages.length]?
      = _
    rw [r2]; simp
  · intro hk
    rw [r6, r3, hk]
    exact ⟨rfl, rfl⟩
  · intro hk
    rw [r6, r3, hk]
    exact ⟨rfl, rfl⟩
  · intro hk
    obtain ⟨k, hk2⟩ : ∃ k, count_add_property calls = k + 2 := ⟨_, (Nat.sub_add_cancel hk).symm⟩
    have hpool := add_to_property_pool_range importer.set.property_pool
      importer.set.properties.length k
    rw [hk2] at hsize
    refine ⟨?_, ?_, ?_, or_immediate_and _⟩
    · show (add_to_property_pool imp1.set.property_pool imp1.properties).2 = _
      rw [r6, r3, hk2, hpool]
    · show (add_to_property_pool imp1.set.property_pool imp1.properties).1 = _
      rw [r6, r3, hk2, hpool]
      rfl
    · intro w hw
      rw [hk2] at hw
      have hw' : w < importer.set.properties.length + (k + 1) := by
        have := (List.mem_range'_1.mp hw).2
        simpa using this
      exact and_immediate_of_lt w (by omega)

/-- Witness of C9: on a new importer, package foo 1.0 with the properties
bar = 2.0 and baz = 3.0 and one file; its `properties` field is the pool
offset 0 and the pool holds the indices 0 and 1, the last with
`RAZOR_IMMEDIATE`. -/
theorem finish_package_properties_field_witness :
    (∀ c ∈ calls_two_properties, c.is_add = true) ∧
    razor_importer_new.set.properties.length + count_add_property calls_two_properties
      ≤ 2 ^ 31 ∧
    ∃ importer' pkg,
      run_calls razor_importer_new
          (importer_call.begin_package (bytes "foo") (bytes "1.0") ::
            (calls_two_properties ++ [importer_call.finish_package])) = some importer' ∧
      importer'.set.packages[0]? = some pkg ∧
      pkg.properties = 0 ∧
      importer'.set.property_pool = [0, 1 ||| RAZOR_IMMEDIATE] := by
  obtain ⟨importer', pkg, h1, h2, _, _, _, h5⟩ :=
    finish_package_properties_field razor_importer_new (bytes "foo") (bytes "1.0")
      calls_two_properties (by decide) (by decide)
  obtain ⟨h6, h7, _, _⟩ := h5 (by decide)
  exact ⟨by decide, by decide, importer', pkg, h1, h2, h6, h7⟩

/-- C10: `razor_importer_finish` on a new importer returns no set: with no
property record, `uniqueify_properties` still counts one record and writes
its packages field through the `NULL` data pointer. -/
theorem finish_new_importer_faults (rnd : Nat → Nat) :
    razor_importer_finish rnd razor_importer_new = none := by
  rfl

/-! ## Queries on a finished set -/

/-- C11: for package foo 1.0 with the files /usr/share/man/man5/foo.5 and
/usr/share/man/man5/foo.conf.5, the finished file tree has two entries
named man5 under man, and `find_entry` from the root returns `NULL` for
/usr/share/man/man5/foo.conf.5 (and entry 6 for the other file), whichever
of 0, 1 each of the three calls of `random()` returns. -/
theorem find_entry_misses_added_file :
    ∀ a b c : Fin 2,
      (import_set (rnd_of [a.val, b.val, c.val]) calls_man5_files).map file_names
        = some [bytes "", bytes "usr", bytes "share", bytes "man", bytes "man5",
            bytes "man5", bytes "foo.5", bytes "foo.conf.5"] ∧
      (import_set (rnd_of [a.val, b.val, c.val]) calls_man5_files).map
          (fun set => find_entry_root set (bytes "/usr/share/man/man5/foo.5"))
        = some (some (some 6)) ∧
      (import_set (rnd_of [a.val, b.val, c.val]) calls_man5_files).map
          (fun set => find_entry_root set (bytes "/usr/share/man/man5/foo.conf.5"))
        = some (some none) := by
  decide!

/-- C14: when foo 1.0 and bar 1.0 both require rpm = 4.0, the finished set
has two properties named rpm, at the indices 0 and 1, and
`razor_set_get_property` of rpm returns the one at index 1, whichever of
0, 1 each of the two calls of `random()` returns. -/
theorem get_property_not_lowest :
    ∀ a b : Fin 2,
      (import_set (rnd_of [a.val, b.val]) calls_rpm_shared).map property_keys
        = some [(bytes "rpm", 0, bytes "4.0"), (bytes "rpm", 0, bytes "4.0")] ∧
      (import_set (rnd_of [a.val, b.val]) calls_rpm_shared).map
          (fun set => razor_set_get_property set (bytes "rpm"))
        = some (some 1) := by
  decide!

/-! ## Merging two sets -/

/-- C15: with the first set holding foo 1.0 and the upstream set holding
zed 1.0, both with two properties, `razor_set_add` with zed selected
returns a set whose only package is foo 1.0, whichever of 0, 1 each of the
two calls of `random()` of either import returns. -/
theorem set_add_drops_trailing_selection :
    ∀ a b c d : Fin 2,
      (import_set (rnd_of [c.val, d.val])
          (package_two (bytes "zed") (bytes "1.0") (bytes "libc"))).map package_keys
        = some [(bytes "zed", bytes "1.0")] ∧
      (set_add_of (rnd_of [a.val, b.val]) (rnd_of [c.val, d.val])
          (package_two (bytes "foo") (bytes "1.0") (bytes "libc"))
          (package_two (bytes "zed") (bytes "1.0") (bytes "libc")) [0]).map package_keys
        = some [(bytes "foo", bytes "1.0")] := by
  decide!

/-- C16: with the first set holding foo 1.0 and the upstream set holding
foo 2.0 and bar 3.0 (array order bar, foo), each package providing itself
and nothing else, `razor_set_add` with bar selected returns no set (it
reads the property pool at the inline reference of a package), whichever of
0, 1 each of the two calls of `random()` of the upstream import returns;
when each package also requires libc = 2.0 it returns bar 3.0, foo 1.0. -/
theorem set_add_faults_on_inline_properties :
    (∀ a b : Fin 2,
      (import_set (rnd_of [a.val, b.val])
          (package_one (bytes "foo") (bytes "2.0")
            ++ package_one (bytes "bar") (bytes "3.0"))).map package_keys
        = some [(bytes "bar", bytes "3.0"), (bytes "foo", bytes "2.0")] ∧
      set_add_of (rnd_of []) (rnd_of [a.val, b.val])
          (package_one (bytes "foo") (bytes "1.0"))
          (package_one (bytes "foo") (bytes "2.0") ++ package_one (bytes "bar") (bytes "3.0"))
          [0]
        = none) ∧
    (set_add_of (rnd_of []) (rnd_of [])
        (package_two (bytes "foo") (bytes "1.0") (bytes "libc"))
        (package_two (bytes "foo") (bytes "2.0") (bytes "libc")
          ++ package_two (bytes "bar") (bytes "3.0") (bytes "libc")) [0]).map package_keys
      = some [(bytes "bar", bytes "3.0"), (bytes "foo", bytes "1.0")] := by
  decide!

/-- C17: with the first set holding foo 1.0 and the upstream set holding
foo 2.0, each providing itself and nothing else, `razor_set_add` with
foo 2.0 selected returns no set (it reads the property pool at the inline
reference of the package); when each package also requires libc = 2.0 it
returns the single package foo 2.0. -/
theorem set_add_same_name_faults :
    set_add_of (rnd_of []) (rnd_of [])
        (package_one (bytes "foo") (bytes "1.0")) (package_one (bytes "foo") (bytes "2.0")) [0]
      = none ∧
    (∀ a b c d : Fin 2,
      (set_add_of (rnd_of [a.val, b.val]) (rnd_of [c.val, d.val])
          (package_two (bytes "foo") (bytes "1.0") (bytes "libc"))
          (package_two (bytes "foo") (bytes "2.0") (bytes "libc")) [0]).map package_keys
        = some [(bytes "foo", bytes "2.0")]) := by
  decide!

/-- C18: when foo 1.0 requires bar = 2.0 and bar 2.0 provides itself, the
property array is bar REQUIRES 2.0, bar PROVIDES 2.0, foo PROVIDES 1.0 and
`razor_set_validate` returns the index 0 of the requirement, whichever of
0, 1, 2 each of the first three calls of `random()` returns. -/
theorem validate_first_requirement :
    ∀ a b c : Fin 3,
      (import_set (rnd_of [a.val, b.val, c.val]) calls_bar_provided).map property_keys
        = some [(bytes "bar", 0, bytes "2.0"), (bytes "bar", 1, bytes "2.0"),
            (bytes "foo", 1, bytes "1.0")] ∧
      (import_set (rnd_of [a.val, b.val, c.val]) calls_bar_provided).map razor_set_validate
        = some [0] := by
  decide!

/-! ## Differences between two sets -/

/-- C19: for A = {foo 1.0, baz 2.0} and B = {foo 1.1, bar 3.0}, each
package providing itself and `random()` returning 0 in the sorts,
`razor_set_diff(A, B)` calls back with (bar, NULL, 3.0), (baz, 2.0, NULL),
(foo, 1.0, NULL) and then reads a record past the end of A's packages; the
version 1.1 of foo is not reported, neither in a call (foo, 1.0, 1.1) nor in
any other. -/
theorem diff_example_calls :
    set_diff_of (rnd_of []) (rnd_of [])
        (package_one (bytes "foo") (bytes "1.0") ++ package_one (bytes "baz") (bytes "2.0"))
        (package_one (bytes "foo") (bytes "1.1") ++ package_one (bytes "bar") (bytes "3.0"))
      = some { past_end := true, calls := [
          { name := bytes "bar", old_version := none, new_version := some (bytes "3.0") },
          { name := bytes "baz", old_version := some (bytes "2.0"), new_version := none },
          { name := bytes "foo", old_version := some (bytes "1.0"), new_version := none }] } := by
  decide!

/-- C20: for A = {foo 1.1} and B = {foo 1.0}, `razor_set_diff(A, B)` calls
back with the insertion (foo, NULL, 1.0) first and the removal
(foo, 1.1, NULL) second. -/
theorem diff_insertion_before_removal :
    set_diff_of (rnd_of []) (rnd_of [])
        (package_one (bytes "foo") (bytes "1.1")) (package_one (bytes "foo") (bytes "1.0"))
      = some { past_end := false, calls := [
          { name := bytes "foo", old_version := none, new_version := some (bytes "1.0") },
          { name := bytes "foo", old_version := some (bytes "1.1"), new_version := none }] } := by
  decide!

/-! ## The calls of a difference in general -/

theorem cstr_at_ne_zero (pool : List Nat) (off : Nat) : ∀ c ∈ cstr_at pool off, c ≠ 0 := by
  intro c hc
  have h := List.mem_takeWhile_imp hc
  simpa using h

theorem strcmp_self (a : List Nat) : strcmp a a = 0 := by
  induction a with
  | nil => rfl
  | cons x a ih => simp [strcmp, ih]

theorem strcmp_swap (a : List Nat) : ∀ b : List Nat, strcmp b a = -strcmp a b := by
  induction a with
  | nil =>
    intro b
    cases b with
    | nil => rfl
    | cons y b => simp [strcmp]
  | cons x a ih =>
    intro b
    cases b with
    | nil => simp [strcmp]
    | cons y b =>
      by_cases h : x = y
      · subst h
        simp [strcmp, ih b]
      · have h' : ¬ y = x := fun e => h e.symm
        simp [strcmp, h, h']

theorem strcmp_eq_zero (a : List Nat) :
    ∀ b : List Nat, (∀ c ∈ a, c ≠ 0) → (∀ c ∈ b, c ≠ 0) → strcmp a b = 0 → a = b := by
  induction a with
  | nil =>
    intro b _ hb h
    cases b with
    | nil => rfl
    | cons y b =>
      have hy : y ≠ 0 := hb y (List.mem_cons_self _ _)
      simp [strcmp] at h
      omega
  | cons x a ih =>
    intro b ha hb h
    cases b with
    | nil =>
      have hx : x ≠ 0 := ha x (List.mem_cons_self _ _)
      simp [strcmp] at h
      omega
    | cons y b =>
      by_cases hxy : x = y
      · subst hxy
        simp only [strcmp, if_true] at h
        rw [ih b (fun c hc => ha c (List.mem_cons_of_mem _ hc))
          (fun c hc => hb c (List.mem_cons_of_mem _ hc)) h]
      · simp only [strcmp, hxy, if_false] at h
        omega

theorem strcmp_lt_trans (a : List Nat) :
    ∀ b c : List Nat, strcmp a b < 0 → strcmp b c < 0 → strcmp a c < 0 := by
  induction a with
  | nil =>
    intro b c hab hbc
    cases b with
    | nil => simp [strcmp] at hab
    | cons y b =>
      cases c with
      | nil => simp only [strcmp] at hbc; omega
      | cons z c =>
        simp only [strcmp] at hab ⊢
        by_cases hyz : y = z
        · subst hyz; exact hab
        · simp only [strcmp, hyz, if_false] at hbc
          omega
  | cons x a ih =>
    intro b c hab hbc
    cases b with
    | nil => simp only [strcmp] at hab; omega
    | cons y b =>
      cases c with
      | nil => simp only [strcmp] at hbc; omega
      | cons z c =>
        by_cases hxy : x = y
        · subst hxy
          simp only [strcmp, if_true] at hab
          by_cases hxz : x = z
          · subst hxz
            simp only [strcmp, if_true] at hbc ⊢
            exact ih b c hab hbc
          · simp only [strcmp, hxz, if_false] at hbc ⊢
            exact hbc
        · simp only [strcmp, hxy, if_false] at hab
          by_cases hyz : y = z
          · subst hyz
            simp only [strcmp, hxy, if_false]
            exact hab
          · simp only [strcmp, hyz, if_false] at hbc
            have hxz : x ≠ z := by omega
            simp only [strcmp, hxz, if_false]
            omega


theorem strcmp_le_lt_trans (a b c : List Nat) (ha : ∀ x ∈ a, x ≠ 0) (hb : ∀ x ∈ b, x ≠ 0)
    (hab : strcmp a b ≤ 0) (hbc : strcmp b c < 0) : strcmp a c < 0 := by
  rcases lt_or_eq_of_le hab with h | h
  · exact strcmp_lt_trans a b c h hbc
  · rw [strcmp_eq_zero a b ha hb h]; exact hbc

theorem strcmp_lt_le_trans (a b c : List Nat) (hb : ∀ x ∈ b, x ≠ 0) (hc : ∀ x ∈ c, x ≠ 0)
    (hab : strcmp a b < 0) (hbc : strcmp b c ≤ 0) : strcmp a c < 0 := by
  rcases lt_or_eq_of_le hbc with h | h
  · exact strcmp_lt_trans a b c hab h
  · rw [← strcmp_eq_zero b c hb hc h]; exact hab

theorem diff_compare_sign (ppool upool : List Nat) (p u : razor_package) :
    (diff_compare ppool upool p u < 0 → strcmp (cstr_at ppool p.name) (cstr_at upool u.name) ≤ 0) ∧
    (0 < diff_compare ppool upool p u → 0 ≤ strcmp (cstr_at ppool p.name) (cstr_at upool u.name)) ∧
    (diff_compare ppool upool p u = 0 → strcmp (cstr_at ppool p.name) (cstr_at upool u.name) = 0) ∧
    (strcmp (cstr_at ppool p.name) (cstr_at upool u.name) < 0 → diff_compare ppool upool p u < 0) ∧
    (0 < strcmp (cstr_at ppool p.name) (cstr_at upool u.name) → 0 < diff_compare ppool upool p u) := by
  unfold diff_compare
  by_cases h : strcmp (cstr_at ppool p.name) (cstr_at upool u.name) = 0
  · simp [h]
  · simp only [h, if_false]
    exact ⟨le_of_lt, le_of_lt, id, id, id⟩



theorem getLast?_cons_of_ne_nil {α : Type} (a : α) (l : List α) (h : l ≠ []) :
    (a :: l).getLast? = l.getLast? := by
  cases l with
  | nil => exact absurd rfl h
  | cons b l => exact List.getLast?_cons_cons

theorem diff_removals_cons_pos (ppool upool : List Nat) (p : razor_package)
    (ps us : List razor_package) (h : ∀ v ∈ us, diff_compare ppool upool p v ≠ 0) :
    diff_removals ppool upool (p :: ps) us
      = removal_call ppool p :: diff_removals ppool upool ps us := by
  unfold diff_removals
  have hp : (us.all fun v => decide (diff_compare ppool upool p v ≠ 0)) = true :=
    List.all_eq_true.mpr (fun v hv => decide_eq_true (h v hv))
  rw [List.filter_cons, if_pos hp]
  rfl

theorem diff_removals_cons_neg (ppool upool : List Nat) (p : razor_package)
    (ps us : List razor_package) (h : ∃ v ∈ us, diff_compare ppool upool p v = 0) :
    diff_removals ppool upool (p :: ps) us = diff_removals ppool upool ps us := by
  unfold diff_removals
  rw [List.filter_cons_of_neg]
  obtain ⟨v, hv, h0⟩ := h
  intro hall
  have := List.all_eq_true.mp hall v hv
  simp [h0] at this

theorem diff_insertions_cons_left (ppool upool : List Nat) (p : razor_package)
    (ps us : List razor_package) (h : ∀ v ∈ us, diff_compare ppool upool p v ≠ 0) :
    diff_insertions ppool upool (p :: ps) us = diff_insertions ppool upool ps us := by
  unfold diff_insertions
  congr 1
  apply List.filter_congr
  intro v hv
  simp [h v hv]

theorem diff_insertions_cons_pos (ppool upool : List Nat) (u : razor_package)
    (ps us : List razor_package) (h : ∀ q ∈ ps, diff_compare ppool upool q u ≠ 0) :
    diff_insertions ppool upool ps (u :: us)
      = insertion_call upool u :: diff_insertions ppool upool ps us := by
  unfold diff_insertions
  have hp : (ps.all fun q => decide (diff_compare ppool upool q u ≠ 0)) = true :=
    List.all_eq_true.mpr (fun q hq => decide_eq_true (h q hq))
  rw [List.filter_cons, if_pos hp]
  rfl

theorem diff_insertions_cons_neg (ppool upool : List Nat) (u : razor_package)
    (ps us : List razor_package) (h : ∃ q ∈ ps, diff_compare ppool upool q u = 0) :
    diff_insertions ppool upool ps (u :: us) = diff_insertions ppool upool ps us := by
  unfold diff_insertions
  rw [List.filter_cons_of_neg]
  obtain ⟨q, hq, h0⟩ := h
  intro hall
  have := List.all_eq_true.mp hall q hq
  simp [h0] at this

theorem diff_removals_cons_right (ppool upool : List Nat) (u : razor_package)
    (ps us : List razor_package) (h : ∀ q ∈ ps, diff_compare ppool upool q u ≠ 0) :
    diff_removals ppool upool ps (u :: us) = diff_removals ppool upool ps us := by
  unfold diff_removals
  congr 1
  apply List.filter_congr
  intro q hq
  simp [h q hq]

theorem diff_loop_spec (ppool upool : List Nat) :
    ∀ (fuel : Nat) (ps us : List razor_package) (res : Int) (acc : List diff_call),
      ps.length + us.length ≤ fuel →
      names_ascending ppool ps → names_ascending upool us →
      (∀ p, ps.getLast? = some p → ∀ u ∈ us, 0 ≤ diff_compare ppool upool p u) →
      (ps = [] → us ≠ [] → 0 ≤ res) →
      ∃ calls,
        razor_set_diff_loop ppool upool fuel ps us res acc
          = { calls := acc ++ calls, past_end := false } ∧
        diff_calls_ok ppool upool ps us calls := by
  intro fuel
  induction fuel with
  | zero =>
    intro ps us res acc hlen _ _ _ _
    have hp : ps = [] := List.eq_nil_of_length_eq_zero (by omega)
    have hu : us = [] := List.eq_nil_of_length_eq_zero (by omega)
    subst hp; subst hu
    refine ⟨[], by simp [razor_set_diff_loop], ?_⟩
    simp [diff_calls_ok, diff_removals, diff_insertions]
  | succ fuel ih =>
    intro ps us res acc hlen hps hus hlast hres
    cases ps with
    | nil =>
      cases us with
      | nil =>
        refine ⟨[], by simp [razor_set_diff_loop], ?_⟩
        simp [diff_calls_ok, diff_removals, diff_insertions]
      | cons u us' =>
        have hres' : 0 ≤ res := hres rfl (by simp)
        obtain ⟨calls, hrun, hf1, hf2, hmem, hsorted⟩ :=
          ih [] us' res (acc ++ [insertion_call upool u]) (by simp at hlen ⊢; omega)
            List.Pairwise.nil (List.Pairwise.of_cons hus) (by simp) (fun _ _ => hres')
        refine ⟨insertion_call upool u :: calls, ?_, ?_, ?_, ?_, ?_⟩
        · simp only [razor_set_diff_loop, not_lt.mpr hres', if_false]
          rw [show acc ++ insertion_call upool u :: calls
            = (acc ++ [insertion_call upool u]) ++ calls by simp]
          exact hrun
        · simpa [insertion_call, diff_removals] using hf1
        · simp only [diff_insertions] at hf2 ⊢
          simp [insertion_call, hf2]
        · intro c hc
          rcases List.mem_cons.mp hc with h | h
          · exact Or.inr ⟨u, List.mem_cons_self _ _, h⟩
          · rcases hmem c h with ⟨p, hp, _⟩ | ⟨u', hu', he⟩
            · simp at hp
            · exact Or.inr ⟨u', List.mem_cons_of_mem _ hu', he⟩
        · refine List.Pairwise.cons ?_ hsorted
          intro d hd
          rcases hmem d hd with ⟨p, hp, _⟩ | ⟨u', hu', he⟩
          · simp at hp
          · subst he
            exact le_of_lt (List.rel_of_pairwise_cons hus hu')
    | cons p ps' =>
      cases us with
      | nil =>
        obtain ⟨calls, hrun, hf1, hf2, hmem, hsorted⟩ :=
          ih ps' [] res (acc ++ [removal_call ppool p]) (by simp at hlen ⊢; omega)
            (List.Pairwise.of_cons hps) List.Pairwise.nil (by simp) (by simp)
        refine ⟨removal_call ppool p :: calls, ?_, ?_, ?_, ?_, ?_⟩
        · simp only [razor_set_diff_loop]
          rw [show acc ++ removal_call ppool p :: calls
            = (acc ++ [removal_call ppool p]) ++ calls by simp]
          exact hrun
        · rw [diff_removals_cons_pos ppool upool p ps' [] (by simp), ← hf1]
          simp [removal_call]
        · simpa [removal_call, diff_insertions] using hf2
        · intro c hc
          rcases List.mem_cons.mp hc with h | h
          · exact Or.inl ⟨p, List.mem_cons_self _ _, h⟩
          · rcases hmem c h with ⟨q, hq, he⟩ | ⟨u', hu', _⟩
            · exact Or.inl ⟨q, List.mem_cons_of_mem _ hq, he⟩
            · simp at hu'
        · refine List.Pairwise.cons ?_ hsorted
          intro d hd
          rcases hmem d hd with ⟨q, hq, he⟩ | ⟨u', hu', _⟩
          · subst he
            exact le_of_lt (List.rel_of_pairwise_cons hps hq)
          · simp at hu'
      | cons u us' =>
        have zp : ∀ q : razor_package, ∀ c ∈ cstr_at ppool q.name, c ≠ 0 :=
          fun q => cstr_at_ne_zero ppool q.name
        have zu : ∀ v : razor_package, ∀ c ∈ cstr_at upool v.name, c ≠ 0 :=
          fun v => cstr_at_ne_zero upool v.name
        obtain ⟨s1, s2, s3, s4, s5⟩ := diff_compare_sign ppool upool p u
        rcases lt_trichotomy (diff_compare ppool upool p u) 0 with hlt | heq | hgt
        · -- the record of the first set sorts first: a removal
          have hne : ps' ≠ [] := by
            intro he
            subst he
            have := hlast p (by simp) u (List.mem_cons_self _ _)
            omega
          have hpu : ∀ v ∈ u :: us', strcmp (cstr_at ppool p.name) (cstr_at upool v.name) ≤ 0 := by
            intro v hv
            rcases List.mem_cons.mp hv with h | h
            · subst h; exact s1 hlt
            · exact le_of_lt (strcmp_le_lt_trans _ _ _ (zp p) (zu u) (s1 hlt)
                (List.rel_of_pairwise_cons hus h))
          have hall : ∀ v ∈ u :: us', diff_compare ppool upool p v ≠ 0 := by
            intro v hv
            rcases List.mem_cons.mp hv with h | h
            · subst h; omega
            · have := (diff_compare_sign ppool upool p v).2.2.2.1
                (strcmp_le_lt_trans _ _ _ (zp p) (zu u) (s1 hlt)
                  (List.rel_of_pairwise_cons hus h))
              omega
          obtain ⟨calls, hrun, hf1, hf2, hmem, hsorted⟩ :=
            ih ps' (u :: us') (diff_compare ppool upool p u) (acc ++ [removal_call ppool p])
              (by simp at hlen ⊢; omega) (List.Pairwise.of_cons hps) hus
              (fun q hq => hlast q (by rw [getLast?_cons_of_ne_nil p ps' hne]; exact hq))
              (fun he => absurd he hne)
          refine ⟨removal_call ppool p :: calls, ?_, ?_, ?_, ?_, ?_⟩
          · simp only [razor_set_diff_loop, hlt, if_true]
            rw [show acc ++ removal_call ppool p :: calls
              = (acc ++ [removal_call ppool p]) ++ calls by simp]
            exact hrun
          · rw [diff_removals_cons_pos ppool upool p ps' (u :: us') hall, ← hf1]
            simp [removal_call]
          · rw [diff_insertions_cons_left ppool upool p ps' (u :: us') hall, ← hf2]
            simp [removal_call]
          · intro c hc
            rcases List.mem_cons.mp hc with h | h
            · exact Or.inl ⟨p, List.mem_cons_self _ _, h⟩
            · rcases hmem c h with ⟨q, hq, he⟩ | ⟨v, hv, he⟩
              · exact Or.inl ⟨q, List.mem_cons_of_mem _ hq, he⟩
              · exact Or.inr ⟨v, hv, he⟩
          · refine List.Pairwise.cons ?_ hsorted
            intro d hd
            rcases hmem d hd with ⟨q, hq, he⟩ | ⟨v, hv, he⟩
            · subst he
              exact le_of_lt (List.rel_of_pairwise_cons hps hq)
            · subst he
              exact hpu v hv
        · -- equal name and version: no call
          have hnm : cstr_at ppool p.name = cstr_at upool u.name :=
            strcmp_eq_zero _ _ (zp p) (zu u) (s3 heq)
          have hq0 : ∀ q ∈ ps', diff_compare ppool upool q u ≠ 0 := by
            intro q hq
            have h1 := List.rel_of_pairwise_cons hps hq
            rw [hnm, strcmp_swap] at h1
            have := (diff_compare_sign ppool upool q u).2.2.2.2 (by omega)
            omega
          have hv0 : ∀ v ∈ us', diff_compare ppool upool p v ≠ 0 := by
            intro v hv
            have h1 := List.rel_of_pairwise_cons hus hv
            rw [← hnm] at h1
            have := (diff_compare_sign ppool upool p v).2.2.2.1 h1
            omega
          obtain ⟨calls, hrun, hf1, hf2, hmem, hsorted⟩ :=
            ih ps' us' (diff_compare ppool upool p u) acc
              (by simp at hlen ⊢; omega) (List.Pairwise.of_cons hps) (List.Pairwise.of_cons hus)
              (fun q hq v hv => by
                have hne : ps' ≠ [] := by
                  intro he; subst he; simp at hq
                exact hlast q (by rw [getLast?_cons_of_ne_nil p ps' hne]; exact hq) v
                  (List.mem_cons_of_mem _ hv))
              (fun _ _ => by omega)
          refine ⟨calls, ?_, ?_, ?_, ?_, hsorted⟩
          · simp only [razor_set_diff_loop, heq, lt_irrefl, if_false, gt_iff_lt]
            rw [heq] at hrun
            exact hrun
          · rw [diff_removals_cons_neg ppool upool p ps' (u :: us')
              ⟨u, List.mem_cons_self _ _, heq⟩,
              diff_removals_cons_right ppool upool u ps' us' hq0]
            exact hf1
          · rw [diff_insertions_cons_neg ppool upool u (p :: ps') us'
              ⟨p, List.mem_cons_self _ _, heq⟩,
              diff_insertions_cons_left ppool upool p ps' us' hv0]
            exact hf2
          · intro c hc
            rcases hmem c hc with ⟨q, hq, he⟩ | ⟨v, hv, he⟩
            · exact Or.inl ⟨q, List.mem_cons_of_mem _ hq, he⟩
            · exact Or.inr ⟨v, List.mem_cons_of_mem _ hv, he⟩
        · -- the record of the second set sorts first: an insertion
          have hup : ∀ q ∈ p :: ps', strcmp (cstr_at upool u.name) (cstr_at ppool q.name) ≤ 0 := by
            intro q hq
            have h0 : strcmp (cstr_at upool u.name) (cstr_at ppool p.name) ≤ 0 := by
              rw [strcmp_swap]
              have := s2 hgt
              omega
            rcases List.mem_cons.mp hq with h | h
            · subst h; exact h0
            · exact le_of_lt (strcmp_le_lt_trans _ _ _ (zu u) (zp p) h0
                (List.rel_of_pairwise_cons hps h))
          have hall : ∀ q ∈ p :: ps', diff_compare ppool upool q u ≠ 0 := by
            intro q hq
            rcases List.mem_cons.mp hq with h | h
            · subst h; omega
            · have h0 : strcmp (cstr_at upool u.name) (cstr_at ppool p.name) ≤ 0 := by
                rw [strcmp_swap]
                have := s2 hgt
                omega
              have h1 := strcmp_le_lt_trans _ _ _ (zu u) (zp p) h0
                (List.rel_of_pairwise_cons hps h)
              rw [strcmp_swap] at h1
              have := (diff_compare_sign ppool upool q u).2.2.2.2 (by omega)
              omega
          obtain ⟨calls, hrun, hf1, hf2, hmem, hsorted⟩ :=
            ih (p :: ps') us' (diff_compare ppool upool p u) (acc ++ [insertion_call upool u])
              (by simp at hlen ⊢; omega) hps (List.Pairwise.of_cons hus)
              (fun q hq v hv => hlast q hq v (List.mem_cons_of_mem _ hv))
              (fun he => by simp at he)
          refine ⟨insertion_call upool u :: calls, ?_, ?_, ?_, ?_, ?_⟩
          · simp only [razor_set_diff_loop, not_lt.mpr (le_of_lt hgt), hgt, if_false, if_true,
              gt_iff_lt]
            rw [show acc ++ insertion_call upool u :: calls
              = (acc ++ [insertion_call upool u]) ++ calls by simp]
            exact hrun
          · rw [diff_removals_cons_right ppool upool u (p :: ps') us' hall, ← hf1]
            simp [insertion_call]
          · rw [diff_insertions_cons_pos ppool upool u (p :: ps') us' hall, ← hf2]
            simp [insertion_call]
          · intro c hc
            rcases List.mem_cons.mp hc with h | h
            · exact Or.inr ⟨u, List.mem_cons_self _ _, h⟩
            · rcases hmem c h with ⟨q, hq, he⟩ | ⟨v, hv, he⟩
              · exact Or.inl ⟨q, hq, he⟩
              · exact Or.inr ⟨v, List.mem_cons_of_mem _ hv, he⟩
          · refine List.Pairwise.cons ?_ hsorted
            intro d hd
            rcases hmem d hd with ⟨q, hq, he⟩ | ⟨v, hv, he⟩
            · subst he
              exact hup q hq
            · subst he
              exact le_of_lt (List.rel_of_pairwise_cons hus hv)


/-- When the package names of each set are strictly ascending and no
package of the second set sorts after the last package of the first,
`razor_set_diff` stays inside both arrays; every call is a removal
(name, old, NULL) of a record of the first set or an insertion
(name, NULL, new) of a record of the second; the removals are those of the
records of the first set that no record of the second equals in name and
version, the insertions those of the records of the second set that no
record of the first equals, each in array order; and the calls come in
ascending order of name. -/
theorem diff_removals_and_insertions (set upstream : razor_set)
    (hset : names_ascending set.string_pool set.packages)
    (hupstream : names_ascending upstream.string_pool upstream.packages)
    (hlast : ∀ p ∈ set.packages.getLast?, ∀ u ∈ upstream.packages,
      0 ≤ diff_compare set.string_pool upstream.string_pool p u) :
    (razor_set_diff set upstream).past_end = false ∧
    (∀ c ∈ (razor_set_diff set upstream).calls,
      (∃ p ∈ set.packages, c = removal_call set.string_pool p) ∨
      (∃ u ∈ upstream.packages, c = insertion_call upstream.string_pool u)) ∧
    (razor_set_diff set upstream).calls.filter (fun c => c.new_version.isNone)
      = diff_removals set.string_pool upstream.string_pool set.packages upstream.packages ∧
    (razor_set_diff set upstream).calls.filter (fun c => c.old_version.isNone)
      = diff_insertions set.string_pool upstream.string_pool set.packages upstream.packages ∧
    (razor_set_diff set upstream).calls.Pairwise (fun c d => strcmp c.name d.name ≤ 0) := by
  obtain ⟨calls, hrun, hf1, hf2, hmem, hsorted⟩ :=
    diff_loop_spec set.string_pool upstream.string_pool
      (set.packages.length + upstream.packages.length) set.packages upstream.packages 0 []
      (le_refl _) hset hupstream (fun p hp => hlast p hp) (fun _ _ => le_refl _)
  have hrun' : razor_set_diff set upstream = { calls := calls, past_end := false } := by
    rw [List.nil_append] at hrun
    exact hrun
  rw [hrun']
  exact ⟨rfl, hmem, hf1, hf2, hsorted⟩

/-! ## Sorting and searching the packages -/

theorem qsort_swap_length {α : Type} (l : List α) (i j : Nat) :
    (qsort_swap l i j).length = l.length := by
  unfold qsort_swap
  split <;> simp

theorem qsort_swap_get {α : Type} (l : List α) (i j k : Nat)
    (hi : i < l.length) (hj : j < l.length) :
    (qsort_swap l i j)[k]? = if k = j then l[i]? else if k = i then l[j]? else l[k]? := by
  unfold qsort_swap
  rw [List.getElem?_eq_getElem hi, List.getElem?_eq_getElem hj]
  simp only [List.getElem?_set, List.length_set]
  by_cases h1 : j = k
  · subst h1
    simp [hj]
  · have h1' : ¬ k = j := fun e => h1 e.symm
    simp only [h1, h1', if_false]
    by_cases h2 : i = k
    · subst h2
      simp [hi]
    · have h2' : ¬ k = i := fun e => h2 e.symm
      simp [h2, h2']

theorem same_range_refl {α : Type} (l : List α) (b e : Nat) : same_range l l b e :=
  ⟨rfl, fun _ _ => rfl, fun i h1 h2 => ⟨i, h1, h2, rfl⟩, fun j h1 h2 => ⟨j, h1, h2, rfl⟩⟩

theorem same_range_trans {α : Type} (l1 l2 l3 : List α) (b e : Nat)
    (h12 : same_range l1 l2 b e) (h23 : same_range l2 l3 b e) : same_range l1 l3 b e := by
  obtain ⟨a1, a2, a3, a4⟩ := h12
  obtain ⟨b1, b2, b3, b4⟩ := h23
  refine ⟨b1.trans a1, fun i hi => (b2 i hi).trans (a2 i hi), ?_, ?_⟩
  · intro i h1 h2
    obtain ⟨j, hj1, hj2, hj⟩ := b3 i h1 h2
    obtain ⟨k, hk1, hk2, hk⟩ := a3 j hj1 hj2
    exact ⟨k, hk1, hk2, hj.trans hk⟩
  · intro j h1 h2
    obtain ⟨i, hi1, hi2, hi⟩ := a4 j h1 h2
    obtain ⟨k, hk1, hk2, hk⟩ := b4 i hi1 hi2
    exact ⟨k, hk1, hk2, hk.trans hi⟩

theorem same_range_mono {α : Type} (l1 l2 : List α) (b e b' e' : Nat)
    (hb : b' ≤ b) (he : e ≤ e') (h : same_range l1 l2 b e) : same_range l1 l2 b' e' := by
  obtain ⟨a1, a2, a3, a4⟩ := h
  refine ⟨a1, fun i hi => a2 i (by omega), ?_, ?_⟩
  · intro i h1 h2
    by_cases hin : b ≤ i ∧ i < e
    · obtain ⟨j, hj1, hj2, hj⟩ := a3 i hin.1 hin.2
      exact ⟨j, by omega, by omega, hj⟩
    · exact ⟨i, h1, h2, a2 i (by omega)⟩
  · intro j h1 h2
    by_cases hin : b ≤ j ∧ j < e
    · obtain ⟨i, hi1, hi2, hi⟩ := a4 j hin.1 hin.2
      exact ⟨i, by omega, by omega, hi⟩
    · exact ⟨j, h1, h2, a2 j (by omega)⟩

theorem same_range_swap {α : Type} (l : List α) (i j b e : Nat)
    (hi1 : b ≤ i) (hi2 : i < e) (hj1 : b ≤ j) (hj2 : j < e) (he : e ≤ l.length) :
    same_range l (qsort_swap l i j) b e := by
  have hi : i < l.length := by omega
  have hj : j < l.length := by omega
  refine ⟨qsort_swap_length l i j, ?_, ?_, ?_⟩
  · intro k hk
    rw [qsort_swap_get l i j k hi hj]
    have h1 : ¬ k = j := by omega
    have h2 : ¬ k = i := by omega
    simp [h1, h2]
  · intro k hk1 hk2
    rw [qsort_swap_get l i j k hi hj]
    by_cases h1 : k = j
    · exact ⟨i, hi1, hi2, by simp [h1]⟩
    · by_cases h2 : k = i
      · exact ⟨j, hj1, hj2, by subst h2; simp [h1]⟩
      · exact ⟨k, hk1, hk2, by simp [h1, h2]⟩
  · intro k hk1 hk2
    by_cases h1 : k = i
    · refine ⟨j, hj1, hj2, ?_⟩
      rw [qsort_swap_get l i j j hi hj]
      simp [h1]
    · by_cases h2 : k = j
      · refine ⟨i, hi1, hi2, ?_⟩
        rw [qsort_swap_get l i j i hi hj]
        by_cases h3 : i = j
        · simp [h3, h2]
        · simp [h3, h2]
      · refine ⟨k, hk1, hk2, ?_⟩
        rw [qsort_swap_get l i j k hi hj]
        simp [h1, h2]

theorem same_range_all {α : Type} (l1 l2 : List α) (b e : Nat) (P : α → Prop)
    (h : same_range l1 l2 b e)
    (hP : ∀ i x, b ≤ i → i < e → l1[i]? = some x → P x) :
    ∀ i x, b ≤ i → i < e → l2[i]? = some x → P x := by
  intro i x h1 h2 hx
  obtain ⟨j, hj1, hj2, hj⟩ := h.2.2.1 i h1 h2
  exact hP j x hj1 hj2 (hj ▸ hx)

theorem qsort_partition_lt {α : Type} (compare : α → α → Int) (fuel : Nat)
    (st : qsort_state α) (p start end_ pivot : Nat) (x y : α)
    (hp : p < end_) (hx : st.base[p]? = some x) (hy : st.base[pivot]? = some y)
    (h : compare x y < 0) :
    qsort_partition compare (fuel + 1) st p start end_ pivot
      = qsort_partition compare fuel
          { st with base := qsort_swap st.base p start, map := qsort_swap st.map p start }
          (p + 1) (start + 1) end_ (if start = pivot then p else pivot) := by
  simp only [qsort_partition, hp, hx, hy, h, if_true]

theorem qsort_partition_eq {α : Type} (compare : α → α → Int) (fuel : Nat)
    (st : qsort_state α) (p start end_ pivot : Nat) (x y : α)
    (hp : p < end_) (hx : st.base[p]? = some x) (hy : st.base[pivot]? = some y)
    (h : compare x y = 0) :
    qsort_partition compare (fuel + 1) st p start end_ pivot
      = qsort_partition compare fuel st (p + 1) start end_ pivot := by
  simp only [qsort_partition, hp, hx, hy, h, if_true, lt_irrefl, if_false]

theorem qsort_partition_gt {α : Type} (compare : α → α → Int) (fuel : Nat)
    (st : qsort_state α) (p start end_ pivot : Nat) (x y : α)
    (hp : p < end_) (hx : st.base[p]? = some x) (hy : st.base[pivot]? = some y)
    (h : 0 < compare x y) :
    qsort_partition compare (fuel + 1) st p start end_ pivot
      = qsort_partition compare fuel
          { st with base := qsort_swap st.base p (end_ - 1),
                    map := qsort_swap st.map p (end_ - 1) }
          p start (end_ - 1) (if end_ - 1 = pivot then p else pivot) := by
  have h1 : ¬ compare x y < 0 := by omega
  have h2 : ¬ compare x y = 0 := by omega
  simp only [qsort_partition, hp, hx, hy, h1, h2, if_true, if_false]

theorem qsort_partition_spec {α : Type} (compare : α → α → Int)
    (hrefl : ∀ x, compare x x = 0) (b n : Nat) (y : α) :
    ∀ (fuel : Nat) (st : qsort_state α) (p start end_ pivot : Nat),
      b ≤ start → start ≤ p → p ≤ end_ → end_ ≤ b + n → b + n ≤ st.base.length →
      start ≤ pivot → pivot < end_ → st.base[pivot]? = some y →
      end_ - p ≤ fuel →
      (∀ i x, b ≤ i → i < start → st.base[i]? = some x → compare x y < 0) →
      (∀ i x, start ≤ i → i < p → st.base[i]? = some x → compare x y = 0) →
      (∀ i x, end_ ≤ i → i < b + n → st.base[i]? = some x → 0 < compare x y) →
      ∃ st' start' end',
        qsort_partition compare fuel st p start end_ pivot = (st', start', end') ∧
        b ≤ start' ∧ start' < end' ∧ end' ≤ b + n ∧
        st'.calls = st.calls ∧
        same_range st.base st'.base b (b + n) ∧
        (∀ i x, b ≤ i → i < start' → st'.base[i]? = some x → compare x y < 0) ∧
        (∀ i x, start' ≤ i → i < end' → st'.base[i]? = some x → compare x y = 0) ∧
        (∀ i x, end' ≤ i → i < b + n → st'.base[i]? = some x → 0 < compare x y) := by
  intro fuel
  induction fuel with
  | zero =>
    intro st p start end_ pivot h1 h2 h3 h4 _ h6 h7 _ hf hL hM hR
    have hpe : p = end_ := by omega
    subst hpe
    exact ⟨st, start, p, rfl, h1, by omega, h4, rfl, same_range_refl _ _ _, hL, hM, hR⟩
  | succ fuel ih =>
    intro st p start end_ pivot h1 h2 h3 h4 h5 h6 h7 hy hf hL hM hR
    by_cases hp : p < end_
    · have hplen : p < st.base.length := by omega
      obtain ⟨x, hx⟩ : ∃ x, st.base[p]? = some x :=
        ⟨st.base[p], List.getElem?_eq_getElem hplen⟩
      have hne : compare x y ≠ 0 → p ≠ pivot := by
        intro hc he
        subst he
        have hxy : x = y := Option.some.inj (hx.symm.trans hy)
        rw [hxy] at hc
        exact hc (hrefl y)
      rcases lt_trichotomy (compare x y) 0 with hlt | heq | hgt
      · -- the element goes to the front
        have hpp : p ≠ pivot := hne (by omega)
        have hslen : start < st.base.length := by omega
        rw [qsort_partition_lt compare fuel st p start end_ pivot x y hp hx hy hlt]
        have hget := qsort_swap_get st.base p start
        obtain ⟨st', start', end', hrun, g1, g2, g3, g4, g5, g6, g7, g8⟩ :=
          ih { st with base := qsort_swap st.base p start, map := qsort_swap st.map p start }
            (p + 1) (start + 1) end_ (if start = pivot then p else pivot)
            (by omega) (by omega) (by omega) h4
            (by simp only [qsort_swap_length]; exact h5)
            (by split <;> omega) (by split <;> omega)
            (by
              show (qsort_swap st.base p start)[if start = pivot then p else pivot]? = some y
              by_cases hsp : start = pivot
              · subst hsp
                rw [if_pos rfl, hget p hplen hslen, if_neg hpp, if_pos rfl]
                exact hy
              · simp only [hsp, if_false]
                rw [hget pivot hplen hslen]
                have e1 : ¬ pivot = start := fun e => hsp e.symm
                have e2 : ¬ pivot = p := fun e => hpp e.symm
                simp only [e1, e2, if_false]
                exact hy)
            (by omega)
            (by
              intro i z hi1 hi2 hz
              change (qsort_swap st.base p start)[i]? = some z at hz
              rw [hget i hplen hslen] at hz
              by_cases e1 : i = start
              · simp only [e1, if_true] at hz
                rw [hx] at hz
                cases hz
                exact hlt
              · have e2 : ¬ i = p := by omega
                simp only [e1, e2, if_false] at hz
                exact hL i z hi1 (by omega) hz)
            (by
              intro i z hi1 hi2 hz
              change (qsort_swap st.base p start)[i]? = some z at hz
              rw [hget i hplen hslen] at hz
              have e1 : ¬ i = start := by omega
              by_cases e2 : i = p
              · simp only [e1, e2, if_false, if_true] at hz
                have e3 : ¬ p = start := by omega
                simp only [e3, if_false] at hz
                exact hM start z (le_refl _) (by omega) hz
              · simp only [e1, e2, if_false] at hz
                exact hM i z (by omega) (by omega) hz)
            (by
              intro i z hi1 hi2 hz
              change (qsort_swap st.base p start)[i]? = some z at hz
              rw [hget i hplen hslen] at hz
              have e1 : ¬ i = start := by omega
              have e2 : ¬ i = p := by omega
              simp only [e1, e2, if_false] at hz
              exact hR i z hi1 hi2 hz)
        refine ⟨st', start', end', hrun, by omega, g2, g3, g4, ?_, g6, g7, g8⟩
        exact same_range_trans _ _ _ _ _
          (same_range_swap st.base p start b (b + n) (by omega) (by omega) (by omega)
            (by omega) h5) g5
      · -- the element stays in the middle
        rw [qsort_partition_eq compare fuel st p start end_ pivot x y hp hx hy heq]
        obtain ⟨st', start', end', hrun, g1, g2, g3, g4, g5, g6, g7, g8⟩ :=
          ih st (p + 1) start end_ pivot h1 (by omega) (by omega) h4 h5 h6 h7 hy (by omega) hL
            (by
              intro i z hi1 hi2 hz
              by_cases e : i = p
              · subst e
                rw [hx] at hz
                cases hz
                exact heq
              · exact hM i z hi1 (by omega) hz)
            hR
        exact ⟨st', start', end', hrun, g1, g2, g3, g4, g5, g6, g7, g8⟩
      · -- the element goes to the back
        have hpp : p ≠ pivot := hne (by omega)
        have helen : end_ - 1 < st.base.length := by omega
        rw [qsort_partition_gt compare fuel st p start end_ pivot x y hp hx hy hgt]
        have hget := qsort_swap_get st.base p (end_ - 1)
        obtain ⟨st', start', end', hrun, g1, g2, g3, g4, g5, g6, g7, g8⟩ :=
          ih { st with base := qsort_swap st.base p (end_ - 1),
                       map := qsort_swap st.map p (end_ - 1) }
            p start (end_ - 1) (if end_ - 1 = pivot then p else pivot)
            h1 h2 (by omega) (by omega)
            (by simp only [qsort_swap_length]; exact h5)
            (by split <;> omega) (by split <;> omega)
            (by
              show (qsort_swap st.base p (end_ - 1))[if end_ - 1 = pivot then p else pivot]?
                = some y
              by_cases hsp : end_ - 1 = pivot
              · subst hsp
                rw [if_pos rfl, hget p hplen helen, if_neg hpp, if_pos rfl]
                exact hy
              · simp only [hsp, if_false]
                rw [hget pivot hplen helen]
                have e1 : ¬ pivot = end_ - 1 := fun e => hsp e.symm
                have e2 : ¬ pivot = p := fun e => hpp e.symm
                simp only [e1, e2, if_false]
                exact hy)
            (by omega)
            (by
              intro i z hi1 hi2 hz
              change (qsort_swap st.base p (end_ - 1))[i]? = some z at hz
              rw [hget i hplen helen] at hz
              have e1 : ¬ i = end_ - 1 := by omega
              have e2 : ¬ i = p := by omega
              simp only [e1, e2, if_false] at hz
              exact hL i z hi1 hi2 hz)
            (by
              intro i z hi1 hi2 hz
              change (qsort_swap st.base p (end_ - 1))[i]? = some z at hz
              rw [hget i hplen helen] at hz
              have e1 : ¬ i = end_ - 1 := by omega
              have e2 : ¬ i = p := by omega
              simp only [e1, e2, if_false] at hz
              exact hM i z hi1 hi2 hz)
            (by
              intro i z hi1 hi2 hz
              change (qsort_swap st.base p (end_ - 1))[i]? = some z at hz
              rw [hget i hplen helen] at hz
              by_cases e1 : i = end_ - 1
              · simp only [e1, if_true] at hz
                rw [hx] at hz
                cases hz
                exact hgt
              · have e2 : ¬ i = p := by omega
                simp only [e1, e2, if_false] at hz
                exact hR i z (by omega) hi2 hz)
        refine ⟨st', start', end', hrun, g1, g2, by omega, g4, ?_, g6, g7, g8⟩
        exact same_range_trans _ _ _ _ _
          (same_range_swap st.base p (end_ - 1) b (b + n) (by omega) (by omega) (by omega)
            (by omega) h5) g5
    · have hpe : p = end_ := by omega
      subst hpe
      refine ⟨st, start, p, ?_, h1, by omega, h4, rfl, same_range_refl _ _ _, hL, hM, hR⟩
      simp only [qsort_partition, lt_irrefl, if_false]

theorem qsort_unfold {α : Type} (compare : α → α → Int) (rnd : Nat → Nat) (fuel : Nat)
    (st st1 : qsort_state α) (b n s e : Nat)
    (h : qsort_partition compare n { st with calls := st.calls + 1 } b b (b + n)
      (b + rnd st.calls % n) = (st1, s, e)) :
    __qsort_with_data compare rnd (fuel + 1) st b n
      = if b + n - e > 1 then
          __qsort_with_data compare rnd fuel
            (if s - b > 1 then __qsort_with_data compare rnd fuel st1 b (s - b) else st1)
            e (b + n - e)
        else if s - b > 1 then __qsort_with_data compare rnd fuel st1 b (s - b) else st1 := by
  simp only [__qsort_with_data, h]

theorem sorted_range_small {α : Type} (le : α → α → Prop) (l : List α) (b e : Nat)
    (h : e - b ≤ 1) : sorted_range le l b e := by
  intro i j x y h1 h2 h3 _ _
  omega

theorem qsort_spec {α : Type} (compare : α → α → Int) (le : α → α → Prop)
    (hrefl : ∀ x, compare x x = 0)
    (hlt : ∀ x y, compare x y < 0 → le x y)
    (heq : ∀ x y, compare x y = 0 → le x y ∧ le y x)
    (hgt : ∀ x y, 0 < compare x y → le y x)
    (htrans : ∀ x y z, le x y → le y z → le x z)
    (rnd : Nat → Nat) :
    ∀ (fuel : Nat) (st : qsort_state α) (b n : Nat),
      0 < n → n ≤ fuel → b + n ≤ st.base.length →
      same_range st.base (__qsort_with_data compare rnd fuel st b n).base b (b + n) ∧
      sorted_range le (__qsort_with_data compare rnd fuel st b n).base b (b + n) := by
  intro fuel
  induction fuel with
  | zero =>
    intro st b n h1 h2 _
    omega
  | succ fuel ih =>
    intro st b n hn hfuel hlen
    have hpiv : b + rnd st.calls % n < b + n := by
      have := Nat.mod_lt (rnd st.calls) hn
      omega
    obtain ⟨y, hy⟩ : ∃ y, st.base[b + rnd st.calls % n]? = some y :=
      ⟨st.base[b + rnd st.calls % n], List.getElem?_eq_getElem (by omega)⟩
    obtain ⟨st1, s, e, hrun, g1, g2, g3, _, g5, gL, gM, gR⟩ :=
      qsort_partition_spec compare hrefl b n y n { st with calls := st.calls + 1 }
        b b (b + n) (b + rnd st.calls % n) (le_refl _) (le_refl _) (by omega) (le_refl _)
        hlen (by omega) hpiv hy (by omega)
        (fun i x h1 h2 _ => by omega) (fun i x h1 h2 _ => by omega)
        (fun i x h1 h2 _ => by omega)
    rw [qsort_unfold compare rnd fuel st st1 b n s e hrun]
    have hlen1 : st1.base.length = st.base.length := g5.1
    -- the left part
    obtain ⟨st2, hst2, hs12, hsortL⟩ :
        ∃ st2, (if s - b > 1 then __qsort_with_data compare rnd fuel st1 b (s - b) else st1)
            = st2 ∧ same_range st1.base st2.base b s ∧ sorted_range le st2.base b s := by
      by_cases hl : s - b > 1
      · have := ih st1 b (s - b) (by omega) (by omega) (by omega)
        rw [show b + (s - b) = s by omega] at this
        exact ⟨_, rfl, by rw [if_pos hl]; exact this.1, by rw [if_pos hl]; exact this.2⟩
      · exact ⟨_, rfl, by rw [if_neg hl]; exact same_range_refl _ _ _,
          by rw [if_neg hl]; exact sorted_range_small le _ _ _ (by omega)⟩
    rw [hst2]
    have hlen2 : st2.base.length = st.base.length := hs12.1.trans hlen1
    -- the right part
    obtain ⟨st3, hst3, hs23, hsortR⟩ :
        ∃ st3, (if b + n - e > 1 then __qsort_with_data compare rnd fuel st2 e (b + n - e)
            else st2) = st3 ∧ same_range st2.base st3.base e (b + n) ∧
            sorted_range le st3.base e (b + n) := by
      by_cases hr : b + n - e > 1
      · have := ih st2 e (b + n - e) (by omega) (by omega) (by omega)
        rw [show e + (b + n - e) = b + n by omega] at this
        exact ⟨_, rfl, by rw [if_pos hr]; exact this.1, by rw [if_pos hr]; exact this.2⟩
      · exact ⟨_, rfl, by rw [if_neg hr]; exact same_range_refl _ _ _,
          by rw [if_neg hr]; exact sorted_range_small le _ _ _ (by omega)⟩
    rw [hst3]
    -- the three regions of the result
    have rL : ∀ i x, b ≤ i → i < s → st3.base[i]? = some x → compare x y < 0 := by
      intro i x h1 h2 hx
      rw [hs23.2.1 i (Or.inl (by omega))] at hx
      exact same_range_all st1.base st2.base b s (fun x => compare x y < 0) hs12 gL i x h1 h2 hx
    have rM : ∀ i x, s ≤ i → i < e → st3.base[i]? = some x → compare x y = 0 := by
      intro i x h1 h2 hx
      rw [hs23.2.1 i (Or.inl h2), hs12.2.1 i (Or.inr h1)] at hx
      exact gM i x h1 h2 hx
    have rR : ∀ i x, e ≤ i → i < b + n → st3.base[i]? = some x → 0 < compare x y := by
      intro i x h1 h2 hx
      refine same_range_all st2.base st3.base e (b + n) (fun x => 0 < compare x y) hs23 ?_
        i x h1 h2 hx
      intro k z hk1 hk2 hz
      rw [hs12.2.1 k (Or.inr (by omega))] at hz
      exact gR k z hk1 hk2 hz
    have leL : ∀ i x, b ≤ i → i < e → st3.base[i]? = some x → le x y := by
      intro i x h1 h2 hx
      by_cases h : i < s
      · exact hlt x y (rL i x h1 h hx)
      · exact (heq x y (rM i x (by omega) h2 hx)).1
    have leR : ∀ i x, s ≤ i → i < b + n → st3.base[i]? = some x → le y x := by
      intro i x h1 h2 hx
      by_cases h : i < e
      · exact (heq x y (rM i x h1 h hx)).2
      · exact hgt x y (rR i x (by omega) h2 hx)
    refine ⟨?_, ?_⟩
    · exact same_range_trans _ _ _ _ _ g5
        (same_range_trans _ _ _ _ _
          (same_range_mono _ _ b s b (b + n) (le_refl _) (by omega) hs12)
          (same_range_mono _ _ e (b + n) b (b + n) (by omega) (le_refl _) hs23))
    · intro i j x z h1 h2 h3 hx hz
      by_cases hjs : j < s
      · -- both in the left part
        rw [hs23.2.1 i (Or.inl (by omega))] at hx
        rw [hs23.2.1 j (Or.inl (by omega))] at hz
        exact hsortL i j x z h1 h2 hjs hx hz
      · by_cases hie : e ≤ i
        · exact hsortR i j x z hie h2 h3 hx hz
        · exact htrans x y z (leL i x h1 (by omega) hx) (leR j z (by omega) h3 hz)

theorem versioncmp_loop_self (again : List Nat → List Nat → Int)
    (h : ∀ q, again q q = 0) : ∀ p, versioncmp_loop again p p = 0 := by
  intro p
  induction p with
  | nil => simp [versioncmp_loop]
  | cons c p ih =>
    simp only [versioncmp_loop, ne_eq, not_true_eq_false, if_false]
    split
    · exact h p
    · exact ih

theorem versioncmp_fuel_self : ∀ (fuel : Nat) (s : List Nat), versioncmp_fuel fuel s s = 0 := by
  intro fuel
  induction fuel with
  | zero => intro s; rfl
  | succ fuel ih =>
    intro s
    simp only [versioncmp_fuel, sub_self, lt_irrefl, if_false, gt_iff_lt, ne_eq,
      not_true_eq_false]
    exact versioncmp_loop_self _ ih _

theorem versioncmp_self (s : List Nat) : versioncmp s s = 0 :=
  versioncmp_fuel_self _ s

theorem qsort_with_data_spec {α : Type} (compare : α → α → Int) (le : α → α → Prop)
    (hrefl : ∀ x, compare x x = 0)
    (hlt : ∀ x y, compare x y < 0 → le x y)
    (heq : ∀ x y, compare x y = 0 → le x y ∧ le y x)
    (hgt : ∀ x y, 0 < compare x y → le y x)
    (htrans : ∀ x y z, le x y → le y z → le x z)
    (rnd : Nat → Nat) (calls : Nat) (base : List α) :
    same_range base (qsort_with_data compare rnd calls base).1 0 base.length ∧
    sorted_range le (qsort_with_data compare rnd calls base).1 0 base.length := by
  unfold qsort_with_data
  by_cases h : base.length = 0
  · rw [if_pos h]
    exact ⟨same_range_refl _ _ _, sorted_range_small le _ _ _ (by omega)⟩
  · rw [if_neg h]
    have := qsort_spec compare le hrefl hlt heq hgt htrans rnd base.length
      { base := base, map := List.range base.length, calls := calls } 0 base.length
      (by omega) (le_refl _) (by simp)
    simpa using this

theorem same_range_mem {α : Type} (l1 l2 : List α) (h : same_range l1 l2 0 l1.length) (x : α) :
    x ∈ l2 ↔ x ∈ l1 := by
  obtain ⟨a1, _, a3, a4⟩ := h
  constructor
  · intro hx
    obtain ⟨i, hi⟩ := List.getElem?_of_mem hx
    have hil : i < l2.length := by
      by_contra hc
      rw [List.getElem?_eq_none (by omega)] at hi
      cases hi
    obtain ⟨j, _, _, hj⟩ := a3 i (Nat.zero_le _) (by omega)
    exact List.mem_iff_getElem?.mpr ⟨j, hj ▸ hi⟩
  · intro hx
    obtain ⟨j, hj⟩ := List.getElem?_of_mem hx
    have hjl : j < l1.length := by
      by_contra hc
      rw [List.getElem?_eq_none (by omega)] at hj
      cases hj
    obtain ⟨i, _, _, hi⟩ := a4 j (Nat.zero_le _) hjl
    exact List.mem_iff_getElem?.mpr ⟨i, hi.trans hj⟩

theorem bsearch_loop_found {α : Type} (compar : α → Int) (base : List α) :
    ∀ (fuel l u i : Nat), bsearch_loop compar base fuel l u = some i →
      ∃ p, base[i]? = some p ∧ compar p = 0 := by
  intro fuel
  induction fuel with
  | zero => intro l u i h; simp [bsearch_loop] at h
  | succ fuel ih =>
    intro l u i h
    simp only [bsearch_loop] at h
    split at h
    · split at h
      · cases h
      · rename_i p hp
        split at h
        · exact ih _ _ _ h
        · split at h
          · exact ih _ _ _ h
          · cases h
            exact ⟨p, hp, by omega⟩
    · cases h

theorem bsearch_loop_none {α : Type} (compar : α → Int) (le : α → α → Prop) (base : List α)
    (h1 : ∀ x y, le x y → compar x < 0 → compar y < 0)
    (h2 : ∀ x y, le x y → 0 < compar y → 0 < compar x)
    (hsorted : sorted_range le base 0 base.length) :
    ∀ (fuel l u : Nat), l ≤ u → u ≤ base.length → u - l < fuel →
      (∀ i x, i < l → base[i]? = some x → 0 < compar x) →
      (∀ i x, u ≤ i → base[i]? = some x → compar x < 0) →
      bsearch_loop compar base fuel l u = none →
      ∀ (i : Nat) (x : α), base[i]? = some x → compar x ≠ 0 := by
  intro fuel
  induction fuel with
  | zero => intro l u _ _ hf; omega
  | succ fuel ih =>
    intro l u hlu hu hf hlo hhi hres i x hx
    simp only [bsearch_loop] at hres
    by_cases hl : l < u
    · rw [if_pos hl] at hres
      have hidx : (l + u) / 2 < base.length := by omega
      have hp : base[(l + u) / 2]? = some base[(l + u) / 2] := List.getElem?_eq_getElem hidx
      rw [hp] at hres
      simp only at hres
      have hxlen : i < base.length := by
        by_contra hc
        rw [List.getElem?_eq_none (by omega)] at hx
        cases hx
      by_cases hc1 : compar base[(l + u) / 2] < 0
      · rw [if_pos hc1] at hres
        refine ih l ((l + u) / 2) (by omega) (by omega) (by omega) hlo ?_ hres i x hx
        intro k z hk hz
        by_cases hk' : k = (l + u) / 2
        · subst hk'
          rw [hp] at hz
          cases hz
          exact hc1
        · have hklen : k < base.length := by
            by_contra hc
            rw [List.getElem?_eq_none (by omega)] at hz
            cases hz
          exact h1 _ z (hsorted _ k _ z (Nat.zero_le _) (by omega) hklen hp hz) hc1
      · rw [if_neg hc1] at hres
        by_cases hc2 : compar base[(l + u) / 2] > 0
        · rw [if_pos hc2] at hres
          refine ih ((l + u) / 2 + 1) u (by omega) hu (by omega) ?_ hhi hres i x hx
          intro k z hk hz
          by_cases hk' : k = (l + u) / 2
          · subst hk'
            rw [hp] at hz
            cases hz
            exact hc2
          · exact h2 z _ (hsorted k _ z _ (Nat.zero_le _) (by omega) hidx hz hp) hc2
        · rw [if_neg hc2] at hres
          cases hres
    · by_cases hi : i < l
      · have := hlo i x hi hx
        omega
      · have := hhi i x (by omega) hx
        omega

theorem bsearch_map {α β : Type} (f : β → Int) (g : α → β) (base : List α) :
    ∀ (fuel l u : Nat), bsearch_loop (fun p => f (g p)) base fuel l u
      = bsearch_loop f (base.map g) fuel l u := by
  intro fuel
  induction fuel with
  | zero => intro l u; rfl
  | succ fuel ih =>
    intro l u
    simp only [bsearch_loop, List.getElem?_map]
    cases base[(l + u) / 2]? with
    | none => simp
    | some p => simp [ih]

theorem takeWhile_append_of_stop {α : Type} (p : α → Bool) (b : List α) :
    ∀ a : List α, (∃ x ∈ a, p x = false) → (a ++ b).takeWhile p = a.takeWhile p := by
  intro a
  induction a with
  | nil => intro h; obtain ⟨x, hx, _⟩ := h; cases hx
  | cons c a ih =>
    intro h
    obtain ⟨x, hx, hpx⟩ := h
    simp only [List.cons_append, List.takeWhile_cons]
    by_cases hc : p c = true
    · simp only [hc, if_true]
      rcases List.mem_cons.mp hx with e | e
      · subst e; rw [hc] at hpx; cases hpx
      · rw [ih ⟨x, e, hpx⟩]
    · simp [hc]

theorem cstr_at_append (pool ext : List Nat) (off : Nat) (hoff : off < pool.length)
    (hterm : pool_terminated pool) : cstr_at (pool ++ ext) off = cstr_at pool off := by
  unfold cstr_at
  rcases hterm with h | ⟨init, h⟩
  · subst h; simp at hoff
  · rw [List.drop_append_of_le_length (by omega)]
    apply takeWhile_append_of_stop
    refine ⟨0, ?_, by simp⟩
    subst h
    rw [List.drop_append_of_le_length (by simp at hoff; omega)]
    simp

theorem cstr_at_new (pool key ext : List Nat) (hkey : ∀ c ∈ key, c ≠ 0) :
    cstr_at (pool ++ key ++ [0] ++ ext) pool.length = key := by
  unfold cstr_at
  rw [List.append_assoc, List.append_assoc, List.drop_left]
  induction key with
  | nil => simp
  | cons c key ih =>
    have hc : c ≠ 0 := hkey c (List.mem_cons_self _ _)
    have ih' := ih (fun d hd => hkey d (List.mem_cons_of_mem _ hd))
    simp only [List.cons_append, List.takeWhile_cons, bne_iff_ne, ne_eq, hc, not_false_eq_true,
      if_true, decide_True]
    simpa using ih'

theorem hashtable_lookup_loop_result (table : hashtable) (key : List Nat) (start : Nat) :
    ∀ (fuel i : Nat), hashtable_lookup_loop table key start fuel i ≠ 0 →
      hashtable_lookup_loop table key start fuel i ∈ table.buckets ∧
      key = cstr_at table.pool (hashtable_lookup_loop table key start fuel i) := by
  intro fuel
  induction fuel with
  | zero => intro i h; simp [hashtable_lookup_loop] at h
  | succ fuel ih =>
    intro i h
    simp only [hashtable_lookup_loop] at h ⊢
    by_cases h1 : i < table.alloc
    · simp only [h1, if_true] at h ⊢
      by_cases h2 : table.buckets.getD (bucket_index table.alloc start i) 0 = 0
      · simp only [h2, if_true] at h
        exact absurd rfl h
      · simp only [h2, if_false] at h ⊢
        by_cases h3 : key = cstr_at table.pool
            (table.buckets.getD (bucket_index table.alloc start i) 0)
        · rw [if_pos h3] at h ⊢
          refine ⟨?_, h3⟩
          by_cases hk : bucket_index table.alloc start i < table.buckets.length
          · rw [List.getD_eq_getElem _ _ hk]
            exact List.getElem_mem _
          · rw [List.getD_eq_default _ _ (by omega)] at h2
            exact absurd rfl h2
        · rw [if_neg h3] at h ⊢
          exact ih _ h
    · simp only [h1, if_false] at h
      exact absurd rfl h

theorem do_insert_loop_spec (P : Nat → Prop) (value start : Nat) (hv : P value) :
    ∀ (fuel i : Nat) (table : hashtable), (∀ v ∈ table.buckets, P v) →
      (do_insert_loop table value start fuel i).pool = table.pool ∧
      ∀ v ∈ (do_insert_loop table value start fuel i).buckets, P v := by
  intro fuel
  induction fuel with
  | zero => intro i table h; exact ⟨rfl, h⟩
  | succ fuel ih =>
    intro i table h
    simp only [do_insert_loop]
    by_cases h1 : i < table.alloc
    · simp only [h1, if_true]
      by_cases h2 : table.buckets.getD (bucket_index table.alloc start i) 0 = 0
      · simp only [h2, if_true]
        refine ⟨trivial, ?_⟩
        intro v hv'
        rcases List.mem_or_eq_of_mem_set hv' with e | e
        · exact h v e
        · rw [e]; exact hv
      · simp only [h2, if_false]
        exact ih _ table h
    · simp only [h1, if_false]
      exact ⟨trivial, h⟩

theorem do_insert_spec (P : Nat → Prop) (value : Nat) (hv : P value) (table : hashtable)
    (h : ∀ v ∈ table.buckets, P v) :
    (do_insert table value).pool = table.pool ∧ ∀ v ∈ (do_insert table value).buckets, P v :=
  do_insert_loop_spec P value _ hv _ _ table h

theorem hashtable_rehash_loop_spec (P : Nat → Prop) (end_ : Nat) (h0 : P 0) :
    ∀ (fuel : Nat) (table : hashtable) (b : Nat), (∀ v ∈ table.buckets, P v) →
      (hashtable_rehash_loop end_ fuel table b).pool = table.pool ∧
      ∀ v ∈ (hashtable_rehash_loop end_ fuel table b).buckets, P v := by
  intro fuel
  induction fuel with
  | zero => intro table b h; exact ⟨rfl, h⟩
  | succ fuel ih =>
    intro table b h
    simp only [hashtable_rehash_loop]
    by_cases h1 : b < end_
    · simp only [h1, if_true]
      by_cases h2 : table.buckets.getD b 0 = 0
      · simp only [h2, bne_self_eq_false, Bool.false_eq_true, if_false]
        exact ih table _ h
      · have h2' : (table.buckets.getD b 0 != 0) = true := by simpa using h2
        simp only [h2', if_true]
        have hval : P (table.buckets.getD b 0) := by
          by_cases hk : b < table.buckets.length
          · rw [List.getD_eq_getElem _ _ hk]
            exact h _ (List.getElem_mem _)
          · rw [List.getD_eq_default _ _ (by omega)]
            exact h0
        have hset : ∀ v ∈ ({ table with buckets := table.buckets.set b 0 } : hashtable).buckets,
            P v := by
          intro v hv
          rcases List.mem_or_eq_of_mem_set hv with e | e
          · exact h v e
          · rw [e]; exact h0
        have hd := do_insert_spec P _ hval _ hset
        have := ih (do_insert { table with buckets := table.buckets.set b 0 }
          (table.buckets.getD b 0)) (b + 1) hd.2
        exact ⟨this.1.trans hd.1, this.2⟩
    · simp only [h1, if_false]
      exact ⟨trivial, h⟩

theorem hashtable_insert_spec (table : hashtable) (key : List Nat) (h : table_ok table) :
    (hashtable_insert table key).1.pool = table.pool ++ key ++ [0] ∧
    (hashtable_insert table key).2 = table.pool.length ∧
    table_ok (hashtable_insert table key).1 := by
  obtain ⟨hb, _⟩ := h
  -- the table after the buckets have grown
  have key1 : ∀ t : hashtable, t.pool = table.pool →
      (∀ v ∈ t.buckets, v = 0 ∨ v < table.pool.length) →
      (do_insert (add_to_string_pool t key).1 (add_to_string_pool t key).2).pool
        = table.pool ++ key ++ [0] ∧
      (add_to_string_pool t key).2 = table.pool.length ∧
      table_ok (do_insert (add_to_string_pool t key).1 (add_to_string_pool t key).2) := by
    intro t ht hbt
    have hP : ∀ v ∈ (add_to_string_pool t key).1.buckets,
        v = 0 ∨ v < (table.pool ++ key ++ [0]).length := by
      intro v hv
      rcases hbt v hv with e | e
      · exact Or.inl e
      · right
        simp only [List.length_append, List.length_singleton]
        omega
    have hval : (add_to_string_pool t key).2 = 0 ∨
        (add_to_string_pool t key).2 < (table.pool ++ key ++ [0]).length := by
      right
      simp only [add_to_string_pool, ht, List.length_append, List.length_singleton]
      omega
    have hd := do_insert_spec (fun v => v = 0 ∨ v < (table.pool ++ key ++ [0]).length)
      _ hval _ hP
    have hpool : (do_insert (add_to_string_pool t key).1 (add_to_string_pool t key).2).pool
        = table.pool ++ key ++ [0] := by
      rw [hd.1]
      simp only [add_to_string_pool, ht]
    refine ⟨hpool, by simp only [add_to_string_pool, ht], ?_, ?_⟩
    · rw [hpool]
      exact hd.2
    · rw [hpool]
      exact Or.inr ⟨table.pool ++ key, rfl⟩
  unfold hashtable_insert
  simp only
  split
  · rename_i hne
    have hr := hashtable_rehash_loop_spec (fun v => v = 0 ∨ v < table.pool.length)
      (table.alloc / sizeof_ulong) (Or.inl rfl) (table.alloc / sizeof_ulong)
      { table with
        size := table.size + 4 * sizeof_ulong,
        alloc := array_add_alloc table.alloc table.size (4 * sizeof_ulong),
        buckets := table.buckets ++ List.replicate
          ((array_add_alloc table.alloc table.size (4 * sizeof_ulong) - table.alloc)
            / sizeof_ulong) 0 } 0
      (by
        intro v hv
        rcases List.mem_append.mp hv with e | e
        · exact hb v e
        · exact Or.inl (List.eq_of_mem_replicate e))
    exact key1 _ hr.1 hr.2
  · exact key1 _ rfl hb

theorem hashtable_tokenize_unfold (table : hashtable) (string : Option (List Nat)) :
    hashtable_tokenize table string
      = if hashtable_lookup table (string.getD []) != 0 then
          (table, hashtable_lookup table (string.getD []))
        else hashtable_insert table (string.getD []) := by
  cases string <;> rfl

theorem hashtable_tokenize_spec (table : hashtable) (string : Option (List Nat))
    (h : table_ok table) :
    table_ok (hashtable_tokenize table string).1 ∧
    (∃ ext, (hashtable_tokenize table string).1.pool = table.pool ++ ext) ∧
    (hashtable_tokenize table string).2 < (hashtable_tokenize table string).1.pool.length ∧
    ((∀ c ∈ string.getD [], c ≠ 0) →
      cstr_at (hashtable_tokenize table string).1.pool (hashtable_tokenize table string).2
        = string.getD []) := by
  rw [hashtable_tokenize_unfold]
  by_cases hl : hashtable_lookup table (string.getD []) = 0
  · have hl' : (hashtable_lookup table (string.getD []) != 0) = false := by simp [hl]
    simp only [hl', Bool.false_eq_true, if_false]
    obtain ⟨h1, h2, h3⟩ := hashtable_insert_spec table (string.getD []) h
    refine ⟨h3, ⟨string.getD [] ++ [0], by rw [h1, List.append_assoc]⟩, ?_, ?_⟩
    · rw [h1, h2]
      simp only [List.length_append, List.length_singleton]
      omega
    · intro hz
      rw [h1, h2]
      have := cstr_at_new table.pool (string.getD []) [] hz
      simpa using this
  · have hl' : (hashtable_lookup table (string.getD []) != 0) = true := by simp [hl]
    simp only [hl', if_true]
    have hres := hashtable_lookup_loop_result table (string.getD [])
      ((hash_string (string.getD []) * sizeof_ulong) % UINT_MOD) table.alloc 0 hl
    refine ⟨h, ⟨[], by simp⟩, ?_, ?_⟩
    · rcases h.1 _ hres.1 with e | e
      · exact absurd e hl
      · exact e
    · intro _
      exact hres.2.symm

theorem tokenize_fields (importer : razor_importer) (string : Option (List Nat)) :
    (razor_importer_tokenize importer string).1
      = { importer with
          table := (hashtable_tokenize importer.table string).1,
          set := { importer.set with
            string_pool := (hashtable_tokenize importer.table string).1.pool } } ∧
    (razor_importer_tokenize importer string).2 = (hashtable_tokenize importer.table string).2 :=
  ⟨rfl, rfl⟩

theorem package_names_append (set : razor_set) (pool : List Nat) (ext : List Nat)
    (hpool : pool = set.string_pool ++ ext) (hterm : pool_terminated set.string_pool)
    (hlt : ∀ p ∈ set.packages, p.name < set.string_pool.length) :
    set.packages.map (fun p => cstr_at pool p.name) = package_names set := by
  unfold package_names
  apply List.map_congr_left
  intro p hp
  rw [hpool]
  exact cstr_at_append _ _ _ (hlt p hp) hterm

theorem razor_importer_tokenize_spec (importer : razor_importer) (string : Option (List Nat))
    (h : importer_ok importer) :
    importer_ok (razor_importer_tokenize importer string).1 ∧
    (∃ ext, (razor_importer_tokenize importer string).1.set.string_pool
      = importer.set.string_pool ++ ext) ∧
    (razor_importer_tokenize importer string).1.set.packages = importer.set.packages ∧
    package_names (razor_importer_tokenize importer string).1.set = package_names importer.set ∧
    (razor_importer_tokenize importer string).2
      < (razor_importer_tokenize importer string).1.set.string_pool.length ∧
    ((∀ c ∈ string.getD [], c ≠ 0) →
      cstr_at (razor_importer_tokenize importer string).1.set.string_pool
        (razor_importer_tokenize importer string).2 = string.getD []) := by
  obtain ⟨h1, h2, h3⟩ := h
  obtain ⟨t1, ⟨ext, t2⟩, t3, t4⟩ := hashtable_tokenize_spec importer.table string h2
  rw [(tokenize_fields importer string).1, (tokenize_fields importer string).2]
  have hext : (hashtable_tokenize importer.table string).1.pool
      = importer.set.string_pool ++ ext := by rw [t2, h1]
  refine ⟨⟨rfl, t1, ?_⟩, ⟨ext, hext⟩, rfl, ?_, t3, t4⟩
  · intro p hp
    show p.name < (hashtable_tokenize importer.table string).1.pool.length
    rw [hext, List.length_append]
    have := h3 p hp
    omega
  · exact package_names_append importer.set _ ext hext (h1 ▸ h2.2) h3

theorem mem_begin_names (name : List Nat) :
    ∀ calls : List importer_call,
      name ∈ begin_names calls ↔ ∃ v, importer_call.begin_package name v ∈ calls := by
  intro calls
  induction calls with
  | nil => simp [begin_names]
  | cons c rest ih =>
    cases c with
    | begin_package n v =>
      simp only [begin_names, List.mem_cons, ih]
      constructor
      · rintro (h | ⟨w, h⟩)
        · exact ⟨v, Or.inl (by rw [h])⟩
        · exact ⟨w, Or.inr h⟩
      · rintro ⟨w, h | h⟩
        · left
          cases h
          rfl
        · exact Or.inr ⟨w, h⟩
    | add_property n v t => simp [begin_names, ih]
    | add_file n => simp [begin_names, ih]
    | finish_package => simp [begin_names, ih]

theorem begin_package_unfold (importer : razor_importer) (n v : List Nat) :
    razor_importer_begin_package importer n v
      = { (razor_importer_tokenize (razor_importer_tokenize importer (some n)).1 (some v)).1 with
          set := { (razor_importer_tokenize (razor_importer_tokenize importer (some n)).1
              (some v)).1.set with
            packages := (razor_importer_tokenize (razor_importer_tokenize importer (some n)).1
                (some v)).1.set.packages
              ++ [{ name := (razor_importer_tokenize importer (some n)).2,
                    version := (razor_importer_tokenize
                      (razor_importer_tokenize importer (some n)).1 (some v)).2,
                    properties := 0, files := 0 }] },
          package := some importer.set.packages.length,
          properties := [] } :=
  rfl

theorem add_property_unfold (importer : razor_importer) (n v : List Nat) (t : Nat) :
    ∃ properties scratch,
      razor_importer_add_property importer n v t
        = { (razor_importer_tokenize (razor_importer_tokenize importer (some n)).1
              (some v)).1 with
            set := { (razor_importer_tokenize (razor_importer_tokenize importer (some n)).1
                (some v)).1.set with properties := properties },
            properties := scratch } :=
  ⟨_, _, rfl⟩

theorem begin_package_spec (importer : razor_importer) (n v : List Nat)
    (h : importer_ok importer) (hn : ∀ c ∈ n, c ≠ 0) :
    importer_ok (razor_importer_begin_package importer n v) ∧
    package_names (razor_importer_begin_package importer n v).set
      = package_names importer.set ++ [n] := by
  have A := razor_importer_tokenize_spec importer (some n) h
  have B := razor_importer_tokenize_spec (razor_importer_tokenize importer (some n)).1 (some v)
    A.1
  rw [begin_package_unfold]
  generalize razor_importer_tokenize (razor_importer_tokenize importer (some n)).1 (some v)
    = r2 at B ⊢
  generalize razor_importer_tokenize importer (some n) = r1 at A B ⊢
  obtain ⟨a1, ⟨ext1, a2⟩, a3, a4, a5, a6⟩ := A
  obtain ⟨b1, ⟨ext2, b2⟩, b3, b4, b5, b6⟩ := B
  have hlt : r1.2 < r2.1.set.string_pool.length := by
    rw [b2, List.length_append]
    omega
  refine ⟨⟨b1.1, b1.2.1, ?_⟩, ?_⟩
  · intro p hp
    rcases List.mem_append.mp hp with e | e
    · exact b1.2.2 p e
    · rw [List.mem_singleton.mp e]
      exact hlt
  · show List.map (fun p => cstr_at r2.1.set.string_pool p.name) (r2.1.set.packages ++ [_]) = _
    rw [List.map_append]
    have hb4 : List.map (fun p => cstr_at r2.1.set.string_pool p.name) r2.1.set.packages
        = package_names importer.set := b4.trans a4
    rw [hb4]
    congr 1
    show [cstr_at r2.1.set.string_pool r1.2] = [n]
    rw [b2, cstr_at_append _ _ _ a5 (a1.1 ▸ a1.2.1.2), a6 hn]
    rfl

theorem importer_ok_with_properties (r : razor_importer) (a : List razor_property)
    (b : List Nat) (h : importer_ok r) :
    importer_ok { r with set := { r.set with properties := a }, properties := b } ∧
    package_names ({ r with set := { r.set with properties := a }, properties := b }).set
      = package_names r.set :=
  ⟨⟨h.1, h.2.1, h.2.2⟩, rfl⟩

theorem add_property_spec (importer : razor_importer) (n v : List Nat) (t : Nat)
    (h : importer_ok importer) :
    importer_ok (razor_importer_add_property importer n v t) ∧
    package_names (razor_importer_add_property importer n v t).set
      = package_names importer.set := by
  have A := razor_importer_tokenize_spec importer (some n) h
  have B := razor_importer_tokenize_spec (razor_importer_tokenize importer (some n)).1 (some v)
    A.1
  obtain ⟨properties, scratch, hunfold⟩ := add_property_unfold importer n v t
  rw [hunfold]
  have C := importer_ok_with_properties _ properties scratch B.1
  exact ⟨C.1, C.2.trans (B.2.2.2.1.trans A.2.2.2.1)⟩

theorem map_set_same {α β : Type} (f : α → β) (l : List α) (p : Nat) (x y : α)
    (hx : l[p]? = some x) (hf : f y = f x) : (l.set p y).map f = l.map f := by
  apply List.ext_getElem?
  intro i
  simp only [List.getElem?_map, List.getElem?_set]
  by_cases hi : p = i
  · subst hi
    have hlen : p < l.length := by
      by_contra hc
      rw [List.getElem?_eq_none (by omega)] at hx
      cases hx
    simp [hlen, hx, hf]
  · simp [hi]

theorem finish_package_spec (importer importer' : razor_importer)
    (h : importer_ok importer) (hrun : razor_importer_finish_package importer = some importer') :
    importer_ok importer' ∧ package_names importer'.set = package_names importer.set := by
  unfold razor_importer_finish_package at hrun
  split at hrun
  · cases hrun
  · rename_i p _
    split at hrun
    · cases hrun
    · rename_i pkg hpkg
      cases hrun
      refine ⟨⟨h.1, h.2.1, ?_⟩, ?_⟩
      · intro q hq
        rcases List.mem_or_eq_of_mem_set hq with e | e
        · exact h.2.2 q e
        · rw [e]
          exact h.2.2 pkg (List.mem_iff_getElem?.mpr ⟨p, hpkg⟩)
      · show List.map (fun q => cstr_at importer.set.string_pool q.name)
            (importer.set.packages.set p _) = List.map _ importer.set.packages
        refine map_set_same (fun q => cstr_at importer.set.string_pool q.name)
          importer.set.packages p pkg _ hpkg ?_
        rfl

theorem run_calls_spec :
    ∀ (calls : List importer_call) (importer importer' : razor_importer),
      importer_ok importer →
      (∀ n v, importer_call.begin_package n v ∈ calls → ∀ c ∈ n, c ≠ 0) →
      run_calls importer calls = some importer' →
      importer_ok importer' ∧
      package_names importer'.set = package_names importer.set ++ begin_names calls := by
  intro calls
  induction calls with
  | nil =>
    intro importer importer' h _ hrun
    simp only [run_calls] at hrun
    cases hrun
    exact ⟨h, by simp [begin_names]⟩
  | cons c rest ih =>
    intro importer importer' h hz hrun
    have hz' : ∀ n v, importer_call.begin_package n v ∈ rest → ∀ c ∈ n, c ≠ 0 :=
      fun n v hm => hz n v (List.mem_cons_of_mem _ hm)
    cases c with
    | begin_package n v =>
      simp only [run_calls] at hrun
      obtain ⟨s1, s2⟩ := begin_package_spec importer n v h (hz n v (List.mem_cons_self _ _))
      obtain ⟨r1, r2⟩ := ih _ importer' s1 hz' hrun
      exact ⟨r1, by rw [r2, s2]; simp [begin_names]⟩
    | add_property n v t =>
      simp only [run_calls] at hrun
      obtain ⟨s1, s2⟩ := add_property_spec importer n v t h
      obtain ⟨r1, r2⟩ := ih _ importer' s1 hz' hrun
      exact ⟨r1, by rw [r2, s2]; simp [begin_names]⟩
    | add_file n =>
      simp only [run_calls] at hrun
      obtain ⟨r1, r2⟩ := ih (razor_importer_add_file importer n) importer' h hz' hrun
      exact ⟨r1, by rw [r2]; simp [begin_names, razor_importer_add_file]⟩
    | finish_package =>
      simp only [run_calls] at hrun
      split at hrun
      · cases hrun
      · rename_i importer1 hfin
        obtain ⟨s1, s2⟩ := finish_package_spec importer importer1 h hfin
        obtain ⟨r1, r2⟩ := ih _ importer' s1 hz' hrun
        exact ⟨r1, by rw [r2, s2]; simp [begin_names]⟩

theorem importer_new_ok : importer_ok razor_importer_new :=
  ⟨rfl, ⟨fun v hv => (by cases hv), Or.inl rfl⟩, fun p hp => (by cases hp)⟩

theorem build_file_tree_walk_spec (package : Nat) :
    ∀ (fuel : Nat) (importer importer' : razor_importer) (d d' : import_directory)
      (f : List Nat),
      importer_ok importer →
      build_file_tree_walk package fuel importer d f = some (importer', d') →
      importer_ok importer' ∧ package_names importer'.set = package_names importer.set ∧
      importer'.set.packages = importer.set.packages ∧
      importer'.files = importer.files := by
  intro fuel
  induction fuel with
  | zero =>
    intro importer importer' d d' f h hrun
    simp only [build_file_tree_walk] at hrun
    cases hrun
    exact ⟨h, rfl, rfl, rfl⟩
  | succ fuel ih =>
    intro importer importer' d d' f h hrun
    simp only [build_file_tree_walk] at hrun
    split at hrun
    · split at hrun
      · cases hrun
      · have A := razor_importer_tokenize_spec importer
          (some (List.takeWhile (fun c => c != 47) f)) h
        have hfiles : (razor_importer_tokenize importer
            (some (List.takeWhile (fun c => c != 47) f))).1.files = importer.files := rfl
        generalize razor_importer_tokenize importer
          (some (List.takeWhile (fun c => c != 47) f)) = r at A hrun hfiles
        obtain ⟨importer1, name⟩ := r
        simp only at hrun A hfiles
        split at hrun
        · cases hrun
        · rename_i last _
          split at hrun
          · cases hrun
          · rename_i importer2 last2 hbelow
            cases hrun
            split at hbelow
            · cases hbelow
              exact ⟨A.1, A.2.2.2.1, A.2.2.1, hfiles⟩
            · obtain ⟨i1, i2, i3, i4⟩ := ih importer1 _ last _ _ A.1 hbelow
              exact ⟨i1, i2.trans A.2.2.2.1, i3.trans A.2.2.1, i4.trans hfiles⟩
    · cases hrun
      exact ⟨h, rfl, rfl, rfl⟩

theorem build_file_tree_loop_spec :
    ∀ (entries : List import_entry) (importer importer' : razor_importer)
      (root root' : import_directory),
      importer_ok importer →
      build_file_tree_loop entries importer root = some (importer', root') →
      importer_ok importer' ∧ package_names importer'.set = package_names importer.set ∧
      importer'.set.packages = importer.set.packages := by
  intro entries
  induction entries with
  | nil =>
    intro importer importer' root root' h hrun
    simp only [build_file_tree_loop] at hrun
    cases hrun
    exact ⟨h, rfl, rfl⟩
  | cons e rest ih =>
    intro importer importer' root root' h hrun
    simp only [build_file_tree_loop] at hrun
    split at hrun
    · exact ih _ _ _ _ h hrun
    · split at hrun
      · cases hrun
      · rename_i importer1 root1 hwalk
        obtain ⟨w1, w2, w3, _⟩ := build_file_tree_walk_spec _ _ _ _ _ _ _ h hwalk
        obtain ⟨i1, i2, i3⟩ := ih _ _ _ _ w1 hrun
        exact ⟨i1, i2.trans w2, i3.trans w3⟩

theorem build_file_tree_spec (rnd : Nat → Nat) (calls calls' : Nat)
    (importer importer' : razor_importer) (h : importer_ok importer)
    (hrun : build_file_tree rnd calls importer = some (importer', calls')) :
    package_names importer'.set = package_names importer.set := by
  unfold build_file_tree at hrun
  simp only at hrun
  have A := razor_importer_tokenize_spec importer (some []) h
  generalize razor_importer_tokenize importer (some []) = r at A hrun
  obtain ⟨importer1, name⟩ := r
  simp only at hrun A
  split at hrun
  · cases hrun
  · rename_i importer2 root2 hloop
    obtain ⟨l1, l2, l3⟩ := build_file_tree_loop_spec _ _ _ _ _ A.1 hloop
    cases hrun
    exact l2.trans A.2.2.2.1

theorem build_package_file_lists_emit_names :
    ∀ (packages : List razor_package) (pkgs : List (List Nat)) (file_pool : List Nat),
      (build_package_file_lists_emit packages pkgs file_pool).1.map (fun p => p.name)
        = packages.map (fun p => p.name) := by
  intro packages
  induction packages with
  | nil => intro pkgs file_pool; rfl
  | cons p rest ih =>
    intro pkgs file_pool
    have h : ∃ r fp, (build_package_file_lists_emit (p :: rest) pkgs file_pool).1
        = { p with files := r } :: (build_package_file_lists_emit rest pkgs.tail fp).1 :=
      ⟨_, _, rfl⟩
    obtain ⟨r, fp, hr⟩ := h
    rw [hr, List.map_cons, List.map_cons, ih]

theorem map_name_congr (pool : List Nat) (l1 l2 : List razor_package)
    (h : l1.map (fun p => p.name) = l2.map (fun p => p.name)) :
    l1.map (fun p => cstr_at pool p.name) = l2.map (fun p => cstr_at pool p.name) := by
  have e : ∀ l : List razor_package,
      l.map (fun p => cstr_at pool p.name) = (l.map (fun p => p.name)).map (cstr_at pool) := by
    intro l
    rw [List.map_map]
    rfl
  rw [e l1, e l2, h]

theorem build_package_file_lists_spec (set set' : razor_set) (rmap : List Nat)
    (hrun : build_package_file_lists set rmap = some set') :
    package_names set' = package_names set := by
  unfold build_package_file_lists at hrun
  simp only at hrun
  split at hrun
  · cases hrun
  · cases hrun
    exact map_name_congr set.string_pool _ _ (build_package_file_lists_emit_names _ _ _)

theorem uniqueify_properties_spec (rnd : Nat → Nat) (calls calls' : Nat) (set set' : razor_set)
    (map : List Nat)
    (hrun : uniqueify_properties rnd calls set = some (set', map, calls')) :
    set'.string_pool = set.string_pool ∧ set'.packages = set.packages := by
  unfold uniqueify_properties at hrun
  simp only at hrun
  split at hrun
  · cases hrun
  · split at hrun
    · cases hrun
    · cases hrun
      exact ⟨rfl, rfl⟩

theorem strcmp_le_trans (a b c : List Nat) (ha : ∀ x ∈ a, x ≠ 0) (hb : ∀ x ∈ b, x ≠ 0)
    (hc : ∀ x ∈ c, x ≠ 0) (hab : strcmp a b ≤ 0) (hbc : strcmp b c ≤ 0) : strcmp a c ≤ 0 := by
  rcases lt_or_eq_of_le hab with h | h
  · exact le_of_lt (strcmp_lt_le_trans a b c hb hc h hbc)
  · rw [strcmp_eq_zero a b ha hb h]
    exact hbc

theorem compare_packages_order (pool : List Nat) :
    (∀ x, compare_packages pool x x = 0) ∧
    (∀ x y, compare_packages pool x y < 0 → package_name_le pool x y) ∧
    (∀ x y, compare_packages pool x y = 0 →
      package_name_le pool x y ∧ package_name_le pool y x) ∧
    (∀ x y, 0 < compare_packages pool x y → package_name_le pool y x) ∧
    (∀ x y z, package_name_le pool x y → package_name_le pool y z →
      package_name_le pool x z) := by
  refine ⟨?_, ?_, ?_, ?_, ?_⟩
  · intro x
    unfold compare_packages
    rw [if_pos rfl]
    exact versioncmp_self _
  · intro x y h
    unfold compare_packages at h
    unfold package_name_le
    by_cases e : x.name = y.name
    · rw [e, strcmp_self]
    · rw [if_neg e] at h
      exact le_of_lt h
  · intro x y h
    unfold compare_packages at h
    unfold package_name_le
    by_cases e : x.name = y.name
    · rw [e, strcmp_self]
      exact ⟨le_refl _, le_refl _⟩
    · rw [if_neg e] at h
      rw [strcmp_swap (cstr_at pool x.name) (cstr_at pool y.name), h]
      exact ⟨le_refl _, le_refl _⟩
  · intro x y h
    unfold compare_packages at h
    unfold package_name_le
    by_cases e : x.name = y.name
    · rw [e, strcmp_self]
    · rw [if_neg e] at h
      rw [strcmp_swap (cstr_at pool x.name) (cstr_at pool y.name)]
      omega
  · intro x y z h1 h2
    exact strcmp_le_trans _ _ _ (cstr_at_ne_zero _ _) (cstr_at_ne_zero _ _)
      (cstr_at_ne_zero _ _) h1 h2

theorem finish_names (rnd : Nat → Nat) (importer : razor_importer) (set : razor_set)
    (h : importer_ok importer) (hrun : razor_importer_finish rnd importer = some set) :
    ∃ sorted,
      same_range importer.set.packages sorted 0 importer.set.packages.length ∧
      sorted_range (package_name_le importer.set.string_pool) sorted 0
        importer.set.packages.length ∧
      package_names set = sorted.map (fun p => cstr_at importer.set.string_pool p.name) := by
  unfold razor_importer_finish at hrun
  split at hrun
  · cases hrun
  · rename_i set1 map calls hu
    obtain ⟨u1, u2⟩ := uniqueify_properties_spec _ _ _ _ _ _ hu
    simp only at hrun
    obtain ⟨o1, o2, o3, o4, o5⟩ := compare_packages_order set1.string_pool
    have hs := qsort_with_data_spec (compare_packages set1.string_pool)
      (package_name_le set1.string_pool) o1 o2 o3 o4 o5 rnd calls set1.packages
    generalize qsort_with_data (compare_packages set1.string_pool) rnd calls set1.packages
      = q at hs hrun
    obtain ⟨sorted, map2, calls2⟩ := q
    simp only at hrun hs
    rw [u1, u2] at hs
    split at hrun
    · cases hrun
    · rename_i importer4 _ hb
      split at hrun
      · cases hrun
      · rename_i set6 hp
        cases hrun
        refine ⟨sorted, hs.1, hs.2, ?_⟩
        have hok : importer_ok { importer with
            set := { set1 with
              property_pool := remap_links set1.property_pool map, packages := sorted } } := by
          refine ⟨h.1.trans u1.symm, h.2.1, ?_⟩
          intro p hp'
          show p.name < set1.string_pool.length
          rw [u1]
          exact h.2.2 p ((same_range_mem _ _ hs.1 p).mp hp')
        have e1 := build_file_tree_spec rnd _ _ _ _ hok hb
        have e2 := build_package_file_lists_spec _ _ _ hp
        refine Eq.trans (b := package_names set6) rfl ?_
        refine e2.trans ?_
        refine Eq.trans (b := package_names importer4.set) rfl ?_
        refine e1.trans ?_
        show List.map (fun p => cstr_at set1.string_pool p.name) sorted = _
        rw [u1]

theorem get_package_names (set : razor_set) (name : List Nat) :
    razor_set_get_package set name
      = bsearch_loop (strcmp name) (package_names set) (set.packages.length + 1) 0
          set.packages.length := by
  unfold razor_set_get_package bsearch package_names
  exact bsearch_map (strcmp name) (fun p => cstr_at set.string_pool p.name) set.packages _ _ _

theorem bsearch_names (names : List (List Nat)) (name : List Nat) (n : Nat)
    (hn : n = names.length)
    (hname : ∀ c ∈ name, c ≠ 0)
    (hzero : ∀ a ∈ names, ∀ c ∈ a, c ≠ 0)
    (hsorted : sorted_range (fun a b => strcmp a b ≤ 0) names 0 names.length) :
    (name ∈ names → ∃ i, bsearch_loop (strcmp name) names (n + 1) 0 n = some i ∧
      names[i]? = some name) ∧
    (name ∉ names → bsearch_loop (strcmp name) names (n + 1) 0 n = none) := by
  subst hn
  have hfound : ∀ i, bsearch_loop (strcmp name) names (names.length + 1) 0 names.length
      = some i → names[i]? = some name := by
    intro i hi
    obtain ⟨a, ha, hc⟩ := bsearch_loop_found (strcmp name) names _ _ _ _ hi
    rw [ha, strcmp_eq_zero name a hname (hzero a (List.mem_iff_getElem?.mpr ⟨i, ha⟩)) hc]
  have hsorted' : sorted_range
      (fun a b => (∀ c ∈ a, c ≠ 0) ∧ (∀ c ∈ b, c ≠ 0) ∧ strcmp a b ≤ 0) names 0
        names.length := by
    intro i j x y h1 h2 h3 hx hy
    exact ⟨hzero x (List.mem_iff_getElem?.mpr ⟨i, hx⟩),
      hzero y (List.mem_iff_getElem?.mpr ⟨j, hy⟩), hsorted i j x y h1 h2 h3 hx hy⟩
  have hnone : bsearch_loop (strcmp name) names (names.length + 1) 0 names.length = none →
      name ∉ names := by
    intro hres hmem
    obtain ⟨i, hi⟩ := List.mem_iff_getElem?.mp hmem
    refine bsearch_loop_none (strcmp name)
      (fun a b => (∀ c ∈ a, c ≠ 0) ∧ (∀ c ∈ b, c ≠ 0) ∧ strcmp a b ≤ 0) names ?_ ?_ hsorted'
      (names.length + 1) 0 names.length (Nat.zero_le _) (le_refl _) (by omega)
      (fun i x h _ => by omega)
      (fun i x h hx => by
        rw [List.getElem?_eq_none h] at hx
        cases hx)
      hres i name hi (strcmp_self name)
    · intro x y hxy hx
      exact strcmp_lt_le_trans name x y hxy.1 hxy.2.1 hx hxy.2.2
    · intro x y hxy hy
      have h1 : strcmp y name < 0 := by
        rw [strcmp_swap name y]
        omega
      have h2 := strcmp_le_lt_trans x y name hxy.1 hxy.2.1 hxy.2.2 h1
      rw [strcmp_swap name x] at h2
      omega
  constructor
  · intro hmem
    cases hres : bsearch_loop (strcmp name) names (names.length + 1) 0 names.length with
    | none => exact absurd hmem (hnone hres)
    | some i => exact ⟨i, rfl, hfound i hres⟩
  · intro hmem
    cases hres : bsearch_loop (strcmp name) names (names.length + 1) 0 names.length with
    | none => rfl
    | some i => exact absurd (List.mem_iff_getElem?.mpr ⟨i, hfound i hres⟩) hmem

/-- C13: on the set that `razor_importer_finish` returns after a sequence of
importer calls on a new importer, `razor_set_get_package(set, name)` returns
a record whose name offset decodes to `name` when `begin_package` was called
with that name, and `NULL` when it was not.  The names are C strings: they
hold no NUL byte. -/
theorem get_package_by_name (rnd : Nat → Nat) (calls : List importer_call) (set : razor_set)
    (name : List Nat)
    (hcalls : ∀ n ∈ begin_names calls, ∀ c ∈ n, c ≠ 0)
    (hname : ∀ c ∈ name, c ≠ 0)
    (hfin : import_set rnd calls = some set) :
    (name ∈ begin_names calls →
      ∃ i p, razor_set_get_package set name = some i ∧ set.packages[i]? = some p ∧
        cstr_at set.string_pool p.name = name) ∧
    (name ∉ begin_names calls → razor_set_get_package set name = none) := by
  unfold import_set at hfin
  split at hfin
  · cases hfin
  · rename_i importer hrun
    obtain ⟨r1, r2⟩ := run_calls_spec calls razor_importer_new importer importer_new_ok
      (fun n v hm => hcalls n ((mem_begin_names n calls).mpr ⟨v, hm⟩)) hrun
    have r2' : package_names importer.set = begin_names calls := by
      rw [r2]
      rfl
    obtain ⟨sorted, s1, s2, s3⟩ := finish_names rnd importer set r1 hfin
    have hlen : set.packages.length = (package_names set).length := by
      unfold package_names
      rw [List.length_map]
    have hmem : ∀ s, s ∈ package_names set ↔ s ∈ begin_names calls := by
      intro s
      rw [s3, ← r2']
      unfold package_names
      simp only [List.mem_map]
      constructor
      · rintro ⟨x, hx, e⟩
        exact ⟨x, (same_range_mem _ _ s1 x).mp hx, e⟩
      · rintro ⟨x, hx, e⟩
        exact ⟨x, (same_range_mem _ _ s1 x).mpr hx, e⟩
    have hzero : ∀ a ∈ package_names set, ∀ c ∈ a, c ≠ 0 := by
      intro a ha
      unfold package_names at ha
      obtain ⟨x, _, e⟩ := List.mem_map.mp ha
      rw [← e]
      exact cstr_at_ne_zero _ _
    have hsorted : sorted_range (fun a b => strcmp a b ≤ 0) (package_names set) 0
        (package_names set).length := by
      rw [s3]
      intro i j a b h1 h2 h3 ha hb
      rw [List.getElem?_map] at ha hb
      rw [List.length_map, s1.1] at h3
      cases hx : sorted[i]? with
      | none => rw [hx] at ha; cases ha
      | some x =>
        cases hy : sorted[j]? with
        | none => rw [hy] at hb; cases hb
        | some y =>
          rw [hx] at ha
          rw [hy] at hb
          cases ha
          cases hb
          exact s2 i j x y h1 h2 h3 hx hy
    obtain ⟨b1, b2⟩ := bsearch_names (package_names set) name set.packages.length hlen hname
      hzero hsorted
    rw [get_package_names]
    constructor
    · intro hin
      obtain ⟨i, hi, hn⟩ := b1 ((hmem name).mpr hin)
      unfold package_names at hn
      rw [List.getElem?_map] at hn
      cases hp : set.packages[i]? with
      | none => rw [hp] at hn; cases hn
      | some p =>
        rw [hp] at hn
        exact ⟨i, p, hi, hp, Option.some.inj hn⟩
    · intro hnot
      exact b2 (fun hc => hnot ((hmem name).mp hc))

/-- C13 on the set imported from foo 1.0 and bar 2.0: looking up bar returns
the record at index 0, looking up foo the record at index 1, and looking up
baz returns `NULL`. -/
theorem get_package_by_name_witness :
    (∀ n ∈ begin_names calls_foo_bar, ∀ c ∈ n, c ≠ 0) ∧
    import_set (rnd_of []) calls_foo_bar = some set_foo_bar ∧
    bytes "foo" ∈ begin_names calls_foo_bar ∧
    razor_set_get_package set_foo_bar (bytes "bar") = some 0 ∧
    razor_set_get_package set_foo_bar (bytes "baz") = none ∧
    ∃ i p, razor_set_get_package set_foo_bar (bytes "foo") = some i ∧
      set_foo_bar.packages[i]? = some p ∧
      cstr_at set_foo_bar.string_pool p.name = bytes "foo" :=
  ⟨by decide!, by decide!, by decide!, by decide!, by decide!,
    (get_package_by_name (rnd_of []) calls_foo_bar set_foo_bar (bytes "foo")
      (by decide!) (by decide!) (by decide!)).1 (by decide!)⟩

/-! ## Layout of the files section -/

theorem node_at_cons (d : import_directory) (k : Nat) (path : List Nat) :
    node_at d (k :: path) = (d.files[k]?).bind (fun c => node_at c path) := by
  simp only [node_at]
  cases d.files[k]? <;> rfl

theorem children_base_cons (d : import_directory) (b k : Nat) (path : List Nat) :
    children_base d b (k :: path)
      = (d.files[k]?).bind
          (fun c => children_base c (b + d.files.length + counts_before d.files k) path) := by
  simp only [children_base]
  cases d.files[k]? <;> rfl

theorem all_nodes_iff (q : import_directory → Prop) (d : import_directory) :
    all_nodes q d ↔ q d ∧ ∀ c ∈ d.files, all_nodes q c := by
  constructor
  · intro h
    refine ⟨h [] d rfl, ?_⟩
    intro c hc path D hD
    obtain ⟨k, hk⟩ := List.mem_iff_getElem?.mp hc
    refine h (k :: path) D ?_
    rw [node_at_cons, hk]
    exact hD
  · rintro ⟨h1, h2⟩ path D hD
    cases path with
    | nil =>
      simp only [node_at] at hD
      cases hD
      exact h1
    | cons k path =>
      rw [node_at_cons] at hD
      cases hk : d.files[k]? with
      | none => rw [hk] at hD; cases hD
      | some c =>
        rw [hk] at hD
        exact h2 c (List.mem_iff_getElem?.mpr ⟨k, hk⟩) path D hD

theorem all_nodes_mono (q r : import_directory → Prop) (d : import_directory)
    (h : ∀ D, q D → r D) (hq : all_nodes q d) : all_nodes r d :=
  fun path D hD => h D (hq path D hD)

theorem depth_le_iff (d : import_directory) (n : Nat) :
    depth_le d n ↔ ∀ c ∈ d.files, 0 < n ∧ depth_le c (n - 1) := by
  constructor
  · intro h c hc
    obtain ⟨k, hk⟩ := List.mem_iff_getElem?.mp hc
    have h0 : 0 < n := by
      have := h [k] c (by rw [node_at_cons, hk]; rfl)
      simp at this
      omega
    refine ⟨h0, ?_⟩
    intro path D hD
    have := h (k :: path) D (by rw [node_at_cons, hk]; exact hD)
    simp at this
    omega
  · intro h path D hD
    cases path with
    | nil => simp
    | cons k path =>
      rw [node_at_cons] at hD
      cases hk : d.files[k]? with
      | none => rw [hk] at hD; cases hD
      | some c =>
        rw [hk] at hD
        obtain ⟨h0, h1⟩ := h c (List.mem_iff_getElem?.mpr ⟨k, hk⟩)
        have := h1 path D hD
        simp
        omega

theorem depth_le_mono (d : import_directory) (m n : Nat) (hmn : m ≤ n) (h : depth_le d m) :
    depth_le d n :=
  fun path D hD => le_trans (h path D hD) hmn

theorem counts_before_zero (cs : List import_directory) : counts_before cs 0 = 0 := by
  simp [counts_before]

theorem counts_before_succ (p : import_directory) (cs : List import_directory) (k : Nat) :
    counts_before (p :: cs) (k + 1) = p.count + counts_before cs k := by
  simp [counts_before]

theorem counts_before_length (cs : List import_directory) :
    counts_before cs cs.length = (cs.map (fun p => p.count)).sum := by
  simp [counts_before]

theorem serialize_entries_cons (p : import_directory) (rest : List import_directory) (s : Nat)
    (arr : List razor_entry) (pool : List Nat) :
    ∃ pk pool1,
      serialize_entries (p :: rest) s arr pool
        = serialize_entries rest (s + p.count)
            (arr ++ [{ name := p.name, start := if p.count > 0 then s else 0, packages := pk }])
            pool1 :=
  ⟨_, _, rfl⟩

theorem serialize_entries_spec :
    ∀ (cs : List import_directory) (s : Nat) (arr : List razor_entry) (pool : List Nat),
      ∃ E pool', serialize_entries cs s arr pool = (arr ++ E, pool') ∧ E.length = cs.length ∧
        ∀ k c, cs[k]? = some c → ∃ ec, E[k]? = some ec ∧ ec.name = c.name ∧
          ec.start = (if c.count > 0 then s + counts_before cs k else 0) := by
  intro cs
  induction cs with
  | nil =>
    intro s arr pool
    exact ⟨[], pool, by simp [serialize_entries], rfl, fun k c h => by simp at h⟩
  | cons p rest ih =>
    intro s arr pool
    obtain ⟨pk, pool1, hunfold⟩ := serialize_entries_cons p rest s arr pool
    obtain ⟨E, pool', hrun, hlen, hE⟩ := ih (s + p.count)
      (arr ++ [{ name := p.name, start := if p.count > 0 then s else 0, packages := pk }]) pool1
    refine ⟨{ name := p.name, start := if p.count > 0 then s else 0, packages := pk } :: E,
      pool', ?_, by simp [hlen], ?_⟩
    · rw [hunfold, hrun, List.append_assoc]
      rfl
    · intro k c hk
      cases k with
      | zero =>
        simp only [List.getElem?_cons_zero, Option.some.injEq] at hk
        subst hk
        exact ⟨{ name := p.name, start := if p.count > 0 then s else 0, packages := pk },
          by simp, rfl, by simp [counts_before_zero]⟩
      | succ k =>
        simp only [List.getElem?_cons_succ] at hk
        obtain ⟨ec, h1, h2, h3⟩ := hE k c hk
        refine ⟨ec, by simpa using h1, h2, ?_⟩
        rw [h3, counts_before_succ]
        split <;> omega

theorem serialize_files_succ (fuel : Nat) (d : import_directory) (arr : List razor_entry)
    (pool : List Nat) :
    serialize_files (fuel + 1) d arr pool
      = d.files.foldl (fun acc p => serialize_files fuel p acc.1 acc.2)
          (mark_last d (serialize_entries d.files (arr.length + d.files.length) arr pool).1,
            (serialize_entries d.files (arr.length + d.files.length) arr pool).2) :=
  rfl

theorem mark_last_spec (d : import_directory) (arr E : List razor_entry)
    (hlen : E.length = d.files.length) :
    ∃ E', mark_last d (arr ++ E) = arr ++ E' ∧ E'.length = E.length ∧
      ∀ k ec, E[k]? = some ec → ∃ ec', E'[k]? = some ec' ∧ ec'.start = ec.start ∧
        ec'.name = (if k + 1 = E.length then ec.name ||| RAZOR_ENTRY_LAST else ec.name) := by
  unfold mark_last
  by_cases h0 : d.files.length = 0
  · rw [if_pos h0]
    refine ⟨E, rfl, rfl, ?_⟩
    intro k ec hk
    have : k < E.length := by
      by_contra hc
      rw [List.getElem?_eq_none (by omega)] at hk
      cases hk
    omega
  · rw [if_neg h0]
    have hne : E ≠ [] := by
      intro e
      rw [e] at hlen
      exact h0 hlen.symm
    obtain ⟨E0, el, hE⟩ : ∃ E0 el, E = E0 ++ [el] :=
      ⟨E.dropLast, E.getLast hne, (List.dropLast_append_getLast hne).symm⟩
    subst hE
    rw [← List.append_assoc, List.getLast?_concat, List.dropLast_concat]
    simp only
    refine ⟨E0 ++ [{ el with name := el.name ||| RAZOR_ENTRY_LAST }],
      by rw [List.append_assoc], by simp, ?_⟩
    intro k ec hk
    by_cases hk' : k < E0.length
    · rw [List.getElem?_append_left hk'] at hk
      refine ⟨ec, by rw [List.getElem?_append_left hk']; exact hk, rfl, ?_⟩
      rw [if_neg]
      simp
      omega
    · have hk2 : k = E0.length := by
        by_contra hc
        rw [List.getElem?_eq_none (by simp; omega)] at hk
        cases hk
      subst hk2
      simp only [List.getElem?_concat_length, Option.some.injEq] at hk
      subst hk
      refine ⟨{ el with name := el.name ||| RAZOR_ENTRY_LAST }, by simp, rfl, ?_⟩
      simp

theorem laid_out_append (d : import_directory) (b : Nat) (A X : List razor_entry)
    (h : laid_out d b A) : laid_out d b (A ++ X) := by
  intro path D cb hD hcb k c hk
  obtain ⟨ec, h1, h2, h3⟩ := h path D cb hD hcb k c hk
  refine ⟨ec, ?_, h2, h3⟩
  have hlt : cb + k < A.length := by
    by_contra hc
    rw [List.getElem?_eq_none (by omega)] at h1
    cases h1
  rw [List.getElem?_append_left hlt]
  exact h1

theorem sum_count_succ (cs : List import_directory) :
    (cs.map (fun p => p.count + 1)).sum = cs.length + (cs.map (fun p => p.count)).sum := by
  induction cs with
  | nil => rfl
  | cons c rest ih =>
    simp only [List.map_cons, List.sum_cons, List.length_cons, ih]
    omega

theorem serialize_children (fuel : Nat)
    (ih : ∀ (d : import_directory) (arr : List razor_entry) (pool : List Nat),
      all_nodes counted d →
      (∀ path D, node_at d path = some D → D.files ≠ [] → path.length < fuel) →
      ∃ out pool', serialize_files fuel d arr pool = (arr ++ out, pool') ∧
        out.length = d.count ∧ laid_out d arr.length (arr ++ out)) :
    ∀ (cs : List import_directory) (B : List razor_entry) (pool : List Nat),
      (∀ c ∈ cs, all_nodes counted c ∧
        ∀ path D, node_at c path = some D → D.files ≠ [] → path.length < fuel) →
      ∃ outs pool',
        cs.foldl (fun acc p => serialize_files fuel p acc.1 acc.2) (B, pool)
          = (B ++ outs, pool') ∧
        outs.length = (cs.map (fun p => p.count)).sum ∧
        ∀ k c, cs[k]? = some c → laid_out c (B.length + counts_before cs k) (B ++ outs) := by
  intro cs
  induction cs with
  | nil =>
    intro B pool _
    exact ⟨[], pool, by simp, rfl, fun k c h => by simp at h⟩
  | cons c rest ihc =>
    intro B pool hcs
    obtain ⟨hc1, hc2⟩ := hcs c (List.mem_cons_self _ _)
    obtain ⟨out, pool1, hrun, hlen, hlaid⟩ := ih c B pool hc1 hc2
    obtain ⟨outs, pool2, hrun2, hlen2, hlaid2⟩ := ihc (B ++ out) pool1
      (fun c' hc' => hcs c' (List.mem_cons_of_mem _ hc'))
    refine ⟨out ++ outs, pool2, ?_, ?_, ?_⟩
    · simp only [List.foldl_cons, hrun]
      rw [hrun2, List.append_assoc]
    · simp [hlen, hlen2]
    · intro k c' hk
      cases k with
      | zero =>
        simp only [List.getElem?_cons_zero, Option.some.injEq] at hk
        subst hk
        rw [counts_before_zero, Nat.add_zero, ← List.append_assoc]
        exact laid_out_append _ _ _ _ hlaid
      | succ k =>
        simp only [List.getElem?_cons_succ] at hk
        have := hlaid2 k c' hk
        rw [List.length_append, hlen] at this
        rw [counts_before_succ, ← List.append_assoc, ← Nat.add_assoc]
        exact this

theorem serialize_files_spec :
    ∀ (fuel : Nat) (d : import_directory) (arr : List razor_entry) (pool : List Nat),
      all_nodes counted d →
      (∀ path D, node_at d path = some D → D.files ≠ [] → path.length < fuel) →
      ∃ out pool', serialize_files fuel d arr pool = (arr ++ out, pool') ∧
        out.length = d.count ∧ laid_out d arr.length (arr ++ out) := by
  intro fuel
  induction fuel with
  | zero =>
    intro d arr pool hc hd
    have hfiles : d.files = [] := by
      by_contra hne
      have := hd [] d rfl hne
      simp at this
    refine ⟨[], pool, by simp [serialize_files], ?_, ?_⟩
    · have := hc [] d rfl
      unfold counted at this
      rw [this, hfiles]
      rfl
    · intro path D cb hD hcb k c hk
      cases path with
      | nil =>
        simp only [node_at, Option.some.injEq] at hD
        subst hD
        rw [hfiles] at hk
        simp at hk
      | cons j p =>
        rw [node_at_cons, hfiles] at hD
        simp at hD
  | succ fuel ih =>
    intro d arr pool hc hd
    rw [serialize_files_succ]
    obtain ⟨E, pool1, hE, hElen, hEk⟩ :=
      serialize_entries_spec d.files (arr.length + d.files.length) arr pool
    rw [hE]
    simp only
    obtain ⟨E', hmark, hE'len, hE'k⟩ := mark_last_spec d arr E hElen
    rw [hmark]
    have hchildren : ∀ c ∈ d.files, all_nodes counted c ∧
        ∀ path D, node_at c path = some D → D.files ≠ [] → path.length < fuel := by
      intro c hcm
      refine ⟨((all_nodes_iff counted d).mp hc).2 c hcm, ?_⟩
      intro path D hD hne
      obtain ⟨j, hj⟩ := List.mem_iff_getElem?.mp hcm
      have := hd (j :: path) D (by rw [node_at_cons, hj]; exact hD) hne
      simp at this
      omega
    obtain ⟨outs, pool2, hfold, hlen, hlaid⟩ :=
      serialize_children fuel ih d.files (arr ++ E') pool1 hchildren
    refine ⟨E' ++ outs, pool2, ?_, ?_, ?_⟩
    · rw [hfold, List.append_assoc]
    · have := hc [] d rfl
      unfold counted at this
      rw [this, sum_count_succ, List.length_append, hlen, hE'len, hElen]
    · intro path D cb hD hcb k c hk
      cases path with
      | nil =>
        simp only [node_at, Option.some.injEq] at hD
        subst hD
        simp only [children_base, Option.some.injEq] at hcb
        subst hcb
        obtain ⟨ec, e1, e2, e3⟩ := hEk k c hk
        obtain ⟨ec', f1, f2, f3⟩ := hE'k k ec e1
        refine ⟨ec', ?_, ?_, ?_⟩
        · rw [List.getElem?_append_right (by omega), Nat.add_sub_cancel_left]
          have hlt : k < E'.length := by
            by_contra hcn
            rw [List.getElem?_eq_none (by omega)] at f1
            cases f1
          rw [List.getElem?_append_left hlt]
          exact f1
        · rw [f3, e2, hElen]
        · rw [f2, e3]
      | cons j p =>
        rw [node_at_cons] at hD
        rw [children_base_cons] at hcb
        cases hj : d.files[j]? with
        | none => rw [hj] at hD; cases hD
        | some cj =>
          rw [hj] at hD hcb
          have := hlaid j cj hj
          rw [List.length_append, hE'len, hElen, List.append_assoc] at this
          exact this p D cb hD hcb k c hk

theorem node_at_files_ne_nil (c D : import_directory) (path : List Nat)
    (hD : node_at c path = some D) (hne : D.files ≠ []) : c.files ≠ [] := by
  cases path with
  | nil =>
    simp only [node_at, Option.some.injEq] at hD
    rw [hD]
    exact hne
  | cons k p =>
    rw [node_at_cons] at hD
    intro he
    rw [he] at hD
    simp at hD

theorem counted_pos (c : import_directory) (hc : counted c) (hne : c.files ≠ []) :
    0 < c.count := by
  unfold counted at hc
  rw [hc]
  cases hf : c.files with
  | nil => exact absurd hf hne
  | cons x rest =>
    simp only [List.map_cons, List.sum_cons]
    omega

theorem laid_out_child (d c : import_directory) (b k : Nat) (A : List razor_entry)
    (hk : d.files[k]? = some c) (h : laid_out d b A) :
    laid_out c (b + d.files.length + counts_before d.files k) A := by
  intro path D cb hD hcb
  refine h (k :: path) D cb ?_ ?_
  · rw [node_at_cons, hk]
    exact hD
  · rw [children_base_cons, hk]
    exact hcb

theorem entry_at_spec (A : List razor_entry) :
    ∀ (path : List Nat) (d D : import_directory) (i b : Nat) (e : razor_entry),
      A[i]? = some e → e.start = b → b ≠ 0 → laid_out d b A → all_nodes counted d →
      node_at d path = some D → D.files ≠ [] →
      ∃ j e', entry_at A i path = some j ∧ A[j]? = some e' ∧ e'.start ≠ 0 ∧
        children_base d b path = some e'.start := by
  intro path
  induction path with
  | nil =>
    intro d D i b e hi hb hb0 _ _ _ _
    exact ⟨i, e, rfl, hi, by rw [hb]; exact hb0, by rw [hb]; rfl⟩
  | cons k rest ih =>
    intro d D i b e hi hb hb0 hlaid hcounted hD hne
    rw [node_at_cons] at hD
    cases hk : d.files[k]? with
    | none => rw [hk] at hD; cases hD
    | some c =>
      rw [hk] at hD
      have hD' : node_at c rest = some D := hD
      obtain ⟨ec, h1, _, h3⟩ := hlaid [] d b rfl rfl k c hk
      have hcc : all_nodes counted c :=
        ((all_nodes_iff counted d).mp hcounted).2 c (List.mem_iff_getElem?.mpr ⟨k, hk⟩)
      have hpos : 0 < c.count :=
        counted_pos c (hcc [] c rfl) (node_at_files_ne_nil c D rest hD' hne)
      rw [if_pos hpos] at h3
      have hklt : k < d.files.length := by
        by_contra hc
        rw [List.getElem?_eq_none (by omega)] at hk
        cases hk
      obtain ⟨j, e', g1, g2, g3, g4⟩ := ih c D (b + k) _ ec h1 h3 (by omega)
        (laid_out_child d c b k A hk hlaid) hcc hD' hne
      refine ⟨j, e', ?_, g2, g3, ?_⟩
      · simp only [entry_at, hi, hb]
        exact g1
      · rw [children_base_cons, hk]
        exact g4

theorem laid_out_children (A : List razor_entry) (root : import_directory) (e0 : razor_entry)
    (h0 : A[0]? = some e0) (hstart : e0.start = 1) (hlaid : laid_out root 1 A)
    (hcounted : all_nodes counted root) (path : List Nat) (D : import_directory)
    (hD : node_at root path = some D) (hne : D.files ≠ []) :
    ∃ i e, entry_at A 0 path = some i ∧ A[i]? = some e ∧ e.start ≠ 0 ∧
      ∀ k c, D.files[k]? = some c →
        ∃ ec, A[e.start + k]? = some ec ∧
          ec.name = (if k + 1 = D.files.length then c.name ||| RAZOR_ENTRY_LAST else c.name) := by
  obtain ⟨i, e, g1, g2, g3, g4⟩ :=
    entry_at_spec A path root D 0 1 e0 h0 hstart (by omega) hlaid hcounted hD hne
  refine ⟨i, e, g1, g2, g3, ?_⟩
  intro k c hk
  obtain ⟨ec, h1, h2, _⟩ := hlaid path D e.start hD g4 k c hk
  exact ⟨ec, h1, h2⟩

theorem build_file_tree_walk_succ (package fuel : Nat) (importer : razor_importer)
    (d : import_directory) (f : List Nat) :
    build_file_tree_walk package (fuel + 1) importer d f
      = if deref f ≠ 0 then
          if (f.takeWhile (fun c => c != 47)).length ≥ 256 then none
          else
            match (walk_files d (razor_importer_tokenize importer
                (some (f.takeWhile (fun c => c != 47)))).2).getLast? with
            | none => none
            | some last =>
              match (if deref (f.dropWhile (fun c => c != 47)) = 0 then
                  some ((razor_importer_tokenize importer
                      (some (f.takeWhile (fun c => c != 47)))).1,
                    import_directory.mk last.name last.count last.files
                      (last.packages ++ [package]))
                else build_file_tree_walk package fuel
                  (razor_importer_tokenize importer (some (f.takeWhile (fun c => c != 47)))).1
                  last (f.dropWhile (fun c => c != 47)).tail) with
              | none => none
              | some (importer', last') =>
                some (importer', import_directory.mk d.name d.count
                  ((walk_files d (razor_importer_tokenize importer
                    (some (f.takeWhile (fun c => c != 47)))).2).dropLast ++ [last'])
                  d.packages)
        else some (importer, import_directory.mk d.name d.count d.files
          (d.packages ++ [package])) :=
  rfl

theorem count_entries_succ (fuel : Nat) (d : import_directory) :
    count_entries (fuel + 1) d
      = import_directory.mk d.name
          ((d.files.map (count_entries fuel)).foldl (fun c p => c + (p.count + 1)) 0)
          (d.files.map (count_entries fuel)) d.packages :=
  rfl

theorem foldl_count (l : List import_directory) :
    ∀ init : Nat, l.foldl (fun c p => c + (p.count + 1)) init
      = init + (l.map (fun p => p.count + 1)).sum := by
  induction l with
  | nil => intro init; simp
  | cons x rest ih =>
    intro init
    simp only [List.foldl_cons, List.map_cons, List.sum_cons, ih]
    omega

theorem shallow_child (d c : import_directory) (k fuel : Nat) (hk : d.files[k]? = some c)
    (h : ∀ path D, node_at d path = some D → D.files ≠ [] → path.length < fuel + 1) :
    ∀ path D, node_at c path = some D → D.files ≠ [] → path.length < fuel := by
  intro path D hD hne
  have := h (k :: path) D (by rw [node_at_cons, hk]; exact hD) hne
  simp at this
  omega

theorem count_entries_spec :
    ∀ (fuel : Nat) (d : import_directory),
      (∀ path D, node_at d path = some D → D.files ≠ [] → path.length < fuel) →
      all_nodes (fun D => D.count = 0) d →
      all_nodes counted (count_entries fuel d) ∧
      (∀ path D, node_at (count_entries fuel d) path = some D → D.files ≠ [] →
        path.length < fuel) ∧
      (∀ m, all_nodes (fun D => D.name < m) d →
        all_nodes (fun D => D.name < m) (count_entries fuel d)) ∧
      (count_entries fuel d).name = d.name := by
  intro fuel
  induction fuel with
  | zero =>
    intro d hd hz
    have hfiles : d.files = [] := by
      by_contra hne
      have := hd [] d rfl hne
      simp at this
    refine ⟨?_, hd, fun m h => h, rfl⟩
    show all_nodes counted d
    rw [all_nodes_iff]
    refine ⟨?_, ?_⟩
    · unfold counted
      rw [hz [] d rfl, hfiles]
      rfl
    · intro c hc
      rw [hfiles] at hc
      cases hc
  | succ fuel ih =>
    intro d hd hz
    rw [count_entries_succ]
    have hmem : ∀ c' ∈ d.files.map (count_entries fuel),
        ∃ (c : import_directory) (k : Nat),
          d.files[k]? = some c ∧ c' = count_entries fuel c := by
      intro c' hc'
      obtain ⟨c, hc, e⟩ := List.mem_map.mp hc'
      obtain ⟨k, hk⟩ := List.mem_iff_getElem?.mp hc
      exact ⟨c, k, hk, e.symm⟩
    have hchild : ∀ (c : import_directory) (k : Nat), d.files[k]? = some c →
        all_nodes counted (count_entries fuel c) ∧
        (∀ path D, node_at (count_entries fuel c) path = some D → D.files ≠ [] →
          path.length < fuel) ∧
        (∀ m, all_nodes (fun D => D.name < m) c →
          all_nodes (fun D => D.name < m) (count_entries fuel c)) ∧
        (count_entries fuel c).name = c.name := by
      intro c k hk
      exact ih c (shallow_child d c k fuel hk hd)
        (((all_nodes_iff _ d).mp hz).2 c (List.mem_iff_getElem?.mpr ⟨k, hk⟩))
    refine ⟨?_, ?_, ?_, rfl⟩
    · rw [all_nodes_iff]
      refine ⟨?_, ?_⟩
      · unfold counted
        show List.foldl _ 0 _ = _
        rw [foldl_count, Nat.zero_add]
        rfl
      · intro c' hc'
        obtain ⟨c, k, hk, e⟩ := hmem c' hc'
        rw [e]
        exact (hchild c k hk).1
    · intro path D hD hne
      cases path with
      | nil => simp
      | cons k p =>
        rw [node_at_cons] at hD
        have hfk : (import_directory.mk d.name
            ((d.files.map (count_entries fuel)).foldl (fun c p => c + (p.count + 1)) 0)
            (d.files.map (count_entries fuel)) d.packages).files[k]?
            = (d.files[k]?).map (count_entries fuel) := by
          show (d.files.map (count_entries fuel))[k]? = _
          rw [List.getElem?_map]
        rw [hfk] at hD
        cases hk : d.files[k]? with
        | none => rw [hk] at hD; cases hD
        | some c =>
          rw [hk] at hD
          have := (hchild c k hk).2.1 p D hD hne
          simp
          omega
    · intro m hm
      rw [all_nodes_iff]
      refine ⟨hm [] d rfl, ?_⟩
      intro c' hc'
      obtain ⟨c, k, hk, e⟩ := hmem c' hc'
      rw [e]
      exact (hchild c k hk).2.2.1 m
        (((all_nodes_iff _ d).mp hm).2 c (List.mem_iff_getElem?.mpr ⟨k, hk⟩))

theorem all_nodes_mk (q : import_directory → Prop) (n c : Nat) (fs : List import_directory)
    (p : List Nat) :
    all_nodes q (import_directory.mk n c fs p)
      ↔ q (import_directory.mk n c fs p) ∧ ∀ x ∈ fs, all_nodes q x :=
  all_nodes_iff q _

theorem depth_le_mk (n c : Nat) (fs : List import_directory) (p : List Nat) (m : Nat) :
    depth_le (import_directory.mk n c fs p) m ↔ ∀ x ∈ fs, 0 < m ∧ depth_le x (m - 1) :=
  depth_le_iff _ m

theorem walk_files_mem (d : import_directory) (name : Nat) (c : import_directory)
    (hc : c ∈ walk_files d name) : c ∈ d.files ∨ c = import_directory.mk name 0 [] [] := by
  unfold walk_files at hc
  split at hc
  · rcases List.mem_append.mp hc with h | h
    · exact Or.inl h
    · exact Or.inr (List.mem_singleton.mp h)
  · split at hc
    · rcases List.mem_append.mp hc with h | h
      · exact Or.inl h
      · exact Or.inr (List.mem_singleton.mp h)
    · exact Or.inl hc

theorem deref_ne_zero_length (f : List Nat) (h : deref f ≠ 0) : 1 ≤ f.length := by
  cases f with
  | nil => exact absurd rfl h
  | cons c f => simp

theorem dropWhile_tail_length (p : Nat → Bool) (f : List Nat) (h : 1 ≤ f.length) :
    (f.dropWhile p).tail.length ≤ f.length - 1 := by
  have h1 : (f.dropWhile p).length ≤ f.length := by
    exact List.Sublist.length_le (List.dropWhile_sublist p)
  rw [List.length_tail]
  omega

theorem build_file_tree_walk_tree (package : Nat) :
    ∀ (fuel : Nat) (importer importer' : razor_importer) (d d' : import_directory)
      (f : List Nat),
      importer_ok importer →
      build_file_tree_walk package fuel importer d f = some (importer', d') →
      all_nodes (fun D => D.name < importer.set.string_pool.length ∧ D.count = 0) d →
      importer_ok importer' ∧
      importer.set.string_pool.length ≤ importer'.set.string_pool.length ∧
      all_nodes (fun D => D.name < importer'.set.string_pool.length ∧ D.count = 0) d' ∧
      (∀ m, depth_le d m → depth_le d' (max m f.length)) := by
  intro fuel
  induction fuel with
  | zero =>
    intro importer importer' d d' f h hrun hq
    simp only [build_file_tree_walk] at hrun
    cases hrun
    exact ⟨h, le_refl _, hq, fun m hm => depth_le_mono d _ _ (le_max_left _ _) hm⟩
  | succ fuel ih =>
    intro importer importer' d d' f h hrun hq
    rw [build_file_tree_walk_succ] at hrun
    by_cases hf : deref f ≠ 0
    · rw [if_pos hf] at hrun
      by_cases h256 : (f.takeWhile (fun c => c != 47)).length ≥ 256
      · rw [if_pos h256] at hrun
        cases hrun
      · rw [if_neg h256] at hrun
        have hfl := deref_ne_zero_length f hf
        have A := razor_importer_tokenize_spec importer
          (some (f.takeWhile (fun c => c != 47))) h
        generalize razor_importer_tokenize importer
          (some (f.takeWhile (fun c => c != 47))) = r at A hrun
        obtain ⟨importer1, name⟩ := r
        simp only at A hrun
        obtain ⟨a1, ⟨ext, a2⟩, _, _, a5, _⟩ := A
        have hpool1 : importer.set.string_pool.length ≤ importer1.set.string_pool.length := by
          rw [a2, List.length_append]
          omega
        -- every child of the directory, the new one included
        have hP : ∀ c ∈ walk_files d name,
            all_nodes (fun D => D.name < importer1.set.string_pool.length ∧ D.count = 0) c ∧
            ∀ m, depth_le d m → depth_le c (max m f.length - 1) := by
          intro c hc
          rcases walk_files_mem d name c hc with e | e
          · refine ⟨all_nodes_mono _ _ c (fun D hD => ⟨by omega, hD.2⟩)
              (((all_nodes_iff _ d).mp hq).2 c e), ?_⟩
            intro m hm
            obtain ⟨h0, h1⟩ := (depth_le_iff d m).mp hm c e
            exact depth_le_mono c _ _ (by omega) h1
          · rw [e]
            refine ⟨?_, ?_⟩
            · rw [all_nodes_mk]
              exact ⟨⟨a5, rfl⟩, fun x hx => by cases hx⟩
            · intro m _
              rw [depth_le_mk]
              intro x hx
              cases hx
        cases hlast : (walk_files d name).getLast? with
        | none =>
          rw [hlast] at hrun
          cases hrun
        | some last =>
          rw [hlast] at hrun
          simp only at hrun
          have hlastmem : last ∈ walk_files d name := List.mem_of_mem_getLast? hlast
          obtain ⟨hl1, hl2⟩ := hP last hlastmem
          split at hrun
          · cases hrun
          · rename_i importer2 last2 hbelow
            -- the directory below, after the rest of the path
            have hB : importer_ok importer2 ∧
                importer1.set.string_pool.length ≤ importer2.set.string_pool.length ∧
                all_nodes (fun D => D.name < importer2.set.string_pool.length ∧ D.count = 0)
                  last2 ∧
                ∀ m, depth_le d m → depth_le last2 (max m f.length - 1) := by
              by_cases hend : deref (f.dropWhile (fun c => c != 47)) = 0
              · rw [if_pos hend] at hbelow
                cases hbelow
                refine ⟨a1, le_refl _, ?_, ?_⟩
                · rw [all_nodes_mk]
                  exact ⟨hl1 [] last rfl, ((all_nodes_iff _ last).mp hl1).2⟩
                · intro m hm
                  rw [depth_le_mk]
                  exact (depth_le_iff last _).mp (hl2 m hm)
              · rw [if_neg hend] at hbelow
                obtain ⟨i1, i2, i3, i4⟩ := ih importer1 importer2 last last2 _ a1 hbelow hl1
                refine ⟨i1, i2, i3, ?_⟩
                intro m hm
                refine depth_le_mono last2 _ _ ?_ (i4 _ (hl2 m hm))
                have := dropWhile_tail_length (fun c => c != 47) f hfl
                omega
            obtain ⟨b1, b2, b3, b4⟩ := hB
            cases hrun
            refine ⟨b1, by omega, ?_, ?_⟩
            · rw [all_nodes_mk]
              refine ⟨⟨?_, (hq [] d rfl).2⟩, ?_⟩
              · have := (hq [] d rfl).1
                show d.name < _
                omega
              · intro x hx
                rcases List.mem_append.mp hx with e | e
                · exact all_nodes_mono _ _ x (fun D hD => ⟨by omega, hD.2⟩)
                    (hP x (List.mem_of_mem_dropLast e)).1
                · rw [List.mem_singleton.mp e]
                  exact b3
            · intro m hm
              rw [depth_le_mk]
              intro x hx
              refine ⟨by omega, ?_⟩
              rcases List.mem_append.mp hx with e | e
              · exact (hP x (List.mem_of_mem_dropLast e)).2 m hm
              · rw [List.mem_singleton.mp e]
                exact b4 m hm
    · rw [if_neg hf] at hrun
      cases hrun
      refine ⟨h, le_refl _, ?_, ?_⟩
      · rw [all_nodes_mk]
        exact ⟨hq [] d rfl, ((all_nodes_iff _ d).mp hq).2⟩
      · intro m hm
        rw [depth_le_mk]
        intro x hx
        obtain ⟨h0, h1⟩ := (depth_le_iff d m).mp hm x hx
        exact ⟨by omega, depth_le_mono x _ _ (by omega) h1⟩

theorem build_file_tree_loop_tree :
    ∀ (entries : List import_entry) (importer importer' : razor_importer)
      (root root' : import_directory),
      importer_ok importer →
      build_file_tree_loop entries importer root = some (importer', root') →
      all_nodes (fun D => D.name < importer.set.string_pool.length ∧ D.count = 0) root →
      importer_ok importer' ∧
      importer.set.string_pool.length ≤ importer'.set.string_pool.length ∧
      all_nodes (fun D => D.name < importer'.set.string_pool.length ∧ D.count = 0) root' ∧
      (∀ m, depth_le root m → (∀ e ∈ entries, e.name.length ≤ m) → depth_le root' m) := by
  intro entries
  induction entries with
  | nil =>
    intro importer importer' root root' h hrun hq
    simp only [build_file_tree_loop] at hrun
    cases hrun
    exact ⟨h, le_refl _, hq, fun m hm _ => hm⟩
  | cons e rest ih =>
    intro importer importer' root root' h hrun hq
    simp only [build_file_tree_loop] at hrun
    split at hrun
    · obtain ⟨i1, i2, i3, i4⟩ := ih _ _ _ _ h hrun hq
      exact ⟨i1, i2, i3, fun m hm he => i4 m hm (fun x hx => he x (List.mem_cons_of_mem _ hx))⟩
    · split at hrun
      · cases hrun
      · rename_i importer1 root1 hwalk
        obtain ⟨w1, w2, w3, w4⟩ := build_file_tree_walk_tree _ _ _ _ _ _ _ h hwalk hq
        obtain ⟨i1, i2, i3, i4⟩ := ih _ _ _ _ w1 hrun w3
        refine ⟨i1, by omega, i3, ?_⟩
        intro m hm he
        refine i4 m ?_ (fun x hx => he x (List.mem_cons_of_mem _ hx))
        have h1 := w4 m hm
        have h2 := he e (List.mem_cons_self _ _)
        have h3 : e.name.tail.length ≤ m := by
          rw [List.length_tail]
          omega
        rw [max_eq_left h3] at h1
        exact h1

theorem foldl_max_ge (l : List Nat) :
    ∀ init : Nat, init ≤ l.foldl max init ∧ ∀ x ∈ l, x ≤ l.foldl max init := by
  induction l with
  | nil => intro init; exact ⟨le_refl _, fun x hx => by cases hx⟩
  | cons a rest ih =>
    intro init
    obtain ⟨h1, h2⟩ := ih (max init a)
    simp only [List.foldl_cons]
    refine ⟨le_trans (le_max_left _ _) h1, ?_⟩
    intro x hx
    rcases List.mem_cons.mp hx with e | e
    · rw [e]
      exact le_trans (le_max_right _ _) h1
    · exact h2 x e

theorem build_file_tree_layout (rnd : Nat → Nat) (calls calls' : Nat)
    (importer importer' : razor_importer) (h : importer_ok importer)
    (hrun : build_file_tree rnd calls importer = some (importer', calls')) :
    ∃ root e0, build_file_tree_root rnd calls importer = some root ∧
      all_nodes (fun D => D.name < importer'.set.string_pool.length) root ∧
      all_nodes counted root ∧
      importer'.set.files[0]? = some e0 ∧ e0.start = 1 ∧
      laid_out root 1 importer'.set.files := by
  unfold build_file_tree at hrun
  unfold build_file_tree_root
  simp only at hrun ⊢
  generalize qsort_with_data compare_filenames rnd calls importer.files = q at hrun ⊢
  obtain ⟨filenames, map, calls2⟩ := q
  have A := razor_importer_tokenize_spec importer (some []) h
  generalize razor_importer_tokenize importer (some []) = r at A hrun ⊢
  obtain ⟨importer1, name⟩ := r
  simp only at hrun A ⊢
  obtain ⟨a1, _, _, _, a5, _⟩ := A
  cases hloop : build_file_tree_loop filenames importer1 (import_directory.mk name 0 [] []) with
  | none =>
    rw [hloop] at hrun
    cases hrun
  | some res =>
    obtain ⟨importer2, root2⟩ := res
    rw [hloop] at hrun
    simp only at hrun ⊢
    have hleaf : all_nodes
        (fun D => D.name < importer1.set.string_pool.length ∧ D.count = 0)
        (import_directory.mk name 0 [] []) := by
      rw [all_nodes_mk]
      exact ⟨⟨a5, rfl⟩, fun x hx => by cases hx⟩
    obtain ⟨l1, l2, l3, l4⟩ := build_file_tree_loop_tree _ _ _ _ _ a1 hloop hleaf
    have hdepth : depth_le root2 ((filenames.map (fun e => e.name.length)).foldl max 0) := by
      refine l4 _ ?_ ?_
      · rw [depth_le_mk]
        intro x hx
        cases hx
      · intro e he
        exact (foldl_max_ge _ 0).2 _ (List.mem_map.mpr ⟨e, he, rfl⟩)
    obtain ⟨c1, c2, c3, c4⟩ := count_entries_spec
      ((filenames.map (fun e => e.name.length)).foldl max 0 + 1) root2
      (fun path D hD _ => Nat.lt_succ_of_le (hdepth path D hD))
      (all_nodes_mono _ _ root2 (fun D hD => hD.2) l3)
    obtain ⟨out, pool', hser, _, hlaid⟩ := serialize_files_spec
      ((filenames.map (fun e => e.name.length)).foldl max 0 + 1)
      (count_entries ((filenames.map (fun e => e.name.length)).foldl max 0 + 1) root2)
      [{ name := (count_entries
            ((filenames.map (fun e => e.name.length)).foldl max 0 + 1) root2).name
            ||| RAZOR_ENTRY_LAST,
         start := 1, packages := ULONG_ALL_ONES }]
      importer2.set.package_pool c1 c2
    rw [hser] at hrun
    simp only [Option.some.injEq, Prod.mk.injEq] at hrun
    obtain ⟨hrun1, _⟩ := hrun
    subst hrun1
    refine ⟨count_entries ((filenames.map (fun e => e.name.length)).foldl max 0 + 1) root2,
      { name := (count_entries
          ((filenames.map (fun e => e.name.length)).foldl max 0 + 1) root2).name
          ||| RAZOR_ENTRY_LAST,
        start := 1, packages := ULONG_ALL_ONES }, rfl, ?_, c1, ?_, rfl, hlaid⟩
    · exact c3 _ (all_nodes_mono _ _ root2 (fun D hD => hD.1) l3)
    · simp

theorem begin_package_ok (importer : razor_importer) (n v : List Nat)
    (h : importer_ok importer) : importer_ok (razor_importer_begin_package importer n v) := by
  have A := razor_importer_tokenize_spec importer (some n) h
  have B := razor_importer_tokenize_spec (razor_importer_tokenize importer (some n)).1 (some v)
    A.1
  rw [begin_package_unfold]
  generalize razor_importer_tokenize (razor_importer_tokenize importer (some n)).1 (some v)
    = r2 at B ⊢
  generalize razor_importer_tokenize importer (some n) = r1 at A B ⊢
  obtain ⟨a1, ⟨ext1, a2⟩, a3, a4, a5, a6⟩ := A
  obtain ⟨b1, ⟨ext2, b2⟩, b3, b4, b5, b6⟩ := B
  have hlt : r1.2 < r2.1.set.string_pool.length := by
    rw [b2, List.length_append]
    omega
  refine ⟨b1.1, b1.2.1, ?_⟩
  intro p hp
  rcases List.mem_append.mp hp with e | e
  · exact b1.2.2 p e
  · rw [List.mem_singleton.mp e]
    exact hlt

theorem run_calls_ok :
    ∀ (calls : List importer_call) (importer importer' : razor_importer),
      importer_ok importer → run_calls importer calls = some importer' →
      importer_ok importer' := by
  intro calls
  induction calls with
  | nil =>
    intro importer importer' h hrun
    simp only [run_calls] at hrun
    cases hrun
    exact h
  | cons c rest ih =>
    intro importer importer' h hrun
    cases c with
    | begin_package n v =>
      simp only [run_calls] at hrun
      exact ih _ importer' (begin_package_ok importer n v h) hrun
    | add_property n v t =>
      simp only [run_calls] at hrun
      exact ih _ importer' (add_property_spec importer n v t h).1 hrun
    | add_file n =>
      simp only [run_calls] at hrun
      exact ih (razor_importer_add_file importer n) importer' h hrun
    | finish_package =>
      simp only [run_calls] at hrun
      split at hrun
      · cases hrun
      · rename_i importer1 hfin
        exact ih _ importer' (finish_package_spec importer importer1 h hfin).1 hrun

theorem build_package_file_lists_scan_fields (package_pool rmap : List Nat) :
    ∀ (entries : List razor_entry) (e : Nat) (done files' : List razor_entry)
      (pkgs pkgs' : List (List Nat)),
      build_package_file_lists_scan package_pool rmap entries e done pkgs
        = some (files', pkgs') →
      files'.map (fun x => (x.name, x.start))
        = (done ++ entries).map (fun x => (x.name, x.start)) := by
  intro entries
  induction entries with
  | nil =>
    intro e done files' pkgs pkgs' hrun
    simp only [build_package_file_lists_scan, Option.some.injEq, Prod.mk.injEq] at hrun
    rw [← hrun.1, List.append_nil]
  | cons entry rest ih =>
    intro e done files' pkgs pkgs' hrun
    simp only [build_package_file_lists_scan] at hrun
    split at hrun
    · have := ih _ _ _ _ _ hrun
      rw [this]
      simp
    · split at hrun
      · split at hrun
        · cases hrun
        · have := ih _ _ _ _ _ hrun
          rw [this]
          simp
      · split at hrun
        · cases hrun
        · have := ih _ _ _ _ _ hrun
          rw [this]
          simp

theorem build_package_file_lists_files (set set' : razor_set) (rmap : List Nat)
    (hrun : build_package_file_lists set rmap = some set') :
    set'.files.map (fun x => (x.name, x.start)) = set.files.map (fun x => (x.name, x.start)) ∧
    set'.string_pool = set.string_pool := by
  unfold build_package_file_lists at hrun
  simp only at hrun
  split at hrun
  · cases hrun
  · rename_i files pkgs hscan
    cases hrun
    have := build_package_file_lists_scan_fields _ _ _ _ _ _ _ _ hscan
    exact ⟨by simpa using this, rfl⟩

theorem fields_at (A B : List razor_entry)
    (h : A.map (fun x => (x.name, x.start)) = B.map (fun x => (x.name, x.start)))
    (i : Nat) (e : razor_entry) (hi : B[i]? = some e) :
    ∃ e', A[i]? = some e' ∧ e'.name = e.name ∧ e'.start = e.start := by
  have h1 : (A.map (fun x => (x.name, x.start)))[i]?
      = (B.map (fun x => (x.name, x.start)))[i]? := by rw [h]
  rw [List.getElem?_map, List.getElem?_map, hi] at h1
  cases hA : A[i]? with
  | none => rw [hA] at h1; cases h1
  | some e' =>
    rw [hA] at h1
    simp only [Option.map_some', Option.some.injEq, Prod.mk.injEq] at h1
    exact ⟨e', rfl, h1.1, h1.2⟩

theorem laid_out_congr (d : import_directory) (b : Nat) (A B : List razor_entry)
    (h : A.map (fun x => (x.name, x.start)) = B.map (fun x => (x.name, x.start)))
    (hB : laid_out d b B) : laid_out d b A := by
  intro path D cb hD hcb k c hk
  obtain ⟨ec, h1, h2, h3⟩ := hB path D cb hD hcb k c hk
  obtain ⟨e', g1, g2, g3⟩ := fields_at A B h _ ec h1
  exact ⟨e', g1, g2.trans h2, g3.trans h3⟩

theorem node_at_snoc :
    ∀ (path : List Nat) (d D c : import_directory) (k : Nat),
      node_at d path = some D → D.files[k]? = some c → node_at d (path ++ [k]) = some c := by
  intro path
  induction path with
  | nil =>
    intro d D c k hD hk
    simp only [node_at, Option.some.injEq] at hD
    subst hD
    rw [List.nil_append, node_at_cons, hk]
    rfl
  | cons j rest ih =>
    intro d D c k hD hk
    rw [node_at_cons] at hD
    rw [List.cons_append, node_at_cons]
    cases hj : d.files[j]? with
    | none => rw [hj] at hD; cases hD
    | some cj =>
      rw [hj] at hD
      exact ih cj D c k hD hk

theorem and_last_of_lt (w : Nat) (h : w < 2 ^ 31) : w &&& RAZOR_ENTRY_LAST = 0 :=
  and_immediate_of_lt w h

theorem or_last_and (w : Nat) : (w ||| RAZOR_ENTRY_LAST) &&& RAZOR_ENTRY_LAST ≠ 0 := by
  have h : (w ||| RAZOR_ENTRY_LAST) &&& RAZOR_ENTRY_LAST = RAZOR_IMMEDIATE :=
    or_immediate_and w
  rw [h]
  decide

/-- C12: in the `files` section of the set that `razor_importer_finish`
returns, the entry of every directory of the tree that has a child has a
non-zero `start`, its children are the entries at the consecutive indices
from `start`, in order, each with the name of the child, and
`RAZOR_ENTRY_LAST` is set on the name of the last of them and of no other.
The entry of the root is at index 0, and the entry of child `k` of a
directory is `k` entries after the `start` of the entry of the directory.
String offsets are below `2 ^ 31`, so that a name token does not reach the
`RAZOR_ENTRY_LAST` bit. -/
theorem files_children_consecutive (rnd : Nat → Nat) (calls : List importer_call)
    (set : razor_set) (hfin : import_set rnd calls = some set)
    (hpool : set.string_pool.length ≤ 2 ^ 31) :
    ∃ root, import_file_tree rnd calls = some root ∧
      ∀ path D, node_at root path = some D → D.files ≠ [] →
        ∃ i e, entry_at set.files 0 path = some i ∧ set.files[i]? = some e ∧ e.start ≠ 0 ∧
          ∀ k c, D.files[k]? = some c →
            ∃ ec, set.files[e.start + k]? = some ec ∧
              ec.name = (if k + 1 = D.files.length then c.name ||| RAZOR_ENTRY_LAST
                else c.name) ∧
              (ec.name &&& RAZOR_ENTRY_LAST ≠ 0 ↔ k + 1 = D.files.length) := by
  unfold import_set at hfin
  unfold import_file_tree
  cases hrc : run_calls razor_importer_new calls with
  | none =>
    rw [hrc] at hfin
    cases hfin
  | some importer =>
    rw [hrc] at hfin
    simp only at hfin ⊢
    have hok := run_calls_ok calls razor_importer_new importer importer_new_ok hrc
    unfold razor_importer_finish at hfin
    cases hu : uniqueify_properties rnd 0 importer.set with
    | none =>
      rw [hu] at hfin
      cases hfin
    | some res =>
      obtain ⟨set1, map, calls1⟩ := res
      rw [hu] at hfin
      simp only at hfin ⊢
      obtain ⟨u1, u2⟩ := uniqueify_properties_spec _ _ _ _ _ _ hu
      obtain ⟨o1, o2, o3, o4, o5⟩ := compare_packages_order set1.string_pool
      have hs := qsort_with_data_spec (compare_packages set1.string_pool)
        (package_name_le set1.string_pool) o1 o2 o3 o4 o5 rnd calls1 set1.packages
      generalize qsort_with_data (compare_packages set1.string_pool) rnd calls1 set1.packages
        = q at hs hfin ⊢
      obtain ⟨sorted, map2, calls2⟩ := q
      simp only at hfin hs ⊢
      have hok3 : importer_ok { importer with
          set := { set1 with
            property_pool := remap_links set1.property_pool map, packages := sorted } } := by
        refine ⟨hok.1.trans u1.symm, hok.2.1, ?_⟩
        intro p hp'
        show p.name < set1.string_pool.length
        rw [u1]
        exact hok.2.2 p (u2 ▸ (same_range_mem _ _ hs.1 p).mp hp')
      split at hfin
      · cases hfin
      · rename_i importer4 _ hb
        split at hfin
        · cases hfin
        · rename_i set6 hp
          cases hfin
          obtain ⟨root, e0, t1, t2, t3, t4, t5, t6⟩ :=
            build_file_tree_layout rnd _ _ _ _ hok3 hb
          obtain ⟨f1, f2⟩ := build_package_file_lists_files _ _ _ hp
          have f1' : set6.files.map (fun x => (x.name, x.start))
              = importer4.set.files.map (fun x => (x.name, x.start)) := f1
          have f2' : set6.string_pool = importer4.set.string_pool := f2
          obtain ⟨e0', g1, _, g3⟩ := fields_at set6.files importer4.set.files f1' 0 e0 t4
          have hlaid : laid_out root 1 set6.files :=
            laid_out_congr root 1 _ _ f1' t6
          refine ⟨root, t1, ?_⟩
          intro path D hD hne
          obtain ⟨i, e, r1, r2, r3, r4⟩ :=
            laid_out_children set6.files root e0' g1 (g3.trans t5) hlaid t3 path D hD hne
          refine ⟨i, e, r1, r2, r3, ?_⟩
          intro k c hk
          obtain ⟨ec, s1, s2⟩ := r4 k c hk
          refine ⟨ec, s1, s2, ?_⟩
          have hname : c.name < 2 ^ 31 := by
            have := t2 (path ++ [k]) c (node_at_snoc path root D c k hD hk)
            have hp2 : set6.string_pool.length ≤ 2 ^ 31 := hpool
            rw [f2'] at hp2
            omega
          rw [s2]
          by_cases hlast : k + 1 = D.files.length
          · rw [if_pos hlast]
            exact ⟨fun _ => hlast, fun _ => or_last_and c.name⟩
          · rw [if_neg hlast, and_last_of_lt c.name hname]
            exact ⟨fun hc => absurd rfl hc, fun hc => absurd hc hlast⟩

/-- C12 on the set imported from a package with the files /etc/foo.d/a,
/bin/foo and /etc/foo.conf. -/
theorem files_children_consecutive_witness :
    import_set (rnd_of []) calls_tree_files = some set_tree_files ∧
    set_tree_files.string_pool.length ≤ 2 ^ 31 ∧
    file_names set_tree_files
      = [bytes "", bytes "bin", bytes "etc", bytes "foo", bytes "foo.conf", bytes "foo.d",
          bytes "a"] ∧
    set_tree_files.files.map (fun e => (e.start, decide (e.name &&& RAZOR_ENTRY_LAST ≠ 0)))
      = [(1, true), (3, false), (4, true), (0, true), (0, false), (6, true), (0, true)] ∧
    ∃ root, import_file_tree (rnd_of []) calls_tree_files = some root ∧
      ∀ path D, node_at root path = some D → D.files ≠ [] →
        ∃ i e, entry_at set_tree_files.files 0 path = some i ∧
          set_tree_files.files[i]? = some e ∧ e.start ≠ 0 ∧
          ∀ k c, D.files[k]? = some c →
            ∃ ec, set_tree_files.files[e.start + k]? = some ec ∧
              ec.name = (if k + 1 = D.files.length then c.name ||| RAZOR_ENTRY_LAST
                else c.name) ∧
              (ec.name &&& RAZOR_ENTRY_LAST ≠ 0 ↔ k + 1 = D.files.length) :=
  ⟨by decide!, by decide!, by decide!, by decide!,
    files_children_consecutive (rnd_of []) calls_tree_files set_tree_files (by decide!)
      (by decide!)⟩

/-! ## Equal sets, version comparison and the property iterator -/

theorem diff_loop_same_keys (ppool upool : List Nat) :
    ∀ (fuel : Nat) (ps us : List razor_package) (res : Int) (acc : List diff_call),
      ps.map (fun p => (cstr_at ppool p.name, cstr_at ppool p.version))
        = us.map (fun u => (cstr_at upool u.name, cstr_at upool u.version)) →
      razor_set_diff_loop ppool upool fuel ps us res acc
        = { calls := acc, past_end := false } := by
  intro fuel
  induction fuel with
  | zero => intro ps us res acc _; rfl
  | succ fuel ih =>
    intro ps us res acc h
    cases ps with
    | nil =>
      cases us with
      | nil => simp [razor_set_diff_loop]
      | cons u us' => simp at h
    | cons p ps' =>
      cases us with
      | nil => simp at h
      | cons u us' =>
        simp only [List.map_cons, List.cons.injEq, Prod.mk.injEq] at h
        obtain ⟨⟨hn, hv⟩, hrest⟩ := h
        have hc : diff_compare ppool upool p u = 0 := by
          unfold diff_compare
          rw [hn, hv, strcmp_self]
          simp only [if_true]
          exact versioncmp_self _
        simp only [razor_set_diff_loop, hc, lt_irrefl, if_false, gt_iff_lt]
        exact ih ps' us' 0 acc hrest

/-- When the package arrays of `S` and `T` decode to the same sequence of
(name, version), `razor_set_diff(S, T)` makes no call of the
callback and reads no record past the end of an array. -/
theorem diff_same_packages_no_call (set upstream : razor_set)
    (h : package_keys set = package_keys upstream) :
    razor_set_diff set upstream = { calls := [], past_end := false } :=
  diff_loop_same_keys set.string_pool upstream.string_pool _ set.packages upstream.packages 0 []
    h

/-- The sets imported from foo 1.1, bar 3.0 and from bar 3.0, foo 1.1 have
the same package array, and `razor_set_diff` makes no call on them, nor on a
set and itself. -/
theorem diff_same_packages_no_call_witness :
    package_keys diff_set_a = package_keys diff_set_a_reordered ∧
    package_keys diff_set_a = [(bytes "bar", bytes "3.0"), (bytes "foo", bytes "1.1")] ∧
    razor_set_diff diff_set_a diff_set_a_reordered = { calls := [], past_end := false } ∧
    razor_set_diff diff_set_a diff_set_a = { calls := [], past_end := false } :=
  ⟨by decide!, by decide!,
    diff_same_packages_no_call diff_set_a diff_set_a_reordered (by decide!),
    by decide!⟩

/-- C22: `versioncmp("1.010", "1.9")` is negative although ten is more than
nine, because `strtol` with base 0 reads the segment 010 as the octal
number eight; and `versioncmp("1.2", "1.9")` and `versioncmp("1.9", "1.10")`
are negative, as the claim says. -/
theorem versioncmp_leading_zero_octal :
    versioncmp (bytes "1.010") (bytes "1.9") < 0 ∧
    (strtol (bytes "010")).1 = 8 ∧
    versioncmp (bytes "1.2") (bytes "1.9") < 0 ∧
    versioncmp (bytes "1.9") (bytes "1.10") < 0 := by
  decide!

/-- C23: `versioncmp("0:10", "9")` is negative while `versioncmp("0:10",
"0:9")` is positive: with an epoch on one side only the code sets the other
epoch to 0 and then compares the remainders byte by byte from their first
bytes, without the numeric comparison of the leading segments that the
comparison of "0:10" with "0:9" makes. -/
theorem versioncmp_epoch_default_differs :
    versioncmp (bytes "0:10") (bytes "9") < 0 ∧
    0 < versioncmp (bytes "0:10") (bytes "0:9") := by
  decide!

/-- C27: in the set finished from foo 1.1 requiring zlib = 1.2 and bar 2.0
requiring glibc = 2.5, each package holds its one property as an inline
`RAZOR_IMMEDIATE` word, the property pool is empty, and the first
`razor_property_iterator_next` over either package reads the pool at that
word taken as an offset, outside the pool.  In the set finished from foo
with two properties and bar with two properties the pool holds the list of
foo followed by the list of bar; the iteration over foo (index 1) yields
the properties 0 and 1 and ends, and the iteration over bar (index 0), at
the call that should report the end, reads the word after the last list of
the pool. -/
theorem property_iterator_inline_faults :
    (∀ a b : Fin 2,
      (import_set (rnd_of [a.val, b.val]) calls_single_properties).map package_properties
        = some [1 ||| RAZOR_IMMEDIATE, 0 ||| RAZOR_IMMEDIATE] ∧
      (import_set (rnd_of [a.val, b.val]) calls_single_properties).map
          (fun set => set.property_pool) = some [] ∧
      (import_set (rnd_of [a.val, b.val]) calls_single_properties).map
          (fun set => package_property_iteration set 0) = some none ∧
      (import_set (rnd_of [a.val, b.val]) calls_single_properties).map
          (fun set => package_property_iteration set 1) = some none) ∧
    (import_set (rnd_of []) calls_two_lists).map package_properties = some [2, 0] ∧
    (import_set (rnd_of []) calls_two_lists).map (fun set => set.property_pool)
      = some [0, 1 ||| RAZOR_IMMEDIATE, 2, 3 ||| RAZOR_IMMEDIATE] ∧
    (import_set (rnd_of []) calls_two_lists).map
        (fun set => package_property_iteration set 1) = some (some [0, 1]) ∧
    (import_set (rnd_of []) calls_two_lists).map
        (fun set => package_property_iteration set 0) = some none := by
  decide!

/-! ## The set file -/

theorem ALIGN_spec (s : Nat) :
    4096 ∣ ALIGN s 4096 ∧ s ≤ ALIGN s 4096 ∧ ALIGN s 4096 < s + 4096 := by
  unfold ALIGN
  refine ⟨Dvd.intro_left _ rfl, ?_, ?_⟩ <;> omega

theorem list_length_seven {α : Type} (l : List α) (h : l.length = 7) :
    ∃ a b c d e f g, l = [a, b, c, d, e, f, g] := by
  match l, h with
  | [a, b, c, d, e, f, g], _ => exact ⟨a, b, c, d, e, f, g, rfl⟩

/-- C26: the header that `razor_set_write` builds for seven sections of sizes
`sizes` (the offsets fitting the 32-bit fields) starts with magic 0x7a7a7a7a
and version 1 and holds eight records; record 0 has offset 4096; record `i`
has type `i` and size `sizes[i]`; the offset of record `i + 1` is the offset
of record `i` plus `ALIGN(sizes[i], 4096)`, which is the least multiple of
4096 not below `sizes[i]`; the eighth record is (0xFFFFFFFF, 0, 0). -/
theorem write_header_layout (sizes : List Nat) (hlen : sizes.length = 7)
    (hfit : 4096 + (sizes.map (fun s => ALIGN s 4096)).sum < 2 ^ 32) :
    (razor_set_write_header sizes).magic = 0x7a7a7a7a ∧
    (razor_set_write_header sizes).version = 1 ∧
    (razor_set_write_header sizes).sections.length = 8 ∧
    ((razor_set_write_header sizes).sections.map (fun r => r.offset))[0]? = some 4096 ∧
    (∀ i : Nat, i < 7 → ∃ s r, sizes[i]? = some s ∧
      (razor_set_write_header sizes).sections[i]? = some r ∧ r.type = i ∧ r.size = s) ∧
    (∀ i : Nat, i < 6 → ∃ s r r', sizes[i]? = some s ∧
      (razor_set_write_header sizes).sections[i]? = some r ∧
      (razor_set_write_header sizes).sections[i + 1]? = some r' ∧
      r'.offset = r.offset + ALIGN s 4096 ∧
      4096 ∣ ALIGN s 4096 ∧ s ≤ ALIGN s 4096 ∧ ALIGN s 4096 < s + 4096) ∧
    (razor_set_write_header sizes).sections[7]? =
      some { type := 0xFFFFFFFF, offset := 0, size := 0 } := by
  obtain ⟨s0, s1, s2, s3, s4, s5, s6, rfl⟩ := list_length_seven sizes hlen
  simp only [List.map, List.sum_cons, List.sum_nil] at hfit
  simp only [razor_set_write_header, razor_set_write_sections]
  have h0 := ALIGN_spec s0
  have h1 := ALIGN_spec s1
  have h2 := ALIGN_spec s2
  have h3 := ALIGN_spec s3
  have h4 := ALIGN_spec s4
  have h5 := ALIGN_spec s5
  have h6 := ALIGN_spec s6
  have m1 : (4096 + ALIGN s0 4096) % 2 ^ 64 = 4096 + ALIGN s0 4096 := Nat.mod_eq_of_lt (by omega)
  have m2 : (4096 + ALIGN s0 4096 + ALIGN s1 4096) % 2 ^ 64 = 4096 + ALIGN s0 4096 + ALIGN s1 4096 := Nat.mod_eq_of_lt (by omega)
  have m3 : (4096 + ALIGN s0 4096 + ALIGN s1 4096 + ALIGN s2 4096) % 2 ^ 64 = 4096 + ALIGN s0 4096 + ALIGN s1 4096 + ALIGN s2 4096 := Nat.mod_eq_of_lt (by omega)
  have m4 : (4096 + ALIGN s0 4096 + ALIGN s1 4096 + ALIGN s2 4096 + ALIGN s3 4096) % 2 ^ 64 = 4096 + ALIGN s0 4096 + ALIGN s1 4096 + ALIGN s2 4096 + ALIGN s3 4096 :=
    Nat.mod_eq_of_lt (by omega)
  have m5 : (4096 + ALIGN s0 4096 + ALIGN s1 4096 + ALIGN s2 4096 + ALIGN s3 4096 + ALIGN s4 4096) % 2 ^ 64 = 4096 + ALIGN s0 4096 + ALIGN s1 4096 + ALIGN s2 4096 + ALIGN s3 4096 + ALIGN s4 4096 :=
    Nat.mod_eq_of_lt (by omega)
  have m6 : (4096 + ALIGN s0 4096 + ALIGN s1 4096 + ALIGN s2 4096 + ALIGN s3 4096 + ALIGN s4 4096 + ALIGN s5 4096) % 2 ^ 64 =
      4096 + ALIGN s0 4096 + ALIGN s1 4096 + ALIGN s2 4096 + ALIGN s3 4096 + ALIGN s4 4096 + ALIGN s5 4096 := Nat.mod_eq_of_lt (by omega)
  have m7 : (4096 + ALIGN s0 4096 + ALIGN s1 4096 + ALIGN s2 4096 + ALIGN s3 4096 + ALIGN s4 4096 + ALIGN s5 4096 + ALIGN s6 4096) % 2 ^ 64 =
      4096 + ALIGN s0 4096 + ALIGN s1 4096 + ALIGN s2 4096 + ALIGN s3 4096 + ALIGN s4 4096 + ALIGN s5 4096 + ALIGN s6 4096 := Nat.mod_eq_of_lt (by omega)
  simp only [m1, m2, m3, m4, m5, m6, m7]
  have e32 : ∀ x : Nat, x < 2 ^ 32 → x % UINT_MOD = x := fun x hx => Nat.mod_eq_of_lt hx
  rw [e32 s0 (by omega), e32 s1 (by omega), e32 s2 (by omega), e32 s3 (by omega),
    e32 s4 (by omega), e32 s5 (by omega), e32 s6 (by omega), e32 4096 (by omega),
    e32 (4096 + ALIGN s0 4096) (by omega), e32 (4096 + ALIGN s0 4096 + ALIGN s1 4096) (by omega),
    e32 (4096 + ALIGN s0 4096 + ALIGN s1 4096 + ALIGN s2 4096) (by omega), e32 (4096 + ALIGN s0 4096 + ALIGN s1 4096 + ALIGN s2 4096 + ALIGN s3 4096) (by omega),
    e32 (4096 + ALIGN s0 4096 + ALIGN s1 4096 + ALIGN s2 4096 + ALIGN s3 4096 + ALIGN s4 4096) (by omega),
    e32 (4096 + ALIGN s0 4096 + ALIGN s1 4096 + ALIGN s2 4096 + ALIGN s3 4096 + ALIGN s4 4096 + ALIGN s5 4096) (by omega)]
  refine ⟨rfl, rfl, rfl, rfl, ?_, ?_, rfl⟩
  · intro i hi
    interval_cases i <;> exact ⟨_, _, rfl, rfl, rfl, rfl⟩
  · intro i hi
    interval_cases i
    · exact ⟨s0, _, _, rfl, rfl, rfl, rfl, h0⟩
    · exact ⟨s1, _, _, rfl, rfl, rfl, rfl, h1⟩
    · exact ⟨s2, _, _, rfl, rfl, rfl, rfl, h2⟩
    · exact ⟨s3, _, _, rfl, rfl, rfl, rfl, h3⟩
    · exact ⟨s4, _, _, rfl, rfl, rfl, rfl, h4⟩
    · exact ⟨s5, _, _, rfl, rfl, rfl, rfl, h5⟩

theorem write_header_layout_witness :
    (razor_set_write_header [20, 64, 48, 72, 0, 0, 16]).magic = 0x7a7a7a7a ∧
    (razor_set_write_header [20, 64, 48, 72, 0, 0, 16]).sections.map (fun r => r.offset) =
      [4096, 8192, 12288, 16384, 20480, 20480, 20480, 0] :=
  ⟨(write_header_layout [20, 64, 48, 72, 0, 0, 16] rfl (by decide)).1, by decide⟩

theorem u32_at_bytes (pre rest : List Nat) (v : Nat) (hv : v < 2 ^ 32) :
    u32_at (pre ++ (u32_bytes v ++ rest)) pre.length = some v := by
  unfold u32_at
  rw [List.drop_left]
  simp only [u32_bytes, List.cons_append, List.nil_append, List.take_succ_cons, List.take_zero]
  congr 1
  omega

theorem u32_at_bytes_of_length (pre rest : List Nat) (v n : Nat) (hv : v < 2 ^ 32)
    (hn : pre.length = n) : u32_at (pre ++ (u32_bytes v ++ rest)) n = some v := by
  subst hn
  exact u32_at_bytes pre rest v hv

theorem section_bytes_length (s : razor_set_section) : (section_bytes s).length = 12 := rfl

theorem records_at (secs : List razor_set_section) :
    ∀ (k : Nat) (r : razor_set_section) (pre post : List Nat), secs[k]? = some r →
      r.type < 2 ^ 32 → r.offset < 2 ^ 32 → r.size < 2 ^ 32 →
      u32_at (pre ++ ((secs.map section_bytes).flatten ++ post)) (pre.length + 12 * k) =
        some r.type ∧
      u32_at (pre ++ ((secs.map section_bytes).flatten ++ post)) (pre.length + 12 * k + 4) =
        some r.offset ∧
      u32_at (pre ++ ((secs.map section_bytes).flatten ++ post)) (pre.length + 12 * k + 8) =
        some r.size := by
  induction secs with
  | nil => intro k r pre post h; simp at h
  | cons s tl ih =>
    intro k r pre post h ht ho hs
    cases k with
    | zero =>
      simp only [List.getElem?_cons_zero, Option.some.injEq] at h
      subst h
      simp only [List.map_cons, List.flatten_cons, section_bytes, List.append_assoc,
        Nat.mul_zero, Nat.add_zero]
      refine ⟨u32_at_bytes pre _ _ ht, ?_, ?_⟩
      · have := u32_at_bytes_of_length (pre ++ u32_bytes s.type)
          (u32_bytes s.size ++ ((tl.map section_bytes).flatten ++ post)) s.offset
          (pre.length + 4) ho (by simp [u32_bytes])
        simpa only [List.append_assoc] using this
      · have := u32_at_bytes_of_length (pre ++ (u32_bytes s.type ++ u32_bytes s.offset))
          ((tl.map section_bytes).flatten ++ post) s.size
          (pre.length + 8) hs (by simp [u32_bytes])
        simpa only [List.append_assoc] using this
    | succ k =>
      simp only [List.getElem?_cons_succ] at h
      have := ih k r (pre ++ section_bytes s) post h ht ho hs
      simp only [List.length_append, section_bytes_length, List.append_assoc] at this
      simp only [List.map_cons, List.flatten_cons, List.append_assoc]
      have e : pre.length + 12 * (k + 1) = pre.length + (12 + 12 * k) := by omega
      rw [e]
      simpa only [Nat.add_assoc] using this

theorem header_records_at (h : razor_set_header) (data : List Nat) (k : Nat)
    (r : razor_set_section) (hk : h.sections[k]? = some r)
    (ht : r.type < 2 ^ 32) (ho : r.offset < 2 ^ 32) (hs : r.size < 2 ^ 32) :
    u32_at (header_bytes h ++ data) (8 + 12 * k) = some r.type ∧
    u32_at (header_bytes h ++ data) (8 + 12 * k + 4) = some r.offset ∧
    u32_at (header_bytes h ++ data) (8 + 12 * k + 8) = some r.size := by
  have := records_at h.sections k r (u32_bytes h.magic ++ u32_bytes h.version)
    (List.replicate (4096 - (u32_bytes h.magic ++ u32_bytes h.version ++
      (h.sections.map section_bytes).flatten).length) 0 ++ data) hk ht ho hs
  have e : (u32_bytes h.magic ++ u32_bytes h.version).length = 8 := rfl
  rw [e] at this
  simpa only [header_bytes, List.append_assoc] using this

theorem razor_sections_at (j : Nat) (hj : j < 7) : razor_sections[j]? = some j := by
  interval_cases j <;> rfl

theorem to_int_of_lt (n : Nat) (h : n < 2 ^ 31) : to_int (n : Int) = (n : Int) := by
  unfold to_int
  omega

theorem razor_set_open_walk_spec (file : List Nat) (secs : List razor_set_section)
    (hrec : ∀ (k : Nat) (r : razor_set_section), secs[k]? = some r →
      u32_at file (8 + 12 * k) = some r.type ∧ u32_at file (8 + 12 * k + 4) = some r.offset ∧
      u32_at file (8 + 12 * k + 8) = some r.size)
    (hsecs : ∀ j : Nat, j < 7 → ∃ r, secs[j]? = some r ∧ r.type = j ∧ r.size < 2 ^ 31)
    (hterm : ∃ r, secs[7]? = some r ∧ r.type = 0xFFFFFFFF) :
    ∀ (n k fuel : Nat) (set : List array), k + n = 7 → set.length = 7 → n < fuel →
      ∃ out, razor_set_open_walk file fuel k set = some out ∧ out.length = 7 ∧
        (∀ i : Nat, i < k → out[i]? = set[i]?) ∧
        (∀ (i : Nat) (r : razor_set_section), k ≤ i → secs[i]? = some r → i < 7 →
          out[i]? = some { data := some r.offset, size := r.size, alloc := r.size }) := by
  intro n
  induction n with
  | zero =>
    intro k fuel set hk hlen hfuel
    obtain ⟨r, hr, ht⟩ := hterm
    have hk7 : k = 7 := by omega
    subst hk7
    obtain ⟨fuel, rfl⟩ : ∃ f, fuel = f + 1 := ⟨fuel - 1, by omega⟩
    refine ⟨set, ?_, hlen, fun _ _ => rfl, fun i r _ _ hi => by omega⟩
    rw [razor_set_open_walk, (hrec 7 r hr).1, ht]
    simp
  | succ n ih =>
    intro k fuel set hk hlen hfuel
    obtain ⟨r, hr, ht, hs⟩ := hsecs k (by omega)
    obtain ⟨fuel, rfl⟩ : ∃ f, fuel = f + 1 := ⟨fuel - 1, by omega⟩
    obtain ⟨h1, h2, h3⟩ := hrec k r hr
    have hk7 : k < 7 := by omega
    rw [razor_set_open_walk, h1, ht]
    simp only [h2, h3]
    rw [if_neg (by omega), if_neg (by simp [razor_sections]; omega),
      if_neg (by simp [razor_sections_at k hk7])]
    obtain ⟨out, ho, holen, hlow, hhigh⟩ := ih (k + 1) fuel
      (set.set k { data := some r.offset, size := to_int r.size, alloc := to_int r.size })
      (by omega) (by simpa using hlen) (by omega)
    refine ⟨out, ho, holen, ?_, ?_⟩
    · intro i hi
      rw [hlow i (by omega), List.getElem?_set_ne (by omega)]
    · intro i r' hki hr' hi
      rcases Nat.eq_or_lt_of_le hki with heq | hlt
      · subst heq
        have : r' = r := Option.some.inj (hr'.symm.trans hr)
        subst this
        rw [hlow k (by omega), List.getElem?_set_self (by omega), to_int_of_lt _ hs]
      · exact hhigh i r' hlt hr' hi

theorem razor_set_write_data_prefix :
    ∀ (arrays tails : List (List Nat)) (file0 file : List Nat),
      razor_set_write_data arrays tails file0 = some file → ∃ rest, file = file0 ++ rest := by
  intro arrays
  induction arrays with
  | nil =>
    intro tails file0 file h
    simp only [razor_set_write_data, Option.some.injEq] at h
    exact ⟨[], by simp [h]⟩
  | cons a arrays ih =>
    intro tails file0 file h
    simp only [razor_set_write_data, razor_write] at h
    split at h
    · cases h
    · rename_i f hf
      split at hf
      · cases hf
        obtain ⟨rest, hrest⟩ := ih _ _ _ h
        exact ⟨_, by rw [hrest, List.append_assoc]⟩
      · cases hf

theorem razor_set_write_data_some :
    ∀ (arrays tails : List (List Nat)) (file0 : List Nat),
      (∀ i : Nat, i < arrays.length →
        ALIGN (arrays.getD i []).length 4096 ≤
          (arrays.getD i []).length + (tails.getD i []).length) →
      ∃ file, razor_set_write_data arrays tails file0 = some file := by
  intro arrays
  induction arrays with
  | nil => intro tails file0 _; exact ⟨file0, rfl⟩
  | cons a arrays ih =>
    intro tails file0 h
    have h0 := h 0 (by simp)
    simp only [List.getD_cons_zero] at h0
    have ht : (tails.getD 0 []) = tails.headD [] := by cases tails <;> rfl
    rw [ht] at h0
    simp only [razor_set_write_data, razor_write, List.length_append]
    rw [if_pos h0]
    apply ih
    intro i hi
    have := h (i + 1) (by simpa using hi)
    simp only [List.getD_cons_succ] at this
    have e : tails.getD (i + 1) [] = tails.tail.getD i [] := by cases tails <;> simp
    rwa [e] at this

theorem razor_set_write_layout :
    ∀ (arrays tails : List (List Nat)) (i off : Nat) (file0 file : List Nat),
      razor_set_write_data arrays tails file0 = some file → file0.length = off →
      off + (arrays.map (fun a => ALIGN a.length 4096)).sum < 2 ^ 32 →
      i + arrays.length < 2 ^ 32 →
      (∀ (j : Nat) (a : List Nat), arrays[j]? = some a →
        ∃ r, (razor_set_write_sections (arrays.map List.length) i off)[j]? = some r ∧
          r.type = i + j ∧ r.size = a.length ∧ r.offset < 2 ^ 32 ∧
          (file.drop r.offset).take r.size = a) ∧
      (razor_set_write_sections (arrays.map List.length) i off)[arrays.length]? =
        some { type := 0xFFFFFFFF, offset := 0, size := 0 } := by
  intro arrays
  induction arrays with
  | nil =>
    intro tails i off file0 file _ _ _ _
    exact ⟨fun j a h => by simp at h, rfl⟩
  | cons a arrays ih =>
    intro tails i off file0 file h hoff hfit hi
    simp only [List.map_cons, List.sum_cons] at hfit
    have hal := ALIGN_spec a.length
    simp only [razor_set_write_data, razor_write] at h
    split at h
    · cases h
    · rename_i f hf
      split at hf
      swap
      · cases hf
      cases hf
      rename_i hread
      have hlen : (file0 ++ (a ++ tails.headD []).take (ALIGN a.length 4096)).length =
          (off + ALIGN a.length 4096) % 2 ^ 64 := by
        rw [List.length_append, List.length_take, Nat.min_eq_left hread, hoff,
          Nat.mod_eq_of_lt (by omega)]
      have hfit' : (off + ALIGN a.length 4096) % 2 ^ 64 +
          (arrays.map (fun a => ALIGN a.length 4096)).sum < 2 ^ 32 := by
        rw [Nat.mod_eq_of_lt (by omega)]; omega
      obtain ⟨ih1, ih2⟩ := ih tails.tail (i + 1) _ _ file h hlen hfit'
        (by simp only [List.length_cons] at hi; omega)
      obtain ⟨rest, hrest⟩ := razor_set_write_data_prefix _ _ _ _ h
      refine ⟨?_, ?_⟩
      · intro j b hb
        cases j with
        | zero =>
          simp only [List.getElem?_cons_zero, Option.some.injEq] at hb
          subst hb
          refine ⟨⟨i % UINT_MOD, off % UINT_MOD, a.length % UINT_MOD⟩,
            by simp [razor_set_write_sections], ?_, ?_, ?_, ?_⟩
          · exact Nat.mod_eq_of_lt (by simp only [List.length_cons] at hi; unfold UINT_MOD; omega)
          · exact Nat.mod_eq_of_lt (by unfold UINT_MOD; omega)
          · exact Nat.mod_lt _ (by decide)
          · show (file.drop (off % UINT_MOD)).take (a.length % UINT_MOD) = a
            rw [Nat.mod_eq_of_lt (show off < UINT_MOD by unfold UINT_MOD; omega),
              Nat.mod_eq_of_lt (show a.length < UINT_MOD by unfold UINT_MOD; omega), hrest,
              List.append_assoc, ← hoff, List.drop_left,
              List.take_append_of_le_length (by rw [List.length_take]; omega),
              List.take_take, Nat.min_eq_left hal.2.1, List.take_left]
        | succ j =>
          simp only [List.getElem?_cons_succ] at hb
          obtain ⟨r, hr, h1, h2, h3, h4⟩ := ih1 j b hb
          exact ⟨r, by simpa [razor_set_write_sections] using hr, by omega, h2, h3, h4⟩
      · simpa [razor_set_write_sections] using ih2

theorem razor_set_write_sections_length :
    ∀ (sizes : List Nat) (i off : Nat),
      (razor_set_write_sections sizes i off).length = sizes.length + 1 := by
  intro sizes
  induction sizes with
  | nil => intro i off; rfl
  | cons s sizes ih => intro i off; simp [razor_set_write_sections, ih]

theorem section_bytes_flatten_length (secs : List razor_set_section) :
    ((secs.map section_bytes).flatten).length = 12 * secs.length := by
  induction secs with
  | nil => rfl
  | cons s secs ih =>
    simp only [List.map_cons, List.flatten_cons, List.length_append, ih, section_bytes_length,
      List.length_cons]
    omega

theorem header_bytes_length (h : razor_set_header) (hs : h.sections.length = 8) :
    (header_bytes h).length = 4096 := by
  simp only [header_bytes, List.length_append, List.length_replicate,
    section_bytes_flatten_length, hs, u32_bytes, List.length_cons, List.length_nil]

theorem write_open_arrays (arrays tails : List (List Nat)) (hlen : arrays.length = 7)
    (hread : ∀ i : Nat, i < 7 →
      ALIGN (arrays.getD i []).length 4096 ≤
        (arrays.getD i []).length + (tails.getD i []).length)
    (hsize : ∀ a ∈ arrays, a.length < 2 ^ 31)
    (hfit : 4096 + (arrays.map (fun a => ALIGN a.length 4096)).sum < 2 ^ 32) :
    ∃ file opened, razor_set_write arrays tails = some file ∧
      razor_set_open file = some opened ∧ opened.length = 7 ∧
      ∀ i : Nat, i < 7 → ∃ a b, arrays[i]? = some a ∧ opened[i]? = some b ∧
        b.size = a.length ∧ array_bytes file b = a := by
  have hsl : (razor_set_write_header (arrays.map List.length)).sections.length = 8 := by
    simp [razor_set_write_header, razor_set_write_sections_length, hlen]
  have hhl := header_bytes_length _ hsl
  obtain ⟨file, hfile⟩ := razor_set_write_data_some arrays tails
    (header_bytes (razor_set_write_header (arrays.map List.length))) (by rw [hlen]; exact hread)
  obtain ⟨rest, hrest⟩ := razor_set_write_data_prefix _ _ _ _ hfile
  obtain ⟨hlay, hterm⟩ := razor_set_write_layout arrays tails 0 4096 _ file hfile hhl hfit
    (by rw [hlen]; decide)
  have hwrite : razor_set_write arrays tails = some file := by
    simp only [razor_set_write, razor_write, List.nil_append]
    rw [if_pos (by omega), ← hhl, List.take_length]
    exact hfile
  have hsecs : ∀ j : Nat, j < 7 → ∃ r a, arrays[j]? = some a ∧
      (razor_set_write_header (arrays.map List.length)).sections[j]? = some r ∧
      r.type = j ∧ r.size = a.length ∧ r.size < 2 ^ 31 ∧ r.offset < 2 ^ 32 ∧
      (file.drop r.offset).take r.size = a := by
    intro j hj
    have hja : j < arrays.length := by omega
    obtain ⟨r, hr, h1, h2, h3, h4⟩ := hlay j (arrays.get ⟨j, hja⟩) (List.getElem?_eq_getElem hja)
    refine ⟨r, _, List.getElem?_eq_getElem hja, hr, by omega, h2, ?_, h3, h4⟩
    rw [h2]
    exact hsize _ (List.get_mem _ _ _)
  rw [hlen] at hterm
  have hrec : ∀ (k : Nat) (r : razor_set_section),
      (razor_set_write_header (arrays.map List.length)).sections[k]? = some r →
      u32_at file (8 + 12 * k) = some r.type ∧ u32_at file (8 + 12 * k + 4) = some r.offset ∧
      u32_at file (8 + 12 * k + 8) = some r.size := by
    intro k r hk
    rw [hrest]
    apply header_records_at _ _ _ _ hk
    all_goals
      rcases Nat.lt_or_ge k 7 with h7 | h7
      · obtain ⟨r', a, _, hr', h1, h2, h3, h4, _⟩ := hsecs k h7
        have : r = r' := Option.some.inj (hk.symm.trans hr')
        subst this
        omega
      · rcases Nat.eq_or_lt_of_le h7 with h7 | h7
        · subst h7
          have : r = _ := Option.some.inj (hk.symm.trans hterm)
          subst this
          decide
        · have := List.getElem?_eq_none (l := (razor_set_write_header
            (arrays.map List.length)).sections) (n := k) (by omega)
          rw [this] at hk
          cases hk
  obtain ⟨opened, hopen, holen, _, hhigh⟩ := razor_set_open_walk_spec file
    (razor_set_write_header (arrays.map List.length)).sections hrec
    (fun j hj => by
      obtain ⟨r, a, _, hr, h1, _, h3, _⟩ := hsecs j hj
      exact ⟨r, hr, h1, h3⟩)
    ⟨_, hterm, rfl⟩ 7 0 (file.length + 1)
    (List.replicate razor_sections.length { data := none, size := 0, alloc := 0 })
    rfl rfl (by rw [hrest, List.length_append, hhl]; omega)
  refine ⟨file, opened, hwrite, hopen, holen, ?_⟩
  intro i hi
  obtain ⟨r, a, ha, hr, _, h2, _, _, h5⟩ := hsecs i hi
  refine ⟨a, _, ha, hhigh i r (Nat.zero_le _) hr hi, ?_, ?_⟩
  · simp [h2]
  · simpa [array_bytes] using h5

theorem replicate_seven_getD {α : Type} (x d : α) (i : Nat) (hi : i < 7) :
    (List.replicate 7 x).getD i d = x := by
  interval_cases i <;> rfl

theorem set_arrays_length (set : razor_set) : (set_arrays set).length = 7 := rfl

/-- C25: for every set (in particular every set that `razor_importer_finish`
returns) whose sections fit the `int` sizes and the 32-bit offsets of the
file, and whose memory can be read up to the padded size of each section,
`razor_set_write` emits a file on which the section walk of `razor_set_open`
ends with seven arrays, array `i` having the size and the bytes of section
`i` of the set. -/
theorem write_open_round_trip (set : razor_set) (tails : List (List Nat))
    (hread : ∀ i : Nat, i < 7 →
      ALIGN ((set_arrays set).getD i []).length 4096 ≤
        ((set_arrays set).getD i []).length + (tails.getD i []).length)
    (hsize : ∀ a ∈ set_arrays set, a.length < 2 ^ 31)
    (hfit : 4096 + ((set_arrays set).map (fun a => ALIGN a.length 4096)).sum < 2 ^ 32) :
    ∃ file opened, razor_set_write (set_arrays set) tails = some file ∧
      razor_set_open file = some opened ∧ opened.length = 7 ∧
      ∀ i : Nat, i < 7 → ∃ a b, (set_arrays set)[i]? = some a ∧ opened[i]? = some b ∧
        b.size = a.length ∧ array_bytes file b = a :=
  write_open_arrays (set_arrays set) tails (set_arrays_length set) hread hsize hfit

theorem write_open_round_trip_witness :
    import_set (rnd_of []) calls_foo_bar = some set_foo_bar ∧
    ∃ file opened,
      razor_set_write (set_arrays set_foo_bar) (List.replicate 7 (List.replicate 4096 0)) =
        some file ∧
      razor_set_open file = some opened ∧ opened.length = 7 ∧
      ∀ i : Nat, i < 7 → ∃ a b, (set_arrays set_foo_bar)[i]? = some a ∧
        opened[i]? = some b ∧ b.size = a.length ∧ array_bytes file b = a :=
  ⟨by decide!,
    write_open_round_trip set_foo_bar (List.replicate 7 (List.replicate 4096 0))
      (fun i hi => by
        have h := (ALIGN_spec ((set_arrays set_foo_bar).getD i []).length).2.2
        have e : ((List.replicate 7 (List.replicate 4096 0)).getD i []).length = 4096 := by
          rw [replicate_seven_getD _ _ i hi, List.length_replicate]
        omega)
      (by decide!) (by decide!)⟩

/-! ## The map of a sort and the file lists of the packages -/

theorem qsort_swap_map {α β : Type} (f : α → β) (l : List α) (i j : Nat) :
    qsort_swap (l.map f) i j = (qsort_swap l i j).map f := by
  unfold qsort_swap
  simp only [List.getElem?_map]
  cases hi : l[i]? with
  | none => rfl
  | some a =>
    cases hj : l[j]? with
    | none => rfl
    | some b => simp [List.map_set]

theorem qsort_swap_mem {α : Type} (l : List α) (i j : Nat) (x : α) :
    x ∈ qsort_swap l i j ↔ x ∈ l := by
  by_cases h : i < l.length ∧ j < l.length
  · have hs := same_range_swap l i j 0 l.length (Nat.zero_le _) h.1 (Nat.zero_le _) h.2
      (le_refl _)
    exact same_range_mem l _ hs x
  · unfold qsort_swap
    cases hi : l[i]? with
    | none => rfl
    | some a =>
      cases hj : l[j]? with
      | none => rfl
      | some b =>
        exfalso
        apply h
        exact ⟨(List.getElem?_eq_some_iff.mp hi).1, (List.getElem?_eq_some_iff.mp hj).1⟩

theorem qsort_partition_inv {α : Type} (compare : α → α → Int)
    (P : List α → List Nat → Prop)
    (hswap : ∀ (b : List α) (m : List Nat) (i j : Nat), P b m →
      P (qsort_swap b i j) (qsort_swap m i j)) :
    ∀ (fuel : Nat) (st : qsort_state α) (p start end_ pivot : Nat), P st.base st.map →
      P (qsort_partition compare fuel st p start end_ pivot).1.base
        (qsort_partition compare fuel st p start end_ pivot).1.map := by
  intro fuel
  induction fuel with
  | zero => intro st p start end_ pivot h; exact h
  | succ fuel ih =>
    intro st p start end_ pivot h
    simp only [qsort_partition]
    split
    · split
      · split
        · exact ih _ _ _ _ _ (hswap _ _ _ _ h)
        · split
          · exact ih _ _ _ _ _ h
          · exact ih _ _ _ _ _ (hswap _ _ _ _ h)
      · exact h
    · exact h

theorem qsort_inv {α : Type} (compare : α → α → Int) (rnd : Nat → Nat)
    (P : List α → List Nat → Prop)
    (hswap : ∀ (b : List α) (m : List Nat) (i j : Nat), P b m →
      P (qsort_swap b i j) (qsort_swap m i j)) :
    ∀ (fuel : Nat) (st : qsort_state α) (base nelem : Nat), P st.base st.map →
      P (__qsort_with_data compare rnd fuel st base nelem).base
        (__qsort_with_data compare rnd fuel st base nelem).map := by
  intro fuel
  induction fuel with
  | zero => intro st base nelem h; exact h
  | succ fuel ih =>
    intro st base nelem h
    generalize hq : qsort_partition compare nelem { st with calls := st.calls + 1 } base base
      (base + nelem) (base + rnd st.calls % nelem) = r
    obtain ⟨st1, s, e⟩ := r
    have h1 : P st1.base st1.map := by
      have := qsort_partition_inv compare P hswap nelem { st with calls := st.calls + 1 }
        base base (base + nelem) (base + rnd st.calls % nelem) h
      rw [hq] at this
      exact this
    rw [qsort_unfold compare rnd fuel st st1 base nelem s e hq]
    have h2 : P (if s - base > 1 then __qsort_with_data compare rnd fuel st1 base (s - base)
        else st1).base
        (if s - base > 1 then __qsort_with_data compare rnd fuel st1 base (s - base)
        else st1).map := by
      split
      · exact ih _ _ _ h1
      · exact h1
    split
    · exact ih _ _ _ h2
    · exact h2

theorem qsort_with_data_map {α : Type} (compare : α → α → Int) (rnd : Nat → Nat)
    (calls : Nat) (base : List α) (hne : base.length ≠ 0) :
    ∃ map, (qsort_with_data compare rnd calls base).2.1 = some map ∧
      map.length = base.length ∧
      (qsort_with_data compare rnd calls base).1.map some = map.map (fun m => base[m]?) ∧
      ∀ i : Nat, i < base.length → i ∈ map := by
  unfold qsort_with_data
  rw [if_neg hne]
  refine ⟨_, rfl, ?_⟩
  have := qsort_inv compare rnd
    (fun b m => m.length = base.length ∧ b.map some = m.map (fun m => base[m]?) ∧
      ∀ i : Nat, i < base.length → i ∈ m)
    (fun b m i j h => ⟨by rw [qsort_swap_length]; exact h.1,
      by rw [← qsort_swap_map, ← qsort_swap_map, h.2.1],
      fun k hk => (qsort_swap_mem m i j k).mpr (h.2.2 k hk)⟩)
    base.length { base := base, map := List.range base.length, calls := calls } 0 base.length
    ⟨List.length_range _, ?_, fun i hi => List.mem_range.mpr hi⟩
  · exact this
  · apply List.ext_getElem?
    intro k
    simp only [List.getElem?_map, List.getElem?_range]
    by_cases hk : k < base.length
    · simp [List.getElem?_range hk, List.getElem?_eq_getElem hk]
    · have e1 : base[k]? = none := List.getElem?_eq_none (by omega)
      have e2 : (List.range base.length)[k]? = none :=
        List.getElem?_eq_none (by simp; omega)
      simp [e1, e2]

theorem and_mask_of_lt (w : Nat) (h : w < 2 ^ 24) : w &&& RAZOR_ENTRY_MASK = w := by
  have e : RAZOR_ENTRY_MASK = 2 ^ 24 - 1 := by decide
  rw [e, Nat.and_pow_two_sub_one_eq_mod, Nat.mod_eq_of_lt h]

theorem or_immediate_and_mask (w : Nat) :
    (w ||| RAZOR_IMMEDIATE) &&& RAZOR_ENTRY_MASK = w &&& RAZOR_ENTRY_MASK := by
  apply Nat.eq_of_testBit_eq
  intro i
  have e1 : RAZOR_ENTRY_MASK = 2 ^ 24 - 1 := by decide
  have e2 : RAZOR_IMMEDIATE = 2 ^ 31 := by decide
  rw [e1, e2]
  simp only [Nat.testBit_and, Nat.testBit_or, Nat.testBit_two_pow, Nat.testBit_two_pow_sub_one]
  by_cases hi : i < 24
  · have : ¬ 31 = i := by omega
    simp [this]
  · simp [hi]

theorem or_immediate_ne_ones (w : Nat) (h : w < 2 ^ 31) :
    w ||| RAZOR_IMMEDIATE ≠ ULONG_ALL_ONES := by
  have e2 : RAZOR_IMMEDIATE = 2 ^ 31 := by decide
  have : w ||| RAZOR_IMMEDIATE < 2 ^ 32 :=
    Nat.or_lt_two_pow (by omega) (by rw [e2]; decide)
  have e3 : ULONG_ALL_ONES = 2 ^ 64 - 1 := rfl
  omega

theorem or_immediate_and_ne (w : Nat) : (w ||| RAZOR_IMMEDIATE) &&& RAZOR_IMMEDIATE ≠ 0 := by
  rw [or_immediate_and]
  decide

theorem reference_list_pool (pool : List Nat) (r : Nat) (l ext : List Nat) (last : Nat)
    (hr : r &&& RAZOR_IMMEDIATE = 0) (hpool : pool.drop r = l ++ last :: ext)
    (hl : ∀ w ∈ l, w &&& RAZOR_IMMEDIATE = 0) (hlast : last &&& RAZOR_IMMEDIATE ≠ 0) :
    reference_list pool r = some ((l ++ [last]).map (fun w => w &&& RAZOR_ENTRY_MASK)) := by
  unfold reference_list
  rw [if_neg (by simp [hr])]
  simp only [hpool]
  have hfind : (l ++ last :: ext).findIdx? (fun w => w &&& RAZOR_IMMEDIATE != 0) =
      some l.length := by
    clear hpool
    induction l with
    | nil => simp [List.findIdx?_cons, hlast]
    | cons a l ih =>
      have ha := hl a (List.mem_cons_self _ _)
      simp only [List.cons_append, List.findIdx?_cons, ha, bne_self_eq_false,
        Bool.false_eq_true, if_false, List.length_cons]
      rw [List.findIdx?_succ, ih (fun w hw => hl w (List.mem_cons_of_mem _ hw))]
      rfl
  rw [hfind]
  simp only [Option.some.injEq]
  congr 1
  rw [List.take_append_eq_append_take]
  simp

theorem reference_words_add (pool l ext : List Nat) (hl : ∀ x ∈ l, x < 2 ^ 24)
    (hpool : (add_to_property_pool pool l).1.length ≤ 2 ^ 31) :
    reference_words ((add_to_property_pool pool l).1 ++ ext) (add_to_property_pool pool l).2 =
      some l := by
  unfold add_to_property_pool at hpool ⊢
  match l, hl with
  | [], _ => simp [reference_words]
  | [x], hl =>
    have hx := hl x (List.mem_singleton_self x)
    simp only [List.length_singleton, OfNat.one_ne_ofNat, if_false, if_true, List.headD_cons,
      one_ne_zero]
    rw [reference_words, if_neg (or_immediate_ne_ones x (by omega)), reference_list,
      if_pos (or_immediate_and_ne x), or_immediate_and_mask, and_mask_of_lt x hx]
  | x :: y :: l, hl =>
    have hlen : (x :: y :: l).length ≠ 0 := by simp
    have hlen1 : (x :: y :: l).length ≠ 1 := by simp
    rw [if_neg hlen, if_neg hlen1] at hpool ⊢
    simp only [List.length_append, List.length_dropLast, List.length_cons,
      List.length_singleton, List.length_nil] at hpool
    have hp : pool.length < 2 ^ 31 := by omega
    have hones : pool.length ≠ ULONG_ALL_ONES := by
      have : ULONG_ALL_ONES = 2 ^ 64 - 1 := rfl
      omega
    rw [reference_words, if_neg hones]
    have hlast : (x :: y :: l).getLastD 0 ∈ (x :: y :: l) := by
      rw [List.getLastD_eq_getLast?, List.getLast?_eq_getLast _ (List.cons_ne_nil _ _)]
      exact List.getLast_mem (List.cons_ne_nil _ _)
    rw [reference_list_pool _ pool.length (x :: y :: l).dropLast ext
      ((x :: y :: l).getLastD 0 ||| RAZOR_IMMEDIATE) (and_immediate_of_lt _ hp)
      (by simp [List.append_assoc])
      (fun w hw => and_immediate_of_lt w (by
        have := hl w (List.dropLast_subset _ hw)
        omega))
      (or_immediate_and_ne _)]
    simp only [Option.some.injEq, List.map_append, List.map_cons, List.map_nil,
      or_immediate_and_mask]
    rw [and_mask_of_lt _ (hl _ hlast)]
    have hmap : (x :: y :: l).dropLast.map (fun w => w &&& RAZOR_ENTRY_MASK) =
        (x :: y :: l).dropLast := by
      refine (List.map_congr_left (fun w hw => ?_)).trans (List.map_id _)
      exact and_mask_of_lt w (hl w (List.dropLast_subset _ hw))
    rw [hmap, List.getLastD_eq_getLast?, List.getLast?_eq_getLast _ (List.cons_ne_nil _ _)]
    simp only [Option.getD_some]
    exact List.dropLast_append_getLast _

theorem build_package_file_lists_push_spec (e : Nat) :
    ∀ (ws : List Nat) (pkgs pkgs' : List (List Nat)),
      build_package_file_lists_push e ws pkgs = some pkgs' →
      ∃ l last ext, ws = l ++ last :: ext ∧ (∀ w ∈ l, w &&& RAZOR_IMMEDIATE = 0) ∧
        last &&& RAZOR_IMMEDIATE ≠ 0 ∧ pkgs'.length = pkgs.length ∧
        ∀ (P : Nat) (x : List Nat), pkgs[P]? = some x →
          ∃ c, pkgs'[P]? = some (x ++ List.replicate c e) ∧
            (0 < c ↔ P ∈ (l ++ [last]).map (fun w => w &&& RAZOR_ENTRY_MASK)) := by
  intro ws
  induction ws with
  | nil => intro pkgs pkgs' h; simp [build_package_file_lists_push] at h
  | cons w rest ih =>
    intro pkgs pkgs' h
    simp only [build_package_file_lists_push] at h
    split at h
    · cases h
    · rename_i lst hlst
      have hidx : w &&& RAZOR_ENTRY_MASK < pkgs.length := (List.getElem?_eq_some_iff.mp hlst).1
      have hstep : ∀ (P : Nat) (x : List Nat), pkgs[P]? = some x →
          ∃ c, (pkgs.set (w &&& RAZOR_ENTRY_MASK) (lst ++ [e]))[P]? =
              some (x ++ List.replicate c e) ∧
            (0 < c ↔ P = w &&& RAZOR_ENTRY_MASK) := by
        intro P x hx
        by_cases hP : P = w &&& RAZOR_ENTRY_MASK
        · subst hP
          have : x = lst := Option.some.inj (hx.symm.trans hlst)
          subst this
          exact ⟨1, by rw [List.getElem?_set_self hidx]; rfl, by simp⟩
        · refine ⟨0, ?_, by simp [hP]⟩
          rw [List.getElem?_set_ne (fun e => hP e.symm), hx]
          simp
      split at h
      · cases h
        refine ⟨[], w, rest, rfl, fun _ hw => by simp at hw, by assumption, by simp, ?_⟩
        intro P x hx
        obtain ⟨c, h1, h2⟩ := hstep P x hx
        exact ⟨c, h1, by simpa using h2⟩
      · rename_i himm
        obtain ⟨l, last, ext, e1, e2, e3, e4, e5⟩ := ih _ _ h
        refine ⟨w :: l, last, ext, by rw [e1]; rfl, ?_, e3, by rw [e4]; simp, ?_⟩
        · intro v hv
          rcases List.mem_cons.mp hv with hv | hv
          · subst hv
            simpa using himm
          · exact e2 v hv
        · intro P x hx
          obtain ⟨c, h1, h2⟩ := hstep P x hx
          obtain ⟨c', h3, h4⟩ := e5 P _ h1
          refine ⟨c + c', ?_, ?_⟩
          · rw [h3, List.append_assoc, List.replicate_add]
          · simp only [List.cons_append, List.map_cons, List.mem_cons]
            rw [← h2, ← h4]
            omega

theorem file_lists_ok_step (pool : List Nat) (done : List razor_entry)
    (pkgs pkgs1 : List (List Nat)) (entry : razor_entry) (ws : List Nat)
    (hinv : file_lists_ok pool done pkgs)
    (hdec : reference_words pool entry.packages = some ws)
    (hlen : pkgs1.length = pkgs.length)
    (hpush : ∀ (P : Nat) (x : List Nat), pkgs[P]? = some x →
      ∃ c, pkgs1[P]? = some (x ++ List.replicate c done.length) ∧ (0 < c ↔ P ∈ ws)) :
    file_lists_ok pool (done ++ [entry]) pkgs1 := by
  intro P l1 hl1
  have hP : P < pkgs.length := by
    rw [← hlen]
    exact (List.getElem?_eq_some_iff.mp hl1).1
  obtain ⟨c, hc1, hc2⟩ := hpush P _ (List.getElem?_eq_getElem hP)
  obtain ⟨hpair, hmem⟩ := hinv P _ (List.getElem?_eq_getElem hP)
  have : l1 = pkgs[P] ++ List.replicate c done.length := Option.some.inj (hl1.symm.trans hc1)
  subst this
  have hlt : ∀ x ∈ pkgs[P], x < done.length := by
    intro x hx
    obtain ⟨entry', _, h1, _⟩ := (hmem x).mp hx
    exact (List.getElem?_eq_some_iff.mp h1).1
  refine ⟨?_, ?_⟩
  · rw [List.pairwise_append]
    refine ⟨hpair, ?_, ?_⟩
    · rw [List.pairwise_replicate]
      exact Or.inr (le_refl _)
    · intro a ha b hb
      rw [List.eq_of_mem_replicate hb]
      exact Nat.le_of_lt (hlt a ha)
  · intro x
    rw [List.mem_append, List.mem_replicate, hmem x]
    constructor
    · rintro (⟨entry', ws', h1, h2, h3⟩ | ⟨h1, h2⟩)
      · refine ⟨entry', ws', ?_, h2, h3⟩
        rw [List.getElem?_append_left (List.getElem?_eq_some_iff.mp h1).1]
        exact h1
      · subst h2
        refine ⟨entry, ws, by simp, hdec, hc2.mp (by omega)⟩
    · rintro ⟨entry', ws', h1, h2, h3⟩
      rcases Nat.lt_or_ge x done.length with hx | hx
      · left
        rw [List.getElem?_append_left hx] at h1
        exact ⟨entry', ws', h1, h2, h3⟩
      · right
        have hx' : x = done.length := by
          have := (List.getElem?_eq_some_iff.mp h1).1
          simp at this
          omega
        subst hx'
        have : entry' = entry := by simpa using h1.symm
        subst this
        have : ws' = ws := Option.some.inj (h2.symm.trans hdec)
        subst this
        exact ⟨by have := hc2.mpr h3; omega, rfl⟩

theorem build_package_file_lists_scan_spec (package_pool rmap : List Nat)
    (hrmap : ∀ k : Nat, rmap.getD k 0 < 2 ^ 31) :
    ∀ (entries : List razor_entry) (e : Nat) (done files' : List razor_entry)
      (pkgs pkgs' : List (List Nat)),
      build_package_file_lists_scan package_pool rmap entries e done pkgs
        = some (files', pkgs') →
      e = done.length → file_lists_ok package_pool done pkgs →
      file_lists_ok package_pool files' pkgs' ∧ pkgs'.length = pkgs.length := by
  intro entries
  induction entries with
  | nil =>
    intro e done files' pkgs pkgs' hrun he hinv
    simp only [build_package_file_lists_scan, Option.some.injEq, Prod.mk.injEq] at hrun
    rw [← hrun.1, ← hrun.2]
    exact ⟨hinv, rfl⟩
  | cons entry rest ih =>
    intro e done files' pkgs pkgs' hrun he hinv
    subst he
    simp only [build_package_file_lists_scan] at hrun
    split at hrun
    · rename_i hones
      refine ih _ _ _ _ _ hrun (by simp) ?_
      refine file_lists_ok_step _ _ _ _ _ [] hinv (by simp [reference_words, hones]) rfl ?_
      intro P x hx
      exact ⟨0, by simpa using hx, by simp⟩
    · rename_i hones
      split at hrun
      · rename_i himm
        split at hrun
        · cases hrun
        · rename_i pkgs1 hpush
          obtain ⟨l, last, ext, e1, e2, e3, e4, e5⟩ :=
            build_package_file_lists_push_spec _ _ _ _ hpush
          have hl : l = [] := by
            cases l with
            | nil => rfl
            | cons a l =>
              have := congrArg List.length e1
              simp at this
          subst hl
          simp only [List.nil_append, List.cons.injEq] at e1
          obtain ⟨ih1, ih2⟩ := ih _ _ _ _ _ hrun (by simp) (by
            refine file_lists_ok_step _ _ _ _ _ _ hinv ?_ e4 e5
            rw [reference_words, if_neg (or_immediate_ne_ones _ (hrmap _)), reference_list,
              if_pos (or_immediate_and_ne _), ← e1.1]
            rfl)
          exact ⟨ih1, ih2.trans e4⟩
      · rename_i himm
        split at hrun
        · cases hrun
        · rename_i pkgs1 hpush
          obtain ⟨l, last, ext, e1, e2, e3, e4, e5⟩ :=
            build_package_file_lists_push_spec _ _ _ _ hpush
          obtain ⟨ih1, ih2⟩ := ih _ _ _ _ _ hrun (by simp) (by
            refine file_lists_ok_step _ _ _ _ _ _ hinv ?_ e4 e5
            rw [reference_words, if_neg hones]
            exact reference_list_pool _ _ _ _ _ (by simpa using himm) e1 e2 e3)
          exact ⟨ih1, ih2.trans e4⟩

theorem add_to_property_pool_prefix (pool l : List Nat) :
    ∃ ext, (add_to_property_pool pool l).1 = pool ++ ext := by
  unfold add_to_property_pool
  split
  · exact ⟨[], by simp⟩
  · split
    · exact ⟨[], by simp⟩
    · exact ⟨_, by rw [List.append_assoc]⟩

theorem build_package_file_lists_emit_cons (p : razor_package) (packages : List razor_package)
    (pkgs : List (List Nat)) (file_pool : List Nat) :
    build_package_file_lists_emit (p :: packages) pkgs file_pool =
      ({ p with files := (add_to_property_pool file_pool (pkgs.headD [])).2 } ::
        (build_package_file_lists_emit packages pkgs.tail
          (add_to_property_pool file_pool (pkgs.headD [])).1).1,
       (build_package_file_lists_emit packages pkgs.tail
          (add_to_property_pool file_pool (pkgs.headD [])).1).2) := rfl

theorem build_package_file_lists_emit_spec :
    ∀ (packages : List razor_package) (pkgs : List (List Nat)) (file_pool : List Nat),
      (build_package_file_lists_emit packages pkgs file_pool).2.length ≤ 2 ^ 31 →
      (∀ l ∈ pkgs, ∀ x ∈ l, x < 2 ^ 24) →
      (∃ ext, (build_package_file_lists_emit packages pkgs file_pool).2 = file_pool ++ ext) ∧
      ∀ (P : Nat) (pkg : razor_package),
        (build_package_file_lists_emit packages pkgs file_pool).1[P]? = some pkg →
        reference_words (build_package_file_lists_emit packages pkgs file_pool).2 pkg.files =
          some (pkgs.getD P []) := by
  intro packages
  induction packages with
  | nil =>
    intro pkgs file_pool _ _
    exact ⟨⟨[], by simp [build_package_file_lists_emit]⟩,
      fun P pkg h => by simp [build_package_file_lists_emit] at h⟩
  | cons p packages ih =>
    intro pkgs file_pool hlen hlt
    rw [build_package_file_lists_emit_cons] at hlen ⊢
    simp only at hlen ⊢
    obtain ⟨ext1, h1⟩ := add_to_property_pool_prefix file_pool (pkgs.headD [])
    obtain ⟨⟨ext2, h2⟩, ih2⟩ := ih pkgs.tail (add_to_property_pool file_pool (pkgs.headD [])).1
      hlen (fun l hl => hlt l (List.mem_of_mem_tail hl))
    refine ⟨⟨ext1 ++ ext2, by rw [h2, h1, List.append_assoc]⟩, ?_⟩
    intro P pkg hP
    cases P with
    | zero =>
      simp only [List.getElem?_cons_zero, Option.some.injEq] at hP
      subst hP
      simp only
      rw [h2]
      have hhead : pkgs.getD 0 [] = pkgs.headD [] := by cases pkgs <;> rfl
      rw [hhead]
      apply reference_words_add
      · intro x hx
        cases pkgs with
        | nil => simp at hx
        | cons a pkgs => exact hlt a (List.mem_cons_self _ _) x hx
      · rw [h2, List.length_append] at hlen
        omega
    | succ P =>
      simp only [List.getElem?_cons_succ] at hP
      have := ih2 P pkg hP
      rw [this]
      cases pkgs <;> simp

theorem build_package_file_lists_emit_length :
    ∀ (packages : List razor_package) (pkgs : List (List Nat)) (file_pool : List Nat),
      (build_package_file_lists_emit packages pkgs file_pool).1.length = packages.length := by
  intro packages
  induction packages with
  | nil => intro pkgs file_pool; rfl
  | cons p packages ih =>
    intro pkgs file_pool
    rw [build_package_file_lists_emit_cons]
    simp [ih]

theorem build_package_file_lists_lists (set set' : razor_set) (rmap : List Nat)
    (hrun : build_package_file_lists set rmap = some set')
    (hrmap : ∀ k : Nat, rmap.getD k 0 < 2 ^ 31)
    (hfiles : set'.files.length ≤ 2 ^ 24) (hpool : set'.file_pool.length ≤ 2 ^ 31) :
    set'.package_pool = set.package_pool ∧ set'.properties = set.properties ∧
    set'.packages.length = set.packages.length ∧
    ∀ (P : Nat) (pkg : razor_package), set'.packages[P]? = some pkg →
      ∃ l, reference_words set'.file_pool pkg.files = some l ∧
        l.Pairwise (fun a b => a ≤ b) ∧
        ∀ e : Nat, e ∈ l ↔ ∃ entry ws, set'.files[e]? = some entry ∧
          reference_words set'.package_pool entry.packages = some ws ∧ P ∈ ws := by
  unfold build_package_file_lists at hrun
  simp only at hrun
  split at hrun
  · cases hrun
  · rename_i files pkgs hscan
    cases hrun
    simp only at hfiles hpool ⊢
    obtain ⟨hinv, hlen⟩ := build_package_file_lists_scan_spec set.package_pool rmap hrmap
      set.files 0 [] files (List.replicate set.packages.length []) pkgs hscan rfl (by
        intro P l hl
        have := (List.getElem?_eq_some_iff.mp hl).2
        simp at this
        subst this
        exact ⟨List.Pairwise.nil, fun x => by simp⟩)
    have hlt : ∀ l ∈ pkgs, ∀ x ∈ l, x < 2 ^ 24 := by
      intro l hl x hx
      obtain ⟨P, hP⟩ := List.mem_iff_getElem?.mp hl
      obtain ⟨entry, _, h1, _⟩ := ((hinv P l hP).2 x).mp hx
      have := (List.getElem?_eq_some_iff.mp h1).1
      omega
    obtain ⟨_, hemit⟩ := build_package_file_lists_emit_spec set.packages pkgs set.file_pool
      hpool hlt
    refine ⟨trivial, trivial, build_package_file_lists_emit_length _ _ _, ?_⟩
    intro P pkg hP
    have hPlt : P < pkgs.length := by
      have := (List.getElem?_eq_some_iff.mp hP).1
      rw [build_package_file_lists_emit_length] at this
      rw [hlen, List.length_replicate]
      exact this
    have hget : pkgs.getD P [] = pkgs[P] := by
      rw [List.getD_eq_getElem?_getD, List.getElem?_eq_getElem hPlt]
      rfl
    refine ⟨pkgs[P], ?_, hinv P _ (List.getElem?_eq_getElem hPlt)⟩
    rw [hemit P pkg hP, hget]

theorem build_file_tree_walk_frame (package : Nat) :
    ∀ (fuel : Nat) (importer importer' : razor_importer) (d d' : import_directory)
      (f : List Nat),
      build_file_tree_walk package fuel importer d f = some (importer', d') →
      importer'.set.packages = importer.set.packages ∧
      importer'.set.properties = importer.set.properties ∧
      importer'.set.package_pool = importer.set.package_pool ∧
      importer'.set.property_pool = importer.set.property_pool ∧
      importer'.set.file_pool = importer.set.file_pool := by
  intro fuel
  induction fuel with
  | zero =>
    intro importer importer' d d' f hrun
    simp only [build_file_tree_walk] at hrun
    cases hrun
    exact ⟨rfl, rfl, rfl, rfl, rfl⟩
  | succ fuel ih =>
    intro importer importer' d d' f hrun
    simp only [build_file_tree_walk] at hrun
    split at hrun
    · split at hrun
      · cases hrun
      · have A : ∀ s, (razor_importer_tokenize importer s).1.set.packages =
              importer.set.packages ∧
            (razor_importer_tokenize importer s).1.set.properties = importer.set.properties ∧
            (razor_importer_tokenize importer s).1.set.package_pool =
              importer.set.package_pool ∧
            (razor_importer_tokenize importer s).1.set.property_pool =
              importer.set.property_pool ∧
            (razor_importer_tokenize importer s).1.set.file_pool = importer.set.file_pool :=
          fun s => ⟨rfl, rfl, rfl, rfl, rfl⟩
        have A := A (some (List.takeWhile (fun c => c != 47) f))
        generalize razor_importer_tokenize importer
          (some (List.takeWhile (fun c => c != 47) f)) = r at A hrun
        obtain ⟨importer1, name⟩ := r
        simp only at hrun A
        split at hrun
        · cases hrun
        · rename_i last _
          split at hrun
          · cases hrun
          · rename_i importer2 last2 hbelow
            cases hrun
            split at hbelow
            · cases hbelow
              exact A
            · obtain ⟨i1, i2, i3, i4, i5⟩ := ih importer1 _ last _ _ hbelow
              exact ⟨i1.trans A.1, i2.trans A.2.1, i3.trans A.2.2.1, i4.trans A.2.2.2.1,
                i5.trans A.2.2.2.2⟩
    · cases hrun
      exact ⟨rfl, rfl, rfl, rfl, rfl⟩

theorem build_file_tree_loop_frame :
    ∀ (entries : List import_entry) (importer importer' : razor_importer)
      (root root' : import_directory),
      build_file_tree_loop entries importer root = some (importer', root') →
      importer'.set.packages = importer.set.packages ∧
      importer'.set.properties = importer.set.properties ∧
      importer'.set.package_pool = importer.set.package_pool ∧
      importer'.set.property_pool = importer.set.property_pool ∧
      importer'.set.file_pool = importer.set.file_pool := by
  intro entries
  induction entries with
  | nil =>
    intro importer importer' root root' hrun
    simp only [build_file_tree_loop] at hrun
    cases hrun
    exact ⟨rfl, rfl, rfl, rfl, rfl⟩
  | cons e rest ih =>
    intro importer importer' root root' hrun
    simp only [build_file_tree_loop] at hrun
    split at hrun
    · exact ih _ _ _ _ hrun
    · split at hrun
      · cases hrun
      · rename_i importer1 root1 hwalk
        obtain ⟨w1, w2, w3, w4, w5⟩ := build_file_tree_walk_frame _ _ _ _ _ _ _ hwalk
        obtain ⟨i1, i2, i3, i4, i5⟩ := ih _ _ _ _ hrun
        exact ⟨i1.trans w1, i2.trans w2, i3.trans w3, i4.trans w4, i5.trans w5⟩

theorem build_file_tree_frame (rnd : Nat → Nat) (calls calls' : Nat)
    (importer importer' : razor_importer)
    (hrun : build_file_tree rnd calls importer = some (importer', calls')) :
    importer'.set.packages = importer.set.packages ∧
    importer'.set.properties = importer.set.properties ∧
    importer'.set.property_pool = importer.set.property_pool ∧
    importer'.set.file_pool = importer.set.file_pool := by
  unfold build_file_tree at hrun
  simp only at hrun
  have A : (razor_importer_tokenize importer (some [])).1.set.packages =
        importer.set.packages ∧
      (razor_importer_tokenize importer (some [])).1.set.properties =
        importer.set.properties ∧
      (razor_importer_tokenize importer (some [])).1.set.property_pool =
        importer.set.property_pool ∧
      (razor_importer_tokenize importer (some [])).1.set.file_pool =
        importer.set.file_pool := ⟨rfl, rfl, rfl, rfl⟩
  generalize razor_importer_tokenize importer (some []) = r at A hrun
  obtain ⟨importer1, name⟩ := r
  simp only at hrun A
  split at hrun
  · cases hrun
  · rename_i importer2 root2 hloop
    obtain ⟨l1, l2, _, l4, l5⟩ := build_file_tree_loop_frame _ _ _ _ _ hloop
    cases hrun
    exact ⟨l1.trans A.1, l2.trans A.2.1, l4.trans A.2.2.1, l5.trans A.2.2.2⟩

theorem invert_map_bound (B : Nat) :
    ∀ (map : List Nat) (i : Nat) (rmap : List Nat), (∀ k : Nat, rmap.getD k 0 < B) →
      i + map.length ≤ B → ∀ k : Nat, (invert_map map i rmap).getD k 0 < B := by
  intro map
  induction map with
  | nil => intro i rmap h _ k; exact h k
  | cons m map ih =>
    intro i rmap h hi k
    simp only [invert_map]
    simp only [List.length_cons] at hi
    apply ih (i + 1) _ _ (by omega)
    intro k'
    rw [List.getD_eq_getElem?_getD, List.getElem?_set]
    split
    · split
      · simp only [Option.getD_some]
        omega
      · simp only [Option.getD_none]
        omega
    · rw [← List.getD_eq_getElem?_getD]
      exact h k'

theorem finish_rmap_bound {α : Type} (compare : α → α → Int) (rnd : Nat → Nat) (calls : Nat)
    (base : List α) (hlen : base.length ≤ 2 ^ 24) (k : Nat) :
    (invert_map ((qsort_with_data compare rnd calls base).2.1.getD []) 0
      (List.replicate base.length 0)).getD k 0 < 2 ^ 24 := by
  apply invert_map_bound
  · intro k'
    rw [List.getD_eq_getElem?_getD, List.getElem?_replicate]
    split <;> simp
  · by_cases h0 : base.length = 0
    · unfold qsort_with_data
      rw [if_pos h0]
      simp
    · obtain ⟨map, h1, h2, _⟩ := qsort_with_data_map compare rnd calls base h0
      rw [h1]
      simp only [Option.getD_some]
      omega

theorem build_package_file_lists_length (set set' : razor_set) (rmap : List Nat)
    (hrun : build_package_file_lists set rmap = some set') :
    set'.packages.length = set.packages.length := by
  unfold build_package_file_lists at hrun
  simp only at hrun
  split at hrun
  · cases hrun
  · cases hrun
    exact build_package_file_lists_emit_length _ _ _

/-- C30: in every set that `razor_importer_finish` returns (with at most
`2 ^ 24` packages and file entries and a file pool of at most `2 ^ 31`
words, the ranges of `RAZOR_ENTRY_MASK` and of a pool offset), the `files`
reference of every package `P` denotes a list of entry indices that is in
ascending order and holds exactly the indices of the entries of the file
tree whose packages list contains `P`. -/
theorem package_files_ascending (rnd : Nat → Nat) (importer : razor_importer)
    (set : razor_set) (hrun : razor_importer_finish rnd importer = some set)
    (hpackages : set.packages.length ≤ 2 ^ 24) (hfiles : set.files.length ≤ 2 ^ 24)
    (hpool : set.file_pool.length ≤ 2 ^ 31) :
    ∀ (P : Nat) (pkg : razor_package), set.packages[P]? = some pkg →
      ∃ l, reference_words set.file_pool pkg.files = some l ∧
        l.Pairwise (fun a b => a ≤ b) ∧
        ∀ e : Nat, e ∈ l ↔ ∃ entry ws, set.files[e]? = some entry ∧
          reference_words set.package_pool entry.packages = some ws ∧ P ∈ ws := by
  unfold razor_importer_finish at hrun
  split at hrun
  · cases hrun
  · rename_i set1 map calls hu
    simp only at hrun
    have hq := qsort_with_data_spec (compare_packages set1.string_pool) (fun _ _ => True)
      (compare_packages_order set1.string_pool).1 (fun _ _ _ => trivial)
      (fun _ _ _ => ⟨trivial, trivial⟩) (fun _ _ _ => trivial) (fun _ _ _ _ _ => trivial)
      rnd calls set1.packages
    have hb := fun h => finish_rmap_bound (compare_packages set1.string_pool) rnd calls
      set1.packages h
    generalize qsort_with_data (compare_packages set1.string_pool) rnd calls set1.packages
      = q at hq hb hrun
    obtain ⟨sorted, map2, calls2⟩ := q
    simp only at hrun hq hb
    split at hrun
    · cases hrun
    · rename_i importer4 _ hbt
      split at hrun
      · cases hrun
      · rename_i set6 hp
        cases hrun
        simp only at hpackages hfiles hpool ⊢
        obtain ⟨f1, _, _, _⟩ := build_file_tree_frame _ _ _ _ _ hbt
        simp only at f1
        have hlen1 : set1.packages.length ≤ 2 ^ 24 := by
          have h1 := build_package_file_lists_length _ _ _ hp
          simp only at h1
          rw [← hq.1.1, ← f1, ← h1]
          exact hpackages
        obtain ⟨g1, _, _, g4⟩ := build_package_file_lists_lists _ _ _ hp
          (fun k => Nat.lt_of_lt_of_le (hb hlen1 k) (by decide)) hfiles hpool
        exact g4

theorem package_files_ascending_witness :
    razor_importer_finish (rnd_of [])
      ((run_calls razor_importer_new calls_tree_files).getD razor_importer_new) =
        some set_tree_files ∧
    set_tree_files.packages.map
      (fun p => reference_words set_tree_files.file_pool p.files) = [some [3, 4, 6]] ∧
    ∀ (P : Nat) (pkg : razor_package), set_tree_files.packages[P]? = some pkg →
      ∃ l, reference_words set_tree_files.file_pool pkg.files = some l ∧
        l.Pairwise (fun a b => a ≤ b) ∧
        ∀ e : Nat, e ∈ l ↔ ∃ entry ws, set_tree_files.files[e]? = some entry ∧
          reference_words set_tree_files.package_pool entry.packages = some ws ∧ P ∈ ws :=
  ⟨by decide!, by decide!,
    package_files_ascending (rnd_of [])
      ((run_calls razor_importer_new calls_tree_files).getD razor_importer_new)
      set_tree_files (by decide!) (by decide!) (by decide!) (by decide!)⟩

/-! ## Collapsing of property records -/

theorem perm_range_of_mem (map : List Nat) (n : Nat) (hlen : map.length = n)
    (hmem : ∀ i : Nat, i < n → i ∈ map) : (List.range n).Perm map := by
  have hsub : (List.range n).Subperm map :=
    List.subperm_of_subset (List.nodup_range n) (fun i hi => hmem i (List.mem_range.mp hi))
  exact hsub.perm_of_length_le (by rw [hlen, List.length_range])

theorem map_injective (map : List Nat) (n : Nat) (hlen : map.length = n)
    (hmem : ∀ i : Nat, i < n → i ∈ map) :
    (∀ m ∈ map, m < n) ∧
    ∀ (k k' m : Nat), map[k]? = some m → map[k']? = some m → k = k' := by
  have hperm := perm_range_of_mem map n hlen hmem
  refine ⟨fun m hm => List.mem_range.mp (hperm.mem_iff.mpr hm), ?_⟩
  have hnd : map.Nodup := hperm.nodup_iff.mp (List.nodup_range n)
  intro k k' m h1 h2
  obtain ⟨hk, e1⟩ := List.getElem?_eq_some_iff.mp h1
  obtain ⟨hk', e2⟩ := List.getElem?_eq_some_iff.mp h2
  exact (List.Nodup.getElem_inj_iff hnd).mp (e1.trans e2.symm)

theorem uniqueify_scan_step (sorted : List razor_property) (map : List Nat)
    (hinj : ∀ (k k' m : Nat), map[k]? = some m → map[k']? = some m → k = k')
    (hlt : ∀ m ∈ map, m < sorted.length)
    (i : Nat) (st : uniqueify_state) (hok : uniqueify_scan_ok sorted map i st)
    (rp : razor_property) (m : Nat) (hrp : sorted[i]? = some rp) (hm : map[i]? = some m)
    (up' : Nat) (props' : List razor_property) (q : razor_property)
    (hup : up' = st.up ∨ (0 < i ∧ up' = st.up + 1)) (hupi : up' ≤ i)
    (hplen : props'.length = sorted.length)
    (htail : ∀ k : Nat, i + 1 ≤ k → props'[k]? = sorted[k]?)
    (hold : ∀ u : Nat, u ≤ st.up → u ≠ up' → props'[u]? = st.properties[u]?)
    (hq : props'[up']? = some q) (hqn : q.name = rp.name) (hqv : q.version = rp.version)
    (hkeep : up' = st.up → ∀ q0, st.properties[up']? = some q0 →
      q0.name = q.name ∧ q0.version = q.version)
    (l : List Nat) (hl : st.pkgs[up']? = some l) :
    uniqueify_scan_ok sorted map (i + 1)
      { properties := props', up := up', rmap := st.rmap.set m up',
        pkgs := st.pkgs.set up' (l ++ [rp.packages]) } := by
  obtain ⟨h1, h2, h3, h4, h5, h6, h7, h8⟩ := hok
  have hmlt : m < st.rmap.length := by
    rw [h2]
    exact hlt m (List.mem_iff_getElem?.mpr ⟨i, hm⟩)
  have hup'lt : up' < st.pkgs.length := (List.getElem?_eq_some_iff.mp hl).1
  have hupge : st.up ≤ up' := by rcases hup with h | h <;> omega
  have hrmap : ∀ (k m' : Nat), k < i → map[k]? = some m' →
      (st.rmap.set m up')[m']? = st.rmap[m']? := by
    intro k m' hk hm'
    rw [List.getElem?_set_ne]
    intro e
    subst e
    have := hinj _ _ _ hm hm'
    omega
  refine ⟨hplen, by simpa using h2, by simpa using h3, Or.inr (by simp only; omega), htail,
    ?_, ?_, ?_⟩
  · intro k m' p hk hm' hp
    simp only
    rcases Nat.lt_or_ge k i with hki | hki
    · obtain ⟨u, q', a1, a2, a3, a4, a5⟩ := h6 k m' p hki hm' hp
      rw [hrmap k m' hki hm']
      by_cases hu : u = up'
      · subst hu
        have hu' : u = st.up := by omega
        obtain ⟨b1, b2⟩ := hkeep hu' q' a3
        exact ⟨u, q, a1, le_refl _, hq, by rw [← b1, a4], by rw [← b2, a5]⟩
      · exact ⟨u, q', a1, by omega, by rw [hold u a2 hu]; exact a3, a4, a5⟩
    · have hki' : k = i := by omega
      subst hki'
      have e1 : m' = m := Option.some.inj (hm'.symm.trans hm)
      have e2 : p = rp := Option.some.inj (hp.symm.trans hrp)
      subst e1 e2
      exact ⟨up', q, by rw [List.getElem?_set_self hmlt], le_refl _, hq, hqn, hqv⟩
  · intro u l' hl' x
    simp only at hl' ⊢
    by_cases hu : u = up'
    · subst hu
      rw [List.getElem?_set_self hup'lt] at hl'
      cases hl'
      rw [List.mem_append, List.mem_singleton, h7 u l hl x]
      constructor
      · rintro (⟨k, m', p, a1, a2, a3, a4, a5⟩ | rfl)
        · exact ⟨k, m', p, by omega, a2, by rw [hrmap k m' a1 a2]; exact a3, a4, a5⟩
        · exact ⟨i, m, rp, by omega, hm, by rw [List.getElem?_set_self hmlt], hrp, rfl⟩
      · rintro ⟨k, m', p, a1, a2, a3, a4, a5⟩
        rcases Nat.lt_or_ge k i with hki | hki
        · left
          exact ⟨k, m', p, hki, a2, by rw [← hrmap k m' hki a2]; exact a3, a4, a5⟩
        · right
          have hki' : k = i := by omega
          subst hki'
          have e2 : p = rp := Option.some.inj (a4.symm.trans hrp)
          subst e2
          exact a5.symm
    · rw [List.getElem?_set_ne (fun e => hu e.symm)] at hl'
      rw [h7 u l' hl' x]
      constructor
      · rintro ⟨k, m', p, a1, a2, a3, a4, a5⟩
        exact ⟨k, m', p, by omega, a2, by rw [hrmap k m' a1 a2]; exact a3, a4, a5⟩
      · rintro ⟨k, m', p, a1, a2, a3, a4, a5⟩
        rcases Nat.lt_or_ge k i with hki | hki
        · exact ⟨k, m', p, hki, a2, by rw [← hrmap k m' hki a2]; exact a3, a4, a5⟩
        · exfalso
          have hki' : k = i := by omega
          subst hki'
          have e1 : m' = m := Option.some.inj (a2.symm.trans hm)
          subst e1
          rw [List.getElem?_set_self hmlt] at a3
          exact hu (Option.some.inj a3).symm
  · intro _ u hu
    simp only at hu ⊢
    by_cases hu' : u = up'
    · subst hu'
      exact ⟨i, m, by omega, hm, by rw [List.getElem?_set_self hmlt]⟩
    · have hule : u ≤ st.up := by rcases hup with h | h <;> omega
      have hi0 : 0 < i := by
        rcases h4 with ⟨a, b⟩ | a
        · exfalso
          rcases hup with h | h
          · omega
          · omega
        · omega
      obtain ⟨k, m', a1, a2, a3⟩ := h8 hi0 u hule
      exact ⟨k, m', by omega, a2, by rw [hrmap k m' a1 a2]; exact a3⟩

theorem uniqueify_scan_spec (sorted : List razor_property) (map : List Nat)
    (hlen : map.length = sorted.length)
    (hinj : ∀ (k k' m : Nat), map[k]? = some m → map[k']? = some m → k = k')
    (hlt : ∀ m ∈ map, m < sorted.length) :
    ∀ (fuel i : Nat) (st : uniqueify_state), uniqueify_scan_ok sorted map i st →
      i ≤ sorted.length → sorted.length - i ≤ fuel →
      ∃ st', uniqueify_scan map sorted.length fuel st i = some st' ∧
        uniqueify_scan_ok sorted map sorted.length st' := by
  intro fuel
  induction fuel with
  | zero =>
    intro i st hok hi hfuel
    have : i = sorted.length := by omega
    subst this
    exact ⟨st, rfl, hok⟩
  | succ fuel ih =>
    intro i st hok hi hfuel
    rcases Nat.lt_or_ge i sorted.length with hin | hin
    swap
    · have : i = sorted.length := by omega
      subst this
      exact ⟨st, by simp [uniqueify_scan], hok⟩
    have hok' := hok
    obtain ⟨h1, h2, h3, h4, h5, h6, h7, h8⟩ := hok'
    have hupi : st.up ≤ i := by rcases h4 with ⟨a, b⟩ | a <;> omega
    have hrp : sorted[i]? = some sorted[i] := List.getElem?_eq_getElem hin
    have hrp' : st.properties[i]? = some sorted[i] := (h5 i (le_refl _)).trans hrp
    have hupr : st.properties[st.up]? = some (st.properties.get ⟨st.up, by omega⟩) :=
      List.getElem?_eq_getElem _
    have hm : map[i]? = some (map.get ⟨i, by omega⟩) := List.getElem?_eq_getElem _
    generalize sorted[i] = rp at hrp hrp'
    generalize st.properties.get ⟨st.up, by omega⟩ = upr at hupr
    generalize map.get ⟨i, by omega⟩ = m at hm
    rw [uniqueify_scan, if_pos hin]
    simp only [hrp', hupr]
    by_cases hc : rp.name ≠ upr.name ∨ rp.version ≠ upr.version
    · rw [if_pos hc]
      have hi0 : st.up < i := by
        rcases h4 with ⟨a, b⟩ | a
        · exfalso
          subst a
          rw [b] at hupr
          have : rp = upr := Option.some.inj (hrp'.symm.trans hupr)
          subst this
          simp at hc
        · exact a
      have hu : st.up + 1 < st.properties.length := by omega
      have hr : st.properties[st.up + 1]? = some (st.properties.get ⟨st.up + 1, hu⟩) :=
        List.getElem?_eq_getElem _
      generalize st.properties.get ⟨st.up + 1, hu⟩ = r at hr
      have hl : st.pkgs[st.up + 1]? = some (st.pkgs.get ⟨st.up + 1, by omega⟩) :=
        List.getElem?_eq_getElem _
      generalize st.pkgs.get ⟨st.up + 1, by omega⟩ = l at hl
      simp only [hr, hm, hl]
      apply ih
      · refine uniqueify_scan_step sorted map hinj hlt i st hok rp m hrp hm (st.up + 1)
          _ { r with name := rp.name, version := rp.version } (Or.inr ⟨by omega, rfl⟩)
          (by omega) (by simpa using h1) ?_ ?_ (by rw [List.getElem?_set_self hu]) rfl rfl
          (fun h => by omega) l hl
        · intro k hk
          by_cases hk' : k = st.up + 1
          · exfalso; omega
          · rw [List.getElem?_set_ne (fun e => hk' e.symm)]
            exact h5 k (by omega)
        · intro u hu1 hu2
          rw [List.getElem?_set_ne (fun e => hu2 e.symm)]
      · omega
      · omega
    · rw [if_neg hc]
      have hc' : rp.name = upr.name ∧ rp.version = upr.version := by
        constructor
        · by_contra h
          exact hc (Or.inl h)
        · by_contra h
          exact hc (Or.inr h)
      have hl : st.pkgs[st.up]? = some (st.pkgs.get ⟨st.up, by omega⟩) :=
        List.getElem?_eq_getElem _
      generalize st.pkgs.get ⟨st.up, by omega⟩ = l at hl
      simp only [hm, hl]
      apply ih
      · refine uniqueify_scan_step sorted map hinj hlt i st hok rp m hrp hm st.up
          st.properties upr (Or.inl rfl) hupi h1 (fun k hk => h5 k (by omega))
          (fun u _ _ => rfl) hupr hc'.1.symm hc'.2.symm ?_ l hl
        intro _ q0 hq0
        have : q0 = upr := Option.some.inj (hq0.symm.trans hupr)
        subst this
        exact ⟨rfl, rfl⟩
      · omega
      · omega

theorem add_to_property_pool_single (pool l : List Nat) (h : l.length = 1) :
    add_to_property_pool pool l = (pool, l.headD 0 ||| RAZOR_IMMEDIATE) := by
  unfold add_to_property_pool
  rw [if_neg (by omega), if_pos h]

theorem uniqueify_emit_succ (pkgs : List (List Nat)) (rp_end fuel : Nat)
    (properties : List razor_property) (package_pool : List Nat) (k : Nat)
    (rp : razor_property) (p : List Nat) (hk : k < rp_end)
    (hrp : properties[k]? = some rp) (hp : pkgs[k]? = some p) :
    uniqueify_emit pkgs rp_end (fuel + 1) properties package_pool k =
      uniqueify_emit pkgs rp_end fuel
        (properties.set k { rp with packages := (add_to_property_pool package_pool p).2 })
        (add_to_property_pool package_pool p).1 (k + 1) := by
  rw [uniqueify_emit, if_pos hk]
  simp only [hrp, hp]
  split
  · rename_i h1
    rw [add_to_property_pool_single _ _ h1]
  · rfl

theorem uniqueify_emit_spec (pkgs : List (List Nat)) (rp_end : Nat) :
    ∀ (fuel : Nat) (properties : List razor_property) (package_pool : List Nat) (k : Nat),
      rp_end - k ≤ fuel → rp_end ≤ properties.length → rp_end ≤ pkgs.length →
      ∃ properties' package_pool',
        uniqueify_emit pkgs rp_end fuel properties package_pool k =
          some (properties', package_pool') ∧
        properties'.length = properties.length ∧
        (∃ ext, package_pool' = package_pool ++ ext) ∧
        (∀ j : Nat, j < k ∨ rp_end ≤ j → properties'[j]? = properties[j]?) ∧
        ∀ (j : Nat) (p : razor_property) (l : List Nat), k ≤ j → j < rp_end →
          properties[j]? = some p → pkgs[j]? = some l →
          ∃ q, properties'[j]? = some q ∧ q.name = p.name ∧ q.version = p.version ∧
            (package_pool'.length ≤ 2 ^ 31 → (∀ x ∈ l, x < 2 ^ 24) →
              reference_words package_pool' q.packages = some l) := by
  intro fuel
  induction fuel with
  | zero =>
    intro properties package_pool k hfuel _ _
    exact ⟨properties, package_pool, rfl, rfl, ⟨[], by simp⟩, fun _ _ => rfl,
      fun j p l h1 h2 => by omega⟩
  | succ fuel ih =>
    intro properties package_pool k hfuel hlen hpk
    rcases Nat.lt_or_ge k rp_end with hk | hk
    swap
    · refine ⟨properties, package_pool, ?_, rfl, ⟨[], by simp⟩, fun _ _ => rfl,
        fun j p l h1 h2 => by omega⟩
      rw [uniqueify_emit, if_neg (by omega)]
    have hrp : properties[k]? = some (properties.get ⟨k, by omega⟩) :=
      List.getElem?_eq_getElem _
    generalize properties.get ⟨k, by omega⟩ = rp at hrp
    have hp : pkgs[k]? = some (pkgs.get ⟨k, by omega⟩) := List.getElem?_eq_getElem _
    generalize pkgs.get ⟨k, by omega⟩ = p at hp
    rw [uniqueify_emit_succ pkgs rp_end fuel properties package_pool k rp p hk hrp hp]
    obtain ⟨props', pool', e1, e2, ⟨ext, e3⟩, e4, e5⟩ := ih
      (properties.set k { rp with packages := (add_to_property_pool package_pool p).2 })
      (add_to_property_pool package_pool p).1 (k + 1) (by omega) (by simpa using hlen) hpk
    obtain ⟨ext1, hext1⟩ := add_to_property_pool_prefix package_pool p
    refine ⟨props', pool', e1, by simpa using e2,
      ⟨ext1 ++ ext, by rw [e3, hext1, List.append_assoc]⟩, ?_, ?_⟩
    · intro j hj
      rw [e4 j (by omega), List.getElem?_set_ne (by omega)]
    · intro j pj l h1 h2 hpj hl
      rcases Nat.lt_or_ge k j with hkj | hkj
      · exact e5 j pj l (by omega) h2
          (by rw [List.getElem?_set_ne (by omega)]; exact hpj) hl
      · have hjk : j = k := by omega
        subst hjk
        have e6 : pj = rp := Option.some.inj (hpj.symm.trans hrp)
        have e7 : l = p := Option.some.inj (hl.symm.trans hp)
        subst e6 e7
        refine ⟨{ pj with packages := (add_to_property_pool package_pool l).2 }, ?_, rfl, rfl,
          ?_⟩
        · rw [e4 j (by omega), List.getElem?_set_self (by omega)]
        · intro hpool hx
          rw [e3]
          apply reference_words_add _ _ _ hx
          rw [e3, List.length_append] at hpool
          omega

theorem sorted_get_of_map {α : Type} (sorted base : List α) (map : List Nat)
    (h : sorted.map some = map.map (fun m => base[m]?)) (k m : Nat)
    (hm : map[k]? = some m) : sorted[k]? = base[m]? := by
  have := congrArg (fun l => l[k]?) h
  simp only [List.getElem?_map, hm, Option.map_some'] at this
  cases hs : sorted[k]? with
  | none => rw [hs] at this; cases this
  | some x =>
    rw [hs] at this
    simpa using this

theorem reference_list_of_words (pool : List Nat) (r : Nat) (l : List Nat)
    (h : reference_words pool r = some l) (hne : l ≠ []) : reference_list pool r = some l := by
  unfold reference_words at h
  split at h
  · cases h
    exact absurd rfl hne
  · exact h

/-- C28 (amended): `uniqueify_properties`, the first step of
`razor_importer_finish`, succeeds on a set with at least one property, and
it collapses records only when they agree on the name word (the offset of
the name string together with the kind) and on the version offset: every
record `p` of the input has, at the index `u` that the returned map gives
its index, a record with the name word and the version of `p`, and, when
package indices are below `2 ^ 24` and the package pool stays within
`2 ^ 31` words, the packages list of that record holds exactly the packages
of the input records that the map sends to `u`. -/
theorem uniqueify_properties_collapse (rnd : Nat → Nat) (calls : Nat) (set : razor_set)
    (hne : set.properties ≠ []) :
    ∃ set' rmap calls', uniqueify_properties rnd calls set = some (set', rmap, calls') ∧
      ∀ (i : Nat) (p : razor_property), set.properties[i]? = some p →
        ∃ u q, rmap[i]? = some u ∧ set'.properties[u]? = some q ∧
          q.name = p.name ∧ q.version = p.version ∧
          ((∀ p' ∈ set.properties, p'.packages < 2 ^ 24) →
            set'.package_pool.length ≤ 2 ^ 31 →
            ∃ l, reference_list set'.package_pool q.packages = some l ∧
              ∀ x : Nat, x ∈ l ↔ ∃ (j : Nat) (p' : razor_property),
                set.properties[j]? = some p' ∧ rmap[j]? = some u ∧ p'.packages = x) := by
  have hn0 : set.properties.length ≠ 0 := fun h => hne (List.length_eq_zero.mp h)
  obtain ⟨map, m1, m2, m3, m4⟩ := qsort_with_data_map (compare_properties set.string_pool)
    rnd calls set.properties hn0
  unfold uniqueify_properties
  simp only
  generalize qsort_with_data (compare_properties set.string_pool) rnd calls set.properties
    = qr at m1 m3
  obtain ⟨sorted, map', calls'⟩ := qr
  simp only at m1 m3 ⊢
  subst m1
  simp only [Option.getD_some]
  have hslen : sorted.length = set.properties.length := by
    have := congrArg List.length m3
    simpa [m2] using this
  obtain ⟨hmlt, hinj⟩ := map_injective map set.properties.length m2 m4
  rw [← hslen]
  have hinit : uniqueify_scan_ok sorted map 0
      { properties := sorted, up := 0, rmap := List.replicate sorted.length 0,
        pkgs := List.replicate sorted.length [] } := by
    refine ⟨rfl, by simp, by simp, Or.inl ⟨rfl, rfl⟩, fun _ _ => rfl,
      fun k m p hk => by omega, ?_, fun h => by omega⟩
    intro u l hl x
    have := (List.getElem?_eq_some_iff.mp hl).2
    simp at this
    subst this
    simp
  obtain ⟨st, hscan, hok⟩ := uniqueify_scan_spec sorted map (by rw [m2, hslen]) hinj
    (by rw [hslen]; exact hmlt) sorted.length 0 _ hinit (Nat.zero_le _) (by omega)
  rw [hscan]
  simp only
  obtain ⟨h1, h2, h3, h4, h5, h6, h7, h8⟩ := hok
  have hup : st.up < sorted.length := by
    rcases h4 with ⟨a, _⟩ | a
    · omega
    · exact a
  obtain ⟨props', pool', e1, e2, e3, e4, e5⟩ := uniqueify_emit_spec st.pkgs (st.up + 1)
    (st.up + 1) st.properties set.package_pool 0 (by omega) (by omega) (by omega)
  rw [e1]
  simp only
  refine ⟨_, _, _, rfl, ?_⟩
  intro i p hp
  have hi : i < set.properties.length := (List.getElem?_eq_some_iff.mp hp).1
  obtain ⟨k, hk⟩ := List.mem_iff_getElem?.mp (m4 i hi)
  have hklt : k < sorted.length := by
    have := (List.getElem?_eq_some_iff.mp hk).1
    omega
  have hsk : sorted[k]? = some p := (sorted_get_of_map sorted _ map m3 k i hk).trans hp
  obtain ⟨u, q0, a1, a2, a3, a4, a5⟩ := h6 k i p hklt hk hsk
  have hl : st.pkgs[u]? = some (st.pkgs.get ⟨u, by omega⟩) := List.getElem?_eq_getElem _
  generalize st.pkgs.get ⟨u, by omega⟩ = l at hl
  obtain ⟨q, b1, b2, b3, b4⟩ := e5 u q0 l (Nat.zero_le _) (by omega) a3 hl
  have hmem := h7 u l hl
  have hpl : p.packages ∈ l := (hmem p.packages).mpr ⟨k, i, p, hklt, hk, a1, hsk, rfl⟩
  refine ⟨u, q, a1, ?_, b2.trans a4, b3.trans a5, ?_⟩
  · simp only
    rw [List.getElem?_take_of_lt (by omega)]
    exact b1
  · intro hpk hpool
    simp only at hpool ⊢
    refine ⟨l, reference_list_of_words _ _ _ (b4 hpool ?_) (List.ne_nil_of_mem hpl), ?_⟩
    · intro x hx
      obtain ⟨k', m', p', c1, c2, c3, c4, c5⟩ := (hmem x).mp hx
      have hp' : set.properties[m']? = some p' :=
        (sorted_get_of_map sorted _ map m3 k' m' c2).symm.trans c4
      rw [← c5]
      exact hpk p' (List.mem_iff_getElem?.mpr ⟨m', hp'⟩)
    · intro x
      rw [hmem x]
      constructor
      · rintro ⟨k', m', p', c1, c2, c3, c4, c5⟩
        exact ⟨m', p', (sorted_get_of_map sorted _ map m3 k' m' c2).symm.trans c4, c3, c5⟩
      · rintro ⟨j, p', c1, c2, c3⟩
        have hj : j < set.properties.length := (List.getElem?_eq_some_iff.mp c1).1
        obtain ⟨k', hk'⟩ := List.mem_iff_getElem?.mp (m4 j hj)
        have hk'lt : k' < sorted.length := by
          have := (List.getElem?_eq_some_iff.mp hk').1
          omega
        exact ⟨k', j, p', hk'lt, hk', c2,
          (sorted_get_of_map sorted _ map m3 k' j hk').trans c1, c3⟩

/-- C28 (counterexample): package foo 1.0 requires x = 1 and provides x = 1;
the two property records agree on the name string and on the version and
differ in kind, and the finished set holds both of them, the requirement and
the provision, not one record. -/
theorem finish_kinds_not_collapsed :
    (import_set (rnd_of []) calls_requires_provides).map
        (fun s => (property_keys s).map (fun k => k.1)) = some [bytes "x", bytes "x"] ∧
    (import_set (rnd_of []) calls_requires_provides).map
        (fun s => (property_keys s).map (fun k => k.2.1)) = some [0, 1] ∧
    (import_set (rnd_of []) calls_requires_provides).map
        (fun s => (property_keys s).map (fun k => k.2.2)) = some [bytes "1", bytes "1"] ∧
    (import_set (rnd_of []) calls_requires_provides).map
        (fun s => s.properties.length) = some 2 := by
  decide!

theorem uniqueify_properties_collapse_witness :
    importer_requires_provides.set.properties ≠ [] ∧
    (∀ p' ∈ importer_requires_provides.set.properties, p'.packages < 2 ^ 24) ∧
    (uniqueify_properties (rnd_of []) 0 importer_requires_provides.set).map
      (fun r => r.1.package_pool.length) = some 0 ∧
    ∃ set' rmap calls',
      uniqueify_properties (rnd_of []) 0 importer_requires_provides.set =
        some (set', rmap, calls') ∧
      ∀ (i : Nat) (p : razor_property),
        importer_requires_provides.set.properties[i]? = some p →
        ∃ u q, rmap[i]? = some u ∧ set'.properties[u]? = some q ∧
          q.name = p.name ∧ q.version = p.version ∧
          ((∀ p' ∈ importer_requires_provides.set.properties, p'.packages < 2 ^ 24) →
            set'.package_pool.length ≤ 2 ^ 31 →
            ∃ l, reference_list set'.package_pool q.packages = some l ∧
              ∀ x : Nat, x ∈ l ↔ ∃ (j : Nat) (p' : razor_property),
                importer_requires_provides.set.properties[j]? = some p' ∧
                rmap[j]? = some u ∧ p'.packages = x) :=
  ⟨by decide!, by decide!, by decide!,
    uniqueify_properties_collapse (rnd_of []) 0 importer_requires_provides.set (by decide!)⟩

/-! ## The packages of a reordered input -/

theorem package_keys_append (set : razor_set) (pool ext : List Nat)
    (hpool : pool = set.string_pool ++ ext) (hterm : pool_terminated set.string_pool)
    (hlt : ∀ p ∈ set.packages, p.name < set.string_pool.length)
    (hvlt : ∀ p ∈ set.packages, p.version < set.string_pool.length) :
    set.packages.map (fun p => (cstr_at pool p.name, cstr_at pool p.version)) =
      package_keys set := by
  unfold package_keys
  apply List.map_congr_left
  intro p hp
  rw [hpool, cstr_at_append _ _ _ (hlt p hp) hterm, cstr_at_append _ _ _ (hvlt p hp) hterm]

theorem tokenize_keys (importer : razor_importer) (string : Option (List Nat))
    (h : importer_ok importer) (hv : versions_ok importer) :
    versions_ok (razor_importer_tokenize importer string).1 ∧
    package_keys (razor_importer_tokenize importer string).1.set = package_keys importer.set := by
  obtain ⟨a1, ⟨ext, a2⟩, a3, a4, a5, a6⟩ := razor_importer_tokenize_spec importer string h
  refine ⟨?_, ?_⟩
  · intro p hp
    rw [a3] at hp
    rw [a2, List.length_append]
    have := hv p hp
    omega
  · have := package_keys_append importer.set _ ext a2 (h.1 ▸ h.2.1.2) h.2.2 hv
    rw [← this]
    unfold package_keys
    rw [a3]

theorem begin_package_keys (importer : razor_importer) (n v : List Nat)
    (h : importer_ok importer) (hv : versions_ok importer)
    (hn : ∀ c ∈ n, c ≠ 0) (hvz : ∀ c ∈ v, c ≠ 0) :
    versions_ok (razor_importer_begin_package importer n v) ∧
    package_keys (razor_importer_begin_package importer n v).set
      = package_keys importer.set ++ [(n, v)] := by
  have A := razor_importer_tokenize_spec importer (some n) h
  have A' := tokenize_keys importer (some n) h hv
  have B := razor_importer_tokenize_spec (razor_importer_tokenize importer (some n)).1 (some v)
    A.1
  have B' := tokenize_keys (razor_importer_tokenize importer (some n)).1 (some v) A.1 A'.1
  rw [begin_package_unfold]
  generalize razor_importer_tokenize (razor_importer_tokenize importer (some n)).1 (some v)
    = r2 at B B' ⊢
  generalize razor_importer_tokenize importer (some n) = r1 at A A' B B' ⊢
  obtain ⟨a1, ⟨ext1, a2⟩, a3, a4, a5, a6⟩ := A
  obtain ⟨b1, ⟨ext2, b2⟩, b3, b4, b5, b6⟩ := B
  refine ⟨?_, ?_⟩
  · intro p hp
    rcases List.mem_append.mp hp with e | e
    · exact B'.1 p e
    · rw [List.mem_singleton.mp e]
      exact b5
  · show List.map (fun p => (cstr_at r2.1.set.string_pool p.name,
        cstr_at r2.1.set.string_pool p.version)) (r2.1.set.packages ++ [_]) = _
    rw [List.map_append]
    have hb4 : List.map (fun p => (cstr_at r2.1.set.string_pool p.name,
        cstr_at r2.1.set.string_pool p.version)) r2.1.set.packages
        = package_keys importer.set := B'.2.trans A'.2
    rw [hb4]
    congr 1
    show [(cstr_at r2.1.set.string_pool r1.2, cstr_at r2.1.set.string_pool r2.2)] = [(n, v)]
    rw [b6 hvz, b2, cstr_at_append _ _ _ a5 (a1.1 ▸ a1.2.1.2), a6 hn]
    rfl

theorem versions_ok_with_properties (r : razor_importer) (a : List razor_property)
    (b : List Nat) (h : versions_ok r) :
    versions_ok { r with set := { r.set with properties := a }, properties := b } ∧
    package_keys ({ r with set := { r.set with properties := a }, properties := b }).set
      = package_keys r.set :=
  ⟨h, rfl⟩

theorem add_property_keys (importer : razor_importer) (n v : List Nat) (t : Nat)
    (h : importer_ok importer) (hv : versions_ok importer) :
    versions_ok (razor_importer_add_property importer n v t) ∧
    package_keys (razor_importer_add_property importer n v t).set
      = package_keys importer.set := by
  have A := razor_importer_tokenize_spec importer (some n) h
  have A' := tokenize_keys importer (some n) h hv
  have B' := tokenize_keys (razor_importer_tokenize importer (some n)).1 (some v) A.1 A'.1
  obtain ⟨properties, scratch, hunfold⟩ := add_property_unfold importer n v t
  rw [hunfold]
  have C := versions_ok_with_properties _ properties scratch B'.1
  exact ⟨C.1, C.2.trans (B'.2.trans A'.2)⟩

theorem finish_package_keys (importer importer' : razor_importer)
    (hv : versions_ok importer)
    (hrun : razor_importer_finish_package importer = some importer') :
    versions_ok importer' ∧ package_keys importer'.set = package_keys importer.set := by
  unfold razor_importer_finish_package at hrun
  split at hrun
  · cases hrun
  · rename_i p _
    split at hrun
    · cases hrun
    · rename_i pkg hpkg
      cases hrun
      refine ⟨?_, ?_⟩
      · intro q hq
        rcases List.mem_or_eq_of_mem_set hq with e | e
        · exact hv q e
        · rw [e]
          exact hv pkg (List.mem_iff_getElem?.mpr ⟨p, hpkg⟩)
      · show List.map (fun q => (cstr_at importer.set.string_pool q.name,
              cstr_at importer.set.string_pool q.version))
            (importer.set.packages.set p _) = List.map _ importer.set.packages
        refine map_set_same (fun q => (cstr_at importer.set.string_pool q.name,
          cstr_at importer.set.string_pool q.version))
          importer.set.packages p pkg _ hpkg ?_
        rfl

theorem begin_keys_names : ∀ calls : List importer_call,
    (begin_keys calls).map (fun k => k.1) = begin_names calls := by
  intro calls
  induction calls with
  | nil => rfl
  | cons c rest ih =>
    cases c <;> simp [begin_keys, begin_names, ih]

theorem run_calls_keys :
    ∀ (calls : List importer_call) (importer importer' : razor_importer),
      importer_ok importer → versions_ok importer →
      (∀ k ∈ begin_keys calls, (∀ c ∈ k.1, c ≠ 0) ∧ ∀ c ∈ k.2, c ≠ 0) →
      run_calls importer calls = some importer' →
      importer_ok importer' ∧ versions_ok importer' ∧
      package_keys importer'.set = package_keys importer.set ++ begin_keys calls := by
  intro calls
  induction calls with
  | nil =>
    intro importer importer' h hv _ hrun
    simp only [run_calls] at hrun
    cases hrun
    exact ⟨h, hv, by simp [begin_keys]⟩
  | cons c rest ih =>
    intro importer importer' h hv hz hrun
    cases c with
    | begin_package n v =>
      simp only [run_calls] at hrun
      have hz0 := hz (n, v) (by simp [begin_keys])
      have hz' : ∀ k ∈ begin_keys rest, (∀ c ∈ k.1, c ≠ 0) ∧ ∀ c ∈ k.2, c ≠ 0 :=
        fun k hk => hz k (by simp [begin_keys, hk])
      obtain ⟨s1, _⟩ := begin_package_spec importer n v h hz0.1
      obtain ⟨s2, s3⟩ := begin_package_keys importer n v h hv hz0.1 hz0.2
      obtain ⟨r1, r2, r3⟩ := ih _ importer' s1 s2 hz' hrun
      exact ⟨r1, r2, by rw [r3, s3]; simp [begin_keys]⟩
    | add_property n v t =>
      simp only [run_calls] at hrun
      obtain ⟨s1, _⟩ := add_property_spec importer n v t h
      obtain ⟨s2, s3⟩ := add_property_keys importer n v t h hv
      obtain ⟨r1, r2, r3⟩ := ih _ importer' s1 s2 (by simpa [begin_keys] using hz) hrun
      exact ⟨r1, r2, by rw [r3, s3]; simp [begin_keys]⟩
    | add_file n =>
      simp only [run_calls] at hrun
      obtain ⟨r1, r2, r3⟩ := ih (razor_importer_add_file importer n) importer' h hv
        (by simpa [begin_keys] using hz) hrun
      exact ⟨r1, r2, by rw [r3]; simp [begin_keys, razor_importer_add_file]⟩
    | finish_package =>
      simp only [run_calls] at hrun
      split at hrun
      · cases hrun
      · rename_i importer1 hfin
        obtain ⟨s1, _⟩ := finish_package_spec importer importer1 h hfin
        obtain ⟨s2, s3⟩ := finish_package_keys importer importer1 hv hfin
        obtain ⟨r1, r2, r3⟩ := ih _ importer' s1 s2 (by simpa [begin_keys] using hz) hrun
        exact ⟨r1, r2, by rw [r3, s3]; simp [begin_keys]⟩

theorem build_file_tree_walk_keys (package : Nat) :
    ∀ (fuel : Nat) (importer importer' : razor_importer) (d d' : import_directory)
      (f : List Nat),
      importer_ok importer → versions_ok importer →
      build_file_tree_walk package fuel importer d f = some (importer', d') →
      importer_ok importer' ∧ versions_ok importer' ∧
      package_keys importer'.set = package_keys importer.set := by
  intro fuel
  induction fuel with
  | zero =>
    intro importer importer' d d' f h hv hrun
    simp only [build_file_tree_walk] at hrun
    cases hrun
    exact ⟨h, hv, rfl⟩
  | succ fuel ih =>
    intro importer importer' d d' f h hv hrun
    simp only [build_file_tree_walk] at hrun
    split at hrun
    · split at hrun
      · cases hrun
      · have A := razor_importer_tokenize_spec importer
          (some (List.takeWhile (fun c => c != 47) f)) h
        have A' := tokenize_keys importer (some (List.takeWhile (fun c => c != 47) f)) h hv
        generalize razor_importer_tokenize importer
          (some (List.takeWhile (fun c => c != 47) f)) = r at A A' hrun
        obtain ⟨importer1, name⟩ := r
        simp only at hrun A A'
        split at hrun
        · cases hrun
        · rename_i last _
          split at hrun
          · cases hrun
          · rename_i importer2 last2 hbelow
            cases hrun
            split at hbelow
            · cases hbelow
              exact ⟨A.1, A'.1, A'.2⟩
            · obtain ⟨i1, i2, i3⟩ := ih importer1 _ last _ _ A.1 A'.1 hbelow
              exact ⟨i1, i2, i3.trans A'.2⟩
    · cases hrun
      exact ⟨h, hv, rfl⟩

theorem build_file_tree_loop_keys :
    ∀ (entries : List import_entry) (importer importer' : razor_importer)
      (root root' : import_directory),
      importer_ok importer → versions_ok importer →
      build_file_tree_loop entries importer root = some (importer', root') →
      importer_ok importer' ∧ versions_ok importer' ∧
      package_keys importer'.set = package_keys importer.set := by
  intro entries
  induction entries with
  | nil =>
    intro importer importer' root root' h hv hrun
    simp only [build_file_tree_loop] at hrun
    cases hrun
    exact ⟨h, hv, rfl⟩
  | cons e rest ih =>
    intro importer importer' root root' h hv hrun
    simp only [build_file_tree_loop] at hrun
    split at hrun
    · exact ih _ _ _ _ h hv hrun
    · split at hrun
      · cases hrun
      · rename_i importer1 root1 hwalk
        obtain ⟨w1, w2, w3⟩ := build_file_tree_walk_keys _ _ _ _ _ _ _ h hv hwalk
        obtain ⟨i1, i2, i3⟩ := ih _ _ _ _ w1 w2 hrun
        exact ⟨i1, i2, i3.trans w3⟩

theorem build_file_tree_keys (rnd : Nat → Nat) (calls calls' : Nat)
    (importer importer' : razor_importer) (h : importer_ok importer)
    (hv : versions_ok importer)
    (hrun : build_file_tree rnd calls importer = some (importer', calls')) :
    package_keys importer'.set = package_keys importer.set := by
  unfold build_file_tree at hrun
  simp only at hrun
  have A := razor_importer_tokenize_spec importer (some []) h
  have A' := tokenize_keys importer (some []) h hv
  generalize razor_importer_tokenize importer (some []) = r at A A' hrun
  obtain ⟨importer1, name⟩ := r
  simp only at hrun A A'
  split at hrun
  · cases hrun
  · rename_i importer2 root2 hloop
    obtain ⟨l1, l2, l3⟩ := build_file_tree_loop_keys _ _ _ _ _ A.1 A'.1 hloop
    cases hrun
    exact l3.trans A'.2

theorem build_package_file_lists_emit_keys :
    ∀ (packages : List razor_package) (pkgs : List (List Nat)) (file_pool : List Nat),
      (build_package_file_lists_emit packages pkgs file_pool).1.map
          (fun p => (p.name, p.version))
        = packages.map (fun p => (p.name, p.version)) := by
  intro packages
  induction packages with
  | nil => intro pkgs file_pool; rfl
  | cons p rest ih =>
    intro pkgs file_pool
    rw [build_package_file_lists_emit_cons, List.map_cons, List.map_cons, ih]

theorem map_key_congr (pool : List Nat) (l1 l2 : List razor_package)
    (h : l1.map (fun p => (p.name, p.version)) = l2.map (fun p => (p.name, p.version))) :
    l1.map (fun p => (cstr_at pool p.name, cstr_at pool p.version)) =
      l2.map (fun p => (cstr_at pool p.name, cstr_at pool p.version)) := by
  have e : ∀ l : List razor_package,
      l.map (fun p => (cstr_at pool p.name, cstr_at pool p.version)) =
        (l.map (fun p => (p.name, p.version))).map
          (fun k => (cstr_at pool k.1, cstr_at pool k.2)) := by
    intro l
    rw [List.map_map]
    rfl
  rw [e l1, e l2, h]

theorem build_package_file_lists_keys (set set' : razor_set) (rmap : List Nat)
    (hrun : build_package_file_lists set rmap = some set') :
    package_keys set' = package_keys set := by
  unfold build_package_file_lists at hrun
  simp only at hrun
  split at hrun
  · cases hrun
  · cases hrun
    exact map_key_congr set.string_pool _ _ (build_package_file_lists_emit_keys _ _ _)

theorem finish_keys (rnd : Nat → Nat) (importer : razor_importer) (set : razor_set)
    (h : importer_ok importer) (hv : versions_ok importer)
    (hrun : razor_importer_finish rnd importer = some set) :
    ∃ sorted,
      same_range importer.set.packages sorted 0 importer.set.packages.length ∧
      sorted_range (package_name_le importer.set.string_pool) sorted 0
        importer.set.packages.length ∧
      package_keys set = sorted.map (fun p =>
        (cstr_at importer.set.string_pool p.name, cstr_at importer.set.string_pool p.version)) := by
  unfold razor_importer_finish at hrun
  split at hrun
  · cases hrun
  · rename_i set1 map calls hu
    obtain ⟨u1, u2⟩ := uniqueify_properties_spec _ _ _ _ _ _ hu
    simp only at hrun
    obtain ⟨o1, o2, o3, o4, o5⟩ := compare_packages_order set1.string_pool
    have hs := qsort_with_data_spec (compare_packages set1.string_pool)
      (package_name_le set1.string_pool) o1 o2 o3 o4 o5 rnd calls set1.packages
    generalize qsort_with_data (compare_packages set1.string_pool) rnd calls set1.packages
      = q at hs hrun
    obtain ⟨sorted, map2, calls2⟩ := q
    simp only at hrun hs
    rw [u1, u2] at hs
    split at hrun
    · cases hrun
    · rename_i importer4 _ hb
      split at hrun
      · cases hrun
      · rename_i set6 hp
        cases hrun
        refine ⟨sorted, hs.1, hs.2, ?_⟩
        have hok : importer_ok { importer with
            set := { set1 with
              property_pool := remap_links set1.property_pool map, packages := sorted } } := by
          refine ⟨h.1.trans u1.symm, h.2.1, ?_⟩
          intro p hp'
          show p.name < set1.string_pool.length
          rw [u1]
          exact h.2.2 p ((same_range_mem _ _ hs.1 p).mp hp')
        have hvok : versions_ok { importer with
            set := { set1 with
              property_pool := remap_links set1.property_pool map, packages := sorted } } := by
          intro p hp'
          show p.version < set1.string_pool.length
          rw [u1]
          exact hv p ((same_range_mem _ _ hs.1 p).mp hp')
        have e1 := build_file_tree_keys rnd _ _ _ _ hok hvok hb
        have e2 := build_package_file_lists_keys _ _ _ hp
        refine Eq.trans (b := package_keys set6) rfl ?_
        refine e2.trans ?_
        refine Eq.trans (b := package_keys importer4.set) rfl ?_
        refine e1.trans ?_
        show List.map (fun p => (cstr_at set1.string_pool p.name,
          cstr_at set1.string_pool p.version)) sorted = _
        rw [u1]

theorem sorted_keys_of_sort (pool : List Nat) (packages sorted : List razor_package)
    (hsame : same_range packages sorted 0 packages.length)
    (hsorted : sorted_range (package_name_le pool) sorted 0 packages.length)
    (hnodup : (packages.map (fun p => cstr_at pool p.name)).Nodup) :
    (packages.map (fun p => (cstr_at pool p.name, cstr_at pool p.version))).Perm
      (sorted.map (fun p => (cstr_at pool p.name, cstr_at pool p.version))) ∧
    (sorted.map (fun p => (cstr_at pool p.name, cstr_at pool p.version))).Pairwise
      key_name_lt := by
  have hlen : sorted.length = packages.length := hsame.1
  have hnd : (packages.map (fun p => (cstr_at pool p.name, cstr_at pool p.version))).Nodup := by
    apply List.Nodup.of_map (fun k : List Nat × List Nat => k.1)
    rw [List.map_map]
    exact hnodup
  have hsub : packages.map (fun p => (cstr_at pool p.name, cstr_at pool p.version)) ⊆
      sorted.map (fun p => (cstr_at pool p.name, cstr_at pool p.version)) := by
    intro k hk
    obtain ⟨p, hp, rfl⟩ := List.mem_map.mp hk
    exact List.mem_map.mpr ⟨p, (same_range_mem _ _ hsame p).mpr hp, rfl⟩
  have hperm := (List.subperm_of_subset hnd hsub).perm_of_length_le (by simp [hlen])
  refine ⟨hperm, ?_⟩
  have hnd2 : (sorted.map (fun p => cstr_at pool p.name)).Nodup := by
    have h1 : ((packages.map (fun p => (cstr_at pool p.name, cstr_at pool p.version))).map
        (fun k : List Nat × List Nat => k.1)).Perm
        ((sorted.map (fun p => (cstr_at pool p.name, cstr_at pool p.version))).map
          (fun k : List Nat × List Nat => k.1)) := hperm.map _
    rw [List.map_map, List.map_map] at h1
    exact h1.nodup_iff.mp hnodup
  rw [List.pairwise_iff_getElem]
  intro i j hi hj hij
  simp only [List.length_map] at hi hj
  simp only [List.getElem_map, key_name_lt]
  have hle := hsorted i j sorted[i] sorted[j] (Nat.zero_le _) hij (by omega)
    (List.getElem?_eq_getElem hi) (List.getElem?_eq_getElem hj)
  unfold package_name_le at hle
  rcases lt_or_eq_of_le hle with h | h
  · exact h
  · exfalso
    have heq := strcmp_eq_zero _ _ (cstr_at_ne_zero _ _) (cstr_at_ne_zero _ _) h
    have := (@List.Nodup.getElem_inj_iff _ _ hnd2 i (by simpa using hi) j
      (by simpa using hj)).mp (by simpa using heq)
    omega

theorem key_name_lt_antisymm (a b : List Nat × List Nat) (h1 : key_name_lt a b)
    (h2 : key_name_lt b a) : a = b := by
  unfold key_name_lt at h1 h2
  rw [strcmp_swap] at h2
  omega

theorem import_keys (rnd : Nat → Nat) (calls : List importer_call) (set : razor_set)
    (hnodup : (begin_names calls).Nodup)
    (hstr : ∀ k ∈ begin_keys calls, (∀ c ∈ k.1, c ≠ 0) ∧ ∀ c ∈ k.2, c ≠ 0)
    (hfin : import_set rnd calls = some set) :
    (begin_keys calls).Perm (package_keys set) ∧ (package_keys set).Pairwise key_name_lt := by
  unfold import_set at hfin
  split at hfin
  · cases hfin
  · rename_i importer hrun
    obtain ⟨r1, r2, r3⟩ := run_calls_keys calls razor_importer_new importer importer_new_ok
      (fun p hp => by cases hp) hstr hrun
    have r3' : package_keys importer.set = begin_keys calls := by
      rw [r3]
      rfl
    obtain ⟨sorted, s1, s2, s3⟩ := finish_keys rnd importer set r1 r2 hfin
    have hn : (importer.set.packages.map
        (fun p => cstr_at importer.set.string_pool p.name)).Nodup := by
      have : importer.set.packages.map (fun p => cstr_at importer.set.string_pool p.name) =
          (package_keys importer.set).map (fun k => k.1) := by
        unfold package_keys
        rw [List.map_map]
        rfl
      rw [this, r3', begin_keys_names]
      exact hnodup
    have := sorted_keys_of_sort importer.set.string_pool importer.set.packages sorted s1 s2 hn
    rw [s3, ← r3']
    exact this

/-- C24 (amended): when the packages of an input have pairwise distinct
names (names and versions being C strings), the set finished from the input
and the set finished from any calls that begin the same packages in another
order, whatever the order of the other calls and the pivots of the sorts,
hold the same sequence of packages by (name, version). -/
theorem finish_same_packages (rnd1 rnd2 : Nat → Nat) (calls1 calls2 : List importer_call)
    (set1 set2 : razor_set)
    (hperm : (begin_keys calls1).Perm (begin_keys calls2))
    (hnodup : (begin_names calls1).Nodup)
    (hstr : ∀ k ∈ begin_keys calls1, (∀ c ∈ k.1, c ≠ 0) ∧ ∀ c ∈ k.2, c ≠ 0)
    (h1 : import_set rnd1 calls1 = some set1) (h2 : import_set rnd2 calls2 = some set2) :
    package_keys set1 = package_keys set2 := by
  have hnodup2 : (begin_names calls2).Nodup := by
    rw [← begin_keys_names] at hnodup ⊢
    exact (hperm.map _).nodup_iff.mp hnodup
  have hstr2 : ∀ k ∈ begin_keys calls2, (∀ c ∈ k.1, c ≠ 0) ∧ ∀ c ∈ k.2, c ≠ 0 :=
    fun k hk => hstr k (hperm.mem_iff.mpr hk)
  obtain ⟨p1, q1⟩ := import_keys rnd1 calls1 set1 hnodup hstr h1
  obtain ⟨p2, q2⟩ := import_keys rnd2 calls2 set2 hnodup2 hstr2 h2
  haveI : IsAntisymm (List Nat × List Nat) key_name_lt := ⟨key_name_lt_antisymm⟩
  exact List.eq_of_perm_of_sorted ((p1.symm.trans hperm).trans p2) q1 q2

/-- C24 (counterexample): the packages a 1, foo 2.0, foo 2.00 and the same
packages with the last two exchanged, both finished with `random()`
returning 0 in the sorts.  The two records named foo have the same name
offset and their versions compare equal under `versioncmp`, so the sort may
leave them in either order: the first set holds foo 2.00 before foo 2.0, the
second foo 2.0 before foo 2.00. -/
theorem finish_tie_depends_on_order :
    (import_set (rnd_of []) calls_foo_tie).map (fun s => (package_keys s).map (fun k => k.1)) =
      some [bytes "a", bytes "foo", bytes "foo"] ∧
    (import_set (rnd_of []) calls_foo_tie).map (fun s => (package_keys s).map (fun k => k.2)) =
      some [bytes "1", bytes "2.00", bytes "2.0"] ∧
    (import_set (rnd_of []) calls_foo_tie_reordered).map
        (fun s => (package_keys s).map (fun k => k.1)) =
      some [bytes "a", bytes "foo", bytes "foo"] ∧
    (import_set (rnd_of []) calls_foo_tie_reordered).map
        (fun s => (package_keys s).map (fun k => k.2)) =
      some [bytes "1", bytes "2.0", bytes "2.00"] ∧
    (import_set (rnd_of []) calls_foo_tie).map (fun s => s.packages.map (fun p => p.name)) =
      some [0, 6, 6] ∧
    (import_set (rnd_of []) calls_foo_tie_reordered).map
        (fun s => s.packages.map (fun p => p.name)) = some [0, 6, 6] ∧
    versioncmp (bytes "2.0") (bytes "2.00") = 0 := by
  decide!

theorem finish_same_packages_witness :
    (begin_keys calls_foo_bar).Perm (begin_keys calls_bar_foo) ∧
    (begin_names calls_foo_bar).Nodup ∧
    import_set (rnd_of []) calls_foo_bar = some set_foo_bar ∧
    import_set (rnd_of []) calls_bar_foo = some set_bar_foo ∧
    package_keys set_foo_bar = package_keys set_bar_foo :=
  ⟨List.Perm.swap _ _ _, by decide!, by decide!, by decide!,
    finish_same_packages (rnd_of []) (rnd_of []) calls_foo_bar calls_bar_foo set_foo_bar
      set_bar_foo (List.Perm.swap _ _ _) (by decide!) (by decide!) (by decide!) (by decide!)⟩

/-! ## Packages lists of the file entries -/

theorem tokenize_files_ok (importer : razor_importer) (string : Option (List Nat))
    (h : files_ok importer) : files_ok (razor_importer_tokenize importer string).1 := h

theorem begin_package_files_ok (importer : razor_importer) (n v : List Nat)
    (h : files_ok importer) : files_ok (razor_importer_begin_package importer n v) := by
  rw [begin_package_unfold]
  have A : files_ok (razor_importer_tokenize (razor_importer_tokenize importer (some n)).1
      (some v)).1 := tokenize_files_ok _ _ (tokenize_files_ok _ _ h)
  have e : (razor_importer_tokenize (razor_importer_tokenize importer (some n)).1
      (some v)).1.set.packages = importer.set.packages := rfl
  generalize razor_importer_tokenize (razor_importer_tokenize importer (some n)).1 (some v)
    = r2 at A e ⊢
  generalize (razor_importer_tokenize importer (some n)).2 = t
  refine ⟨?_, ?_⟩
  · intro x hx
    have := A.1 x hx
    simp only [List.length_append, List.length_singleton]
    omega
  · intro p hp
    simp only [Option.some.injEq] at hp
    simp only [List.length_append, List.length_singleton]
    rw [e]
    omega

theorem files_ok_with_properties (r : razor_importer) (a : List razor_property)
    (b : List Nat) (h : files_ok r) :
    files_ok { r with set := { r.set with properties := a }, properties := b } := h

theorem add_property_files_ok (importer : razor_importer) (n v : List Nat) (t : Nat)
    (h : files_ok importer) : files_ok (razor_importer_add_property importer n v t) := by
  obtain ⟨properties, scratch, hunfold⟩ := add_property_unfold importer n v t
  rw [hunfold]
  exact files_ok_with_properties _ properties scratch
    (tokenize_files_ok _ _ (tokenize_files_ok _ _ h))

theorem finish_package_files_ok (importer importer' : razor_importer)
    (h : files_ok importer) (hrun : razor_importer_finish_package importer = some importer') :
    files_ok importer' := by
  unfold razor_importer_finish_package at hrun
  split at hrun
  · cases hrun
  · split at hrun
    · cases hrun
    · cases hrun
      refine ⟨?_, ?_⟩
      · intro x hx
        have := h.1 x hx
        simpa using this
      · intro p hp
        have := h.2 p hp
        simpa using this

theorem add_file_files_ok (importer : razor_importer) (n : List Nat)
    (h : files_ok importer) : files_ok (razor_importer_add_file importer n) := by
  unfold razor_importer_add_file
  refine ⟨?_, h.2⟩
  intro x hx
  rcases List.mem_append.mp hx with e | e
  · exact h.1 x e
  · rw [List.mem_singleton.mp e]
    show importer.package.getD 0 < _
    cases hp : importer.package with
    | none => simp
    | some p =>
      have := h.2 p hp
      simp only [Option.getD_some]
      omega

theorem run_calls_files_ok :
    ∀ (calls : List importer_call) (importer importer' : razor_importer),
      files_ok importer → run_calls importer calls = some importer' → files_ok importer' := by
  intro calls
  induction calls with
  | nil =>
    intro importer importer' h hrun
    simp only [run_calls] at hrun
    cases hrun
    exact h
  | cons c rest ih =>
    intro importer importer' h hrun
    cases c with
    | begin_package n v =>
      simp only [run_calls] at hrun
      exact ih _ _ (begin_package_files_ok importer n v h) hrun
    | add_property n v t =>
      simp only [run_calls] at hrun
      exact ih _ _ (add_property_files_ok importer n v t h) hrun
    | add_file n =>
      simp only [run_calls] at hrun
      exact ih _ _ (add_file_files_ok importer n h) hrun
    | finish_package =>
      simp only [run_calls] at hrun
      split at hrun
      · cases hrun
      · rename_i importer1 hfin
        exact ih _ _ (finish_package_files_ok importer importer1 h hfin) hrun

theorem importer_new_files_ok : files_ok razor_importer_new :=
  ⟨fun e he => (by cases he), fun p hp => (by cases hp)⟩

theorem build_file_tree_walk_small (package n : Nat) (hp : package < n) :
    ∀ (fuel : Nat) (importer importer' : razor_importer) (d d' : import_directory)
      (f : List Nat),
      build_file_tree_walk package fuel importer d f = some (importer', d') →
      all_nodes (fun D => ∀ x ∈ D.packages, x < n) d →
      all_nodes (fun D => ∀ x ∈ D.packages, x < n) d' := by
  intro fuel
  induction fuel with
  | zero =>
    intro importer importer' d d' f hrun hq
    simp only [build_file_tree_walk] at hrun
    cases hrun
    exact hq
  | succ fuel ih =>
    intro importer importer' d d' f hrun hq
    rw [build_file_tree_walk_succ] at hrun
    have hadd : ∀ l : List Nat, (∀ x ∈ l, x < n) → ∀ x ∈ l ++ [package], x < n := by
      intro l hl x hx
      rcases List.mem_append.mp hx with e | e
      · exact hl x e
      · rw [List.mem_singleton.mp e]
        exact hp
    by_cases hf : deref f ≠ 0
    · rw [if_pos hf] at hrun
      by_cases h256 : (f.takeWhile (fun c => c != 47)).length ≥ 256
      · rw [if_pos h256] at hrun
        cases hrun
      · rw [if_neg h256] at hrun
        generalize razor_importer_tokenize importer
          (some (f.takeWhile (fun c => c != 47))) = r at hrun
        obtain ⟨importer1, name⟩ := r
        simp only at hrun
        have hP : ∀ c ∈ walk_files d name,
            all_nodes (fun D => ∀ x ∈ D.packages, x < n) c := by
          intro c hc
          rcases walk_files_mem d name c hc with e | e
          · exact ((all_nodes_iff _ d).mp hq).2 c e
          · rw [e, all_nodes_mk]
            exact ⟨fun x hx => (by cases hx), fun x hx => (by cases hx)⟩
        cases hlast : (walk_files d name).getLast? with
        | none =>
          rw [hlast] at hrun
          cases hrun
        | some last =>
          rw [hlast] at hrun
          simp only at hrun
          have hl1 := hP last (List.mem_of_mem_getLast? hlast)
          split at hrun
          · cases hrun
          · rename_i importer2 last2 hbelow
            have hB : all_nodes (fun D => ∀ x ∈ D.packages, x < n) last2 := by
              by_cases hend : deref (f.dropWhile (fun c => c != 47)) = 0
              · rw [if_pos hend] at hbelow
                cases hbelow
                rw [all_nodes_mk]
                exact ⟨hadd _ (hl1 [] last rfl), ((all_nodes_iff _ last).mp hl1).2⟩
              · rw [if_neg hend] at hbelow
                exact ih importer1 importer2 last last2 _ hbelow hl1
            cases hrun
            rw [all_nodes_mk]
            refine ⟨hq [] d rfl, ?_⟩
            intro x hx
            rcases List.mem_append.mp hx with e | e
            · exact hP x (List.mem_of_mem_dropLast e)
            · rw [List.mem_singleton.mp e]
              exact hB
    · rw [if_neg hf] at hrun
      cases hrun
      rw [all_nodes_mk]
      exact ⟨hadd _ (hq [] d rfl), ((all_nodes_iff _ d).mp hq).2⟩

theorem build_file_tree_loop_small (n : Nat) :
    ∀ (entries : List import_entry) (importer importer' : razor_importer)
      (root root' : import_directory),
      (∀ e ∈ entries, e.package < n) →
      build_file_tree_loop entries importer root = some (importer', root') →
      all_nodes (fun D => ∀ x ∈ D.packages, x < n) root →
      all_nodes (fun D => ∀ x ∈ D.packages, x < n) root' := by
  intro entries
  induction entries with
  | nil =>
    intro importer importer' root root' _ hrun hq
    simp only [build_file_tree_loop] at hrun
    cases hrun
    exact hq
  | cons e rest ih =>
    intro importer importer' root root' he hrun hq
    have he' : ∀ x ∈ rest, x.package < n := fun x hx => he x (List.mem_cons_of_mem _ hx)
    simp only [build_file_tree_loop] at hrun
    split at hrun
    · exact ih _ _ _ _ he' hrun hq
    · split at hrun
      · cases hrun
      · rename_i importer1 root1 hwalk
        exact ih _ _ _ _ he' hrun
          (build_file_tree_walk_small _ n (he e (List.mem_cons_self _ _)) _ _ _ _ _ _ hwalk hq)

theorem count_entries_small (n : Nat) :
    ∀ (fuel : Nat) (d : import_directory),
      all_nodes (fun D => ∀ x ∈ D.packages, x < n) d →
      all_nodes (fun D => ∀ x ∈ D.packages, x < n) (count_entries fuel d) := by
  intro fuel
  induction fuel with
  | zero => intro d h; exact h
  | succ fuel ih =>
    intro d h
    rw [count_entries_succ, all_nodes_mk]
    refine ⟨h [] d rfl, ?_⟩
    intro x hx
    obtain ⟨c, hc, rfl⟩ := List.mem_map.mp hx
    exact ih c (((all_nodes_iff _ d).mp h).2 c hc)

theorem serialize_entries_step (p : import_directory) (rest : List import_directory) (s : Nat)
    (arr : List razor_entry) (pool : List Nat) :
    serialize_entries (p :: rest) s arr pool
      = serialize_entries rest (s + p.count)
          (arr ++ [{ name := p.name, start := if p.count > 0 then s else 0,
                     packages := (add_to_property_pool pool p.packages).2 }])
          (add_to_property_pool pool p.packages).1 := by
  have h : (if p.packages.length = 0 then (pool, ULONG_ALL_ONES)
      else if p.packages.length = 1 then (pool, p.packages.headD 0 ||| RAZOR_IMMEDIATE)
      else add_to_property_pool pool p.packages) = add_to_property_pool pool p.packages := by
    unfold add_to_property_pool
    split
    · rfl
    · split <;> rfl
  simp only [serialize_entries]
  rw [h]

theorem serialize_entries_owners :
    ∀ (cs : List import_directory) (s : Nat) (arr : List razor_entry) (pool : List Nat),
      ∃ E ext, serialize_entries cs s arr pool = (arr ++ E, pool ++ ext) ∧
        E.length = cs.length ∧
        ((pool ++ ext).length ≤ 2 ^ 31 → (∀ c ∈ cs, ∀ x ∈ c.packages, x < 2 ^ 24) →
          ∀ (ext2 : List Nat) (k : Nat) (c : import_directory), cs[k]? = some c →
            ∃ ec, E[k]? = some ec ∧
              reference_words (pool ++ ext ++ ext2) ec.packages = some c.packages) := by
  intro cs
  induction cs with
  | nil =>
    intro s arr pool
    exact ⟨[], [], by simp [serialize_entries], rfl, fun _ _ _ k c h => by simp at h⟩
  | cons p rest ih =>
    intro s arr pool
    obtain ⟨ext1, hext1⟩ := add_to_property_pool_prefix pool p.packages
    obtain ⟨E, ext, hrun, hlen, hE⟩ := ih (s + p.count)
      (arr ++ [{ name := p.name, start := if p.count > 0 then s else 0,
                 packages := (add_to_property_pool pool p.packages).2 }])
      (add_to_property_pool pool p.packages).1
    refine ⟨{ name := p.name, start := if p.count > 0 then s else 0,
              packages := (add_to_property_pool pool p.packages).2 } :: E,
      ext1 ++ ext, ?_, by simp [hlen], ?_⟩
    · rw [serialize_entries_step, hrun, List.append_assoc, hext1, List.append_assoc]
      rfl
    · intro hpool hsmall ext2 k c hk
      have hpool' : ((add_to_property_pool pool p.packages).1 ++ ext).length ≤ 2 ^ 31 := by
        rw [hext1, List.append_assoc]
        exact hpool
      cases k with
      | zero =>
        simp only [List.getElem?_cons_zero, Option.some.injEq] at hk
        subst hk
        refine ⟨{ name := p.name, start := if p.count > 0 then s else 0,
                  packages := (add_to_property_pool pool p.packages).2 }, by simp, ?_⟩
        simp only
        have := reference_words_add pool p.packages (ext ++ ext2)
          (hsmall p (List.mem_cons_self _ _)) (by
            rw [List.length_append] at hpool'
            omega)
        rw [hext1] at this
        simpa only [List.append_assoc] using this
      | succ k =>
        simp only [List.getElem?_cons_succ] at hk
        obtain ⟨ec, h1, h2⟩ := hE hpool' (fun c hc => hsmall c (List.mem_cons_of_mem _ hc))
          ext2 k c hk
        refine ⟨ec, by simpa using h1, ?_⟩
        rw [hext1] at h2
        simpa only [List.append_assoc] using h2

theorem mark_last_packages (d : import_directory) (arr E : List razor_entry)
    (hlen : E.length = d.files.length) :
    ∃ E', mark_last d (arr ++ E) = arr ++ E' ∧ E'.length = E.length ∧
      ∀ (k : Nat) (ec : razor_entry), E[k]? = some ec →
        ∃ ec', E'[k]? = some ec' ∧ ec'.packages = ec.packages := by
  unfold mark_last
  by_cases h0 : d.files.length = 0
  · rw [if_pos h0]
    exact ⟨E, rfl, rfl, fun k ec hk => ⟨ec, hk, rfl⟩⟩
  · rw [if_neg h0]
    have hne : E ≠ [] := by
      intro e
      rw [e] at hlen
      exact h0 hlen.symm
    obtain ⟨E0, el, hE⟩ : ∃ E0 el, E = E0 ++ [el] :=
      ⟨E.dropLast, E.getLast hne, (List.dropLast_append_getLast hne).symm⟩
    subst hE
    rw [← List.append_assoc, List.getLast?_concat, List.dropLast_concat]
    simp only
    refine ⟨E0 ++ [{ el with name := el.name ||| RAZOR_ENTRY_LAST }],
      by rw [List.append_assoc], by simp, ?_⟩
    intro k ec hk
    by_cases hk' : k < E0.length
    · rw [List.getElem?_append_left hk'] at hk
      exact ⟨ec, by rw [List.getElem?_append_left hk']; exact hk, rfl⟩
    · have hk2 : k = E0.length := by
        by_contra hc
        rw [List.getElem?_eq_none (by simp; omega)] at hk
        cases hk
      subst hk2
      simp only [List.getElem?_concat_length, Option.some.injEq] at hk
      subst hk
      exact ⟨{ el with name := el.name ||| RAZOR_ENTRY_LAST }, by simp, rfl⟩

theorem owners_laid_out_append (d : import_directory) (b : Nat) (A X : List razor_entry)
    (pool : List Nat) (h : owners_laid_out d b A pool) : owners_laid_out d b (A ++ X) pool := by
  intro path D cb hD hcb k c hk
  obtain ⟨ec, h1, h2⟩ := h path D cb hD hcb k c hk
  refine ⟨ec, ?_, h2⟩
  have hlt : cb + k < A.length := by
    by_contra hc
    rw [List.getElem?_eq_none (by omega)] at h1
    cases h1
  rw [List.getElem?_append_left hlt]
  exact h1

theorem serialize_children_owners (fuel : Nat)
    (ih : ∀ (d : import_directory) (arr : List razor_entry) (pool : List Nat),
      all_nodes counted d →
      (∀ path D, node_at d path = some D → D.files ≠ [] → path.length < fuel) →
      ∃ out ext, serialize_files fuel d arr pool = (arr ++ out, pool ++ ext) ∧
        out.length = d.count ∧
        ((pool ++ ext).length ≤ 2 ^ 31 →
          all_nodes (fun D => ∀ x ∈ D.packages, x < 2 ^ 24) d →
          ∀ ext2 : List Nat, owners_laid_out d arr.length (arr ++ out) (pool ++ ext ++ ext2))) :
    ∀ (cs : List import_directory) (B : List razor_entry) (pool : List Nat),
      (∀ c ∈ cs, all_nodes counted c ∧
        ∀ path D, node_at c path = some D → D.files ≠ [] → path.length < fuel) →
      ∃ outs ext,
        cs.foldl (fun acc p => serialize_files fuel p acc.1 acc.2) (B, pool)
          = (B ++ outs, pool ++ ext) ∧
        outs.length = (cs.map (fun p => p.count)).sum ∧
        ((pool ++ ext).length ≤ 2 ^ 31 →
          (∀ c ∈ cs, all_nodes (fun D => ∀ x ∈ D.packages, x < 2 ^ 24) c) →
          ∀ (ext2 : List Nat) (k : Nat) (c : import_directory), cs[k]? = some c →
            owners_laid_out c (B.length + counts_before cs k) (B ++ outs)
              (pool ++ ext ++ ext2)) := by
  intro cs
  induction cs with
  | nil =>
    intro B pool _
    exact ⟨[], [], by simp, rfl, fun _ _ _ k c h => by simp at h⟩
  | cons c rest ihc =>
    intro B pool hcs
    obtain ⟨hc1, hc2⟩ := hcs c (List.mem_cons_self _ _)
    obtain ⟨out, ext1, hrun, hlen, hlaid⟩ := ih c B pool hc1 hc2
    obtain ⟨outs, ext, hrun2, hlen2, hlaid2⟩ := ihc (B ++ out) (pool ++ ext1)
      (fun c' hc' => hcs c' (List.mem_cons_of_mem _ hc'))
    refine ⟨out ++ outs, ext1 ++ ext, ?_, ?_, ?_⟩
    · simp only [List.foldl_cons, hrun]
      rw [hrun2, List.append_assoc, List.append_assoc]
    · simp [hlen, hlen2]
    · intro hpool hsmall ext2 k c' hk
      have hpool1 : (pool ++ ext1).length ≤ 2 ^ 31 := by
        simp only [List.length_append] at hpool ⊢
        omega
      cases k with
      | zero =>
        simp only [List.getElem?_cons_zero, Option.some.injEq] at hk
        subst hk
        rw [counts_before_zero, Nat.add_zero, ← List.append_assoc]
        apply owners_laid_out_append
        have := hlaid hpool1 (hsmall c (List.mem_cons_self _ _)) (ext ++ ext2)
        simpa only [List.append_assoc] using this
      | succ k =>
        simp only [List.getElem?_cons_succ] at hk
        have := hlaid2 (by simpa only [List.append_assoc] using hpool)
          (fun c' hc' => hsmall c' (List.mem_cons_of_mem _ hc')) ext2 k c' hk
        rw [List.length_append, hlen] at this
        rw [counts_before_succ, ← List.append_assoc, ← Nat.add_assoc]
        simpa only [List.append_assoc] using this

theorem serialize_files_owners :
    ∀ (fuel : Nat) (d : import_directory) (arr : List razor_entry) (pool : List Nat),
      all_nodes counted d →
      (∀ path D, node_at d path = some D → D.files ≠ [] → path.length < fuel) →
      ∃ out ext, serialize_files fuel d arr pool = (arr ++ out, pool ++ ext) ∧
        out.length = d.count ∧
        ((pool ++ ext).length ≤ 2 ^ 31 →
          all_nodes (fun D => ∀ x ∈ D.packages, x < 2 ^ 24) d →
          ∀ ext2 : List Nat,
            owners_laid_out d arr.length (arr ++ out) (pool ++ ext ++ ext2)) := by
  intro fuel
  induction fuel with
  | zero =>
    intro d arr pool hc hd
    have hfiles : d.files = [] := by
      by_contra hne
      have := hd [] d rfl hne
      simp at this
    refine ⟨[], [], by simp [serialize_files], ?_, ?_⟩
    · have := hc [] d rfl
      unfold counted at this
      rw [this, hfiles]
      rfl
    · intro _ _ ext2 path D cb hD hcb k c hk
      cases path with
      | nil =>
        simp only [node_at, Option.some.injEq] at hD
        subst hD
        rw [hfiles] at hk
        simp at hk
      | cons j p =>
        rw [node_at_cons, hfiles] at hD
        simp at hD
  | succ fuel ih =>
    intro d arr pool hc hd
    rw [serialize_files_succ]
    obtain ⟨E, ext1, hE, hElen, hEk⟩ :=
      serialize_entries_owners d.files (arr.length + d.files.length) arr pool
    rw [hE]
    simp only
    obtain ⟨E', hmark, hE'len, hE'k⟩ := mark_last_packages d arr E hElen
    rw [hmark]
    have hchildren : ∀ c ∈ d.files, all_nodes counted c ∧
        ∀ path D, node_at c path = some D → D.files ≠ [] → path.length < fuel := by
      intro c hcm
      refine ⟨((all_nodes_iff counted d).mp hc).2 c hcm, ?_⟩
      intro path D hD hne
      obtain ⟨j, hj⟩ := List.mem_iff_getElem?.mp hcm
      have := hd (j :: path) D (by rw [node_at_cons, hj]; exact hD) hne
      simp at this
      omega
    obtain ⟨outs, ext, hfold, hlen, hlaid⟩ :=
      serialize_children_owners fuel ih d.files (arr ++ E') (pool ++ ext1) hchildren
    refine ⟨E' ++ outs, ext1 ++ ext, ?_, ?_, ?_⟩
    · rw [hfold, List.append_assoc, List.append_assoc]
    · have := hc [] d rfl
      unfold counted at this
      rw [this, sum_count_succ, List.length_append, hlen, hE'len, hElen]
    · intro hpool hsmall ext2 path D cb hD hcb k c hk
      have hpool1 : (pool ++ ext1).length ≤ 2 ^ 31 := by
        simp only [List.length_append] at hpool ⊢
        omega
      have hsm := (all_nodes_iff _ d).mp hsmall
      cases path with
      | nil =>
        simp only [node_at, Option.some.injEq] at hD
        subst hD
        simp only [children_base, Option.some.injEq] at hcb
        subst hcb
        obtain ⟨ec, e1, e2⟩ := hEk hpool1
          (fun c hc => (hsm.2 c hc) [] c rfl) (ext ++ ext2) k c hk
        obtain ⟨ec', f1, f2⟩ := hE'k k ec e1
        refine ⟨ec', ?_, ?_⟩
        · rw [List.getElem?_append_right (by omega), Nat.add_sub_cancel_left]
          have hlt : k < E'.length := by
            by_contra hcn
            rw [List.getElem?_eq_none (by omega)] at f1
            cases f1
          rw [List.getElem?_append_left hlt]
          exact f1
        · rw [f2]
          simpa only [List.append_assoc] using e2
      | cons j p =>
        rw [node_at_cons] at hD
        rw [children_base_cons] at hcb
        cases hj : d.files[j]? with
        | none => rw [hj] at hD; cases hD
        | some cj =>
          rw [hj] at hD hcb
          have := hlaid (by simpa only [List.append_assoc] using hpool) hsm.2 ext2 j cj hj
          rw [List.length_append, hE'len, hElen, List.append_assoc] at this
          have h2 := this p D cb hD hcb k c hk
          simpa only [List.append_assoc] using h2

theorem high_bits_eq : ULONG_ALL_ONES - RAZOR_ENTRY_MASK = (2 ^ 40 - 1) <<< 24 := by decide

theorem testBit_of_lt_of_le (a i j : Nat) (h : a < 2 ^ i) (hij : i ≤ j) :
    Nat.testBit a j = false :=
  Nat.testBit_lt_two_pow (Nat.lt_of_lt_of_le h (Nat.pow_le_pow_right (by decide) hij))

theorem remap_word_mask (a w : Nat) (ha : a < 2 ^ 24) :
    (a ||| (w &&& (ULONG_ALL_ONES - RAZOR_ENTRY_MASK))) &&& RAZOR_ENTRY_MASK = a := by
  have e1 : RAZOR_ENTRY_MASK = 2 ^ 24 - 1 := by decide
  rw [high_bits_eq, e1]
  apply Nat.eq_of_testBit_eq
  intro i
  simp only [Nat.testBit_and, Nat.testBit_or, Nat.testBit_shiftLeft,
    Nat.testBit_two_pow_sub_one]
  by_cases hi : i < 24
  · have : ¬ i ≥ 24 := by omega
    simp [hi, this]
  · rw [testBit_of_lt_of_le a 24 i ha (by omega)]
    simp [hi]

theorem remap_word_immediate (a w : Nat) (ha : a < 2 ^ 24) :
    (a ||| (w &&& (ULONG_ALL_ONES - RAZOR_ENTRY_MASK))) &&& RAZOR_IMMEDIATE =
      w &&& RAZOR_IMMEDIATE := by
  have e2 : RAZOR_IMMEDIATE = 2 ^ 31 := by decide
  rw [high_bits_eq, e2]
  apply Nat.eq_of_testBit_eq
  intro i
  simp only [Nat.testBit_and, Nat.testBit_or, Nat.testBit_shiftLeft,
    Nat.testBit_two_pow_sub_one, Nat.testBit_two_pow]
  by_cases hi : 31 = i
  · subst hi
    rw [testBit_of_lt_of_le a 24 31 ha (by omega)]
    simp
  · simp [hi]

theorem findIdx?_map_congr {α β : Type} (f : α → β) (p : β → Bool) (q : α → Bool)
    (h : ∀ x, p (f x) = q x) (l : List α) :
    (l.map f).findIdx? p = l.findIdx? q := by
  induction l with
  | nil => rfl
  | cons a l ih =>
    simp only [List.map_cons, List.findIdx?_cons, h a]
    split
    · rfl
    · rw [List.findIdx?_succ, List.findIdx?_succ, ih]

theorem reference_list_remap (pool rmap : List Nat) (r : Nat) (l : List Nat)
    (hr : r &&& RAZOR_IMMEDIATE = 0) (hrmap : ∀ k : Nat, rmap.getD k 0 < 2 ^ 24)
    (h : reference_list pool r = some l) :
    reference_list (remap_links pool rmap) r = some (l.map (fun w => rmap.getD w 0)) := by
  unfold reference_list at h ⊢
  rw [if_neg (by simp [hr])] at h ⊢
  simp only at h ⊢
  unfold remap_links
  rw [← List.map_drop]
  rw [findIdx?_map_congr _ _ (fun w => w &&& RAZOR_IMMEDIATE != 0)
    (fun w => by rw [remap_word_immediate _ _ (hrmap _)])]
  cases hf : (pool.drop r).findIdx? (fun w => w &&& RAZOR_IMMEDIATE != 0) with
  | none => rw [hf] at h; cases h
  | some k =>
    rw [hf] at h
    simp only [Option.some.injEq] at h ⊢
    rw [← h, ← List.map_take, List.map_map, List.map_map]
    apply List.map_congr_left
    intro w _
    simp only [Function.comp]
    rw [remap_word_mask _ _ (hrmap _)]

theorem reference_words_remap_entry (pool rmap : List Nat) (e : razor_entry) (l : List Nat)
    (hrmap : ∀ k : Nat, rmap.getD k 0 < 2 ^ 24)
    (h : reference_words pool e.packages = some l) :
    reference_words (remap_links pool rmap) (remap_entry rmap e).packages =
      some (l.map (fun w => rmap.getD w 0)) := by
  unfold remap_entry
  by_cases h1 : e.packages = ULONG_ALL_ONES
  · rw [if_pos h1]
    unfold reference_words at h ⊢
    rw [if_pos h1] at h ⊢
    cases h
    rfl
  · rw [if_neg h1]
    unfold reference_words at h
    rw [if_neg h1] at h
    by_cases h2 : e.packages &&& RAZOR_IMMEDIATE ≠ 0
    · rw [if_pos h2]
      simp only
      unfold reference_list at h
      rw [if_pos h2] at h
      cases h
      rw [reference_words, if_neg (or_immediate_ne_ones _ (by
        have := hrmap (e.packages &&& RAZOR_ENTRY_MASK)
        omega)), reference_list, if_pos (or_immediate_and_ne _), or_immediate_and_mask,
        and_mask_of_lt _ (hrmap _)]
      rfl
    · rw [if_neg h2]
      rw [reference_words, if_neg h1]
      exact reference_list_remap pool rmap _ l (by simpa using h2) hrmap h

theorem build_package_file_lists_scan_files (package_pool rmap : List Nat) :
    ∀ (entries : List razor_entry) (e : Nat) (done files' : List razor_entry)
      (pkgs pkgs' : List (List Nat)),
      build_package_file_lists_scan package_pool rmap entries e done pkgs
        = some (files', pkgs') →
      files' = done ++ entries.map (remap_entry rmap) := by
  intro entries
  induction entries with
  | nil =>
    intro e done files' pkgs pkgs' hrun
    simp only [build_package_file_lists_scan, Option.some.injEq, Prod.mk.injEq] at hrun
    rw [← hrun.1]
    simp
  | cons entry rest ih =>
    intro e done files' pkgs pkgs' hrun
    simp only [build_package_file_lists_scan] at hrun
    split at hrun
    · rename_i h1
      rw [ih _ _ _ _ _ hrun]
      simp [remap_entry, h1]
    · rename_i h1
      split at hrun
      · rename_i h2
        split at hrun
        · cases hrun
        · rw [ih _ _ _ _ _ hrun]
          simp [remap_entry, h1, h2]
      · rename_i h2
        split at hrun
        · cases hrun
        · rw [ih _ _ _ _ _ hrun]
          simp [remap_entry, h1, h2]

theorem build_package_file_lists_entries (set set' : razor_set) (rmap : List Nat)
    (hrun : build_package_file_lists set rmap = some set') :
    set'.files = set.files.map (remap_entry rmap) ∧ set'.package_pool = set.package_pool ∧
    set'.packages.map (fun p => (p.name, p.version)) =
      set.packages.map (fun p => (p.name, p.version)) := by
  unfold build_package_file_lists at hrun
  simp only at hrun
  split at hrun
  · cases hrun
  · rename_i files pkgs hscan
    cases hrun
    have := build_package_file_lists_scan_files _ _ _ _ _ _ _ _ hscan
    exact ⟨by simpa using this, rfl, build_package_file_lists_emit_keys _ _ _⟩

theorem invert_map_other :
    ∀ (map : List Nat) (i0 : Nat) (rmap : List Nat) (m : Nat), m ∉ map →
      (invert_map map i0 rmap)[m]? = rmap[m]? := by
  intro map
  induction map with
  | nil => intro i0 rmap m _; rfl
  | cons a map ih =>
    intro i0 rmap m hm
    simp only [invert_map]
    rw [ih _ _ _ (fun h => hm (List.mem_cons_of_mem _ h)),
      List.getElem?_set_ne (fun e => hm (by rw [e]; exact List.mem_cons_self _ _))]

theorem invert_map_get :
    ∀ (map : List Nat) (i0 : Nat) (rmap : List Nat), map.Nodup →
      (∀ m ∈ map, m < rmap.length) →
      ∀ (k m : Nat), map[k]? = some m → (invert_map map i0 rmap)[m]? = some (i0 + k) := by
  intro map
  induction map with
  | nil => intro i0 rmap _ _ k m h; simp at h
  | cons a map ih =>
    intro i0 rmap hnd hlt k m hk
    simp only [invert_map]
    rw [List.nodup_cons] at hnd
    cases k with
    | zero =>
      simp only [List.getElem?_cons_zero, Option.some.injEq] at hk
      subst hk
      rw [invert_map_other _ _ _ _ hnd.1,
        List.getElem?_set_self (hlt a (List.mem_cons_self _ _))]
      rfl
    | succ k =>
      simp only [List.getElem?_cons_succ] at hk
      rw [ih (i0 + 1) _ hnd.2 (fun m hm => by
        rw [List.length_set]
        exact hlt m (List.mem_cons_of_mem _ hm)) k m hk]
      congr 1
      omega

theorem finish_rmap_spec {α : Type} (compare : α → α → Int) (rnd : Nat → Nat) (calls : Nat)
    (base : List α) (i : Nat) (p : α) (hp : base[i]? = some p) :
    ∃ k, (invert_map ((qsort_with_data compare rnd calls base).2.1.getD []) 0
        (List.replicate base.length 0))[i]? = some k ∧
      (qsort_with_data compare rnd calls base).1[k]? = some p := by
  have hi : i < base.length := (List.getElem?_eq_some_iff.mp hp).1
  obtain ⟨map, m1, m2, m3, m4⟩ := qsort_with_data_map compare rnd calls base (by omega)
  rw [m1]
  simp only [Option.getD_some]
  have hperm := perm_range_of_mem map base.length m2 m4
  have hnd : map.Nodup := hperm.nodup_iff.mp (List.nodup_range _)
  obtain ⟨k, hk⟩ := List.mem_iff_getElem?.mp (m4 i hi)
  refine ⟨k, ?_, (sorted_get_of_map _ base map m3 k i hk).trans hp⟩
  have := invert_map_get map 0 (List.replicate base.length 0) hnd (fun m hm => by
    rw [List.length_replicate]
    exact List.mem_range.mp (hperm.mem_iff.mpr hm)) k i hk
  rw [this]
  simp

theorem build_file_tree_owners (rnd : Nat → Nat) (calls calls' : Nat)
    (importer importer' : razor_importer) (h : importer_ok importer)
    (hrun : build_file_tree rnd calls importer = some (importer', calls')) :
    ∃ root, build_file_tree_root rnd calls importer = some root ∧
      (importer'.set.package_pool.length ≤ 2 ^ 31 →
        (∀ e ∈ importer.files, e.package < 2 ^ 24) →
        owners_laid_out root 1 importer'.set.files importer'.set.package_pool) := by
  unfold build_file_tree at hrun
  unfold build_file_tree_root
  simp only at hrun ⊢
  have hs := qsort_with_data_spec compare_filenames (fun _ _ => True)
    (fun x => strcmp_self x.name) (fun _ _ _ => trivial) (fun _ _ _ => ⟨trivial, trivial⟩)
    (fun _ _ _ => trivial) (fun _ _ _ _ _ => trivial) rnd calls importer.files
  generalize qsort_with_data compare_filenames rnd calls importer.files = q at hrun hs ⊢
  obtain ⟨filenames, map, calls2⟩ := q
  have A := razor_importer_tokenize_spec importer (some []) h
  generalize razor_importer_tokenize importer (some []) = r at A hrun ⊢
  obtain ⟨importer1, name⟩ := r
  simp only at hrun A hs ⊢
  obtain ⟨a1, _, _, _, a5, _⟩ := A
  cases hloop : build_file_tree_loop filenames importer1 (import_directory.mk name 0 [] []) with
  | none =>
    rw [hloop] at hrun
    cases hrun
  | some res =>
    obtain ⟨importer2, root2⟩ := res
    rw [hloop] at hrun
    simp only at hrun ⊢
    have hleaf : all_nodes
        (fun D => D.name < importer1.set.string_pool.length ∧ D.count = 0)
        (import_directory.mk name 0 [] []) := by
      rw [all_nodes_mk]
      exact ⟨⟨a5, rfl⟩, fun x hx => (by cases hx)⟩
    obtain ⟨l1, l2, l3, l4⟩ := build_file_tree_loop_tree _ _ _ _ _ a1 hloop hleaf
    have hdepth : depth_le root2 ((filenames.map (fun e => e.name.length)).foldl max 0) := by
      refine l4 _ ?_ ?_
      · rw [depth_le_mk]
        intro x hx
        cases hx
      · intro e he
        exact (foldl_max_ge _ 0).2 _ (List.mem_map.mpr ⟨e, he, rfl⟩)
    obtain ⟨c1, c2, c3, c4⟩ := count_entries_spec
      ((filenames.map (fun e => e.name.length)).foldl max 0 + 1) root2
      (fun path D hD _ => Nat.lt_succ_of_le (hdepth path D hD))
      (all_nodes_mono _ _ root2 (fun D hD => hD.2) l3)
    obtain ⟨out, ext, hser, _, hown⟩ := serialize_files_owners
      ((filenames.map (fun e => e.name.length)).foldl max 0 + 1)
      (count_entries ((filenames.map (fun e => e.name.length)).foldl max 0 + 1) root2)
      [{ name := (count_entries
            ((filenames.map (fun e => e.name.length)).foldl max 0 + 1) root2).name
            ||| RAZOR_ENTRY_LAST,
         start := 1, packages := ULONG_ALL_ONES }]
      importer2.set.package_pool c1 c2
    rw [hser] at hrun
    simp only [Option.some.injEq, Prod.mk.injEq] at hrun
    obtain ⟨hrun1, _⟩ := hrun
    subst hrun1
    refine ⟨_, rfl, ?_⟩
    intro hpool hsmall
    simp only at hpool ⊢
    have hsmall2 : all_nodes (fun D => ∀ x ∈ D.packages, x < 2 ^ 24) root2 := by
      refine build_file_tree_loop_small (2 ^ 24) filenames importer1 importer2 _ root2 ?_
        hloop ?_
      · intro e he
        exact hsmall e ((same_range_mem _ _ hs.1 e).mp he)
      · rw [all_nodes_mk]
        exact ⟨fun x hx => (by cases hx), fun x hx => (by cases hx)⟩
    have := hown hpool (count_entries_small _ _ _ hsmall2) []
    simpa using this

theorem map_get_of_eq {α β : Type} (f : α → β) (l1 l2 : List α) (h : l1.map f = l2.map f)
    (k : Nat) (p : α) (hp : l2[k]? = some p) : ∃ q, l1[k]? = some q ∧ f q = f p := by
  have := congrArg (fun l => l[k]?) h
  simp only [List.getElem?_map, hp, Option.map_some'] at this
  cases h1 : l1[k]? with
  | none => rw [h1] at this; cases this
  | some q =>
    rw [h1] at this
    exact ⟨q, rfl, by simpa using this⟩

/-- C29 (amended): in the set that `razor_importer_finish` returns after a
sequence of importer calls (with at most `2 ^ 24` packages and a package
pool of at most `2 ^ 31` words), the entry of every directory or file of
the tree holds as its packages list the packages that `build_file_tree`
added to it, in the order in which it added them (the order of the sorted
file names), each renumbered by the map `rmap` of the package sort, which
sends the index a package had during the import to the index of its record
in the finished set.  The list is not put in ascending order. -/
theorem entry_owners_in_tree_order (rnd : Nat → Nat) (calls : List importer_call)
    (set : razor_set) (hfin : import_set rnd calls = some set)
    (hpackages : set.packages.length ≤ 2 ^ 24) (hpool : set.package_pool.length ≤ 2 ^ 31) :
    ∃ (importer : razor_importer) (root : import_directory) (rmap : List Nat),
      run_calls razor_importer_new calls = some importer ∧
      import_file_tree rnd calls = some root ∧
      (∀ (i : Nat) (p : razor_package), importer.set.packages[i]? = some p →
        ∃ (k : Nat) (q : razor_package), rmap[i]? = some k ∧ set.packages[k]? = some q ∧
          q.name = p.name ∧ q.version = p.version) ∧
      ∀ path D, node_at root path = some D → D.files ≠ [] →
        ∃ i e, entry_at set.files 0 path = some i ∧ set.files[i]? = some e ∧
          ∀ (k : Nat) (c : import_directory), D.files[k]? = some c →
            ∃ ec : razor_entry, set.files[e.start + k]? = some ec ∧
              reference_words set.package_pool ec.packages =
                some (c.packages.map (fun x => rmap.getD x 0)) := by
  unfold import_set at hfin
  unfold import_file_tree
  cases hrc : run_calls razor_importer_new calls with
  | none =>
    rw [hrc] at hfin
    cases hfin
  | some importer =>
    rw [hrc] at hfin
    simp only at hfin ⊢
    have hok := run_calls_ok calls razor_importer_new importer importer_new_ok hrc
    have hfok := run_calls_files_ok calls razor_importer_new importer importer_new_files_ok hrc
    unfold razor_importer_finish at hfin
    cases hu : uniqueify_properties rnd 0 importer.set with
    | none =>
      rw [hu] at hfin
      cases hfin
    | some res =>
      obtain ⟨set1, map, calls1⟩ := res
      rw [hu] at hfin
      simp only at hfin ⊢
      obtain ⟨u1, u2⟩ := uniqueify_properties_spec _ _ _ _ _ _ hu
      obtain ⟨o1, o2, o3, o4, o5⟩ := compare_packages_order set1.string_pool
      have hs := qsort_with_data_spec (compare_packages set1.string_pool)
        (package_name_le set1.string_pool) o1 o2 o3 o4 o5 rnd calls1 set1.packages
      have hb := fun h => finish_rmap_bound (compare_packages set1.string_pool) rnd calls1
        set1.packages h
      have hr := finish_rmap_spec (compare_packages set1.string_pool) rnd calls1 set1.packages
      generalize qsort_with_data (compare_packages set1.string_pool) rnd calls1 set1.packages
        = q at hs hb hr hfin ⊢
      obtain ⟨sorted, map2, calls2⟩ := q
      simp only at hfin hs hb hr ⊢
      have hok3 : importer_ok { importer with
          set := { set1 with
            property_pool := remap_links set1.property_pool map, packages := sorted } } := by
        refine ⟨hok.1.trans u1.symm, hok.2.1, ?_⟩
        intro p hp'
        show p.name < set1.string_pool.length
        rw [u1]
        exact hok.2.2 p (u2 ▸ (same_range_mem _ _ hs.1 p).mp hp')
      split at hfin
      · cases hfin
      · rename_i importer4 _ hb4
        split at hfin
        · cases hfin
        · rename_i set6 hp
          cases hfin
          simp only at hpackages hpool ⊢
          obtain ⟨root, e0, t1, t2, t3, t4, t5, t6⟩ :=
            build_file_tree_layout rnd _ _ _ _ hok3 hb4
          obtain ⟨root', t1', hown⟩ := build_file_tree_owners rnd _ _ _ _ hok3 hb4
          have hroot : root' = root := Option.some.inj (t1'.symm.trans t1)
          subst hroot
          obtain ⟨f1, f2⟩ := build_package_file_lists_files _ _ _ hp
          obtain ⟨g1, g2, g3⟩ := build_package_file_lists_entries _ _ _ hp
          obtain ⟨b1, _, _, _⟩ := build_file_tree_frame _ _ _ _ _ hb4
          simp only at f1 g1 g2 g3 b1
          have hlen : set1.packages.length ≤ 2 ^ 24 := by
            have h1 := build_package_file_lists_length _ _ _ hp
            simp only at h1
            rw [← hs.1.1, ← b1, ← h1]
            exact hpackages
          have hrmap := hb hlen
          have hpool4 : importer4.set.package_pool.length ≤ 2 ^ 31 := by
            rw [g2] at hpool
            simpa [remap_links] using hpool
          have hsmall : ∀ e ∈ importer.files, e.package < 2 ^ 24 := by
            intro e he
            have := hfok.1 e he
            rw [u2] at hlen
            omega
          have hown' := hown hpool4 hsmall
          refine ⟨importer, root',
            invert_map (map2.getD []) 0 (List.replicate set1.packages.length 0), rfl, t1, ?_, ?_⟩
          · intro i p hip
            rw [← u2] at hip
            obtain ⟨k, hk1, hk2⟩ := hr i p hip
            rw [← b1] at hk2
            obtain ⟨q, hq1, hq2⟩ := map_get_of_eq (fun p : razor_package => (p.name, p.version))
              _ _ g3 k p hk2
            simp only [Prod.mk.injEq] at hq2
            exact ⟨k, q, hk1, hq1, hq2.1, hq2.2⟩
          · intro path D hD hne
            have f1' : set6.files.map (fun x => (x.name, x.start))
                = importer4.set.files.map (fun x => (x.name, x.start)) := f1
            obtain ⟨e0', h1, _, h3⟩ := fields_at set6.files importer4.set.files f1' 0 e0 t4
            have hlaid : laid_out root' 1 set6.files := laid_out_congr root' 1 _ _ f1' t6
            obtain ⟨i, e, r1, r2, r3, r4⟩ := entry_at_spec set6.files path root' D 0 1 e0' h1
              (h3.trans t5) (by omega) hlaid t3 hD hne
            refine ⟨i, e, r1, r2, ?_⟩
            intro k c hk
            obtain ⟨ec, s1, s2⟩ := hown' path D e.start hD r4 k c hk
            refine ⟨remap_entry
              (invert_map (map2.getD []) 0 (List.replicate set1.packages.length 0)) ec, ?_, ?_⟩
            · rw [g1, List.getElem?_map, s1]
              rfl
            · rw [g2]
              exact reference_words_remap_entry _ _ ec _ hrmap s2

/-- C29 (counterexample): package foo 1.0 is added first and bar 2.0
second, and both own the file /a.  In the finished set bar is package 0 and
foo is package 1, and the packages list of the entry of /a holds 1 and then
0: the indices are not in ascending order. -/
theorem entry_owners_not_ascending :
    (import_set (rnd_of []) calls_shared_file).map
        (fun s => (package_keys s).map (fun k => k.1)) = some [bytes "bar", bytes "foo"] ∧
    (import_set (rnd_of []) calls_shared_file).map file_names = some [bytes "", bytes "a"] ∧
    (import_set (rnd_of []) calls_shared_file).map
        (fun s => s.files.map (fun e => reference_words s.package_pool e.packages)) =
      some [some [], some [1, 0]] := by
  decide!

theorem entry_owners_in_tree_order_witness :
    import_set (rnd_of []) calls_shared_file = some set_shared_file ∧
    set_shared_file.packages.length ≤ 2 ^ 24 ∧
    set_shared_file.package_pool.length ≤ 2 ^ 31 ∧
    ∃ (importer : razor_importer) (root : import_directory) (rmap : List Nat),
      run_calls razor_importer_new calls_shared_file = some importer ∧
      import_file_tree (rnd_of []) calls_shared_file = some root ∧
      (∀ (i : Nat) (p : razor_package), importer.set.packages[i]? = some p →
        ∃ (k : Nat) (q : razor_package), rmap[i]? = some k ∧
          set_shared_file.packages[k]? = some q ∧ q.name = p.name ∧ q.version = p.version) ∧
      ∀ path D, node_at root path = some D → D.files ≠ [] →
        ∃ i e, entry_at set_shared_file.files 0 path = some i ∧
          set_shared_file.files[i]? = some e ∧
          ∀ (k : Nat) (c : import_directory), D.files[k]? = some c →
            ∃ ec : razor_entry, set_shared_file.files[e.start + k]? = some ec ∧
              reference_words set_shared_file.package_pool ec.packages =
                some (c.packages.map (fun x => rmap.getD x 0)) :=
  ⟨by decide!, by decide!, by decide!,
    entry_owners_in_tree_order (rnd_of []) calls_shared_file set_shared_file (by decide!)
      (by decide!) (by decide!)⟩

/-! ## Merged sets, satisfied requirements, buffers, name words and sorts -/

/-- C37: the strings 2147483648 and 0 each are one numeric segment that fits
in a `long`; `versioncmp` is negative on them in both orders, because the
difference of the two segments, 2^31 or -2^31, is returned as an `int`. -/
theorem versioncmp_sign_not_antisymmetric :
    versioncmp (bytes "2147483648") (bytes "0") = -2147483648 ∧
    versioncmp (bytes "0") (bytes "2147483648") = -2147483648 ∧
    (strtol (bytes "2147483648")).1 = 2147483648 ∧
    (strtol (bytes "0")).1 = 0 := by
  decide!

/-- C38: in the table that holds foo, 1.0, rpm and 4.0, `hashtable_lookup` of
rpm returns 8 and bar is not a key; `hashtable_insert` of bar grows the bucket
array from 128 to 256 bytes, and in the table it leaves `hashtable_lookup` of
rpm returns 0. -/
theorem insert_rehash_loses_key :
    hashtable_lookup table_four_keys (bytes "rpm") = 8 ∧
    hashtable_lookup table_four_keys (bytes "bar") = 0 ∧
    table_four_keys.alloc = 128 ∧
    (hashtable_insert table_four_keys (bytes "bar")).1.alloc = 256 ∧
    cstr_at (hashtable_insert table_four_keys (bytes "bar")).1.pool 8 = bytes "rpm" ∧
    hashtable_lookup (hashtable_insert table_four_keys (bytes "bar")).1 (bytes "rpm") = 0 := by
  decide!

/-- C39: for a package with the files /a, /a-b and /a/b the finished set has
the entries root, a, a-b, a, b; the children of the root are the entries 1 to
3, the last of which carries `RAZOR_ENTRY_LAST`, so the root has two children
named a, the second of which holds b. -/
theorem file_tree_two_children_same_name :
    (import_set (rnd_of []) calls_dash_files).map file_names =
      some [bytes "", bytes "a", bytes "a-b", bytes "a", bytes "b"] ∧
    (import_set (rnd_of []) calls_dash_files).map (fun s => s.files.map (fun e => e.start)) =
      some [1, 0, 0, 4, 0] ∧
    (import_set (rnd_of []) calls_dash_files).map
        (fun s => s.files.map (fun e => decide (e.name &&& RAZOR_ENTRY_LAST ≠ 0))) =
      some [true, false, false, true, true] := by
  decide!

/-- C40: foo 1.0 of the first set requires x = 1 and bar 1.0 of the second
set provides x = 1.  The set that `razor_set_add` returns holds one property
named x, a requirement, and the list of bar, which is taken from the second
set, references it: the provision of x by bar has become a requirement. -/
theorem set_add_kind_of_first_source :
    (import_set (rnd_of []) calls_bar_provides_x).map
        (fun s => (property_keys s).map (fun k => k.1)) = some [bytes "bar", bytes "x"] ∧
    (import_set (rnd_of []) calls_bar_provides_x).map
        (fun s => (property_keys s).map (fun k => k.2.1)) = some [1, 1] ∧
    (set_add_of (rnd_of []) (rnd_of []) calls_foo_requires_x calls_bar_provides_x [0]).map
        (fun s => (package_keys s).map (fun k => k.1)) = some [bytes "bar", bytes "foo"] ∧
    (set_add_of (rnd_of []) (rnd_of []) calls_foo_requires_x calls_bar_provides_x [0]).map
        (fun s => (property_keys s).map (fun k => k.1)) =
      some [bytes "bar", bytes "foo", bytes "x"] ∧
    (set_add_of (rnd_of []) (rnd_of []) calls_foo_requires_x calls_bar_provides_x [0]).map
        (fun s => (property_keys s).map (fun k => k.2.1)) = some [1, 1, 0] ∧
    (set_add_of (rnd_of []) (rnd_of []) calls_foo_requires_x calls_bar_provides_x [0]).map
        (fun s => (property_keys s).map (fun k => k.2.2)) =
      some [bytes "1.0", bytes "1.0", bytes "1"] ∧
    (set_add_of (rnd_of []) (rnd_of []) calls_foo_requires_x calls_bar_provides_x [0]).map
        (fun s => s.packages.map (fun p => reference_list s.property_pool p.properties)) =
      some [some [0, 2], some [1, 2]] := by
  decide!

/-- C31: foo 1.0 of the first set has the one property foo = 1.0, so its
`properties` field is the inline word `RAZOR_IMMEDIATE | 0`; with bar 1.0 of
the second set selected `razor_set_add` returns no set, no list being emitted
for foo.  When foo has two properties, a list in the pool, the lists emitted
are 0, 2 for bar and 1, 2 for foo, with `RAZOR_IMMEDIATE` on the last word of
each. -/
theorem set_add_inline_list_not_emitted :
    (import_set (rnd_of []) (package_one (bytes "foo") (bytes "1.0"))).map package_properties =
      some [0 ||| RAZOR_IMMEDIATE] ∧
    set_add_of (rnd_of []) (rnd_of []) (package_one (bytes "foo") (bytes "1.0"))
      calls_bar_provides_x [0] = none ∧
    (set_add_of (rnd_of []) (rnd_of []) calls_foo_requires_x calls_bar_provides_x [0]).map
        (fun s => s.property_pool.take 4) =
      some [0, 2 ||| RAZOR_IMMEDIATE, 1, 2 ||| RAZOR_IMMEDIATE] ∧
    (set_add_of (rnd_of []) (rnd_of []) calls_foo_requires_x calls_bar_provides_x [0]).map
        package_properties = some [0, 2] := by
  decide!

/-- C32: foo 1.0 of the first set and bar 1.0 of the second both require
libc = 2.0.  In the set that `razor_set_add` returns the property libc has the
`packages` field 4, the package pool is empty, and decoding the field the way
readers do, as an offset into the package pool, reads outside the pool; the
list 0, 1 of the two packages is at offset 4 of the property pool. -/
theorem set_add_packages_list_in_property_pool :
    (set_add_of (rnd_of []) (rnd_of []) (package_two (bytes "foo") (bytes "1.0") (bytes "libc"))
        (package_two (bytes "bar") (bytes "1.0") (bytes "libc")) [0]).map
        (fun s => (property_keys s).map (fun k => k.1)) =
      some [bytes "bar", bytes "foo", bytes "libc"] ∧
    (set_add_of (rnd_of []) (rnd_of []) (package_two (bytes "foo") (bytes "1.0") (bytes "libc"))
        (package_two (bytes "bar") (bytes "1.0") (bytes "libc")) [0]).map
        (fun s => s.packages.map (fun p => reference_list s.property_pool p.properties)) =
      some [some [0, 2], some [1, 2]] ∧
    (set_add_of (rnd_of []) (rnd_of []) (package_two (bytes "foo") (bytes "1.0") (bytes "libc"))
        (package_two (bytes "bar") (bytes "1.0") (bytes "libc")) [0]).map property_packages =
      some [0 ||| RAZOR_IMMEDIATE, 1 ||| RAZOR_IMMEDIATE, 4] ∧
    (set_add_of (rnd_of []) (rnd_of []) (package_two (bytes "foo") (bytes "1.0") (bytes "libc"))
        (package_two (bytes "bar") (bytes "1.0") (bytes "libc")) [0]).map
        (fun s => s.package_pool) = some [] ∧
    (set_add_of (rnd_of []) (rnd_of []) (package_two (bytes "foo") (bytes "1.0") (bytes "libc"))
        (package_two (bytes "bar") (bytes "1.0") (bytes "libc")) [0]).map
        (fun s => s.properties.map (fun p => reference_list s.package_pool p.packages)) =
      some [some [0], some [1], none] ∧
    (set_add_of (rnd_of []) (rnd_of []) (package_two (bytes "foo") (bytes "1.0") (bytes "libc"))
        (package_two (bytes "bar") (bytes "1.0") (bytes "libc")) [0]).map
        (fun s => s.property_pool.drop 4) = some [0, 1 ||| RAZOR_IMMEDIATE] := by
  decide!

/-- C33: foo 1.0 requires bar = 2.0, which `razor_set_validate` reports as
property 0.  With the upstream packages aaa 1.0 and bar 2.0, each providing
itself, `razor_set_satisfy` appends nothing, although bar = 2.0 is provided by
upstream package 1: the seek stops at the provision of aaa.  With the upstream
package zed 1.0, which requires bar = 2.0 and provides only itself, it appends
package 0. -/
theorem satisfy_stops_at_other_provides :
    (import_set (rnd_of []) (package_two (bytes "foo") (bytes "1.0") (bytes "bar"))).map
        razor_set_validate = some [0] ∧
    (import_set (rnd_of []) calls_aaa_bar).map (fun s => (property_keys s).map (fun k => k.1)) =
      some [bytes "aaa", bytes "bar"] ∧
    (import_set (rnd_of []) calls_aaa_bar).map (fun s => (property_keys s).map (fun k => k.2.1)) =
      some [1, 1] ∧
    (import_set (rnd_of []) calls_aaa_bar).map
        (fun s => s.properties.map (fun p => reference_list s.package_pool p.packages)) =
      some [some [0], some [1]] ∧
    satisfy_of (package_two (bytes "foo") (bytes "1.0") (bytes "bar")) calls_aaa_bar = some [] ∧
    satisfy_of (package_two (bytes "foo") (bytes "1.0") (bytes "bar"))
      (package_one (bytes "bar") (bytes "2.0")) = some [0] ∧
    (import_set (rnd_of []) (package_two (bytes "zed") (bytes "1.0") (bytes "bar"))).map
        (fun s => (property_keys s).map (fun k => k.2.1)) = some [0, 1] ∧
    satisfy_of (package_two (bytes "foo") (bytes "1.0") (bytes "bar"))
      (package_two (bytes "zed") (bytes "1.0") (bytes "bar")) = some [0] := by
  decide!

theorem array_add_grow_spec :
    ∀ (fuel alloc need : Nat), 0 < alloc → need ≤ alloc * 2 ^ fuel →
      ∃ k, array_add_grow fuel alloc need = alloc * 2 ^ k ∧ need ≤ alloc * 2 ^ k ∧
        ∀ j, need ≤ alloc * 2 ^ j → k ≤ j := by
  intro fuel
  induction fuel with
  | zero =>
    intro alloc need _ h
    exact ⟨0, by simp [array_add_grow], by simpa using h, fun j _ => Nat.zero_le j⟩
  | succ fuel ih =>
    intro alloc need ha h
    unfold array_add_grow
    by_cases hlt : alloc < need
    · rw [if_pos hlt]
      obtain ⟨k, e, hk, hmin⟩ := ih (alloc * 2) need (by omega)
        (by rw [Nat.pow_succ] at h; rw [Nat.mul_assoc, Nat.mul_comm 2]; exact h)
      refine ⟨k + 1, ?_, ?_, ?_⟩
      · rw [e, Nat.pow_succ, Nat.mul_assoc, Nat.mul_comm 2]
      · rw [Nat.pow_succ, Nat.mul_comm _ 2, ← Nat.mul_assoc]; exact hk
      · intro j hj
        cases j with
        | zero => simp at hj; omega
        | succ j =>
          have := hmin j (by rw [Nat.pow_succ, Nat.mul_comm _ 2, ← Nat.mul_assoc] at hj; exact hj)
          omega
    · rw [if_neg hlt]
      exact ⟨0, by simp, by simp; omega, fun j _ => Nat.zero_le j⟩

theorem kind_word_fields (n k : Nat) (hn : n < 2 ^ 24) (hk : k < 4) :
    (n ||| (k <<< 30)) &&& RAZOR_ENTRY_MASK = n ∧ (n ||| (k <<< 30)) >>> 30 = k ∧
      n ||| (k <<< 30) < 2 ^ 32 := by
  have e1 : RAZOR_ENTRY_MASK = 2 ^ 24 - 1 := by decide
  have hn30 : n < 2 ^ 30 := Nat.lt_of_lt_of_le hn (by decide)
  have e : n ||| (k <<< 30) = k * 2 ^ 30 + n := by
    rw [Nat.or_comm, Nat.shiftLeft_eq, Nat.mul_comm k, ← Nat.mul_add_lt_is_or hn30]
  rw [e, e1, Nat.and_pow_two_sub_one_eq_mod, Nat.shiftRight_eq_div_pow]
  refine ⟨?_, ?_, ?_⟩ <;> omega

/-- C35: for a kind `k` below 4, when the pool offset `n` that the tokenizer
returns for the name is below 2^24, `razor_importer_add_property` appends a
property record whose name word `w` is `n | (k << 30)`, fits in 32 bits and
satisfies `(w & 0x00FFFFFF) = n` and `(w >> 30) = k`. -/
theorem add_property_name_word (importer : razor_importer) (name version : List Nat) (k : Nat)
    (hk : k < 4) (hn : (razor_importer_tokenize importer (some name)).2 < 2 ^ 24) :
    ∃ p : razor_property,
      (razor_importer_add_property importer name version k).set.properties
        = importer.set.properties ++ [p] ∧
      p.name = (razor_importer_tokenize importer (some name)).2 ||| (k <<< 30) ∧
      p.name < 2 ^ 32 ∧
      (p.name % 2 ^ 32) &&& 0x00FFFFFF = (razor_importer_tokenize importer (some name)).2 ∧
      (p.name % 2 ^ 32) >>> 30 = k := by
  obtain ⟨h1, h2, h3⟩ := kind_word_fields _ k hn hk
  have hex : ∃ p : razor_property,
      (razor_importer_add_property importer name version k).set.properties
        = importer.set.properties ++ [p] ∧
      p.name = (razor_importer_tokenize importer (some name)).2 ||| (k <<< 30) :=
    ⟨_, rfl, rfl⟩
  obtain ⟨p, hp, hname⟩ := hex
  have e1 : RAZOR_ENTRY_MASK = 0x00FFFFFF := rfl
  refine ⟨p, hp, hname, hname ▸ h3, ?_, ?_⟩
  · rw [hname, Nat.mod_eq_of_lt h3, ← e1]; exact h1
  · rw [hname, Nat.mod_eq_of_lt h3]; exact h2

theorem add_property_name_word_witness :
    (3 : Nat) < 4 ∧ (razor_importer_tokenize razor_importer_new (some (bytes "foo"))).2 < 2 ^ 24 ∧
    ∃ p : razor_property,
      (razor_importer_add_property razor_importer_new (bytes "foo") (bytes "1.0") 3).set.properties
        = razor_importer_new.set.properties ++ [p] ∧
      p.name = (razor_importer_tokenize razor_importer_new (some (bytes "foo"))).2 ||| (3 <<< 30) ∧
      p.name < 2 ^ 32 ∧
      (p.name % 2 ^ 32) &&& 0x00FFFFFF
        = (razor_importer_tokenize razor_importer_new (some (bytes "foo"))).2 ∧
      (p.name % 2 ^ 32) >>> 30 = 3 :=
  ⟨by decide, by decide!,
    add_property_name_word razor_importer_new (bytes "foo") (bytes "1.0") 3 (by decide)
      (by decide!)⟩

theorem perm_of_map {α : Type} (sorted base : List α) (map : List Nat)
    (hlen : map.length = base.length)
    (h : sorted.map some = map.map (fun m => base[m]?))
    (hmem : ∀ i : Nat, i < base.length → i ∈ map) : sorted.Perm base := by
  have hperm := perm_range_of_mem map base.length hlen hmem
  have h1 : ((List.range base.length).map (fun m => base[m]?)).Perm (sorted.map some) := by
    rw [h]
    exact hperm.map _
  have h2 : (List.range base.length).map (fun m => base[m]?) = base.map some := by
    apply List.ext_getElem?
    intro i
    simp only [List.getElem?_map]
    by_cases hi : i < base.length
    · simp [List.getElem?_range hi, List.getElem?_eq_getElem hi]
    · have hi2 : base.length ≤ i := Nat.le_of_not_lt hi
      rw [List.getElem?_eq_none (by rw [List.length_range]; exact hi2),
        List.getElem?_eq_none hi2]
      rfl
  rw [h2] at h1
  have h3 := h1.filterMap id
  have e : ∀ l : List α, (l.map some).filterMap id = l := by
    intro l
    rw [List.filterMap_map]
    exact List.filterMap_some l
  rw [e, e] at h3
  exact h3.symm

theorem pairwise_of_sorted_range {α : Type} (le : α → α → Prop) (l : List α)
    (h : sorted_range le l 0 l.length) : l.Pairwise le := by
  rw [List.pairwise_iff_getElem]
  intro i j hi hj hij
  exact h i j _ _ (Nat.zero_le _) hij hj (List.getElem?_eq_getElem hi)
    (List.getElem?_eq_getElem hj)

/-- C36: for a non-empty array, a comparator whose order `compare x y ≤ 0` is
a total preorder (an element compares equal to itself, when `x` does not come
before `y` then `y` comes at most equal to `x`, and the order is transitive),
and any values of `random()`, `qsort_with_data` returns a map and leaves the
array a permutation of its input in which every element compares at most
equal to every later one; the map has the length of the array, holds every
index once, and `map[i]` is the index that the element now at `i` had in the
input. -/
theorem qsort_with_data_sorts {α : Type} (compare : α → α → Int)
    (hrefl : ∀ x, compare x x = 0)
    (htotal : ∀ x y, 0 ≤ compare x y → compare y x ≤ 0)
    (htrans : ∀ x y z, compare x y ≤ 0 → compare y z ≤ 0 → compare x z ≤ 0)
    (rnd : Nat → Nat) (calls : Nat) (base : List α) (hne : base ≠ []) :
    ∃ map : List Nat,
      (qsort_with_data compare rnd calls base).2.1 = some map ∧
      ((qsort_with_data compare rnd calls base).1).Perm base ∧
      ((qsort_with_data compare rnd calls base).1).Pairwise (fun x y => compare x y ≤ 0) ∧
      map.length = base.length ∧
      map.Perm (List.range base.length) ∧
      ∀ i : Nat, i < base.length →
        ∃ m : Nat, map[i]? = some m ∧ m < base.length ∧
          (qsort_with_data compare rnd calls base).1[i]? = base[m]? := by
  have hlen0 : base.length ≠ 0 := fun h => hne (List.length_eq_zero.mp h)
  obtain ⟨map, hmap, hlen, hget, hmem⟩ := qsort_with_data_map compare rnd calls base hlen0
  have hspec := qsort_with_data_spec compare (fun x y => compare x y ≤ 0) hrefl
    (fun x y h => le_of_lt h)
    (fun x y h => ⟨le_of_eq h, htotal x y (le_of_eq h.symm)⟩)
    (fun x y h => htotal x y (le_of_lt h))
    htrans rnd calls base
  have hsl : (qsort_with_data compare rnd calls base).1.length = base.length := hspec.1.1
  refine ⟨map, hmap, perm_of_map _ base map hlen hget hmem, ?_, hlen,
    (perm_range_of_mem map base.length hlen hmem).symm, ?_⟩
  · apply pairwise_of_sorted_range
    rw [hsl]
    exact hspec.2
  · intro i hi
    have hi2 : i < map.length := by rw [hlen]; exact hi
    refine ⟨map[i], List.getElem?_eq_getElem hi2,
      (map_injective map base.length hlen hmem).1 _ (List.getElem_mem hi2), ?_⟩
    exact sorted_get_of_map _ base map hget i _ (List.getElem?_eq_getElem hi2)

theorem qsort_with_data_sorts_witness :
    ([3, 1, 2] : List Nat) ≠ [] ∧
    ∃ map : List Nat,
      (qsort_with_data (fun a b : Nat => (a : Int) - (b : Int)) (rnd_of [1]) 0 [3, 1, 2]).2.1
        = some map ∧
      ((qsort_with_data (fun a b : Nat => (a : Int) - (b : Int)) (rnd_of [1]) 0 [3, 1, 2]).1).Perm
        [3, 1, 2] ∧
      ((qsort_with_data (fun a b : Nat => (a : Int) - (b : Int)) (rnd_of [1]) 0
        [3, 1, 2]).1).Pairwise (fun x y : Nat => (x : Int) - (y : Int) ≤ 0) ∧
      map.length = [3, 1, 2].length ∧
      map.Perm (List.range [3, 1, 2].length) ∧
      ∀ i : Nat, i < [3, 1, 2].length →
        ∃ m : Nat, map[i]? = some m ∧ m < [3, 1, 2].length ∧
          (qsort_with_data (fun a b : Nat => (a : Int) - (b : Int)) (rnd_of [1]) 0
            [3, 1, 2]).1[i]? = [3, 1, 2][m]? :=
  ⟨by decide,
    qsort_with_data_sorts (fun a b : Nat => (a : Int) - (b : Int))
      (fun x => by simp) (fun x y => by simp only []; omega)
      (fun x y z h1 h2 => by simp only [] at h1 h2 ⊢; omega)
      (rnd_of [1]) 0 [3, 1, 2] (by decide)⟩

/-! ## Reordered imports, and the growth of a buffer in int arithmetic -/

/-- C21: the packages foo 1.10, foo 1.2 and foo 1.9, the one with version
1.10 providing itself, are imported in this order and in the order 1.2, 1.9,
1.10, with `random()` returning 0 in the sorts.  The two sets hold the same
three packages, the first in the array order 1.10, 1.2, 1.9 and the second in
the order 1.2, 1.9, 1.10, and `razor_set_diff` of the first and the second
makes four calls, while it makes none on the first and itself.  With any
other values of `random()` in the two sorts of the packages it makes at least
two calls. -/
theorem diff_same_packages_four_calls :
    (import_set (rnd_of []) calls_foo_versions).map
        (fun s => (package_keys s).map (fun k => k.1)) =
      some [bytes "foo", bytes "foo", bytes "foo"] ∧
    (import_set (rnd_of []) calls_foo_versions).map
        (fun s => (package_keys s).map (fun k => k.2)) =
      some [bytes "1.10", bytes "1.2", bytes "1.9"] ∧
    (import_set (rnd_of []) calls_foo_versions_ascending).map
        (fun s => (package_keys s).map (fun k => k.1)) =
      some [bytes "foo", bytes "foo", bytes "foo"] ∧
    (import_set (rnd_of []) calls_foo_versions_ascending).map
        (fun s => (package_keys s).map (fun k => k.2)) =
      some [bytes "1.2", bytes "1.9", bytes "1.10"] ∧
    set_diff_of (rnd_of []) (rnd_of []) calls_foo_versions calls_foo_versions_ascending
      = some { past_end := false, calls := [
          { name := bytes "foo", old_version := none, new_version := some (bytes "1.2") },
          { name := bytes "foo", old_version := none, new_version := some (bytes "1.9") },
          { name := bytes "foo", old_version := some (bytes "1.2"), new_version := none },
          { name := bytes "foo", old_version := some (bytes "1.9"), new_version := none }] } ∧
    set_diff_of (rnd_of []) (rnd_of []) calls_foo_versions calls_foo_versions
      = some { past_end := false, calls := [] } ∧
    ∀ a b c d : Fin 3,
      (set_diff_of (rnd_of [a.val, b.val]) (rnd_of [c.val, d.val]) calls_foo_versions
        calls_foo_versions_ascending).map (fun r => decide (2 ≤ r.calls.length)) = some true := by
  decide!

theorem to_int_of_range (x : Int) (h0 : 0 ≤ x) (h : x < 2 ^ 31) : to_int x = x := by
  unfold to_int
  omega

theorem array_add_loop_spec :
    ∀ (fuel : Nat) (alloc need : Int), 0 < alloc → alloc < 2 ^ 31 → need ≤ 2 ^ 30 →
      need ≤ alloc * 2 ^ fuel →
      ∃ k : Nat, array_add_loop (fuel + 1) alloc need = some (alloc * 2 ^ k) ∧
        need ≤ alloc * 2 ^ k ∧ (∀ j : Nat, need ≤ alloc * 2 ^ j → k ≤ j) ∧
        alloc * 2 ^ k < 2 ^ 31 := by
  intro fuel
  induction fuel with
  | zero =>
    intro alloc need _ h31 _ h
    have h' : ¬ alloc < need := by simpa using h
    exact ⟨0, by simp [array_add_loop, h'], by simpa using h, fun j _ => Nat.zero_le j,
      by simpa using h31⟩
  | succ fuel ih =>
    intro alloc need ha h31 hneed h
    by_cases hlt : alloc < need
    · have hd : to_int (alloc * 2) = alloc * 2 := to_int_of_range _ (by omega) (by omega)
      obtain ⟨k, e, hk, hmin, hb⟩ := ih (alloc * 2) need (by omega) (by omega) hneed
        (by rw [pow_succ] at h; linarith)
      refine ⟨k + 1, ?_, ?_, ?_, ?_⟩
      · rw [array_add_loop, if_pos hlt, hd, e, pow_succ]
        congr 1
        ring
      · rw [pow_succ]; linarith
      · intro j hj
        cases j with
        | zero => simp at hj; omega
        | succ j =>
          have := hmin j (by rw [pow_succ] at hj; linarith)
          omega
      · rw [pow_succ]; linarith
    · refine ⟨0, ?_, ?_, fun j _ => Nat.zero_le j, ?_⟩
      · rw [array_add_loop, if_neg hlt]; simp
      · simp; omega
      · simpa using h31

/-- Within the range of `int` the loop over the natural numbers gives the
value of the `int` loop. -/
theorem array_add_loop_grow (alloc need : Nat) (ha : 0 < alloc) (h31 : alloc < 2 ^ 31)
    (hneed : need ≤ 2 ^ 30) :
    array_add_loop 33 (alloc : Int) (need : Int)
      = some ((array_add_grow need alloc need : Nat) : Int) := by
  have hfuel : need ≤ alloc * 2 ^ need := by
    have h1 : need < 2 ^ need := Nat.lt_two_pow _
    have h2 : 2 ^ need ≤ alloc * 2 ^ need := Nat.le_mul_of_pos_left _ ha
    omega
  obtain ⟨k1, e1, hk1, hmin1⟩ := array_add_grow_spec need alloc need ha hfuel
  have hfuel2 : (need : Int) ≤ (alloc : Int) * 2 ^ 32 := by
    have : (1 : Int) ≤ (alloc : Int) := by exact_mod_cast ha
    have : (need : Int) ≤ 2 ^ 30 := by exact_mod_cast hneed
    nlinarith
  obtain ⟨k2, e2, hk2, hmin2, _⟩ := array_add_loop_spec 32 (alloc : Int) (need : Int)
    (by exact_mod_cast ha) (by exact_mod_cast h31) (by exact_mod_cast hneed) hfuel2
  have c1 : (need : Int) ≤ (alloc : Int) * 2 ^ k1 := by exact_mod_cast hk1
  have c2 : need ≤ alloc * 2 ^ k2 := by exact_mod_cast hk2
  have hk : k1 = k2 := Nat.le_antisymm (hmin1 k2 c2) (hmin2 k1 c1)
  rw [e2, e1, hk]
  push_cast
  rfl

/-- The array that `array_init` leaves is in a state of `array_ok`. -/
theorem array_init_ok : array_ok array_init :=
  ⟨Or.inl rfl, by decide, by decide, rfl⟩

/-- Past the range of `int`: with size 16, capacity 16 and 2147483640 more
bytes the sum wraps to a negative number, so the capacity stays 16 and the
size becomes negative; with 2^30 more bytes the doubling wraps to 0 and the
loop does not end. -/
theorem array_add_size_wraps :
    array_add ⟨List.replicate 16 0, 16, 16⟩ 2147483640 (some (fun _ => 0))
      = some (⟨List.replicate 16 0, -2147483640, 16⟩, some 16) ∧
    array_add ⟨List.replicate 16 0, 16, 16⟩ 1073741824 (some (fun _ => 0)) = none := by
  decide

/-- The value that the merger's `add_property` ors into the name word for the
kinds 0 to 3: for 2 and 3 the shift wraps in `int` and the conversion to
`unsigned long` sets the upper 32 bits. -/
theorem add_property_kind_words :
    int_to_ulong (to_int (to_int 0 * 2 ^ 30)) = 0 ∧
    int_to_ulong (to_int (to_int 1 * 2 ^ 30)) = 0x40000000 ∧
    int_to_ulong (to_int (to_int 2 * 2 ^ 30)) = 0xffffffff80000000 ∧
    int_to_ulong (to_int (to_int 3 * 2 ^ 30)) = 0xffffffffc0000000 := by
  decide

/-! ## Loops of array_add that do not end -/

theorem to_int_double (x : Int) : to_int (to_int x * 2) = to_int (x * 2) := by
  unfold to_int
  omega

theorem array_add_loop_none_iff (need : Int) :
    ∀ (fuel : Nat) (alloc : Int),
      array_add_loop fuel alloc need = none ↔
        ∀ i : Nat, i < fuel → (fun a => to_int (a * 2))^[i] alloc < need := by
  intro fuel
  induction fuel with
  | zero =>
    intro alloc
    simp [array_add_loop]
  | succ fuel ih =>
    intro alloc
    rw [array_add_loop]
    by_cases hlt : alloc < need
    · rw [if_pos hlt, ih]
      constructor
      · intro h i hi
        cases i with
        | zero => simpa using hlt
        | succ i =>
          rw [Function.iterate_succ_apply]
          exact h i (by omega)
      · intro h i hi
        have := h (i + 1) (by omega)
        rw [Function.iterate_succ_apply] at this
        exact this
    · rw [if_neg hlt]
      constructor
      · intro h; cases h
      · intro h
        exact absurd (by simpa using h 0 (by omega)) hlt

theorem iterate_double (alloc : Int) :
    ∀ k : Nat, (fun a => to_int (a * 2))^[k + 1] alloc = to_int (alloc * 2 ^ (k + 1)) := by
  intro k
  induction k with
  | zero => simp
  | succ k ih =>
    rw [Function.iterate_succ_apply', ih]
    show to_int (to_int (alloc * 2 ^ (k + 1)) * 2) = to_int (alloc * 2 ^ (k + 1 + 1))
    rw [to_int_double, pow_succ (2 : Int) (k + 1), mul_assoc]

/-- A loop of `array_add` that has not ended within 33 rounds does not end
within any number of rounds: after 32 doublings `alloc` is 0. -/
theorem array_add_loop_none (alloc need : Int) (h : array_add_loop 33 alloc need = none) :
    ∀ fuel : Nat, array_add_loop fuel alloc need = none := by
  intro fuel
  rw [array_add_loop_none_iff] at h ⊢
  have h32 : (fun a => to_int (a * 2))^[32] alloc = 0 := by
    rw [iterate_double alloc 31]
    unfold to_int
    omega
  have hzero : ∀ j : Nat, (fun a => to_int (a * 2))^[32 + j] alloc = 0 := by
    intro j
    induction j with
    | zero => exact h32
    | succ j ih =>
      rw [← Nat.add_assoc, Function.iterate_succ_apply', ih]
      decide
  have hneed : (0 : Int) < need := by
    have := h 32 (by omega)
    rw [h32] at this
    exact this
  intro i _
  by_cases hi : i < 33
  · exact h i hi
  · obtain ⟨j, rfl⟩ : ∃ j, i = 32 + j := ⟨i - 32, by omega⟩
    rw [hzero j]
    exact hneed

end Razor
